import Mathlib

/-!
# sysvkit: the service supervisor

A shallow embedding of the process table (`src/common/procwatch.c`) and of the
supervisor (`src/sysvrun/monitor.c`), with the properties of the specification
stated and proved over it.

Conventions of the embedding.

* `pid_t` and `int` values are `Int`; the `uint32_t` fields of a kernel event
  are `Nat` and are converted with `as_pid` where the C code converts them.
* A `struct process *` is represented by the pid of the record it points to,
  which is also the key of the record in the hash table `processes`.  The
  lists `children` and `ready` therefore hold pids.  `proc_init` is the record
  with pid 1 and `proc_self` the record with pid `Table.self`.
* The hash table is the list of its records.  `hash_table_put` is only called
  for a key that is absent, so keys stay unique.
* An operation returns `none` when the C code has no defined return: it reads
  or writes a record that has been freed (a pid that has no record), it calls
  `fatal`, or a loop does not terminate.
-/

namespace Sysvkit

/-! ## Process table (`procwatch.c`) -/

/-- Values of `errno` set by the process table. -/
inductive Errno
  | ECHILD
  | EAGAIN
  | ESRCH
  | EINVAL
  deriving DecidableEq, Repr

/-- A record of the table: `struct process` of `procwatch.h`. -/
structure process where
  pid : Int
  ppid : Int
  sid : Int
  children : List Int
  wstatus : Int
  deriving DecidableEq, Repr

/-- The static state of `procwatch.c`: the hash table `processes`, the list
`ready`, and the pid of `proc_self`.  The lists of the C code, `ready` and the
children of a record, hold pointers to records, and `proc_init` is one.  Here
a pointer is the pid of the record it points to, and following it is a lookup
in the table: a pid without a record stands for a pointer to a record that has
left the table, and what the C code reads through it is not defined (`none`).
The pid stands for the pointer as long as no list holds an entry for a record
that has left the table at the time when a new record gets its pid;
`table_op_safe` is a condition on sequences of operations under which no list
ever holds such an entry. -/
structure Table where
  processes : List process
  ready : List Int
  self : Int
  deriving DecidableEq, Repr

/-- Result of a call that returns a pointer or a boolean: success, or failure
with the value left in `errno`. -/
inductive Outcome
  | ok
  | fail (e : Errno)
  deriving DecidableEq, Repr

/-- The lookup `hash_table_get(processes, as_unsigned(pid))`. -/
def hash_table_get (ps : List process) (pid : Int) : Option process :=
  ps.find? (fun p => decide (p.pid = pid))

/-- The removal `hash_table_pop(processes, as_unsigned(pid))`. -/
def hash_table_pop (ps : List process) (pid : Int) : List process :=
  ps.filter (fun p => decide (p.pid ≠ pid))

/-- A write through a record pointer: `f` is applied to the record of `pid`. -/
def update (ps : List process) (pid : Int) (f : process → process) : List process :=
  ps.map (fun p => if p.pid = pid then f p else p)

/-- Looks up a process in the process table (`process_get`). -/
def process_get (t : Table) (pid : Int) : Option process :=
  hash_table_get t.processes pid

/-- One iteration of the loop of `process_reparent_children`: the first child
`c` is popped from the children of `parent`, which leaves `rest`; its `ppid`
is set to 1; it is appended to the children of init. -/
def process_reparent_one (t : Table) (parent c : Int) (rest : List Int) : Option Table :=
  let ps1 := update t.processes parent (fun r => { r with children := rest })
  match hash_table_get ps1 c with
  | none => none
  | some _ =>
    let ps2 := update ps1 c (fun r => { r with ppid := 1 })
    match hash_table_get ps2 1 with
    | none => none
    | some _ =>
      some { t with processes := update ps2 1 (fun r => { r with children := r.children ++ [c] }) }

/-- The loop of `process_reparent_children`, with the number of iterations
bounded by `fuel`. -/
def process_reparent_loop : Nat → Table → Int → Option Table
  | 0, _, _ => none
  | fuel + 1, t, parent =>
    match process_get t parent with
    | none => none
    | some p =>
      match p.children with
      | [] => some t
      | c :: rest =>
        match process_reparent_one t parent c rest with
        | none => none
        | some t1 => process_reparent_loop fuel t1 parent

/-- Reparents the children of a given process to init
(`process_reparent_children`).  The loop runs once per child and once more to
see the empty list; when `parent` is init itself every popped child is
appended to the same list, the loop never ends, and the result is `none`. -/
def process_reparent_children (t : Table) (parent : Int) : Option Table :=
  match process_get t parent with
  | none => none
  | some p => process_reparent_loop (p.children.length + 1) t parent

/-- Detaches a process from its parent (`process_unparent`). -/
def process_unparent (t : Table) (proc : process) : Table :=
  match process_get t proc.ppid with
  | none => t
  | some parent =>
    let ps1 := update t.processes parent.pid (fun r => { r with children := r.children.erase proc.pid })
    { t with processes := ps1 }

/-- Result of `process_collect`: the collected record and the new table, or
`NULL` with `errno`. -/
inductive collect_result
  | proc (p : process) (t : Table)
  | null (e : Errno)
  deriving DecidableEq, Repr

/-- Returns a process that has exited and removes it from the table
(`process_collect`).  The entry `p` popped from the ready list is the pointer
`proc`; its record is looked up where the C code reads a field of `proc`, and
again after `process_unparent`, which writes to it if the record is its own
parent. -/
def process_collect (t : Table) : Option collect_result :=
  if t.processes.length = 2 then
    some (.null .ECHILD)
  else
    match t.ready with
    | [] => some (.null .EAGAIN)
    | p :: rest =>
      match process_get t p with
      | none => none
      | some proc =>
        let t1 := process_unparent { t with ready := rest } proc
        match process_get t1 p with
        | none => none
        | some proc1 =>
          some (.proc proc1 { t1 with processes := hash_table_pop t1.processes p })

/-- The second half of the update branch of `process_insert`: the session
change of a record that is already in the table. -/
def process_insert_sid (t : Table) (proc : process) (sid : Int) : Outcome × Table :=
  if sid ≠ 0 ∧ sid ≠ proc.sid then
    if sid ≠ proc.pid then
      (.fail .EINVAL, t)
    else
      (.ok, { t with processes := update t.processes proc.pid (fun r => { r with sid := sid }) })
  else
    (.ok, t)

/-- The tail of `process_insert`: allocates the record, appends it to the
children of its parent if it has one, and puts it in the hash table. -/
def process_create (t : Table) (pid ppid sid : Int) (parent : Option process) : Table :=
  let proc : process := ⟨pid, ppid, sid, [], -1⟩
  match parent with
  | some par =>
    let ps1 := update t.processes par.pid (fun r => { r with children := r.children ++ [pid] })
    { t with processes := ps1 ++ [proc] }
  | none => { t with processes := t.processes ++ [proc] }

/-- Inserts a process into the process table, or updates it if it is already
there (`process_insert`).  The table is returned in both cases, since a failed
call may already have written to it. -/
def process_insert (t : Table) (pid ppid sid : Int) : Option (Outcome × Table) :=
  match process_get t pid with
  | some proc =>
    if ppid ≠ 0 ∧ ppid ≠ proc.ppid then
      if ppid ≠ 1 then
        some (.fail .EINVAL, t)
      else
        let t1 := process_unparent t proc
        match process_get t1 1 with
        | none => none
        | some _ =>
          let ps2 := update t1.processes 1 (fun r => { r with children := r.children ++ [pid] })
          let ps3 := update ps2 pid (fun r => { r with ppid := 1 })
          some (process_insert_sid { t1 with processes := ps3 } proc sid)
    else
      some (process_insert_sid t proc sid)
  | none =>
    if ppid ≠ pid then
      match process_get t ppid with
      | none => some (.fail .ESRCH, t)
      | some parent =>
        if sid = 0 then
          some (.ok, process_create t pid ppid parent.sid (some parent))
        else if sid ≠ parent.sid then
          some (.fail .EINVAL, t)
        else
          some (.ok, process_create t pid ppid sid (some parent))
    else
      some (.ok, process_create t pid ppid sid none)

/-- The function `process_drop_recursive`, with the recursion depth and the
number of loop iterations bounded by `fuel`.  The first component is the
function itself, applied to the record `proc`; the second is its `while` loop,
which pops the children of `proc` one by one and recurses into each.  The
call `list_get(ready, proc)` looks for the pointer `proc` and its first entry
is removed: here the first entry with the pid of `proc`. -/
def process_drop_rec : Nat → (Table → Int → Option Table) × (Table → Int → Option Table)
  | 0 => (fun _ _ => none, fun _ _ => none)
  | fuel + 1 =>
    let prev := process_drop_rec fuel
    (fun t proc =>
      match process_get t proc with
      | none => none
      | some _ =>
        let t1 := { t with processes := update t.processes proc (fun r => { r with ppid := 0 }) }
        match prev.2 t1 proc with
        | none => none
        | some t2 =>
          some { t2 with processes := hash_table_pop t2.processes proc,
                         ready := t2.ready.erase proc },
     fun t proc =>
      match process_get t proc with
      | none => none
      | some p =>
        match p.children with
        | [] => some t
        | c :: rest =>
          let t1 := { t with processes := update t.processes proc (fun r => { r with children := rest }) }
          match prev.1 t1 c with
          | none => none
          | some t2 => prev.2 t2 proc)

/-- Recursively drops a process and its descendants from the process table
(`process_drop_recursive`). -/
def process_drop_recursive (fuel : Nat) (t : Table) (proc : Int) : Option Table :=
  (process_drop_rec fuel).1 t proc

/-- The number of entries of all children lists of the table. -/
def children_total (t : Table) : Nat :=
  (t.processes.map (fun r => r.children.length)).sum

/-- Stops tracking a process and all its descendants (`process_drop`).  Every
call of `process_drop_recursive` and every iteration of its loop pops a
children entry or ends a call, which bounds the fuel that is needed. -/
def process_drop (t : Table) (pid : Int) : Option (Bool × Table) :=
  match process_get t pid with
  | none => some (false, t)
  | some proc =>
    let t1 := process_unparent t proc
    match process_drop_recursive (2 * children_total t1 + 2) t1 pid with
    | none => none
    | some t2 => some (true, t2)

/-- Removes a process from the process table and frees it (`process_remove`).
`fatal` ends the program, so removing init or self has no return.  The
children are read before the record is unlinked, as the model keeps the fields
of a record in the table; the C code unlinks first and frees last. -/
def process_remove (t : Table) (pid : Int) : Option (Outcome × Table) :=
  match process_get t pid with
  | none => some (.fail .ESRCH, t)
  | some proc =>
    if proc.pid = 1 then none
    else if proc.pid = t.self then none
    else
      match process_reparent_children t pid with
      | none => none
      | some t1 =>
        some (.ok, { t1 with processes := hash_table_pop t1.processes pid,
                             ready := t1.ready.erase pid })

/-- Places an exited process on the ready list (`process_exit`). -/
def process_exit (t : Table) (pid : Int) (wstatus : Int) : Option (Bool × Table) :=
  match process_get t pid with
  | none => some (false, t)
  | some _ =>
    let t1 := { t with processes := update t.processes pid (fun r => { r with wstatus := wstatus }) }
    match process_reparent_children t1 pid with
    | none => none
    | some t2 => some (true, { t2 with ready := t2.ready ++ [pid] })

/-- Initializes the process table (`processes_init`) for a supervisor with the
given pid and session id. -/
def processes_init (pid sid : Int) : Option Table :=
  match process_insert ⟨[], [], pid⟩ 1 1 1 with
  | none => none
  | some (_, t1) =>
    match process_insert t1 pid pid sid with
    | none => none
    | some (_, t2) => some t2

/-- The conversion of a `uint32_t` event field to `pid_t` or `int`. -/
def as_pid (n : Nat) : Int :=
  if n % 2 ^ 32 < 2 ^ 31 then (n % 2 ^ 32 : Nat) else ((n % 2 ^ 32 : Nat) : Int) - 2 ^ 32

/-- A thread and process id pair of an event: `cn_procid` of `cn_proc.h`. -/
structure cn_procid where
  tid : Nat
  tgid : Nat
  deriving DecidableEq, Repr

/-- A decoded kernel event: `struct proc_event` of `cn_proc.h`, one
constructor per value of `what`, with the fields that `procwatch_ingest`
reads.  `actor` is the first `cn_procid` of the union. -/
inductive proc_event
  | none (err : Nat)
  | fork (parent child : cn_procid)
  | exec (process : cn_procid)
  | uid (process : cn_procid)
  | gid (process : cn_procid)
  | sid (process : cn_procid)
  | comm (process : cn_procid)
  | coredump (process : cn_procid)
  | exit (process : cn_procid) (code : Nat) (signal : Nat)
  | other (what : Nat) (actor : cn_procid)
  deriving DecidableEq, Repr

/-- The events passed to the callback: `procwatch_event`. -/
inductive procwatch_event
  | PROCWATCH_EVENT_EXEC
  | PROCWATCH_EVENT_SETSID
  deriving DecidableEq, Repr

/-- The answers of the callback: `procwatch_action`. -/
inductive procwatch_action
  | PROCWATCH_ACTION_DEFAULT
  | PROCWATCH_ACTION_DROP
  deriving DecidableEq, Repr

/-- The signal number `SIGCHLD` on Linux. -/
def SIGCHLD : Nat := 17

/-- The union member `ev.actor.tgid` of an event other than an ack. -/
def proc_event.actor_tgid : proc_event → Nat
  | .none _ => 0
  | .fork parent _ => parent.tgid
  | .exec p => p.tgid
  | .uid p => p.tgid
  | .gid p => p.tgid
  | .sid p => p.tgid
  | .comm p => p.tgid
  | .coredump p => p.tgid
  | .exit p _ _ => p.tgid
  | .other _ a => a.tgid

/-- The reaction to the answer of the callback for the record `proc`. -/
def procwatch_apply (t : Table) (proc : process) : procwatch_action → Option Table
  | .PROCWATCH_ACTION_DEFAULT => some t
  | .PROCWATCH_ACTION_DROP =>
    match process_drop t proc.pid with
    | none => none
    | some (_, t1) => some t1

/-- Processes a single process event that has been received
(`procwatch_ingest` after `cn_proc_receive_event`).  `callback` is the
function set with `procwatch_set_callback`, or the constant default. -/
def procwatch_ingest (t : Table) (ev : proc_event)
    (callback : procwatch_event → process → procwatch_action) : Option Table :=
  match ev with
  | .none _ => some t
  | _ =>
    match process_get t (as_pid ev.actor_tgid) with
    | none => some t
    | some _ =>
      match ev with
      | .fork parent child =>
        if child.tgid ≠ child.tid then some t
        else if parent.tgid = 1 then some t
        else
          match process_insert t (as_pid child.tgid) (as_pid parent.tgid) 0 with
          | none => none
          | some (_, t1) => some t1
      | .exec p =>
        match process_get t (as_pid p.tgid) with
        | none => some t
        | some proc => procwatch_apply t proc (callback .PROCWATCH_EVENT_EXEC proc)
      | .sid p =>
        match process_insert t (as_pid p.tgid) 0 (as_pid p.tgid) with
        | none => none
        | some (.fail _, _) => none
        | some (.ok, t1) =>
          match process_get t1 (as_pid p.tgid) with
          | none => none
          | some proc => procwatch_apply t1 proc (callback .PROCWATCH_EVENT_SETSID proc)
      | .exit p code signal =>
        if signal ≠ SIGCHLD then some t
        else
          match process_exit t (as_pid p.tgid) (as_pid code) with
          | none => none
          | some (_, t1) => some t1
      | _ => some t

/-! ## Sequences of table operations -/

/-- An operation on the process table: the ingestion of an event, with the
answer that the callback gives if it is called, or one of the calls of the
interface. -/
inductive table_op
  | ingest (ev : proc_event) (action : procwatch_action)
  | insert (pid ppid sid : Int)
  | remove (pid : Int)
  | drop (pid : Int)
  | collect
  deriving DecidableEq, Repr

/-- The table after one operation, when the operation returns. -/
def table_step (t : Table) : table_op → Option Table
  | .ingest ev action => procwatch_ingest t ev (fun _ _ => action)
  | .insert pid ppid sid =>
    match process_insert t pid ppid sid with
    | none => none
    | some (_, t1) => some t1
  | .remove pid =>
    match process_remove t pid with
    | none => none
    | some (_, t1) => some t1
  | .drop pid =>
    match process_drop t pid with
    | none => none
    | some (_, t1) => some t1
  | .collect =>
    match process_collect t with
    | none => none
    | some (.proc _ t1) => some t1
    | some (.null _) => some t

/-- The table after a sequence of operations, when all of them return. -/
def table_run (t : Table) : List table_op → Option Table
  | [] => some t
  | op :: ops =>
    match table_step t op with
    | none => none
    | some t1 => table_run t1 ops

/-- A sequence of operations in which every operation satisfies the condition
`ok` in the table it is applied to. -/
def table_run_ok (ok : Table → table_op → Prop) (t : Table) : List table_op → Prop
  | [] => True
  | op :: ops =>
    ok t op ∧ ∀ t1, table_step t op = some t1 → table_run_ok ok t1 ops

/-- The condition on an operation that the parent links rely on: no fork
event and no call of `process_insert` names a parent that is on the ready
list, and no exit event names init. -/
def parent_is_live (t : Table) : table_op → Prop
  | .ingest (.fork parent _) _ => as_pid parent.tgid ∉ t.ready
  | .ingest (.exit p _ signal) _ => signal = SIGCHLD → as_pid p.tgid ≠ 1
  | .insert _ ppid _ => ppid ∉ t.ready
  | _ => True

/-- The pid and wait status of every record of the table, in order. -/
def status_map (ps : List process) : List (Int × Int) :=
  ps.map (fun r => (r.pid, r.wstatus))

/-- The pid and parent pid of every record of the table, in order. -/
def parent_map (ps : List process) : List (Int × Int) :=
  ps.map (fun r => (r.pid, r.ppid))

/-- Every record outside `doomed` that is not its own parent is listed in the
children of the record of its parent. -/
def linked (doomed : Int → Prop) (t : Table) : Prop :=
  ∀ r ∈ t.processes, ¬ doomed r.pid → r.ppid ≠ r.pid →
    ∃ par, process_get t r.ppid = some par ∧ r.pid ∈ par.children

/-- The invariant of the parent links: the keys of the table are unique,
every record that is not its own parent is listed in the children of the
record of its parent, no record has a parent on the ready list other than
itself, and init is not on the ready list. -/
def parent_inv (t : Table) : Prop :=
  (t.processes.map (fun r => r.pid)).Nodup
  ∧ linked (fun _ => False) t
  ∧ (∀ p ∈ t.ready, ∀ r ∈ t.processes, r.ppid = p → r.pid = p)
  ∧ (1 : Int) ∉ t.ready

/-! ## Supervisor configuration and state (`service.h`, `monitor.h`) -/

/-- The startup types: `enum servicetype`. -/
inductive servicetype
  | ST_SIMPLE
  | ST_EXEC
  | ST_FORKING
  | ST_ONESHOT
  | ST_DBUS
  | ST_NOTIFY
  | ST_IDLE
  deriving DecidableEq, Repr

/-- The kill modes: `enum killmode`. -/
inductive killmode
  | KM_CGROUP
  | KM_MIXED
  | KM_PROCESS
  | KM_NONE
  deriving DecidableEq, Repr

/-- The restart policies: `enum restartpolicy`. -/
inductive restartpolicy
  | RP_NO
  | RP_ALWAYS
  | RP_ON_SUCCESS
  | RP_ON_FAILURE
  | RP_ON_ABNORMAL
  | RP_ON_ABORT
  deriving DecidableEq, Repr

/-- The fields of `struct service` that the monitor reads. -/
structure service where
  type : servicetype
  kill_mode : killmode
  stop_timeout : Nat
  restart_policy : restartpolicy
  remain_after_exit : Bool
  delay : Nat
  start_limit_interval : Nat
  start_limit_burst : Nat
  deriving DecidableEq, Repr

/-- The enumeration `monitor_state`, with its sentinel `MS_ERROR`. -/
inductive monitor_state
  | MS_ERROR
  | MS_IDLE
  | MS_RESTARTING
  | MS_STARTING
  | MS_RUNNING
  | MS_REMAINING
  | MS_STOPPING
  | MS_STOPPED
  | MS_FAILED
  | MS_DEAD
  deriving DecidableEq, Repr

/-- The integer value of an enumerator of `monitor_state`. -/
def monitor_state.val : monitor_state → Int
  | .MS_ERROR => -1
  | .MS_IDLE => 0
  | .MS_RESTARTING => 1
  | .MS_STARTING => 2
  | .MS_RUNNING => 3
  | .MS_REMAINING => 4
  | .MS_STOPPING => 5
  | .MS_STOPPED => 6
  | .MS_FAILED => 7
  | .MS_DEAD => 8

/-- The enumerator `MS_NUM_STATES`. -/
def MS_NUM_STATES : Int := 9

/-- The table `monitor_state_names`, indexed by the nine states. -/
def monitor_state_names : monitor_state → String
  | .MS_IDLE => "idle"
  | .MS_RESTARTING => "restarting"
  | .MS_STARTING => "starting"
  | .MS_RUNNING => "running"
  | .MS_REMAINING => "remaining"
  | .MS_STOPPING => "stopping"
  | .MS_STOPPED => "stopped"
  | .MS_FAILED => "failed"
  | .MS_DEAD => "dead"
  | .MS_ERROR => ""

/-- The name of a state (`monitor_state_name`). -/
def monitor_state_name (state : monitor_state) : String :=
  if state.val < monitor_state.MS_ERROR.val ∨ state.val ≥ MS_NUM_STATES then "invalid"
  else if state = .MS_ERROR then "error"
  else monitor_state_names state

/-- The fields of `struct monitor` that the watch loop and the outer loop
read and write, apart from the start limit. -/
structure monitor where
  child : Int
  pid : Int
  sid : Int
  wstatus : Int
  state : monitor_state
  deriving DecidableEq, Repr

/-- The test `monitor_is_stopping`. -/
def monitor_is_stopping (mon : monitor) : Bool :=
  mon.state = .MS_RESTARTING || mon.state = .MS_STOPPING

/-- The state written by `monitor_set_state`; the process title it also sets
is not modelled. -/
def monitor_set_state (mon : monitor) (state : monitor_state) : monitor :=
  if state ≠ mon.state then { mon with state := state } else mon

/-! ## Wait status and signals (C library) -/

/-- The macro `WTERMSIG` of the C library: `status & 0x7f`. -/
def WTERMSIG (status : Int) : Int := status % 128

/-- The macro `WEXITSTATUS` of the C library: `(status & 0xff00) >> 8`. -/
def WEXITSTATUS (status : Int) : Int := (status / 256) % 256

/-- The macro `WIFEXITED` of the C library: `WTERMSIG(status) == 0`. -/
def WIFEXITED (status : Int) : Bool := WTERMSIG status = 0

/-- The macro `WIFSIGNALED` of the C library:
`((signed char) ((status & 0x7f) + 1) >> 1) > 0`. -/
def WIFSIGNALED (status : Int) : Bool :=
  let x := status % 128 + 1
  let sc := if x ≥ 128 then x - 256 else x
  sc / 2 > 0

/-- The signal number `SIGHUP` on Linux. -/
def SIGHUP : Int := 1

/-- The signal number `SIGINT` on Linux. -/
def SIGINT : Int := 2

/-- The signal number `SIGPIPE` on Linux. -/
def SIGPIPE : Int := 13

/-- The signal number `SIGTERM` on Linux. -/
def SIGTERM : Int := 15

/-- The flag `ucexit` of `monitor_func`: set in the branch `WIFEXITED`. -/
def monitor_ucexit (wstatus : Int) : Bool :=
  if WIFEXITED wstatus then decide (WEXITSTATUS wstatus ≠ 0) else false

/-- The flag `ucsig` of `monitor_func`: set in the branch `WIFSIGNALED`, which
is only reached when `WIFEXITED` is false. -/
def monitor_ucsig (wstatus : Int) : Bool :=
  if WIFEXITED wstatus then false
  else if WIFSIGNALED wstatus then
    decide (WTERMSIG wstatus ≠ SIGHUP ∧ WTERMSIG wstatus ≠ SIGINT
      ∧ WTERMSIG wstatus ≠ SIGTERM ∧ WTERMSIG wstatus ≠ SIGPIPE)
  else false

/-- The case `MS_RUNNING` of `monitor_func` after `monitor_watch` has returned
`ret`: the evaluation of the exit of the main process. -/
def monitor_func_running (svc : service) (ret : Int) (mon : monitor) : monitor :=
  if ret < 0 then monitor_set_state mon .MS_DEAD
  else
    let ucexit := monitor_ucexit mon.wstatus
    let ucsig := monitor_ucsig mon.wstatus
    if mon.state ≠ .MS_RUNNING then mon
    else if svc.remain_after_exit && !ucexit && !ucsig then
      monitor_set_state mon .MS_REMAINING
    else if svc.restart_policy = .RP_ALWAYS
        || (svc.restart_policy = .RP_ON_SUCCESS && !ucexit && !ucsig)
        || (svc.restart_policy = .RP_ON_FAILURE && (ucexit || ucsig))
        || (svc.restart_policy = .RP_ON_ABNORMAL && ucsig)
        || (svc.restart_policy = .RP_ON_ABORT && ucsig) then
      monitor_set_state mon .MS_RESTARTING
    else if ucexit || ucsig then
      monitor_set_state mon .MS_FAILED
    else
      monitor_set_state mon .MS_STOPPED

/-! ## Kill orchestrator (`monitor_watch`, `monitor_kill`) -/

/-- The constant `MAX_START_LIMIT_BURST`. -/
def MAX_START_LIMIT_BURST : Nat := 100

/-- The start limit fields of `struct monitor`; `start_times` is `none` for a
null pointer. -/
structure start_limit where
  start_times : Option (List Nat)
  start_limit_interval : Nat
  start_limit_burst : Nat
  start_time_cursor : Nat
  deriving DecidableEq, Repr

/-- The set-up of the start limit at the head of `monitor_func`; `clock` is
the value that `clock_usec` returns for the first slot. -/
def monitor_start_limit_init (svc : service) (clock : Nat) : start_limit :=
  if svc.start_limit_interval > 0 ∧ svc.start_limit_burst > 1 then
    let burst := if svc.start_limit_burst > MAX_START_LIMIT_BURST then MAX_START_LIMIT_BURST
      else svc.start_limit_burst
    let times := (List.replicate burst 0).set 0 clock
    ⟨some times, svc.start_limit_interval, burst, (0 + 1) % burst⟩
  else
    ⟨none, svc.start_limit_interval, svc.start_limit_burst, 0⟩

/-- The head of the case `MS_RESTARTING` of `monitor_func`, with `clock` the
value of `clock_usec`: `none` when the start limit is exceeded and the state
becomes failed, otherwise the new fields and `next_start_time`.  The time
values are `usec_t`, unsigned 64-bit. -/
def monitor_restart_gate (svc : service) (m : start_limit) (clock : Nat) :
    Option (start_limit × Nat) :=
  let next_start_time := (clock + svc.delay) % 2 ^ 64
  match m.start_times with
  | some times =>
    let start_time_delta := (next_start_time + 2 ^ 64 - times.getD m.start_time_cursor 0) % 2 ^ 64
    if start_time_delta < m.start_limit_interval then
      none
    else
      some ({ m with start_times := some (times.set m.start_time_cursor next_start_time),
                     start_time_cursor := (m.start_time_cursor + 1) % m.start_limit_burst },
            next_start_time)
  | none => some (m, next_start_time)

/-- The start times recorded by the restarts of `monitor_func`, given the
values of `clock_usec` at the successive entries of the case `MS_RESTARTING`.
The loop ends at the first restart that the gate refuses. -/
def monitor_restarts (svc : service) : start_limit → List Nat → List Nat
  | _, [] => []
  | m, clock :: rest =>
    match monitor_restart_gate svc m clock with
    | none => []
    | some (m1, next_start_time) => next_start_time :: monitor_restarts svc m1 rest

/-- Start times listed newest first are spaced when every start is at least
`interval` later than each start that precedes it by `burst` places or more. -/
def spaced (interval burst : Nat) : List Nat → Prop
  | [] => True
  | x :: older => (∀ a ∈ older.drop (burst - 1), a + interval ≤ x) ∧ spaced interval burst older

/-! ## Control channel (`monitor_control_socket_ingest`) -/

/-- The level `NORMAL` of `enum noise`; the variable `noisy` is an `int`. -/
def NORMAL : Int := 0

/-- The level `VERBOSE` of `enum noise`. -/
def VERBOSE : Int := 1

/-- The level `DEBUG` of `enum noise`. -/
def DEBUG : Int := 2

/-- The test of the peer credentials: the flag `privileged`. -/
def monitor_control_privileged (uid cmd_uid : Nat) : Bool :=
  uid = 0 || uid = cmd_uid

/-- The function `isspace` of the C library in the C locale. -/
def isspace (c : Char) : Bool :=
  c.toNat = 32 || (9 ≤ c.toNat && c.toNat ≤ 13)

/-- The call `read(csock, buf, sizeof(buf))` that returned the bytes `data`:
they overwrite the head of `buf`, and `res` is their number. -/
def monitor_control_read (buf data : List Char) : List Char × Nat :=
  (data ++ buf.drop data.length, data.length)

/-- The loop `while (res > 0 && isspace(buf[res - 1])) buf[--res] = 0`. -/
def monitor_control_strip (buf : List Char) : Nat → List Char × Nat
  | 0 => (buf, 0)
  | res + 1 =>
    if isspace (buf.getD res (Char.ofNat 0)) then
      monitor_control_strip (buf.set res (Char.ofNat 0)) res
    else
      (buf, res + 1)

/-- The string that `strcmp` and `printf` see at the start of `buf`: the bytes
before the first NUL. -/
def c_string (buf : List Char) : String :=
  String.mk (buf.takeWhile (fun c => decide (c ≠ Char.ofNat 0)))

/-- The dispatch of one request in `monitor_control_socket_ingest`: the chain
of `strcmp` on the stripped buffer.  Returns the monitor, the value of
`noisy`, and the response `str`. -/
def monitor_control_dispatch (mon : monitor) (noisy : Int) (privileged : Bool)
    (buf : List Char) : monitor × Int × String :=
  if c_string buf = "status" then
    if mon.state.val < MS_NUM_STATES then (mon, noisy, monitor_state_name mon.state)
    else (mon, noisy, "unknown")
  else if c_string buf = "stop" then
    if privileged then
      if mon.state.val < monitor_state.MS_STOPPING.val then
        (monitor_set_state mon .MS_STOPPING, noisy, "ok")
      else (mon, noisy, "ok")
    else (mon, noisy, "denied")
  else if c_string buf = "restart" then
    if privileged then (monitor_set_state mon .MS_RESTARTING, noisy, "ok")
    else (mon, noisy, "denied")
  else if c_string buf = "noise=debug" then
    if privileged then (mon, DEBUG, "ok") else (mon, noisy, "denied")
  else if c_string buf = "noise=verbose" then
    if privileged then (mon, VERBOSE, "ok") else (mon, noisy, "denied")
  else if c_string buf = "noise=normal" then
    if privileged then (mon, NORMAL, "ok") else (mon, noisy, "denied")
  else
    (mon, noisy, "error")

/-- The request as the dispatch sees it: the content of `buf` after the read
of `data` and the removal of trailing white space. -/
def monitor_control_request (buf data : List Char) : String :=
  let r := monitor_control_read buf data
  c_string (monitor_control_strip r.1 r.2).1

/-- One turn of the session loop of `monitor_control_socket_ingest` for a
read that returned the non-empty `data`: the monitor, the value of `noisy`
and the bytes written to the peer. -/
def monitor_control_turn (mon : monitor) (noisy : Int) (uid cmd_uid : Nat)
    (buf data : List Char) : monitor × Int × String :=
  let r := monitor_control_read buf data
  let stripped := (monitor_control_strip r.1 r.2).1
  let d := monitor_control_dispatch mon noisy (monitor_control_privileged uid cmd_uid) stripped
  (d.1, d.2.1, d.2.2 ++ "\r\n")

/-! ## Children lists as a forest -/

/-- The children lists are well formed: the keys of the table are unique,
every entry of a children list is the pid of a record whose parent pid is the
pid of the owner of the list, and no children list has an entry twice. -/
def tree_inv (t : Table) : Prop :=
  (t.processes.map (fun r => r.pid)).Nodup
  ∧ (∀ r ∈ t.processes, ∀ c ∈ r.children, ∃ rc ∈ t.processes, rc.pid = c ∧ rc.ppid = r.pid)
  ∧ (∀ r ∈ t.processes, r.children.Nodup)

/-- The pid `p` is in no children list. -/
def detached (t : Table) (p : Int) : Prop :=
  ∀ r ∈ t.processes, p ∉ r.children

/-- The pids that can be reached from `p` through children lists: `p` itself,
and every entry of the children list of a record whose pid can be reached. -/
inductive reach (t : Table) (p : Int) : Int → Prop
  | root : reach t p p
  | child (r : process) (c : Int) :
      reach t p r.pid → r ∈ t.processes → c ∈ r.children → reach t p c

/-- The entries of the children lists of `T` that are still there in `t`:
every entry of a children list of `T` whose record is in `t`, and which is not
excepted by `E`, is an entry of the children list of the same owner in `t`. -/
def edges_kept (E : Int → Prop) (T t : Table) : Prop :=
  ∀ r ∈ T.processes, ∀ x ∈ r.children, ¬ E x → (∃ rx ∈ t.processes, rx.pid = x) →
    ∃ r1 ∈ t.processes, r1.pid = r.pid ∧ x ∈ r1.children

/-! ## The drain round trip -/

/-- The body of the loop "Collect terminated processes" of `monitor_watch` for
one collected record: the direct child of the monitor reports readiness for a
forking service, and the exit of the main process is recorded. -/
def monitor_watch_collect (svc : service) (mon : monitor) (proc : process) : monitor :=
  let mon1 :=
    if proc.pid = mon.child then
      let m := if svc.type = .ST_FORKING then monitor_set_state mon .MS_RUNNING else mon
      { m with child := 0 }
    else mon
  if proc.pid = mon1.pid then { mon1 with wstatus := proc.wstatus } else mon1

/-- The loop "Collect terminated processes" of `monitor_watch` over the
records that `process_collect` returns; the second component is the variable
`pid`, the pid of the last record collected. -/
def monitor_watch_collect_loop (svc : service) (mon : monitor) (pid : Int) :
    List process → monitor × Int
  | [] => (mon, pid)
  | proc :: rest =>
    monitor_watch_collect_loop svc (monitor_watch_collect svc mon proc) proc.pid rest

/-- The tests that follow the collection loop in `monitor_watch`, with the
value of `errno` that ended the collection: the monitor, and whether the watch
loop is left with `break`. -/
def monitor_watch_finish (svc : service) (mon : monitor) (errno : Errno) (pid : Int) :
    monitor × Bool :=
  if svc.type = .ST_ONESHOT ∧ mon.wstatus ≥ 0 then
    (monitor_set_state mon .MS_RUNNING, true)
  else if mon.wstatus ≥ 0 ∧ (!monitor_is_stopping mon ∨ svc.kill_mode = .KM_PROCESS) then
    (mon, true)
  else if errno = .ECHILD ∧ pid ≠ 0 then
    (mon, true)
  else
    (mon, false)

/-! ## Outer loop (`monitor_func`) -/

/-- The case `MS_STARTING` of `monitor_func` up to its fall through, given the
value `child` that `fork_function` returns and the value `sid` of `getsid(0)`:
the monitor, and whether the case falls through to `MS_RUNNING`. -/
def monitor_func_starting (svc : service) (mon : monitor) (child sid : Int) : monitor × Bool :=
  let mon1 := { mon with wstatus := -1, child := child, sid := sid }
  if child < 0 then
    (monitor_set_state mon1 .MS_DEAD, false)
  else
    let mon2 :=
      if svc.type = .ST_SIMPLE ∨ svc.type = .ST_EXEC then monitor_set_state mon1 .MS_RUNNING
      else mon1
    let mon3 := if svc.type ≠ .ST_FORKING then { mon2 with pid := mon2.child } else mon2
    (mon3, true)

/-- What the environment supplies to one pass of the loop of `monitor_func`:
the value of `clock_usec`, the run of `monitor_wait` for a deadline (its
return value and the monitor it leaves), the values of `fork_function` and
`getsid`, and the run of `monitor_watch`. -/
structure monitor_env where
  clock : Nat
  wait : Nat → monitor → Int × monitor
  child : Int
  sid : Int
  watch : monitor → Int × monitor

/-- The cases `MS_STARTING` and `MS_RUNNING` of `monitor_func`, entered at
`MS_STARTING`: the start limit, the monitor, and the children spawned. -/
def monitor_func_start (svc : service) (env : monitor_env) (m : start_limit) (mon : monitor) :
    start_limit × monitor × List Int :=
  let s := monitor_func_starting svc mon env.child env.sid
  if s.2 then
    let w := env.watch s.1
    (m, monitor_func_running svc w.1 w.2, [env.child])
  else
    (m, s.1, [])

/-- One pass of the `switch` in the loop of `monitor_func`: the start limit,
the monitor, and the children spawned by the pass. -/
def monitor_func_case (svc : service) (env : monitor_env) (m : start_limit) (mon : monitor) :
    start_limit × monitor × List Int :=
  match mon.state with
  | .MS_RESTARTING =>
    match monitor_restart_gate svc m env.clock with
    | none => (m, monitor_set_state mon .MS_FAILED, [])
    | some (m1, next_start_time) =>
      let w := env.wait next_start_time mon
      let mon1 := if w.1 < 0 then monitor_set_state w.2 .MS_DEAD else w.2
      if mon1.state ≠ .MS_RESTARTING then (m1, mon1, [])
      else monitor_func_start svc env m1 mon1
  | .MS_STARTING => monitor_func_start svc env m mon
  | .MS_RUNNING =>
    let w := env.watch mon
    (m, monitor_func_running svc w.1 w.2, [])
  | .MS_STOPPING => (m, monitor_set_state mon .MS_STOPPED, [])
  | .MS_REMAINING =>
    let w := env.wait 0 mon
    (m, if w.1 < 0 then monitor_set_state w.2 .MS_DEAD else w.2, [])
  | _ => (m, monitor_set_state mon .MS_DEAD, [])

/-- The loop `while (mon.state < MS_STOPPED)` of `monitor_func`, one
environment per pass: the start limit, the monitor, and the children spawned,
in order. -/
def monitor_func_loop (svc : service) :
    List monitor_env → start_limit → monitor → start_limit × monitor × List Int
  | [], m, mon => (m, mon, [])
  | env :: rest, m, mon =>
    if mon.state.val < monitor_state.MS_STOPPED.val then
      let r := monitor_func_case svc env m mon
      let r2 := monitor_func_loop svc rest r.1 r.2.1
      (r2.1, r2.2.1, r.2.2 ++ r2.2.2)
    else
      (m, mon, [])

/-- The monitor and the start limit at the head of the loop of `monitor_func`:
the zeroed `struct monitor` in the state `MS_STARTING`, and the start limit
set up at the clock value `clock`. -/
def monitor_func_init (svc : service) (clock : Nat) : start_limit × monitor :=
  (monitor_start_limit_init svc clock,
    monitor_set_state (monitor_set_state ⟨0, 0, 0, 0, .MS_IDLE⟩ .MS_IDLE) .MS_STARTING)

/-- The environment of a pass of the loop of `monitor_func` in which no
control request arrives and the command exits with status 1: `monitor_wait`
returns 0 and leaves the monitor as it is, and `monitor_watch` returns 0 after
it has recorded the wait status 0x0100 of the main process. -/
def monitor_env_crash (clock : Nat) (child sid : Int) : monitor_env :=
  ⟨clock, fun _ mon => (0, mon), child, sid, fun mon => (0, { mon with wstatus := 256 })⟩

/-! ## PID file (`text.c`, `command.c`) -/

/-- The value of `errno` for an invalid argument, `EINVAL` on Linux. -/
def EINVAL : Int := 22

/-- The value of `errno` for a result out of range, `ERANGE` on Linux. -/
def ERANGE : Int := 34

/-- The test `isdigit` of the C library and of `timespan.c`. -/
def isdigit (c : Char) : Bool :=
  48 ≤ c.toNat && c.toNat ≤ 57

/-- The value of a run of decimal digits. -/
def decimal (ds : List Char) : Nat :=
  ds.foldl (fun acc c => acc * 10 + (c.toNat - 48)) 0

/-- The first word of a text (`text_first_word`), for a text given by its
bytes up to `txt->end`: the word, from `word->beg` to `word->end`, and the
bytes that follow it.  A NUL ends the text. -/
def text_first_word (txt : List Char) : List Char × List Char :=
  let beg := txt.dropWhile (fun c => decide (c ≠ Char.ofNat 0) && isspace c)
  (beg.takeWhile (fun c => decide (c ≠ Char.ofNat 0) && !isspace c),
   beg.dropWhile (fun c => decide (c ≠ Char.ofNat 0) && !isspace c))

/-- The constant `LONG_MAX`, for a `long` of 64 bits. -/
def LONG_MAX : Int := 2 ^ 63 - 1

/-- The constant `LONG_MIN`, for a `long` of 64 bits. -/
def LONG_MIN : Int := -(2 ^ 63)

/-- The function `strtol` of the C library in base 10: white space, an
optional sign, and a run of digits.  Returns the value, the number of bytes
that `end` lies behind the start (0 if there is no digit), and whether the
value was out of range, in which case `errno` is set to `ERANGE` and the value
is clamped. -/
def strtol (s : List Char) : Int × Nat × Bool :=
  let s1 := s.dropWhile isspace
  let neg := s1.head? = some '-'
  let s2 := if s1.head? = some '-' ∨ s1.head? = some '+' then s1.tail else s1
  let ds := s2.takeWhile isdigit
  if ds = [] then (0, 0, false)
  else
    let v : Int := if neg then -(decimal ds : Int) else (decimal ds : Int)
    let consumed := s.length - (s2.length - ds.length)
    if v > LONG_MAX then (LONG_MAX, consumed, true)
    else if v < LONG_MIN then (LONG_MIN, consumed, true)
    else (v, consumed, false)

/-- The conversion of a `long` to `pid_t`, a signed integer of 32 bits. -/
def to_pid_t (n : Int) : Int :=
  (n + 2 ^ 31) % 2 ^ 32 - 2 ^ 31

/-- What `command_getpid` finds when it looks for the PID file: none is
configured (`cmd->pidfile` is `NULL`); or `text_from_file` returns `NULL`,
and `errno` holds the value given, which `open`, `fstat` or `read` has set if
one of them has failed; or the content of the file. -/
inductive pid_file
  | absent
  | unreadable (errno : Int)
  | content (txt : List Char)
  deriving DecidableEq, Repr

/-- Reads the pid of the service from its PID file (`command_getpid`).
Returns the value of type `pid_t` and the value left in `errno`: without a
PID file this is the `EINVAL` that the function sets first, and for a file
that cannot be read it is the value that `text_from_file` leaves. -/
def command_getpid (file : pid_file) : Int × Int :=
  match file with
  | .absent => (to_pid_t (-1), EINVAL)
  | .unreadable errno => (to_pid_t (-1), errno)
  | .content txt =>
    let word := (text_first_word txt).1
    let r := strtol (word ++ (text_first_word txt).2 ++ [Char.ofNat 0])
    let errno := if r.2.2 then ERANGE else EINVAL
    if r.1 < 0 ∨ r.2.1 = 0 ∨ r.2.1 ≠ word.length then (to_pid_t (-1), EINVAL)
    else if errno = ERANGE then (to_pid_t (-1), errno)
    else (to_pid_t r.1, errno)

/-! ## Time spans (`timespan.h`, `timespan.c`) -/

/-- The unit `TS_USEC`, in microseconds. -/
def TS_USEC : Nat := 1

/-- The unit `TS_MSEC`. -/
def TS_MSEC : Nat := 1000 * TS_USEC

/-- The unit `TS_SEC`. -/
def TS_SEC : Nat := 1000 * TS_MSEC

/-- The unit `TS_MIN`. -/
def TS_MIN : Nat := 60 * TS_SEC

/-- The unit `TS_HR`. -/
def TS_HR : Nat := 60 * TS_MIN

/-- The unit `TS_DAY`. -/
def TS_DAY : Nat := 24 * TS_HR

/-- The unit `TS_WEEK`. -/
def TS_WEEK : Nat := 7 * TS_DAY

/-- The unit `TS_MONTH`. -/
def TS_MONTH : Nat := 3044 * TS_DAY / 100

/-- The unit `TS_YEAR`. -/
def TS_YEAR : Nat := 36525 * TS_DAY / 100

/-- The value `TS_INFINITY`, `(usec_t)(-2)`. -/
def TS_INFINITY : Nat := 2 ^ 64 - 2

/-- The value `TS_INVALID`, `(usec_t)(-1)`. -/
def TS_INVALID : Nat := 2 ^ 64 - 1

/-- The constant `UINTMAX_MAX`, for a `uintmax_t` of 64 bits. -/
def UINTMAX_MAX : Nat := 2 ^ 64 - 1

/-- The table `timespan_units`, without its terminator. -/
def timespan_units : List (String × Nat) :=
  [("usec", TS_USEC), ("us", TS_USEC), ("msec", TS_MSEC), ("ms", TS_MSEC),
   ("seconds", TS_SEC), ("second", TS_SEC), ("sec", TS_SEC), ("s", TS_SEC),
   ("minutes", TS_MIN), ("minute", TS_MIN), ("min", TS_MIN), ("m", TS_MIN),
   ("hours", TS_HR), ("hour", TS_HR), ("hr", TS_HR), ("h", TS_HR),
   ("days", TS_DAY), ("day", TS_DAY), ("d", TS_DAY),
   ("weeks", TS_WEEK), ("week", TS_WEEK), ("w", TS_WEEK),
   ("months", TS_MONTH), ("month", TS_MONTH), ("M", TS_MONTH),
   ("years", TS_YEAR), ("year", TS_YEAR), ("y", TS_YEAR)]

/-- The test `isblank` of `timespan.c`: space, tab and newline. -/
def isblank (c : Char) : Bool :=
  c.toNat = 32 || c.toNat = 9 || c.toNat = 10

/-- The test `isalpha` of `timespan.c`. -/
def isalpha (c : Char) : Bool :=
  (97 ≤ c.toNat && c.toNat ≤ 122) || (65 ≤ c.toNat && c.toNat ≤ 90)

/-- The function `strtoumax` of the C library in base 10, applied to a text
that starts with a digit: the value, clamped to `UINTMAX_MAX` if it is out of
range, the text behind the digits, and whether the value was out of range, in
which case `errno` is set to `ERANGE`. -/
def strtoumax (s : List Char) : Nat × List Char × Bool :=
  let v := decimal (s.takeWhile isdigit)
  (if v > UINTMAX_MAX then UINTMAX_MAX else v, s.dropWhile isdigit, decide (v > UINTMAX_MAX))

/-- The loop `while (p < end)` of `timespan_from_str`.  A pointer is
represented by the text from it to `end`; `ts` is the sum so far and `errno`
the current value of `errno`.  `strtoumax` reads no further than `end`, where
a blank or the terminator stands.  Every pass consumes a digit, which bounds
the fuel. -/
def timespan_loop : Nat → List Char → Nat → Int → Option (Nat × Int)
  | 0, _, _, _ => none
  | fuel + 1, p, ts, errno =>
    if p = [] then some (ts, errno)
    else if !isdigit (p.headD (Char.ofNat 0)) then some (TS_INVALID, EINVAL)
    else
      let n := strtoumax p
      let errno1 := if n.2.2 then ERANGE else errno
      if n.1 = UINTMAX_MAX ∧ errno1 = ERANGE then some (TS_INVALID, errno1)
      else if n.2.1.length = p.length then some (TS_INVALID, EINVAL)
      else
        let q := n.2.1.dropWhile isblank
        let r := q.dropWhile isalpha
        if r.length = q.length then some (TS_INVALID, EINVAL)
        else
          match timespan_units.find? (fun u => decide (u.1 = String.mk (q.takeWhile isalpha))) with
          | none => some (TS_INVALID, EINVAL)
          | some tsu =>
            let num := (n.1 * tsu.2) % 2 ^ 64
            if TS_INVALID - ts ≤ num then some (TS_INVALID, ERANGE)
            else timespan_loop fuel (r.dropWhile isblank) (ts + num) errno1

/-- Parses a time span and returns its value in microseconds
(`timespan_from_str`).  `str` is the text before the terminator and `errno`
the value of `errno` at the call; the result is the value returned and the
value of `errno` at the return. -/
def timespan_from_str (str : List Char) (errno : Int) : Option (Nat × Int) :=
  let p := str.dropWhile isblank
  let body := (p.reverse.dropWhile isblank).reverse
  if body = [] then some (TS_INVALID, 0)
  else if p = ['i', 'n', 'f', 'i', 'n', 'i', 't', 'y'] then some (TS_INFINITY, errno)
  else if isdigit (p.headD (Char.ofNat 0)) then
    let n := strtoumax p
    let errno1 := if n.2.2 then ERANGE else errno
    if n.1 = UINTMAX_MAX ∧ errno1 = ERANGE then some (TS_INVALID, errno1)
    else if n.2.1.length ≠ p.length ∧ n.2.1.dropWhile isblank = [] then
      some ((n.1 * TS_SEC) % 2 ^ 64, errno1)
    else timespan_loop (body.length + 1) body 0 errno1
  else timespan_loop (body.length + 1) body 0 errno

/-- One group of a time span: the blanks before it, the digits of its
magnitude, the blanks between magnitude and unit, and its unit, an entry of
the table of units. -/
structure span_group where
  sep : List Char
  digits : List Char
  gap : List Char
  unit : String × Nat

/-- The text of a group behind its leading blanks: magnitude, blanks, name of
the unit. -/
def span_group.text (g : span_group) : List Char :=
  g.digits ++ g.gap ++ g.unit.1.data

/-- The condition on a group: a magnitude of one or more digits, blanks where
blanks are allowed, and a unit of the table `timespan_units`. -/
def span_group.valid (g : span_group) : Prop :=
  g.digits ≠ [] ∧ (∀ c ∈ g.digits, isdigit c = true) ∧ (∀ c ∈ g.sep, isblank c = true)
  ∧ (∀ c ∈ g.gap, isblank c = true) ∧ g.unit ∈ timespan_units

/-- The text of a sequence of groups. -/
def span_text : List span_group → List Char
  | [] => []
  | g :: gs => g.sep ++ g.text ++ span_text gs

/-- The value of a sequence of groups in microseconds: the sum of magnitude
times unit. -/
def span_value : List span_group → Nat
  | [] => 0
  | g :: gs => decimal g.digits * g.unit.2 + span_value gs

/-! ## Lists of strings (`strlist.c`) -/

/-- The delimiter in effect in `strlist.c`: `delim ? delim : ':'`. -/
def strlist_delim (delim : Char) : Char :=
  if delim = Char.ofNat 0 then ':' else delim

/-- The loop `do ... while (*q++ != 0)` of `strlist_from_delim`, for the
delimiter in effect.  The first argument is the text from the pointer `q` to
the terminator, `cur` the bytes from `p` to `q`, `h` the keys of the hash
table if there is one, and `l` the list.  At a delimiter or at the terminator
the bytes from `p` to `q` are appended to the list, unless they are empty and
`blank` is false, and `p` is set behind the delimiter; the `continue` taken
for a key that is already in the hash table goes to the test of the loop and
leaves `p` where it is. -/
def strlist_from_delim_loop (delim : Char) (blank : Bool) :
    List Char → List Char → Option (List (List Char)) → List (List Char) → List (List Char)
  | [], cur, h, l =>
    if blank || decide (cur ≠ []) then
      match h with
      | some keys => if cur ∈ keys then l else l ++ [cur]
      | none => l ++ [cur]
    else l
  | c :: q, cur, h, l =>
    if c = delim then
      if blank || decide (cur ≠ []) then
        match h with
        | some keys =>
          if cur ∈ keys then strlist_from_delim_loop delim blank q (cur ++ [c]) h l
          else strlist_from_delim_loop delim blank q [] (some (keys ++ [cur])) (l ++ [cur])
        | none => strlist_from_delim_loop delim blank q [] none (l ++ [cur])
      else strlist_from_delim_loop delim blank q [] h l
    else strlist_from_delim_loop delim blank q (cur ++ [c]) h l

/-- Converts a delimited string into a list of its elements
(`strlist_from_delim`).  `str` is the text before the terminator. -/
def strlist_from_delim (str : List Char) (delim : Char) (blank dedup : Bool) :
    List (List Char) :=
  strlist_from_delim_loop (strlist_delim delim) blank str []
    (if dedup then some [] else none) []

/-- The loop of `strlist_to_delim` over the elements of the list: `h` holds
the keys of the hash table if there is one, `ba` the bytes of the byte
array. -/
def strlist_to_delim_loop (delim : Char) :
    List (List Char) → Option (List (List Char)) → List Char → List Char
  | [], _, ba => ba
  | s :: rest, h, ba =>
    match h with
    | some keys =>
      if s ∈ keys then strlist_to_delim_loop delim rest h ba
      else strlist_to_delim_loop delim rest (some (keys ++ [s])) (ba ++ s ++ [delim])
    | none => strlist_to_delim_loop delim rest none (ba ++ s ++ [delim])

/-- Converts a list of strings into a delimited string (`strlist_to_delim`):
every element is followed by the delimiter, and the last byte is removed if
there is one. -/
def strlist_to_delim (l : List (List Char)) (delim : Char) (dedup : Bool) : List Char :=
  let ba := strlist_to_delim_loop (strlist_delim delim) l (if dedup then some [] else none) []
  if ba.length > 0 then ba.take (ba.length - 1) else ba

/-! ## Quoted words (`systemd.c`) -/

/-- The test `isblank` of the C library in the C locale: space and tab. -/
def ctype_isblank (c : Char) : Bool :=
  c.toNat = 32 || c.toNat = 9

/-- The table `escape` of `systemd.c`: the byte that an escape character
stands for, and 0 for every byte that is not an escape character. -/
def escape (c : Char) : Char :=
  if c = 'a' then Char.ofNat 7
  else if c = 'b' then Char.ofNat 8
  else if c = 'f' then Char.ofNat 12
  else if c = 'n' then Char.ofNat 10
  else if c = 'r' then Char.ofNat 13
  else if c = 's' then ' '
  else if c = 't' then Char.ofNat 9
  else if c = 'v' then Char.ofNat 11
  else if c = Char.ofNat 92 then Char.ofNat 92
  else if c = Char.ofNat 34 then Char.ofNat 34
  else if c = Char.ofNat 39 then Char.ofNat 39
  else Char.ofNat 0

/-- The inner loop `while ((ch = *p) != 0)` of `systemd_split_quoted`.  The
first argument is the text from `p` to the terminator, `q` the open quote or
0, `word` the bytes of the word so far.  Returns the word, the quote, and the
text from `p` at the end of the loop.  In an escape sequence the byte behind
the backslash is looked up through `*p`, and `p` stays where it is. -/
def systemd_split_word : List Char → Char → List Char → List Char × Char × List Char
  | [], q, word => (word, q, [])
  | ch :: p, q, word =>
    if (ch = Char.ofNat 34 ∨ ch = Char.ofNat 39) ∧ ¬ (q ≠ Char.ofNat 0 ∧ ch ≠ q) then
      if q = Char.ofNat 0 then systemd_split_word p ch word
      else systemd_split_word p (Char.ofNat 0) word
    else if ch = Char.ofNat 92 then
      match p with
      | [] => (word, q, [])
      | c :: _ =>
        let ch1 := if escape c = Char.ofNat 0 then c else escape c
        if ctype_isblank ch1 = true ∧ q = Char.ofNat 0 then (word, q, p)
        else systemd_split_word p q (word ++ [ch1])
    else if ctype_isblank ch = true ∧ q = Char.ofNat 0 then (word, q, p)
    else systemd_split_word p q (word ++ [ch])

/-- The outer loop `for (;;)` of `systemd_split_quoted`: blanks are skipped,
and a word is read and appended to the list until the terminator is reached.
Every pass consumes a byte, which bounds the fuel. -/
def systemd_split_loop : Nat → List Char → Char → List (List Char) → Option (List (List Char))
  | 0, _, _, _ => none
  | fuel + 1, p, q, list =>
    let p1 := p.dropWhile ctype_isblank
    if p1 = [] then some list
    else
      let r := systemd_split_word p1 q []
      systemd_split_loop fuel r.2.2 r.2.1 (list ++ [r.1])

/-- Splits a string into words by the quoting rules of systemd
(`systemd_split_quoted`).  `string` is the text before the terminator. -/
def systemd_split_quoted (string : List Char) : Option (List (List Char)) :=
  systemd_split_loop (string.length + 1) string (Char.ofNat 0) []

/-! ## Unit files (`unit.c`, `systemd.c`) -/

/-- A section of a unit, `struct section` of `unit.c`: its name and the pairs
of its hash table, key and value. -/
structure unit_section where
  name : List Char
  pairs : List (List Char × List Char)
  deriving DecidableEq, Repr

/-- A unit, `struct unit` of `unit.c`: the sections of its hash table. -/
structure unit where
  sections : List unit_section
  deriving DecidableEq, Repr

/-- The call `hash_table_put(s->pairs, p->key, p)`: the pair takes the place
of the pair with the same key if there is one, and is added otherwise. -/
def pairs_put (pairs : List (List Char × List Char)) (key value : List Char) :
    List (List Char × List Char) :=
  if pairs.any (fun p => decide (p.1 = key)) then
    pairs.map (fun p => if p.1 = key then (key, value) else p)
  else pairs ++ [(key, value)]

/-- Sets or updates the given key in the given section (`unit_update_value`),
for a value that is not `NULL`.  If `append` is true and the key exists, the
new value is the old one, a space, and the given one.  Returns the unit and
the return value, 1 if the key existed. -/
def unit_update_value (u : unit) (sect key value : List Char) (append : Bool) : unit × Int :=
  let sections := if u.sections.any (fun s => decide (s.name = sect)) then u.sections
    else u.sections ++ [⟨sect, []⟩]
  match (sections.find? (fun s => decide (s.name = sect))).bind
      (fun s => s.pairs.find? (fun p => decide (p.1 = key))) with
  | some o =>
    let v := if append then o.2 ++ [' '] ++ value else value
    (⟨sections.map (fun s => if s.name = sect then { s with pairs := pairs_put s.pairs key v }
        else s)⟩, 1)
  | none =>
    (⟨sections.map (fun s => if s.name = sect then { s with pairs := pairs_put s.pairs key value }
        else s)⟩, 0)

/-- Returns the value of the given key in the given section
(`unit_get_value`), or `NULL`. -/
def unit_get_value (u : unit) (sect key : List Char) : Option (List Char) :=
  ((u.sections.find? (fun s => decide (s.name = sect))).bind
    (fun s => s.pairs.find? (fun p => decide (p.1 = key)))).map (fun p => p.2)

/-- The test `isprint` of the C library in the C locale. -/
def isprint (c : Char) : Bool :=
  32 ≤ c.toNat && c.toNat ≤ 126

/-- The test `issectionname` of `systemd.c`. -/
def issectionname (c : Char) : Bool :=
  isprint c && decide (c ≠ '[') && decide (c ≠ ']')

/-- The test `iskey` of `systemd.c`. -/
def iskey (c : Char) : Bool :=
  isdigit c || isalpha c || decide (c = '-')

/-- The test `isvalue` of `systemd.c`. -/
def isvalue (c : Char) : Bool :=
  isprint c || decide (c.toNat = 9)

/-- The loop that skips comment lines inside a line continuation in
`systemd_parse_unit_file`.  The argument is the text from `r`, which stands at
the end of a line, to `end`; while the next line starts with `#` or `;`, `r`
moves to the end of that line.  Every pass consumes a byte, which bounds the
fuel. -/
def systemd_skip_comments : Nat → List Char → Option (List Char)
  | 0, _ => none
  | fuel + 1, r =>
    match r with
    | _ :: c :: _ =>
      if c = '#' ∨ c = ';' then
        systemd_skip_comments fuel
          (r.tail.dropWhile (fun x => decide (x ≠ Char.ofNat 0) && decide (x ≠ Char.ofNat 10)))
      else some r
    | _ => some r

/-- The loop over the value of a key-value pair in `systemd_parse_unit_file`.
The arguments are the text from `r` to `end`, the bytes written to the buffer
`value`, which has 1024 bytes, and the count `v`.  A backslash before a
newline is a line continuation and counts as a space; a tab counts as a space;
a space behind a space is dropped.  Returns the buffer, the count, and the
text from `r` at the end of the loop. -/
def systemd_value_loop : Nat → List Char → List Char → Nat →
    Option (List Char × Nat × List Char)
  | 0, _, _, _ => none
  | fuel + 1, r, value, v =>
    match r with
    | [] => some (value, v, r)
    | ch :: r1 =>
      if !isvalue ch then some (value, v, r)
      else
        let cont := ch = Char.ofNat 92 ∧ r1.head? = some (Char.ofNat 10)
        match (if cont then systemd_skip_comments (r1.length + 1) r1 else some r) with
        | none => none
        | some r2 =>
          let ch1 := if cont then ' ' else ch
          let ch2 := if ch1 = Char.ofNat 9 then ' ' else ch1
          if ch2 = ' ' ∧ v > 0 ∧ v < 1024 ∧ value.getLast? = some ' ' then
            systemd_value_loop fuel r2.tail value v
          else
            systemd_value_loop fuel r2.tail (if v < 1024 then value ++ [ch2] else value) (v + 1)

/-- The loop over the lines of `systemd_parse_unit_file`.  The arguments are
the text from `cur` to `end`, the buffer `section`, and the unit.  The result
is the unit, or `none` for the return of `NULL` after an error or a premature
end of the input.  Every pass consumes a byte, which bounds the fuel. -/
def systemd_parse_loop : Nat → List Char → List Char → unit → Option (Option unit)
  | 0, _, _, _ => none
  | fuel + 1, cur, sect, u =>
    match cur with
    | [] => some (some u)
    | c :: rest =>
      if c = Char.ofNat 0 then some none
      else if c = Char.ofNat 10 then systemd_parse_loop fuel rest sect u
      else if c = '#' ∨ c = ';' then
        match cur.dropWhile (fun x => decide (x ≠ Char.ofNat 0) && decide (x ≠ Char.ofNat 10)) with
        | [] => some none
        | x :: p1 =>
          if x = Char.ofNat 0 then some none else systemd_parse_loop fuel p1 sect u
      else if c = '[' then
        let name := rest.takeWhile issectionname
        match rest.dropWhile issectionname with
        | [] => some none
        | x :: r =>
          if x = Char.ofNat 0 then some none
          else if name.length = 0 then some none
          else if x ≠ ']' then some none
          else
            match r with
            | [] => some none
            | y :: r1 =>
              if y = Char.ofNat 0 then some none
              else if y ≠ Char.ofNat 10 then some none
              else if name.length ≥ 255 then some none
              else systemd_parse_loop fuel r1 name u
      else
        let key := cur.takeWhile iskey
        let p := cur.dropWhile iskey
        if p.head? = none ∨ p.head? = some (Char.ofNat 0) then some none
        else if key.length = 0 then some none
        else
          let q := p.dropWhile ctype_isblank
          if q.head? = none ∨ q.head? = some (Char.ofNat 0) then some none
          else if q.head? ≠ some '=' then some none
          else
            let q1 := q.tail.dropWhile ctype_isblank
            if q1.head? = none ∨ q1.head? = some (Char.ofNat 0) then some none
            else
              match systemd_value_loop (q1.length + 1) q1 [] 0 with
              | none => none
              | some (value, v0, r) =>
                let v := if v0 > 0 ∧ v0 < 1024 ∧ value.getLast? = some ' ' then v0 - 1 else v0
                if r.head? = none ∨ r.head? = some (Char.ofNat 0) then some none
                else if key.length ≥ 255 then some none
                else if v ≥ 1023 then some none
                else if sect = [] then some none
                else
                  systemd_parse_loop fuel r.tail sect
                    (unit_update_value u sect key (value.take v) (decide (v > 0))).1

/-- Parses a unit file (`systemd_parse_unit_file`), given by the bytes of its
text.  The result is the unit, or `none` for `NULL`. -/
def systemd_parse_unit_file (txt : List Char) : Option (Option unit) :=
  systemd_parse_loop (txt.length + 1) txt [] ⟨[]⟩

/-! ## Process event connector (`cn_proc.c`) -/

/-- The operation `PROC_CN_MCAST_LISTEN`. -/
def PROC_CN_MCAST_LISTEN : Nat := 1

/-- The operation `PROC_CN_MCAST_IGNORE`. -/
def PROC_CN_MCAST_IGNORE : Nat := 2

/-- The event type `PROC_EVENT_NONE`, which carries an acknowledgement. -/
def PROC_EVENT_NONE : Nat := 0

/-- The static state of `cn_proc.c`: the socket `nld` and the flag
`listening`. -/
structure cn_proc where
  nld : Int
  listening : Bool
  deriving DecidableEq, Repr

/-- What the socket does during one call of `cn_proc_listen`: the return value
of `sendmsg`, and the events that `cn_proc_receive_event` delivers, one per
call, each with its fields `what` and `ack.err`, before a call fails with a
timeout or an I/O error. -/
structure cn_proc_env where
  sendmsg : Int
  events : List (Nat × Nat)
  deriving DecidableEq, Repr

/-- Sends a process event connector message (`cn_proc_send`): `res` is the
return value of `sendmsg`, `len` the length of the data, and the headers
`struct nlmsghdr` and `struct cn_msg` have 16 and 20 bytes. -/
def cn_proc_send (res : Int) (len : Nat) : Int :=
  if res < 0 then -1
  else if res ≠ 16 + 20 + (len : Int) then -1
  else res

/-- The loop `while (cn_proc_receive_event(&ev, timeout))` of
`cn_proc_listen`: the field `ack.err` of the first event of type
`PROC_EVENT_NONE`, or `none` if a call fails before such an event arrives. -/
def cn_proc_wait : List (Nat × Nat) → Option Nat
  | [] => none
  | ev :: rest => if ev.1 = PROC_EVENT_NONE then some ev.2 else cn_proc_wait rest

/-- Enables or disables process events (`cn_proc_listen`).  Returns the return
value, the state, and a record of the control message if one left the socket:
its operation and the `ack.err` of the acknowledgement that was received for
it, if any. -/
def cn_proc_listen (st : cn_proc) (endis : Bool) (env : cn_proc_env) :
    Bool × cn_proc × List (Nat × Option Nat) :=
  if endis = st.listening then (true, st, [])
  else
    let op := if endis then PROC_CN_MCAST_LISTEN else PROC_CN_MCAST_IGNORE
    let sent : List (Nat × Option Nat) :=
      if env.sendmsg = 16 + 20 + 4 then [(op, cn_proc_wait env.events)] else []
    if cn_proc_send env.sendmsg 4 = 0 then (false, st, sent)
    else
      match cn_proc_wait env.events with
      | some err =>
        if err ≠ 0 then (false, st, sent)
        else (true, { st with listening := endis }, sent)
      | none =>
        if !endis then (false, { st with listening := false }, sent)
        else (false, st, sent)

/-- Connects to the process event connector (`cn_proc_connect`): `sock` is the
return value of `socket` and `bound` tells whether `bind` succeeds. -/
def cn_proc_connect (st : cn_proc) (sock : Int) (bound : Bool) : Bool × cn_proc :=
  if st.nld ≥ 0 then (true, st)
  else if sock < 0 then (false, { st with nld := sock })
  else if !bound then (false, { st with nld := -1 })
  else (true, { st with nld := sock })

/-- Disconnects from the process event connector (`cn_proc_disconnect`). -/
def cn_proc_disconnect (st : cn_proc) (env : cn_proc_env) :
    cn_proc × List (Nat × Option Nat) :=
  if st.nld < 0 then (st, [])
  else
    let r := if st.listening then cn_proc_listen st false env else (true, st, [])
    ({ r.2.1 with nld := -1 }, r.2.2)

/-- A call of the interface of `cn_proc.c`, with what the socket does during
the call. -/
inductive cn_proc_call
  | listen (endis : Bool) (env : cn_proc_env)
  | connect (sock : Int) (bound : Bool)
  | disconnect (env : cn_proc_env)
  deriving DecidableEq, Repr

/-- The return value of `sendmsg` during a call, if the call can send. -/
def cn_proc_call.sendmsg : cn_proc_call → Option Int
  | .listen _ env => some env.sendmsg
  | .connect _ _ => none
  | .disconnect env => some env.sendmsg

/-- A sequence of calls: the final state and the record of the control
messages that left the socket, in order. -/
def cn_proc_run : cn_proc → List cn_proc_call → cn_proc × List (Nat × Option Nat)
  | st, [] => (st, [])
  | st, .listen endis env :: rest =>
    let r := cn_proc_listen st endis env
    ((cn_proc_run r.2.1 rest).1, r.2.2 ++ (cn_proc_run r.2.1 rest).2)
  | st, .connect sock bound :: rest => cn_proc_run (cn_proc_connect st sock bound).2 rest
  | st, .disconnect env :: rest =>
    let r := cn_proc_disconnect st env
    ((cn_proc_run r.1 rest).1, r.2 ++ (cn_proc_run r.1 rest).2)

/-- The number of `LISTEN` messages that were acknowledged with status 0. -/
def listens_acked (log : List (Nat × Option Nat)) : Nat :=
  log.countP (fun m => decide (m.1 = PROC_CN_MCAST_LISTEN ∧ m.2 = some 0))

/-- The number of `IGNORE` messages that were sent. -/
def ignores_sent (log : List (Nat × Option Nat)) : Nat :=
  log.countP (fun m => decide (m.1 = PROC_CN_MCAST_IGNORE))

/-- The number of `IGNORE` messages that were sent and not refused by an
acknowledgement with an error. -/
def ignores_accepted (log : List (Nat × Option Nat)) : Nat :=
  log.countP (fun m => decide (m.1 = PROC_CN_MCAST_IGNORE ∧ (m.2 = none ∨ m.2 = some 0)))

/-! ## Time spans: printing (`timespan_to_str`) -/

/-- The decimal digits of a number, most significant first, as the conversion
`%llu` of `snprintf` prints them; `fuel` bounds the number of digits. -/
def snprintf_digits : Nat → Nat → List Char
  | 0, _ => []
  | fuel + 1, n =>
    if n < 10 then [Char.ofNat (48 + n)]
    else snprintf_digits fuel (n / 10) ++ [Char.ofNat (48 + n % 10)]

/-- The conversion `%llu` of `snprintf` for an `unsigned long long` of 64
bits, which has at most 20 digits. -/
def snprintf_llu (n : Nat) : List Char :=
  snprintf_digits 20 n

/-- The field `name` of the entry of `timespan_units` at an index; the entry
at the index 28 is the terminator, whose name is `NULL`. -/
def tsu_name (i : Nat) : Option String :=
  (timespan_units.get? i).map (fun u => u.1)

/-- The field `value` of the entry of `timespan_units` at an index; the value
of the terminator is `TS_INVALID`. -/
def tsu_value (i : Nat) : Nat :=
  ((timespan_units.get? i).map (fun u => u.2)).getD TS_INVALID

/-- The loop `while (tsu > timespan_units && tsu->value > ts) tsu--` of
`timespan_to_str`, for the pointer `tsu` given by its index. -/
def timespan_to_str_seek (ts : Nat) : Nat → Nat
  | 0 => 0
  | i + 1 => if tsu_value (i + 1) > ts then timespan_to_str_seek ts i else i + 1

/-- The loop `while (ts > 0)` of `timespan_to_str`: the text that the calls of
`snprintf` produce, for the remaining value `ts` and the index of `tsu`.  The
result is `none` if the fuel runs out or the name of the terminator is
printed. -/
def timespan_to_str_loop : Nat → Nat → Nat → Option (List Char)
  | 0, _, _ => none
  | fuel + 1, ts, i =>
    if ts > 0 then
      match tsu_name (timespan_to_str_seek ts i) with
      | none => none
      | some name =>
        (timespan_to_str_loop fuel (ts % tsu_value (timespan_to_str_seek ts i))
            (timespan_to_str_seek ts i)).map
          (fun rest => snprintf_llu (ts / tsu_value (timespan_to_str_seek ts i))
            ++ name.data ++ rest)
    else some []

/-- Prints a time span (`timespan_to_str`): the text that is produced, which
is written to the buffer in full if the buffer is large enough and whose
length is the return value, or `none` for the return value -1. -/
def timespan_to_str (ts : Nat) : Option (List Char) :=
  if ts = 0 then some ['0']
  else if ts = TS_INVALID then none
  else if ts = TS_INFINITY then some ['i', 'n', 'f', 'i', 'n', 'i', 't', 'y']
  else timespan_to_str_loop 29 ts 28

/-- Stated by the claim: the units of the decomposition, from largest to
smallest. -/
def timespan_short_units : List (String × Nat) :=
  [("y", TS_YEAR), ("M", TS_MONTH), ("w", TS_WEEK), ("d", TS_DAY), ("h", TS_HR),
   ("m", TS_MIN), ("s", TS_SEC), ("ms", TS_MSEC), ("us", TS_USEC)]

/-- Stated by the claim: the greedy decomposition of a value over a list of
units, as text: for every unit in turn the number of whole units that fit into
the remaining value, followed by the name of the unit, with the components
that are zero left out. -/
def span_greedy : List (String × Nat) → Nat → List Char
  | [], _ => []
  | u :: us, ts =>
    if ts / u.2 = 0 then span_greedy us ts
    else snprintf_llu (ts / u.2) ++ u.1.data ++ span_greedy us (ts % u.2)

/-- The greedy decomposition of a value over a list of units, as groups of a
time span without blanks. -/
def greedy_groups : List (String × Nat) → Nat → List span_group
  | [], _ => []
  | u :: us, ts =>
    if ts / u.2 = 0 then greedy_groups us ts
    else ⟨[], snprintf_llu (ts / u.2), [], u⟩ :: greedy_groups us (ts % u.2)

/-! ## Sequences of operations that keep every list entry a record of the table -/

/-- The condition on an operation under which every pointer that the table
keeps, in the ready list, in a children list and as `proc_init`, refers to a
record of the table, so that the pid of that record stands for the pointer.
The operation is not a call of `process_remove`, which frees a record that its
parent still lists; no exit event names init, or a process that is on the
ready list already, of which `process_collect` would remove one entry only;
and init is not dropped, neither by a call of `process_drop` nor by the answer
of the callback to an event of init. -/
def table_op_safe (t : Table) : table_op → Prop
  | .remove _ => False
  | .drop pid => pid ≠ 1
  | .ingest (.exit p _ signal) _ =>
    signal = SIGCHLD → as_pid p.tgid ≠ 1 ∧ as_pid p.tgid ∉ t.ready
  | .ingest (.exec p) action => action = .PROCWATCH_ACTION_DROP → as_pid p.tgid ≠ 1
  | .ingest (.sid p) action => action = .PROCWATCH_ACTION_DROP → as_pid p.tgid ≠ 1
  | _ => True

/-- Every entry of the ready list is a record of the table, once: the keys of
the table are unique, the ready list has no duplicate, and it holds only pids
of the table. -/
def ready_live (t : Table) : Prop :=
  (t.processes.map (fun r => r.pid)).Nodup
  ∧ t.ready.Nodup
  ∧ (∀ p ∈ t.ready, p ∈ t.processes.map (fun r => r.pid))

/-- The condition on an operation that the parent links and the children
lists rely on: `parent_is_live` and `table_op_safe`. -/
def links_op_ok (t : Table) (op : table_op) : Prop :=
  parent_is_live t op ∧ table_op_safe t op

/-- The pid that an operation may give to a new record: the pid of a call of
`process_insert`, and the pid of the child of a fork event. -/
def table_op_creates : table_op → Option Int
  | .insert pid _ _ => some pid
  | .ingest (.fork _ child) _ => some (as_pid child.tgid)
  | _ => none

/-- The pid `x` is neither in the table nor on the ready list. -/
def absent (t : Table) (x : Int) : Prop :=
  x ∉ t.processes.map (fun r => r.pid) ∧ x ∉ t.ready

/-! # Properties -/

/-! ## Policy evaluation -/

/-- A status that `WIFEXITED` accepts is rejected by `WIFSIGNALED`. -/
theorem wifexited_not_signaled (w : Int) (h : WIFEXITED w = true) : WIFSIGNALED w = false := by
  simp only [WIFEXITED, WTERMSIG, decide_eq_true_eq] at h
  simp [WIFSIGNALED, h]

/-- C2: policy evaluation in `monitor_func`.  When the watch loop returns with
the state still running, the next state is remaining if remain-after-exit is
set and the exit was clean; otherwise it is restarting exactly when the policy
asks for it (always; on-success and clean; on-failure and unclean;
on-abnormal or on-abort and an unclean signal; never for no); otherwise it is
failed after an unclean exit and stopped after a clean one.  Here `ucexit`
means exited with a non-zero status and `ucsig` killed by a signal other than
SIGHUP, SIGINT, SIGTERM and SIGPIPE. -/
theorem monitor_func_policy (svc : service) (mon : monitor) (ret : Int)
    (hret : 0 ≤ ret) (hrun : mon.state = .MS_RUNNING) :
    let ucexit : Prop := WIFEXITED mon.wstatus = true ∧ WEXITSTATUS mon.wstatus ≠ 0
    let ucsig : Prop := WIFSIGNALED mon.wstatus = true ∧ WTERMSIG mon.wstatus ≠ SIGHUP
      ∧ WTERMSIG mon.wstatus ≠ SIGINT ∧ WTERMSIG mon.wstatus ≠ SIGTERM
      ∧ WTERMSIG mon.wstatus ≠ SIGPIPE
    let remain : Prop := svc.remain_after_exit = true ∧ ¬ ucexit ∧ ¬ ucsig
    let restart : Prop := svc.restart_policy = .RP_ALWAYS
      ∨ (svc.restart_policy = .RP_ON_SUCCESS ∧ ¬ ucexit ∧ ¬ ucsig)
      ∨ (svc.restart_policy = .RP_ON_FAILURE ∧ (ucexit ∨ ucsig))
      ∨ (svc.restart_policy = .RP_ON_ABNORMAL ∧ ucsig)
      ∨ (svc.restart_policy = .RP_ON_ABORT ∧ ucsig)
    let next := (monitor_func_running svc ret mon).state
    (remain → next = .MS_REMAINING)
    ∧ (¬ remain → (next = .MS_RESTARTING ↔ restart))
    ∧ (¬ remain → ¬ restart → (ucexit ∨ ucsig) → next = .MS_FAILED)
    ∧ (¬ remain → ¬ restart → ¬ (ucexit ∨ ucsig) → next = .MS_STOPPED) := by
  intro ucexit ucsig remain restart next
  have hx : monitor_ucexit mon.wstatus = true ↔ ucexit := by
    simp only [monitor_ucexit, ucexit]
    by_cases h : WIFEXITED mon.wstatus = true <;> simp [h]
  have hs : monitor_ucsig mon.wstatus = true ↔ ucsig := by
    simp only [monitor_ucsig, ucsig]
    by_cases h : WIFEXITED mon.wstatus = true
    · simp [h, wifexited_not_signaled _ h]
    · by_cases h2 : WIFSIGNALED mon.wstatus = true <;> simp [h, h2]
  have hnext : next = (monitor_func_running svc ret mon).state := rfl
  have hret2 : ¬ ret < 0 := not_lt.mpr hret
  simp only [monitor_func_running, hret2, if_false, hrun, ne_eq, not_true_eq_false] at hnext
  simp only [remain, restart]
  rw [← hx, ← hs]
  rw [hnext]
  cases hpol : svc.restart_policy <;> cases hrem : svc.remain_after_exit <;>
    cases monitor_ucexit mon.wstatus <;> cases monitor_ucsig mon.wstatus <;>
    simp [monitor_set_state, hrun]

/-- Witness of C2: a main process that exits with status 1 under the policy
on-failure sends the supervisor to restarting. -/
theorem monitor_func_policy_witness :
    (0 : Int) ≤ 0 ∧ (⟨10, 10, 100, 256, .MS_RUNNING⟩ : monitor).state = .MS_RUNNING
    ∧ (monitor_func_running ⟨.ST_SIMPLE, .KM_CGROUP, 0, .RP_ON_FAILURE, false, 0, 0, 0⟩ 0
        ⟨10, 10, 100, 256, .MS_RUNNING⟩).state = .MS_RESTARTING :=
  ⟨le_refl 0, rfl,
    ((monitor_func_policy ⟨.ST_SIMPLE, .KM_CGROUP, 0, .RP_ON_FAILURE, false, 0, 0, 0⟩
      ⟨10, 10, 100, 256, .MS_RUNNING⟩ 0 (le_refl 0) rfl).2.1 (by decide)).mpr (by decide)⟩

/-! ## Control channel -/

/-- The state that `monitor_set_state` leaves is the requested one. -/
theorem monitor_set_state_state (mon : monitor) (s : monitor_state) :
    (monitor_set_state mon s).state = s := by
  unfold monitor_set_state
  split_ifs with h
  · rfl
  · push_neg at h; exact h.symm

/-- The dispatch changes nothing for an unprivileged peer. -/
theorem monitor_control_dispatch_unprivileged (mon : monitor) (noisy : Int) (b : List Char) :
    (monitor_control_dispatch mon noisy false b).1 = mon
    ∧ (monitor_control_dispatch mon noisy false b).2.1 = noisy := by
  simp only [monitor_control_dispatch, Bool.false_eq_true, if_false]
  split_ifs <;> exact ⟨rfl, rfl⟩

/-- C4: state effect of one control request.  A request from an unprivileged
peer leaves the monitor and the log verbosity unchanged whatever the request;
a privileged `stop` sets the state to stopping if the state is below stopping
in the enum order and leaves it unchanged otherwise; a privileged `restart`
sets the state to restarting; any request other than `stop` and `restart`
(`status`, `noise=...`, unknown ones) leaves the monitor unchanged. -/
theorem monitor_control_state_effect (mon : monitor) (noisy : Int) (uid cmd_uid : Nat)
    (buf data : List Char) :
    let req := monitor_control_request buf data
    let r := monitor_control_turn mon noisy uid cmd_uid buf data
    (uid ≠ 0 ∧ uid ≠ cmd_uid → r.1 = mon ∧ r.2.1 = noisy)
    ∧ ((uid = 0 ∨ uid = cmd_uid) → req = "stop" →
        (mon.state.val < monitor_state.MS_STOPPING.val → r.1.state = .MS_STOPPING)
        ∧ (¬ mon.state.val < monitor_state.MS_STOPPING.val → r.1.state = mon.state))
    ∧ ((uid = 0 ∨ uid = cmd_uid) → req = "restart" → r.1.state = .MS_RESTARTING)
    ∧ (req ≠ "stop" → req ≠ "restart" → r.1 = mon) := by
  intro req r
  have hpriv : (uid = 0 ∨ uid = cmd_uid) → monitor_control_privileged uid cmd_uid = true := by
    intro hp
    rcases hp with h | h <;> simp [monitor_control_privileged, h]
  refine ⟨?_, ?_, ?_, ?_⟩
  · rintro ⟨h0, h1⟩
    have hp : monitor_control_privileged uid cmd_uid = false := by
      simp [monitor_control_privileged, h0, h1]
    simp only [r, monitor_control_turn, hp]
    exact monitor_control_dispatch_unprivileged _ _ _
  · intro hp hstop
    simp only [req, monitor_control_request] at hstop
    simp only [r, monitor_control_turn, hpriv hp, monitor_control_dispatch, hstop]
    constructor
    · intro hlt
      simp [hlt, monitor_set_state_state]
    · intro hlt
      simp [hlt]
  · intro hp hrestart
    simp only [req, monitor_control_request] at hrestart
    simp only [r, monitor_control_turn, hpriv hp, monitor_control_dispatch, hrestart]
    simp [monitor_set_state_state]
  · intro h1 h2
    simp only [req, monitor_control_request] at h1 h2
    simp only [r, monitor_control_turn, monitor_control_dispatch, h1, h2, if_false]
    split_ifs <;> rfl

/-- Witness of C4: a `stop` line from uid 0 moves a running monitor to
stopping. -/
theorem monitor_control_state_effect_witness :
    monitor_control_request [] "stop\r\n".toList = "stop"
    ∧ (monitor_control_turn ⟨10, 10, 100, -1, .MS_RUNNING⟩ 0 0 1000 []
        "stop\r\n".toList).1.state = .MS_STOPPING :=
  ⟨by decide,
    ((monitor_control_state_effect ⟨10, 10, 100, -1, .MS_RUNNING⟩ 0 0 1000 []
      "stop\r\n".toList).2.1 (Or.inl rfl) (by decide)).1 (by decide)⟩

/-- The strip loop turns trailing white space into NUL bytes. -/
theorem monitor_control_strip_spaces (ws : List Char) (hws : ∀ c ∈ ws, isspace c = true) :
    ∀ (pre rest : List Char),
      monitor_control_strip (pre ++ ws ++ rest) (pre.length + ws.length)
        = monitor_control_strip (pre ++ List.replicate ws.length (Char.ofNat 0) ++ rest)
            pre.length := by
  induction ws using List.reverseRecOn with
  | nil => intro pre rest; simp
  | append_singleton ws c ih =>
    intro pre rest
    have hc : isspace c = true := hws c (by simp)
    have hws2 : ∀ x ∈ ws, isspace x = true := fun x hx => hws x (by simp [hx])
    have hlen : pre.length + (ws ++ [c]).length = (pre.length + ws.length) + 1 := by
      simp; omega
    rw [hlen, monitor_control_strip]
    have hget : (pre ++ (ws ++ [c]) ++ rest).getD (pre.length + ws.length) (Char.ofNat 0) = c := by
      have : pre ++ (ws ++ [c]) ++ rest = (pre ++ ws) ++ (c :: rest) := by simp
      rw [this, List.getD_eq_getElem?_getD, List.getElem?_append_right (by simp)]
      simp
    have hset : (pre ++ (ws ++ [c]) ++ rest).set (pre.length + ws.length) (Char.ofNat 0)
        = pre ++ ws ++ (Char.ofNat 0 :: rest) := by
      have : pre ++ (ws ++ [c]) ++ rest = (pre ++ ws) ++ (c :: rest) := by simp
      rw [this, List.set_append_right _ _ (by simp)]
      simp
    rw [hget, hc, if_pos rfl, hset, ih hws2 pre (Char.ofNat 0 :: rest)]
    congr 1
    simp [List.replicate_succ']

/-- The strip loop stops at a byte that is not white space. -/
theorem monitor_control_strip_stop (line rest : List Char)
    (hlast : ∀ c, line.getLast? = some c → isspace c = false) :
    monitor_control_strip (line ++ rest) line.length = (line ++ rest, line.length) := by
  induction line using List.reverseRecOn with
  | nil => simp [monitor_control_strip]
  | append_singleton l c _ =>
    have hc : isspace c = false := hlast c (by simp)
    have hlen : (l ++ [c]).length = l.length + 1 := by simp
    rw [hlen, monitor_control_strip]
    have hget : (l ++ [c] ++ rest).getD l.length (Char.ofNat 0) = c := by
      have : l ++ [c] ++ rest = l ++ (c :: rest) := by simp
      rw [this, List.getD_eq_getElem?_getD, List.getElem?_append_right (le_refl _)]
      simp
    rw [hget, hc]
    simp

/-- A request line without NUL bytes, followed by its terminator of white
space, reaches the dispatch as the line itself, whatever the buffer held. -/
theorem monitor_control_request_line (buf line ws : List Char)
    (hnul : ∀ c ∈ line, c ≠ Char.ofNat 0)
    (hlast : ∀ c, line.getLast? = some c → isspace c = false)
    (hws : ∀ c ∈ ws, isspace c = true) (hne : ws ≠ []) :
    monitor_control_request buf (line ++ ws) = String.mk line := by
  unfold monitor_control_request monitor_control_read
  simp only [List.length_append]
  rw [monitor_control_strip_spaces ws hws line _, List.append_assoc,
    monitor_control_strip_stop line _ hlast]
  simp only [c_string]
  congr 1
  obtain ⟨n, hn⟩ : ∃ n, ws.length = n + 1 := by
    cases ws with
    | nil => exact absurd rfl hne
    | cons a l => exact ⟨l.length, by simp⟩
  rw [hn, List.replicate_succ, List.takeWhile_append_of_pos]
  · simp
  · intro c hc
    simpa using hnul c hc

/-- C5: response of one control request.  With `req` the request after the
removal of trailing white space, compared as a string: `status` is answered
with the lowercase name of the current state, for every peer; `stop`,
`restart` and the three `noise=` requests are answered `ok` to a privileged
peer and `denied` to any other; every other request is answered `error`.
Each response ends with CR-LF. -/
theorem monitor_control_response (mon : monitor) (noisy : Int) (uid cmd_uid : Nat)
    (buf data : List Char) :
    let req := monitor_control_request buf data
    let resp := (monitor_control_turn mon noisy uid cmd_uid buf data).2.2
    (req = "status" → mon.state ≠ .MS_ERROR →
        resp = (["idle", "restarting", "starting", "running", "remaining", "stopping",
                 "stopped", "failed", "dead"].getD mon.state.val.toNat "") ++ "\r\n")
    ∧ (req ∈ ["stop", "restart", "noise=debug", "noise=verbose", "noise=normal"] →
        ((uid = 0 ∨ uid = cmd_uid) → resp = "ok\r\n")
        ∧ (¬ (uid = 0 ∨ uid = cmd_uid) → resp = "denied\r\n"))
    ∧ (req ∉ ["status", "stop", "restart", "noise=debug", "noise=verbose", "noise=normal"] →
        resp = "error\r\n") := by
  intro req resp
  have hyes : (uid = 0 ∨ uid = cmd_uid) → monitor_control_privileged uid cmd_uid = true := by
    intro hp
    rcases hp with h | h <;> simp [monitor_control_privileged, h]
  have hno : ¬ (uid = 0 ∨ uid = cmd_uid) → monitor_control_privileged uid cmd_uid = false := by
    intro hp
    push_neg at hp
    simp [monitor_control_privileged, hp.1, hp.2]
  have hreq : c_string (monitor_control_strip (monitor_control_read buf data).1
      (monitor_control_read buf data).2).1 = req := rfl
  refine ⟨?_, ?_, ?_⟩
  · intro hstatus herr
    have hlt : mon.state.val < MS_NUM_STATES := by cases mon.state <;> decide
    simp only [resp, monitor_control_turn, monitor_control_dispatch, hreq, hstatus, if_true,
      if_pos hlt]
    revert herr
    cases mon.state <;> intro herr <;> first | exact absurd rfl herr | decide
  · intro hmem
    simp only [List.mem_cons, List.mem_singleton, List.not_mem_nil, or_false] at hmem
    constructor
    · intro hp
      simp only [resp, monitor_control_turn, monitor_control_dispatch, hreq, hyes hp]
      rcases hmem with h | h | h | h | h <;> (rw [h]; simp <;> (split_ifs <;> rfl))
    · intro hp
      simp only [resp, monitor_control_turn, monitor_control_dispatch, hreq, hno hp]
      rcases hmem with h | h | h | h | h <;> (rw [h]; simp)
  · intro hmem
    simp only [List.mem_cons, List.mem_singleton, List.not_mem_nil, or_false, not_or] at hmem
    obtain ⟨h1, h2, h3, h4, h5, h6⟩ := hmem
    simp only [resp, monitor_control_turn, monitor_control_dispatch, hreq, h1, h2, h3, h4, h5, h6,
      if_false]
    rfl

/-- Witness of C5: the line `status` is answered with `running` to an
unprivileged peer of a running monitor. -/
theorem monitor_control_response_witness :
    monitor_control_request [] "status\r\n".toList = "status"
    ∧ (monitor_control_turn ⟨10, 10, 100, -1, .MS_RUNNING⟩ 0 1001 1000 []
        "status\r\n".toList).2.2 = "running\r\n" :=
  ⟨by decide,
    (monitor_control_response ⟨10, 10, 100, -1, .MS_RUNNING⟩ 0 1001 1000 []
      "status\r\n".toList).1 (by decide) (by decide)⟩

/-! ## Kill orchestrator -/

/-- A filter that takes everything. -/
theorem filter_all_true (l : List Int) (f : Int → Bool) : l.filter (fun p => true || f p) = l := by
  simp

/-- A record found under a key has that key and is in the table. -/
theorem hash_table_get_some (ps : List process) (q : Int) (r : process)
    (h : hash_table_get ps q = some r) : r.pid = q ∧ r ∈ ps := by
  unfold hash_table_get at h
  exact ⟨by simpa using List.find?_some h, List.mem_of_find?_eq_some h⟩

/-- A key has no record exactly when no record of the table carries it. -/
theorem hash_table_get_none (ps : List process) (q : Int) :
    hash_table_get ps q = none ↔ ∀ r ∈ ps, r.pid ≠ q := by
  unfold hash_table_get
  simp [List.find?_eq_none]

/-- A key that some record carries has a record. -/
theorem hash_table_get_of_mem (ps : List process) (r : process) (h : r ∈ ps) :
    ∃ r1, hash_table_get ps r.pid = some r1 := by
  cases hg : hash_table_get ps r.pid with
  | some r1 => exact ⟨r1, rfl⟩
  | none => exact absurd rfl ((hash_table_get_none ps r.pid).mp hg r h)

/-- The lookup after a write through a record pointer that keeps the pid. -/
theorem hash_table_get_update (ps : List process) (k q : Int) (f : process → process)
    (hf : ∀ r, (f r).pid = r.pid) :
    hash_table_get (update ps k f) q
      = (hash_table_get ps q).map (fun r => if r.pid = k then f r else r) := by
  induction ps with
  | nil => rfl
  | cons a l ih =>
    unfold hash_table_get update at ih ⊢
    simp only [List.map_cons, List.find?_cons]
    have hp : (if a.pid = k then f a else a).pid = a.pid := by
      split_ifs
      · exact hf a
      · rfl
    rw [hp]
    by_cases h : a.pid = q
    · simp [h]
    · simp only [h, decide_False]
      exact ih

/-- The lookup after `hash_table_put` of a new record. -/
theorem hash_table_get_append (ps : List process) (r : process) (q : Int) :
    hash_table_get (ps ++ [r]) q
      = (hash_table_get ps q).or (if r.pid = q then some r else none) := by
  unfold hash_table_get
  rw [List.find?_append]
  congr 1
  by_cases h : r.pid = q <;> simp [h]

/-- The lookup after `hash_table_pop`. -/
theorem hash_table_get_pop (ps : List process) (k q : Int) :
    hash_table_get (hash_table_pop ps k) q = if q = k then none else hash_table_get ps q := by
  induction ps with
  | nil => simp [hash_table_get, hash_table_pop]
  | cons a l ih =>
    unfold hash_table_get hash_table_pop at ih ⊢
    by_cases hk : a.pid = k
    · rw [List.filter_cons_of_neg (by simp [hk]), ih]
      by_cases hq : q = k
      · simp [hq]
      · have : ¬ a.pid = q := fun h => hq (h ▸ hk)
        simp [hq, List.find?_cons, this]
    · rw [List.filter_cons_of_pos (by simp [hk]), List.find?_cons, List.find?_cons]
      by_cases hq : a.pid = q
      · have : ¬ q = k := fun h => hk (hq.trans h)
        simp [hq, this]
      · simp only [hq, decide_False]
        exact ih

/-! ## Process table: insertion -/

/-- C10: `process_insert` of a pid that is not in the table, with a parent
other than itself.  If the parent record exists and the sid is 0, the call
succeeds, the new record has the given pid and ppid, the sid of the parent, no
children and no wait status, it is the last child of the parent, every other
record and the ready list are as before, and the table has one record more.
If the parent record does not exist the call fails and the table is
unchanged. -/
theorem process_insert_new (t : Table) (pid ppid : Int)
    (hnew : process_get t pid = none) (hne : ppid ≠ pid) :
    (∀ parent, process_get t ppid = some parent →
      ∃ t1, process_insert t pid ppid 0 = some (.ok, t1)
        ∧ process_get t1 pid = some ⟨pid, ppid, parent.sid, [], -1⟩
        ∧ process_get t1 ppid = some { parent with children := parent.children ++ [pid] }
        ∧ (∀ q, q ≠ pid → q ≠ ppid → process_get t1 q = process_get t q)
        ∧ t1.ready = t.ready ∧ t1.self = t.self
        ∧ t1.processes.length = t.processes.length + 1)
    ∧ (process_get t ppid = none →
        ∀ sid, process_insert t pid ppid sid = some (.fail .ESRCH, t)) := by
  constructor
  · intro parent hpar
    have hppid : parent.pid = ppid := (hash_table_get_some _ _ _ hpar).1
    refine ⟨process_create t pid ppid parent.sid (some parent), ?_, ?_, ?_, ?_, rfl, rfl, ?_⟩
    · simp [process_insert, hnew, hne, hpar]
    · unfold process_get at hnew hpar ⊢
      simp only [process_create, hash_table_get_append, hppid]
      rw [hash_table_get_update, hnew]
      · simp
      · exact fun _ => rfl
    · unfold process_get at hnew hpar ⊢
      simp only [process_create, hash_table_get_append, hppid]
      rw [hash_table_get_update, hpar]
      · simp [hppid]
      · exact fun _ => rfl
    · intro q hq1 hq2
      unfold process_get at hnew hpar ⊢
      simp only [process_create, hash_table_get_append, hppid]
      rw [hash_table_get_update]
      · have hq1b : ¬ pid = q := fun h => hq1 h.symm
        simp only [hq1b, if_false, Option.or_none]
        cases hg : hash_table_get t.processes q with
        | none => rfl
        | some r =>
          have : r.pid ≠ ppid := by
            rw [(hash_table_get_some _ _ _ hg).1]; exact hq2
          simp [this]
      · exact fun _ => rfl
    · simp [process_create, update, hppid]
  · intro hpar sid
    simp [process_insert, hnew, hne, hpar]

/-- Witness of C10: the first fork of the supervisor 100 adds the record of
the child 10 under it. -/
theorem process_insert_new_witness :
    process_get ⟨[⟨1, 1, 1, [], -1⟩, ⟨100, 100, 100, [], -1⟩], [], 100⟩ 10 = none
    ∧ (100 : Int) ≠ 10
    ∧ ∃ t1, process_insert ⟨[⟨1, 1, 1, [], -1⟩, ⟨100, 100, 100, [], -1⟩], [], 100⟩ 10 100 0
          = some (.ok, t1)
        ∧ process_get t1 10 = some ⟨10, 100, 100, [], -1⟩
        ∧ process_get t1 100 = some ⟨100, 100, 100, [10], -1⟩ :=
  ⟨by decide, by decide,
    match (process_insert_new ⟨[⟨1, 1, 1, [], -1⟩, ⟨100, 100, 100, [], -1⟩], [], 100⟩ 10 100
      (by decide) (by decide)).1 ⟨100, 100, 100, [], -1⟩ (by decide) with
    | ⟨t1, h1, h2, h3, _⟩ => ⟨t1, h1, h2, h3⟩⟩

/-! ## Process table: collection -/

/-- The lookup after `process_unparent`: only the children list of the parent
changes, by the removal of the first entry of the process. -/
theorem process_get_unparent (t : Table) (proc : process) (q : Int) :
    process_get (process_unparent t proc) q
      = (process_get t q).map (fun r =>
          if r.pid = proc.ppid then { r with children := r.children.erase proc.pid } else r) := by
  unfold process_unparent
  cases hpar : process_get t proc.ppid with
  | none =>
    simp only
    cases hq : process_get t q with
    | none => rfl
    | some r =>
      have hr := (hash_table_get_some _ _ _ hq).1
      have : r.pid ≠ proc.ppid := by
        intro h
        rw [hr] at h
        rw [h, hpar] at hq
        exact Option.noConfusion hq
      simp [this]
  | some parent =>
    have hp := (hash_table_get_some _ _ _ hpar).1
    simp only [process_get, hp]
    rw [hash_table_get_update]
    exact fun _ => rfl

/-- The function `process_unparent` keeps the ready list and the size of the
table. -/
theorem process_unparent_ready (t : Table) (proc : process) :
    (process_unparent t proc).ready = t.ready
    ∧ (process_unparent t proc).self = t.self
    ∧ (process_unparent t proc).processes.length = t.processes.length := by
  unfold process_unparent
  cases process_get t proc.ppid <;> simp [update]

/-- One iteration of the loop of `process_reparent_children` keeps the ready
list. -/
theorem process_reparent_one_ready (t t1 : Table) (parent c : Int) (rest : List Int)
    (h : process_reparent_one t parent c rest = some t1) :
    t1.ready = t.ready ∧ t1.self = t.self := by
  unfold process_reparent_one at h
  simp only at h
  split at h
  · exact Option.noConfusion h
  · split at h
    · exact Option.noConfusion h
    · cases h; exact ⟨rfl, rfl⟩

/-- The loop of `process_reparent_children` keeps the ready list. -/
theorem process_reparent_loop_ready (fuel : Nat) :
    ∀ (t t1 : Table) (parent : Int), process_reparent_loop fuel t parent = some t1 →
      t1.ready = t.ready ∧ t1.self = t.self := by
  induction fuel with
  | zero => intro t t1 parent h; simp [process_reparent_loop] at h
  | succ n ih =>
    intro t t1 parent h
    unfold process_reparent_loop at h
    split at h
    · exact Option.noConfusion h
    · split at h
      · cases h; exact ⟨rfl, rfl⟩
      · split at h
        · exact Option.noConfusion h
        · rename_i t2 hone
          have h1 := process_reparent_one_ready _ _ _ _ _ hone
          have h2 := ih _ _ _ h
          exact ⟨h2.1.trans h1.1, h2.2.trans h1.2⟩

/-- A table whose keys are unique and which holds init and self has size 2
exactly when it holds no other record. -/
theorem table_size_two (t : Table)
    (hkeys : (t.processes.map (fun r => r.pid)).Nodup)
    (hinit : (process_get t 1).isSome) (hself : (process_get t t.self).isSome)
    (hne : t.self ≠ 1) :
    t.processes.length = 2 ↔ ∀ r ∈ t.processes, r.pid = 1 ∨ r.pid = t.self := by
  have hmem1 : (1 : Int) ∈ t.processes.map (fun r => r.pid) := by
    obtain ⟨r, hr⟩ := Option.isSome_iff_exists.mp hinit
    have := hash_table_get_some _ _ _ hr
    exact List.mem_map.mpr ⟨r, this.2, this.1⟩
  have hmem2 : t.self ∈ t.processes.map (fun r => r.pid) := by
    obtain ⟨r, hr⟩ := Option.isSome_iff_exists.mp hself
    have := hash_table_get_some _ _ _ hr
    exact List.mem_map.mpr ⟨r, this.2, this.1⟩
  have hnd : ([1, t.self] : List Int).Nodup := by simp [Ne.symm hne]
  have hsub : ([1, t.self] : List Int) ⊆ t.processes.map (fun r => r.pid) := by
    intro x hx
    simp only [List.mem_cons, List.mem_singleton, List.not_mem_nil, or_false] at hx
    rcases hx with rfl | rfl
    · exact hmem1
    · exact hmem2
  have hle : 2 ≤ t.processes.length := by
    have := (List.subperm_of_subset hnd hsub).length_le
    simpa using this
  constructor
  · intro hlen r hr
    have hperm : ([1, t.self] : List Int).Perm (t.processes.map (fun r => r.pid)) :=
      (List.subperm_of_subset hnd hsub).perm_of_length_le (by simp [hlen])
    have : r.pid ∈ ([1, t.self] : List Int) :=
      hperm.symm.subset (List.mem_map.mpr ⟨r, hr, rfl⟩)
    simpa using this
  · intro hall
    have hsub2 : t.processes.map (fun r => r.pid) ⊆ ([1, t.self] : List Int) := by
      intro x hx
      obtain ⟨r, hr, rfl⟩ := List.mem_map.mp hx
      simpa using hall r hr
    have := (List.subperm_of_subset hkeys hsub2).length_le
    simp at this
    omega

/-- The cases of `process_collect`.  With a table of size 2 (which, for a
table with unique keys that holds init and self, means only init and self) it
fails with ECHILD; otherwise with an empty ready list it fails with EAGAIN;
otherwise, if the head of the ready list is the pid of a record, it returns
that record, removes the head from the ready list and the record from the
table, and every other record stays, only losing the collected pid from its
children if it is the parent.  The function `process_exit` appends at the tail
of the ready list. -/
theorem process_collect_spec (t : Table) :
    (t.processes.length = 2 → process_collect t = some (.null .ECHILD))
    ∧ (t.processes.length ≠ 2 → t.ready = [] → process_collect t = some (.null .EAGAIN))
    ∧ (∀ p rest proc, t.processes.length ≠ 2 → t.ready = p :: rest →
        process_get t p = some proc →
        ∃ proc1 t1, process_collect t = some (.proc proc1 t1)
          ∧ proc1.pid = p ∧ proc1.ppid = proc.ppid ∧ proc1.sid = proc.sid
          ∧ proc1.wstatus = proc.wstatus
          ∧ t1.ready = rest ∧ process_get t1 p = none
          ∧ (∀ q, q ≠ p → process_get t1 q = (process_get t q).map (fun r =>
              if r.pid = proc.ppid then { r with children := r.children.erase p } else r)))
    ∧ (∀ pid wstatus t1, process_exit t pid wstatus = some (true, t1) →
        t1.ready = t.ready ++ [pid])
    ∧ ((t.processes.map (fun r => r.pid)).Nodup → (process_get t 1).isSome →
        (process_get t t.self).isSome → t.self ≠ 1 →
        (t.processes.length = 2 ↔ ∀ r ∈ t.processes, r.pid = 1 ∨ r.pid = t.self)) := by
  refine ⟨?_, ?_, ?_, ?_, table_size_two t⟩
  · intro h
    simp [process_collect, h]
  · intro h hr
    simp [process_collect, h, hr]
  · intro p rest proc hlen hready hget
    have hpid : proc.pid = p := (hash_table_get_some _ _ _ hget).1
    have hget1 : process_get (process_unparent { t with ready := rest } proc) p
        = some (if proc.pid = proc.ppid
            then { proc with children := proc.children.erase proc.pid } else proc) := by
      rw [process_get_unparent]
      show Option.map _ (process_get t p) = _
      rw [hget]
      rfl
    refine ⟨(if proc.pid = proc.ppid
        then { proc with children := proc.children.erase proc.pid } else proc),
      { process_unparent { t with ready := rest } proc with
        processes := hash_table_pop (process_unparent { t with ready := rest } proc).processes p },
      ?_, ?_, ?_, ?_, ?_, ?_, ?_, ?_⟩
    · simp only [process_collect, hlen, if_false, hready, hget]
      rw [hget1]
    · split_ifs <;> exact hpid
    · split_ifs <;> rfl
    · split_ifs <;> rfl
    · split_ifs <;> rfl
    · exact (process_unparent_ready _ proc).1
    · simp [process_get, hash_table_get_pop]
    · intro q hq
      simp only [process_get, hash_table_get_pop, hq, if_false]
      have := process_get_unparent { t with ready := rest } proc q
      simp only [process_get] at this
      rw [this, hpid]
  · intro pid wstatus t1 h
    unfold process_exit at h
    split at h
    · simp at h
    · simp only at h
      split at h
      · exact Option.noConfusion h
      · rename_i t2 hre
        simp only [Option.some.injEq, Prod.mk.injEq, true_and] at h
        unfold process_reparent_children at hre
        split at hre
        · exact Option.noConfusion hre
        · have := (process_reparent_loop_ready _ _ _ _ hre).1
          rw [← h]
          simp [this]

/-! ## Start limit -/

/-- The slot under the cursor of a ring is the head of the ring rotated by
the cursor, and writing it and advancing the cursor shifts the rotated ring by
one place. -/
theorem ring_step (times : List Nat) (c x : Nat) (hc : c < times.length) :
    times.getD c 0 = (times.rotate c).headD 0
    ∧ (times.set c x).rotate ((c + 1) % times.length) = (times.rotate c).tail ++ [x] := by
  obtain ⟨A, y, Bs, rfl, hA⟩ : ∃ A y Bs, times = A ++ y :: Bs ∧ A.length = c := by
    refine ⟨times.take c, times[c], times.drop (c + 1), ?_, ?_⟩
    · rw [← List.drop_eq_getElem_cons hc, List.take_append_drop]
    · simp [Nat.le_of_lt hc]
  subst hA
  have hrot : (A ++ y :: Bs).rotate A.length = y :: Bs ++ A := List.rotate_append_length_eq A _
  constructor
  · rw [hrot]
    simp [List.getD_eq_getElem?_getD, List.getElem?_append_right (le_refl A.length)]
  · rw [hrot, List.set_append_right _ _ (le_refl _)]
    simp only [Nat.sub_self, List.set_cons_zero, List.cons_append, List.tail_cons,
      List.length_append, List.length_cons]
    cases Bs with
    | nil =>
      simp
    | cons b Bs =>
      have hlt : A.length + 1 < A.length + ((b :: Bs).length + 1) := by simp
      rw [Nat.mod_eq_of_lt hlt]
      have : A ++ x :: b :: Bs = (A ++ [x]) ++ (b :: Bs) := by simp
      rw [this]
      have h2 : A.length + 1 = (A ++ [x]).length := by simp
      rw [h2, List.rotate_append_length_eq]
      simp

/-- Spaced start times: at most `burst` of them fall in a window of length
`interval` that is closed on the left and open on the right. -/
theorem spaced_count (interval burst : Nat) (hb : 1 ≤ burst) (t : Nat) :
    ∀ l : List Nat, spaced interval burst l →
      (l.filter (fun s => decide (t ≤ s ∧ s < t + interval))).length ≤ burst := by
  intro l
  induction l with
  | nil => intro _; simp
  | cons x older ih =>
    intro hsp
    obtain ⟨hx, hold⟩ := hsp
    by_cases hw : t ≤ x ∧ x < t + interval
    · have hsplit : older = older.take (burst - 1) ++ older.drop (burst - 1) :=
        (List.take_append_drop _ _).symm
      have hdrop : (older.drop (burst - 1)).filter
          (fun s => decide (t ≤ s ∧ s < t + interval)) = [] := by
        rw [List.filter_eq_nil_iff]
        intro a ha
        have := hx a ha
        simp only [decide_eq_true_eq, not_and, not_lt]
        intro hta
        omega
      have htake : ((older.take (burst - 1)).filter
          (fun s => decide (t ≤ s ∧ s < t + interval))).length ≤ burst - 1 :=
        le_trans (List.length_filter_le _ _) (by simp)
      rw [List.filter_cons_of_pos (by simpa using hw), hsplit, List.filter_append, hdrop]
      simp only [List.append_nil, List.length_cons]
      omega
    · rw [List.filter_cons_of_neg (by simpa using hw)]
      exact ih hold

/-- In a list sorted newest first, every entry from place `k` on is at most
the entry at place `k`, which is the last of the first `k + 1` entries. -/
theorem sorted_drop_le_last (R z : List Nat) (k : Nat) (hs : List.Pairwise (fun a b => a ≥ b) R)
    (a y : Nat) (ha : a ∈ R.drop k) (hy : ((R ++ z).take (k + 1)).getLast? = some y) :
    a ≤ y := by
  have hk : k < R.length := by
    by_contra hk
    rw [List.drop_eq_nil_of_le (not_lt.mp hk)] at ha
    exact absurd ha (List.not_mem_nil a)
  have hyk : y = R[k] := by
    rw [List.getLast?_take] at hy
    simp only [Nat.add_one_ne_zero, if_false, Nat.add_sub_cancel] at hy
    rw [List.getElem?_append_left hk, List.getElem?_eq_getElem hk] at hy
    simpa using hy.symm
  rw [List.drop_eq_getElem_cons hk] at ha
  have hp : List.Pairwise (fun a b => a ≥ b) (R.drop k) := hs.sublist (List.drop_sublist k R)
  rw [List.drop_eq_getElem_cons hk, List.pairwise_cons] at hp
  rcases List.mem_cons.mp ha with h | h
  · rw [h, hyk]
  · rw [hyk]; exact hp.1 a h

/-- The start times that the restarts record keep the list of all starts,
newest first, spaced: the gate compares the new start with the start `burst`
places before it, which the ring holds under the cursor. -/
theorem monitor_restarts_spaced (svc : service) (I B : Nat) (hB : 1 ≤ B) :
    ∀ (clocks : List Nat) (m : start_limit) (times R : List Nat) (b : Nat),
      m.start_times = some times → times.length = B → m.start_limit_burst = B →
      m.start_time_cursor < B → m.start_limit_interval = I →
      (times.rotate m.start_time_cursor).reverse = (R ++ List.replicate B 0).take B →
      R ≠ [] → List.Pairwise (fun a b => a ≥ b) R → spaced I B R →
      (∀ x ∈ R, x ≤ b + svc.delay) →
      List.Chain (fun a b => a ≤ b) b clocks → (∀ c ∈ clocks, c + svc.delay < 2 ^ 64) →
      spaced I B ((monitor_restarts svc m clocks).reverse ++ R) := by
  intro clocks
  induction clocks with
  | nil =>
    intro m times R b _ _ _ _ _ _ _ _ hsp _ _ _
    simpa [monitor_restarts] using hsp
  | cons c cs ih =>
    intro m times R b htimes hlen hburst hcur hint hview hR hsorted hsp hbound hchain hclk
    have hbc : b ≤ c := (List.chain_cons.mp hchain).1
    have hchain2 : List.Chain (fun a b => a ≤ b) c cs := (List.chain_cons.mp hchain).2
    have hcd : c + svc.delay < 2 ^ 64 := hclk c (by simp)
    have hnext : (c + svc.delay) % 2 ^ 64 = c + svc.delay := Nat.mod_eq_of_lt hcd
    have hcl : m.start_time_cursor < times.length := by rw [hlen]; exact hcur
    obtain ⟨hhead, hrot⟩ := ring_step times m.start_time_cursor (c + svc.delay) hcl
    -- the slot under the cursor
    have hrne : times.rotate m.start_time_cursor ≠ [] := by
      intro h
      have h1 : (times.rotate m.start_time_cursor).length = times.length :=
        List.length_rotate _ _
      rw [h, hlen] at h1
      simp at h1
      omega
    obtain ⟨h0, rest, hrr⟩ : ∃ h0 rest, times.rotate m.start_time_cursor = h0 :: rest :=
      List.exists_cons_of_ne_nil hrne
    have hslot : times.getD m.start_time_cursor 0 = h0 := by rw [hhead, hrr]; rfl
    have hlast : ((R ++ List.replicate B 0).take B).getLast? = some h0 := by
      rw [← hview, hrr, List.getLast?_reverse]; rfl
    have hh0 : h0 ≤ c + svc.delay := by
      have hmem : h0 ∈ (R ++ List.replicate B 0).take B := List.mem_of_getLast?_eq_some hlast
      have hmem2 := List.mem_of_mem_take hmem
      rcases List.mem_append.mp hmem2 with h | h
      · exact le_trans (hbound h0 h) (by omega)
      · rw [(List.mem_replicate.mp h).2]; exact Nat.zero_le _
    unfold monitor_restarts monitor_restart_gate
    simp only [htimes, hnext, hslot]
    have hdelta : (c + svc.delay + 2 ^ 64 - h0) % 2 ^ 64 = c + svc.delay - h0 := by
      have e : c + svc.delay + 2 ^ 64 - h0 = (c + svc.delay - h0) + 2 ^ 64 := by omega
      rw [e, Nat.add_mod_right]
      exact Nat.mod_eq_of_lt (by omega)
    rw [hdelta]
    by_cases hgate : c + svc.delay - h0 < m.start_limit_interval
    · simp only [hgate, if_true]
      simpa using hsp
    · simp only [hgate, if_false]
      have hI : h0 + I ≤ c + svc.delay := by rw [hint] at hgate; omega
      have hB1 : B - 1 + 1 = B := by omega
      have hlast2 : ((R ++ List.replicate B 0).take (B - 1 + 1)).getLast? = some h0 := by
        rw [hB1]; exact hlast
      have key := ih
        { m with start_times := some (times.set m.start_time_cursor (c + svc.delay)),
                 start_time_cursor := (m.start_time_cursor + 1) % m.start_limit_burst }
        (times.set m.start_time_cursor (c + svc.delay)) ((c + svc.delay) :: R) c
        rfl (by simp [hlen]) hburst (by simp only [hburst]; exact Nat.mod_lt _ (by omega)) hint
        (by
          simp only [hburst]
          rw [← hlen, hrot, List.reverse_append, hrr]
          simp only [List.tail_cons, List.reverse_cons, List.reverse_nil, List.nil_append,
            List.singleton_append, List.cons_append]
          have hv : rest.reverse ++ [h0] = (R ++ List.replicate times.length 0).take times.length := by
            rw [hlen, ← hview, hrr, List.reverse_cons]
          have hlt : times.length < (R ++ List.replicate times.length 0).length := by
            have : 0 < R.length := List.length_pos.mpr hR
            simp; omega
          have hdl := List.dropLast_take hlt
          rw [← hv, List.dropLast_concat] at hdl
          rw [hdl]
          obtain ⟨k, hk⟩ : ∃ k, times.length = k + 1 := ⟨B - 1, by omega⟩
          rw [hk]
          simp)
        (by simp)
        (List.pairwise_cons.mpr ⟨fun x hx => le_trans (hbound x hx) (by omega), hsorted⟩)
        ⟨fun a ha => by
            have := sorted_drop_le_last R (List.replicate B 0) (B - 1) hsorted a h0 ha hlast2
            omega, hsp⟩
        (by
          intro x hx
          rcases List.mem_cons.mp hx with h | h
          · rw [h]
          · exact le_trans (hbound x h) (by omega))
        hchain2 (fun x hx => hclk x (by simp [hx]))
      simpa [monitor_restarts] using key

/-- C6, as amended: rate-limit safety of `monitor_func`.  With a start-limit
interval above 0 and a burst above 1, for every sequence of values of the
monotonic clock at which the restarting case is entered, provided the clock
plus the restart delay stays below 2^64, the start times recorded, that is the
initial one and that of every restart the gate lets through, are such that at
most burst (capped at 100) of them fall in any window `[t, t + interval)`. -/
theorem monitor_start_limit_safety (svc : service) (clock0 : Nat) (clocks : List Nat)
    (hI : 0 < svc.start_limit_interval) (hB : 1 < svc.start_limit_burst)
    (hmono : List.Chain (fun a b => a ≤ b) clock0 clocks)
    (hclk : ∀ c ∈ clocks, c + svc.delay < 2 ^ 64) (t : Nat) :
    ((clock0 :: monitor_restarts svc (monitor_start_limit_init svc clock0) clocks).filter
        (fun s => decide (t ≤ s ∧ s < t + svc.start_limit_interval))).length
      ≤ min svc.start_limit_burst MAX_START_LIMIT_BURST := by
  set B := min svc.start_limit_burst MAX_START_LIMIT_BURST with hBdef
  have hB2 : 2 ≤ B := by
    simp only [hBdef, MAX_START_LIMIT_BURST]
    omega
  have hcap : (if svc.start_limit_burst > MAX_START_LIMIT_BURST then MAX_START_LIMIT_BURST
      else svc.start_limit_burst) = B := by
    simp only [hBdef, MAX_START_LIMIT_BURST]
    split_ifs <;> omega
  have hinit : monitor_start_limit_init svc clock0
      = ⟨some ((List.replicate B 0).set 0 clock0), svc.start_limit_interval, B, (0 + 1) % B⟩ := by
    simp only [monitor_start_limit_init, hI, hB, and_self, if_true, hcap]
  obtain ⟨k, hk⟩ : ∃ k, B = k + 2 := ⟨B - 2, by omega⟩
  have htimes : (List.replicate B 0).set 0 clock0 = clock0 :: List.replicate (k + 1) 0 := by
    rw [hk]; rfl
  have hcur : (0 + 1) % B = 1 := by rw [hk]; exact Nat.mod_eq_of_lt (by omega)
  have hsp := monitor_restarts_spaced svc svc.start_limit_interval B (by omega) clocks
    (monitor_start_limit_init svc clock0) (clock0 :: List.replicate (k + 1) 0) [clock0] clock0
    (by rw [hinit, htimes]) (by simp [hk]) (by rw [hinit]) (by rw [hinit, hcur]; show 1 < B; omega)
    (by rw [hinit])
    (by
      rw [hinit, hcur]
      simp only [List.rotate_cons_succ, List.rotate_zero, List.reverse_append,
        List.reverse_cons, List.reverse_nil, List.nil_append, List.reverse_replicate,
        List.singleton_append, hk]
      simp [List.take_replicate])
    (by simp) (List.pairwise_singleton _ _) ⟨by simp, trivial⟩
    (by intro x hx; rw [List.mem_singleton.mp hx]; omega) hmono hclk
  have hcount := spaced_count svc.start_limit_interval B (by omega) t _ hsp
  have hrev : (monitor_restarts svc (monitor_start_limit_init svc clock0) clocks).reverse
      ++ [clock0]
      = (clock0 :: monitor_restarts svc (monitor_start_limit_init svc clock0) clocks).reverse := by
    simp
  rw [hrev, List.filter_reverse, List.length_reverse] at hcount
  exact hcount

/-- Witness of C6, as amended: burst 2 and interval 10, restarts entered at the clock
values 105 and 120 after an initial start at 100 with a delay of 1. -/
theorem monitor_start_limit_safety_witness :
    0 < (⟨.ST_SIMPLE, .KM_CGROUP, 0, .RP_ALWAYS, false, 1, 10, 2⟩ : service).start_limit_interval
    ∧ 1 < (⟨.ST_SIMPLE, .KM_CGROUP, 0, .RP_ALWAYS, false, 1, 10, 2⟩ : service).start_limit_burst
    ∧ monitor_restarts ⟨.ST_SIMPLE, .KM_CGROUP, 0, .RP_ALWAYS, false, 1, 10, 2⟩
        (monitor_start_limit_init ⟨.ST_SIMPLE, .KM_CGROUP, 0, .RP_ALWAYS, false, 1, 10, 2⟩ 100)
        [105, 120] = [106, 121]
    ∧ ((100 :: monitor_restarts ⟨.ST_SIMPLE, .KM_CGROUP, 0, .RP_ALWAYS, false, 1, 10, 2⟩
          (monitor_start_limit_init ⟨.ST_SIMPLE, .KM_CGROUP, 0, .RP_ALWAYS, false, 1, 10, 2⟩ 100)
          [105, 120]).filter (fun s => decide (100 ≤ s ∧ s < 100 + 10))).length ≤ min 2 100 :=
  ⟨by decide, by decide, by decide,
    monitor_start_limit_safety ⟨.ST_SIMPLE, .KM_CGROUP, 0, .RP_ALWAYS, false, 1, 10, 2⟩ 100
      [105, 120] (by decide) (by decide)
      (List.Chain.cons (by decide) (List.Chain.cons (by decide) List.Chain.nil))
      (by decide) 100⟩

/-- Counterexample to C6 as stated: with the restart delay `infinity`
(`TS_INFINITY`, 2^64 - 2), burst 2 and interval 10, the sum of the clock and
the delay wraps around; after an initial start recorded at 100, restarts
entered at the clock values 100 and 101 both pass the gate and are recorded at
98 and 99, so that three start times fall in the window from 98 to 108. -/
theorem monitor_start_limit_wraps :
    monitor_restarts ⟨.ST_SIMPLE, .KM_CGROUP, 0, .RP_ALWAYS, false, 2 ^ 64 - 2, 10, 2⟩
        (monitor_start_limit_init
          ⟨.ST_SIMPLE, .KM_CGROUP, 0, .RP_ALWAYS, false, 2 ^ 64 - 2, 10, 2⟩ 100)
        [100, 101] = [98, 99]
    ∧ ¬ ((100 :: monitor_restarts
            ⟨.ST_SIMPLE, .KM_CGROUP, 0, .RP_ALWAYS, false, 2 ^ 64 - 2, 10, 2⟩
            (monitor_start_limit_init
              ⟨.ST_SIMPLE, .KM_CGROUP, 0, .RP_ALWAYS, false, 2 ^ 64 - 2, 10, 2⟩ 100)
            [100, 101]).filter (fun s => decide (98 ≤ s ∧ s < 98 + 10))).length
          ≤ min 2 MAX_START_LIMIT_BURST := by
  decide

/-! ## Process table: init and self -/

/-- C8, the code at the failing input: on the initial table of a supervisor
with pid 100, `process_drop(1)` returns true and removes the record of init,
and so does a session event for pid 1 whose callback answers drop (as the
callback of the monitor does for a service that is not forking);
`process_drop(100)` removes the record of the supervisor itself.
`process_remove` refuses both with `fatal`. -/
theorem process_drop_removes_init :
    processes_init 100 100
      = some ⟨[⟨1, 1, 1, [], -1⟩, ⟨100, 100, 100, [], -1⟩], [], 100⟩
    ∧ process_drop ⟨[⟨1, 1, 1, [], -1⟩, ⟨100, 100, 100, [], -1⟩], [], 100⟩ 1
      = some (true, ⟨[⟨100, 100, 100, [], -1⟩], [], 100⟩)
    ∧ procwatch_ingest ⟨[⟨1, 1, 1, [], -1⟩, ⟨100, 100, 100, [], -1⟩], [], 100⟩
        (.sid ⟨1, 1⟩) (fun _ _ => .PROCWATCH_ACTION_DROP)
      = some ⟨[⟨100, 100, 100, [], -1⟩], [], 100⟩
    ∧ process_get ⟨[⟨100, 100, 100, [], -1⟩], [], 100⟩ 1 = none
    ∧ process_drop ⟨[⟨1, 1, 1, [], -1⟩, ⟨100, 100, 100, [], -1⟩], [], 100⟩ 100
      = some (true, ⟨[⟨1, 1, 1, [], -1⟩], [], 100⟩)
    ∧ process_remove ⟨[⟨1, 1, 1, [], -1⟩, ⟨100, 100, 100, [], -1⟩], [], 100⟩ 1 = none
    ∧ process_remove ⟨[⟨1, 1, 1, [], -1⟩, ⟨100, 100, 100, [], -1⟩], [], 100⟩ 100 = none := by
  decide

/-! ## Process table: the ready list -/

/-- A write that keeps the pid and the wait status keeps the status map. -/
theorem status_map_update (ps : List process) (k : Int) (f : process → process)
    (hf : ∀ r, (f r).pid = r.pid ∧ (f r).wstatus = r.wstatus) :
    status_map (update ps k f) = status_map ps := by
  unfold status_map update
  rw [List.map_map]
  apply List.map_congr_left
  intro r _
  simp only [Function.comp]
  split_ifs
  · rw [(hf r).1, (hf r).2]
  · rfl

/-- The function `process_unparent` keeps the status map. -/
theorem process_unparent_status (t : Table) (proc : process) :
    status_map (process_unparent t proc).processes = status_map t.processes := by
  unfold process_unparent
  cases process_get t proc.ppid with
  | none => rfl
  | some parent => exact status_map_update _ _ _ (fun _ => ⟨rfl, rfl⟩)

/-- One iteration of the loop of `process_reparent_children` keeps the status
map. -/
theorem process_reparent_one_status (t t1 : Table) (parent c : Int) (rest : List Int)
    (h : process_reparent_one t parent c rest = some t1) :
    status_map t1.processes = status_map t.processes := by
  unfold process_reparent_one at h
  simp only at h
  split at h
  · exact Option.noConfusion h
  · split at h
    · exact Option.noConfusion h
    · cases h
      simp only
      rw [status_map_update, status_map_update, status_map_update]
      all_goals exact fun _ => ⟨rfl, rfl⟩

/-- The loop of `process_reparent_children` keeps the status map. -/
theorem process_reparent_loop_status (fuel : Nat) :
    ∀ (t t1 : Table) (parent : Int), process_reparent_loop fuel t parent = some t1 →
      status_map t1.processes = status_map t.processes := by
  induction fuel with
  | zero => intro t t1 parent h; simp [process_reparent_loop] at h
  | succ n ih =>
    intro t t1 parent h
    unfold process_reparent_loop at h
    split at h
    · exact Option.noConfusion h
    · split at h
      · cases h; rfl
      · split at h
        · exact Option.noConfusion h
        · rename_i t2 hone
          exact (ih _ _ _ h).trans (process_reparent_one_status _ _ _ _ _ hone)

/-- The function `process_reparent_children` keeps the status map and the
ready list. -/
theorem process_reparent_children_status (t t1 : Table) (parent : Int)
    (h : process_reparent_children t parent = some t1) :
    status_map t1.processes = status_map t.processes ∧ t1.ready = t.ready := by
  unfold process_reparent_children at h
  split at h
  · exact Option.noConfusion h
  · exact ⟨process_reparent_loop_status _ _ _ _ h, (process_reparent_loop_ready _ _ _ _ h).1⟩

/-- The keys of the table are the first components of the status map. -/
theorem status_map_keys (ps : List process) :
    ps.map (fun r => r.pid) = (status_map ps).map Prod.fst := by
  simp [status_map, List.map_map, Function.comp]

/-- A write that keeps the pid keeps the keys of the table. -/
theorem update_keys (ps : List process) (k : Int) (f : process → process)
    (hf : ∀ r, (f r).pid = r.pid) :
    (update ps k f).map (fun r => r.pid) = ps.map (fun r => r.pid) := by
  unfold update
  rw [List.map_map]
  apply List.map_congr_left
  intro r _
  simp only [Function.comp]
  split_ifs
  · exact hf r
  · rfl

/-- The function `process_insert_sid` keeps the status map and the ready
list. -/
theorem process_insert_sid_status (t : Table) (proc : process) (sid : Int) :
    status_map (process_insert_sid t proc sid).2.processes = status_map t.processes
    ∧ (process_insert_sid t proc sid).2.ready = t.ready := by
  unfold process_insert_sid
  split_ifs
  · exact ⟨rfl, rfl⟩
  · exact ⟨status_map_update _ _ _ (fun _ => ⟨rfl, rfl⟩), rfl⟩
  · exact ⟨rfl, rfl⟩

/-- The function `process_create` appends one record without wait status. -/
theorem process_create_status (t : Table) (pid ppid sid : Int) (parent : Option process) :
    status_map (process_create t pid ppid sid parent).processes
      = status_map t.processes ++ [(pid, -1)]
    ∧ (process_create t pid ppid sid parent).ready = t.ready := by
  unfold process_create
  cases parent with
  | none => simp [status_map]
  | some par =>
    refine ⟨?_, rfl⟩
    have := status_map_update t.processes par.pid
      (fun r => { r with children := r.children ++ [pid] }) (fun _ => ⟨rfl, rfl⟩)
    simp only [status_map, List.map_append] at this ⊢
    rw [this]
    rfl

/-- The records that `process_unparent` leaves do not depend on the ready
list. -/
theorem process_unparent_processes (t : Table) (rd : List Int) (proc : process) :
    (process_unparent ⟨t.processes, rd, t.self⟩ proc).processes
      = (process_unparent t proc).processes := by
  unfold process_unparent
  have e : process_get ⟨t.processes, rd, t.self⟩ proc.ppid = process_get t proc.ppid := rfl
  rw [e]
  cases process_get t proc.ppid <;> rfl

/-- A sequence of operations keeps an invariant that every admissible
operation keeps. -/
theorem table_run_inv (ok : Table → table_op → Prop) (inv : Table → Prop)
    (hstep : ∀ t t1 op, inv t → ok t op → table_step t op = some t1 → inv t1) :
    ∀ (ops : List table_op) (t t1 : Table), inv t → table_run_ok ok t ops →
      table_run t ops = some t1 → inv t1 := by
  intro ops
  induction ops with
  | nil =>
    intro t t1 h _ hr
    simp only [table_run] at hr
    cases hr; exact h
  | cons op ops ih =>
    intro t t1 h hok hr
    simp only [table_run] at hr
    split at hr
    · exact Option.noConfusion hr
    · rename_i t2 hs
      exact ih t2 t1 (hstep t t2 op h hok.1 hs) (hok.2 t2 hs) hr

/-- A sequence of operations satisfies a condition if its first operation
does, in the table it is applied to, and the rest does in the table that the
first operation leaves. -/
theorem table_run_ok_cons (ok : Table → table_op → Prop) (t t1 : Table) (op : table_op)
    (ops : List table_op) (h1 : ok t op) (hs : table_step t op = some t1)
    (h2 : table_run_ok ok t1 ops) : table_run_ok ok t (op :: ops) :=
  ⟨h1, fun t2 h => by rw [hs] at h; cases h; exact h2⟩

/-- The table that `processes_init` builds: init and self, or init alone for
a supervisor that is init itself. -/
theorem processes_init_eq (pid sid : Int) (t : Table) (h : processes_init pid sid = some t) :
    (pid ≠ 1 ∧ t = ⟨[⟨1, 1, 1, [], -1⟩, ⟨pid, pid, sid, [], -1⟩], [], pid⟩)
    ∨ (pid = 1 ∧ t = ⟨[⟨1, 1, 1, [], -1⟩], [], 1⟩) := by
  by_cases hp : pid = 1
  · right
    subst hp
    refine ⟨rfl, ?_⟩
    simp only [processes_init, process_insert, process_get, hash_table_get, List.find?_nil,
      process_create, ne_eq, not_true_eq_false, if_false, List.nil_append, List.find?_cons,
      decide_True, and_false, process_insert_sid] at h
    split_ifs at h <;> simp_all
  · left
    refine ⟨hp, ?_⟩
    have hp2 : ¬ (1 : Int) = pid := fun h => hp h.symm
    simp only [processes_init, process_insert, process_get, hash_table_get, List.find?_nil,
      process_create, ne_eq, not_true_eq_false, if_false, List.nil_append, List.find?_cons,
      hp2, decide_False] at h
    simpa using h.symm

/-- The records after a write through a record pointer. -/
theorem mem_update (ps : List process) (k : Int) (f : process → process) (r1 : process) :
    r1 ∈ update ps k f ↔ ∃ r ∈ ps, r1 = if r.pid = k then f r else r := by
  unfold update
  rw [List.mem_map]
  constructor
  · rintro ⟨r, hr, rfl⟩; exact ⟨r, hr, rfl⟩
  · rintro ⟨r, hr, rfl⟩; exact ⟨r, hr, rfl⟩

/-- A write that keeps the pid and the parent pid keeps the parent map. -/
theorem parent_map_update (ps : List process) (k : Int) (f : process → process)
    (hf : ∀ r, (f r).pid = r.pid ∧ (f r).ppid = r.ppid) :
    parent_map (update ps k f) = parent_map ps := by
  unfold parent_map update
  rw [List.map_map]
  apply List.map_congr_left
  intro r _
  simp only [Function.comp]
  split_ifs
  · rw [(hf r).1, (hf r).2]
  · rfl

/-- A write of children lists keeps the links of the records whose entry
stays, or that are doomed. -/
theorem linked_children (D D1 : Int → Prop) (t : Table) (k : Int) (g : List Int → List Int)
    (hD : ∀ x, D x → D1 x)
    (hg : ∀ par, process_get t k = some par → ∀ x ∈ par.children, x ∈ g par.children ∨ D1 x)
    (h : linked D t) :
    linked D1 ⟨update t.processes k (fun r => { r with children := g r.children }),
      t.ready, t.self⟩ := by
  intro r1 hr1 hd hroot
  obtain ⟨r, hr, rfl⟩ := (mem_update _ _ _ _).mp hr1
  have hpid : (if r.pid = k then { r with children := g r.children } else r).pid = r.pid := by
    split_ifs <;> rfl
  have hppid : (if r.pid = k then { r with children := g r.children } else r).ppid = r.ppid := by
    split_ifs <;> rfl
  rw [hpid] at hd hroot ⊢
  rw [hppid] at hroot ⊢
  obtain ⟨par, hpar, hmem⟩ := h r hr (fun hx => hd (hD _ hx)) hroot
  have hlook : process_get
      ⟨update t.processes k (fun r => { r with children := g r.children }), t.ready, t.self⟩
      r.ppid = some (if par.pid = k then { par with children := g par.children } else par) := by
    show hash_table_get _ _ = _
    rw [hash_table_get_update]
    · show Option.map _ (process_get t r.ppid) = _
      rw [hpar]; rfl
    · exact fun _ => rfl
  refine ⟨_, hlook, ?_⟩
  by_cases hk : par.pid = k
  · rw [if_pos hk]
    have hpk : process_get t k = some par := by
      rw [← hk, (hash_table_get_some _ _ _ hpar).1]; exact hpar
    rcases hg par hpk r.pid hmem with h1 | h1
    · exact h1
    · exact absurd h1 hd
  · rw [if_neg hk]; exact hmem

/-- A write that keeps the pid, the parent pid and the children keeps the
links. -/
theorem linked_other (D : Int → Prop) (t : Table) (k : Int) (f : process → process)
    (hf : ∀ r, (f r).pid = r.pid ∧ (f r).ppid = r.ppid ∧ (f r).children = r.children)
    (h : linked D t) : linked D ⟨update t.processes k f, t.ready, t.self⟩ := by
  intro r1 hr1 hd hroot
  obtain ⟨r, hr, rfl⟩ := (mem_update _ _ _ _).mp hr1
  have hpid : (if r.pid = k then f r else r).pid = r.pid := by
    split_ifs
    · exact (hf r).1
    · rfl
  have hppid : (if r.pid = k then f r else r).ppid = r.ppid := by
    split_ifs
    · exact (hf r).2.1
    · rfl
  rw [hpid] at hd hroot ⊢
  rw [hppid] at hroot ⊢
  obtain ⟨par, hpar, hmem⟩ := h r hr hd hroot
  refine ⟨if par.pid = k then f par else par, ?_, ?_⟩
  · show hash_table_get _ _ = _
    rw [hash_table_get_update]
    · show Option.map _ (process_get t r.ppid) = _
      rw [hpar]; rfl
    · exact fun r => (hf r).1
  · split_ifs
    · rw [(hf par).2.2]; exact hmem
    · exact hmem

/-- A write of the parent pid of `c` keeps the links, if `c` is doomed, or
becomes its own parent, or is listed in the children of its new parent. -/
theorem linked_ppid (D : Int → Prop) (t : Table) (c v : Int)
    (hc : D c ∨ v = c ∨ ∃ par, process_get t v = some par ∧ c ∈ par.children)
    (h : linked (fun x => D x ∨ x = c) t) :
    linked D ⟨update t.processes c (fun r => { r with ppid := v }), t.ready, t.self⟩ := by
  intro r1 hr1 hd hroot
  obtain ⟨r, hr, rfl⟩ := (mem_update _ _ _ _).mp hr1
  have hlook : ∀ q par, process_get t q = some par →
      ∃ par1, process_get
        ⟨update t.processes c (fun r => { r with ppid := v }), t.ready, t.self⟩ q = some par1
        ∧ par1.children = par.children := by
    intro q par hpar
    refine ⟨if par.pid = c then { par with ppid := v } else par, ?_, ?_⟩
    · show hash_table_get _ _ = _
      rw [hash_table_get_update]
      · show Option.map _ (process_get t q) = _
        rw [hpar]; rfl
      · exact fun _ => rfl
    · split_ifs <;> rfl
  by_cases hrc : r.pid = c
  · simp only [hrc, if_true] at hd hroot ⊢
    rcases hc with h1 | h1 | ⟨par, hpar, hmem⟩
    · exact absurd h1 hd
    · exact absurd h1 hroot
    · obtain ⟨par1, hp1, hc1⟩ := hlook v par hpar
      exact ⟨par1, hp1, by rw [hc1]; exact hmem⟩
  · simp only [hrc, if_false] at hd hroot ⊢
    obtain ⟨par, hpar, hmem⟩ := h r hr (fun hx => hx.elim hd hrc) hroot
    obtain ⟨par1, hp1, hc1⟩ := hlook r.ppid par hpar
    exact ⟨par1, hp1, by rw [hc1]; exact hmem⟩

/-- Adding a record with a new pid keeps the links, if the record is its own
parent or is listed in the children of its parent. -/
theorem linked_append (D : Int → Prop) (t : Table) (rnew : process)
    (hpar : rnew.ppid = rnew.pid
      ∨ ∃ par, process_get t rnew.ppid = some par ∧ rnew.pid ∈ par.children)
    (h : linked D t) : linked D ⟨t.processes ++ [rnew], t.ready, t.self⟩ := by
  have hlook : ∀ q par, process_get t q = some par →
      process_get ⟨t.processes ++ [rnew], t.ready, t.self⟩ q = some par := by
    intro q par hq
    show hash_table_get _ _ = _
    rw [hash_table_get_append]
    show Option.or (process_get t q) _ = _
    rw [hq]; rfl
  intro r hr hd hroot
  rcases List.mem_append.mp hr with hr | hr
  · obtain ⟨par, hp, hm⟩ := h r hr hd hroot
    exact ⟨par, hlook _ _ hp, hm⟩
  · rw [List.mem_singleton.mp hr] at hroot ⊢
    rcases hpar with h1 | ⟨par, hp, hm⟩
    · exact absurd h1 hroot
    · exact ⟨par, hlook _ _ hp, hm⟩

/-- Removing the record of `p` keeps the links, if no other record that is
not doomed has `p` as parent. -/
theorem linked_pop (D : Int → Prop) (t : Table) (p : Int) (rd : List Int)
    (hno : ∀ r ∈ t.processes, ¬ D r.pid → r.ppid = p → r.pid = p)
    (h : linked (fun x => D x ∨ x = p) t) :
    linked D ⟨hash_table_pop t.processes p, rd, t.self⟩ := by
  intro r hr hd hroot
  simp only [hash_table_pop, List.mem_filter, decide_eq_true_eq] at hr
  obtain ⟨par, hpar, hmem⟩ := h r hr.1 (fun hx => hx.elim hd hr.2) hroot
  have hne : r.ppid ≠ p := fun he => hr.2 (hno r hr.1 hd he)
  refine ⟨par, ?_, hmem⟩
  show hash_table_get _ _ = _
  rw [hash_table_get_pop, if_neg hne]
  exact hpar

/-- A change of the ready list alone keeps the links. -/
theorem linked_ready (D : Int → Prop) (t : Table) (rd : List Int) (h : linked D t) :
    linked D ⟨t.processes, rd, t.self⟩ := h

/-- Links that hold with fewer records doomed hold with more. -/
theorem linked_mono (D D1 : Int → Prop) (t : Table) (hD : ∀ x, D1 x → D x) (h : linked D1 t) :
    linked D t := by
  intro r hr hd hroot
  exact h r hr (fun hx => hd (hD _ hx)) hroot

/-- The function `process_unparent` keeps the parent map and the keys. -/
theorem process_unparent_parent_map (t : Table) (proc : process) :
    parent_map (process_unparent t proc).processes = parent_map t.processes
    ∧ (process_unparent t proc).processes.map (fun r => r.pid)
        = t.processes.map (fun r => r.pid) := by
  unfold process_unparent
  cases process_get t proc.ppid with
  | none => exact ⟨rfl, rfl⟩
  | some parent =>
    exact ⟨parent_map_update _ _ _ (fun _ => ⟨rfl, rfl⟩), update_keys _ _ _ (fun _ => rfl)⟩

/-- The function `process_unparent` keeps the links of all records but the
one it detaches. -/
theorem linked_unparent (D : Int → Prop) (t : Table) (proc : process) (h : linked D t) :
    linked (fun x => D x ∨ x = proc.pid) (process_unparent t proc) := by
  unfold process_unparent
  cases hp : process_get t proc.ppid with
  | none => exact linked_mono _ D t (fun x hx => Or.inl hx) h
  | some parent =>
    refine linked_children D _ t parent.pid (fun l => l.erase proc.pid)
      (fun x hx => Or.inl hx) ?_ h
    intro par _ x hx
    by_cases hxp : x = proc.pid
    · exact Or.inr (Or.inr hxp)
    · exact Or.inl ((List.mem_erase_of_ne hxp).mpr hx)

/-- The records after one iteration of the loop of
`process_reparent_children`: the keys are the same, and every record has the
parent it had or the parent 1. -/
theorem process_reparent_one_frame (t t1 : Table) (parent c : Int) (rest : List Int)
    (h : process_reparent_one t parent c rest = some t1) :
    t1.processes.map (fun r => r.pid) = t.processes.map (fun r => r.pid)
    ∧ (∀ r1 ∈ t1.processes, ∃ r ∈ t.processes, r1.pid = r.pid
        ∧ (r1.ppid = r.ppid ∨ r1.ppid = 1)) := by
  unfold process_reparent_one at h
  simp only at h
  split at h
  · exact Option.noConfusion h
  · split at h
    · exact Option.noConfusion h
    · cases h
      constructor
      · simp only
        rw [update_keys, update_keys, update_keys]
        all_goals exact fun _ => rfl
      · intro r3 hr3
        simp only at hr3
        obtain ⟨r2, hr2, rfl⟩ := (mem_update _ _ _ _).mp hr3
        obtain ⟨r1, hr1, rfl⟩ := (mem_update _ _ _ _).mp hr2
        obtain ⟨r, hr, rfl⟩ := (mem_update _ _ _ _).mp hr1
        refine ⟨r, hr, ?_, ?_⟩
        · split_ifs <;> rfl
        · split_ifs <;> simp

/-- One iteration of the loop of `process_reparent_children` keeps the
links. -/
theorem linked_reparent_one (D : Int → Prop) (t t1 : Table) (parent c : Int)
    (rest : List Int) (p : process) (hp : process_get t parent = some p)
    (hch : p.children = c :: rest)
    (h : process_reparent_one t parent c rest = some t1) (hl : linked D t) :
    linked D t1 := by
  unfold process_reparent_one at h
  simp only at h
  split at h
  · exact Option.noConfusion h
  · split at h
    · exact Option.noConfusion h
    · rename_i init hinit
      cases h
      -- the three writes, in the order of the code
      have l1 : linked (fun x => D x ∨ x = c)
          ⟨update t.processes parent (fun r => { r with children := rest }), t.ready, t.self⟩ := by
        refine linked_children D _ t parent (fun _ => rest) (fun x hx => Or.inl hx) ?_ hl
        intro par hpar x hx
        rw [hp] at hpar
        cases hpar
        rw [hch] at hx
        rcases List.mem_cons.mp hx with hx | hx
        · exact Or.inr (Or.inr hx)
        · exact Or.inl hx
      have l2 := linked_ppid (fun x => D x ∨ x = c) _ c 1 (Or.inl (Or.inr rfl))
        (linked_mono _ _ _ (fun x hx => Or.inl hx) l1)
      have l3 := linked_children (fun x => D x ∨ x = c) (fun x => D x ∨ x = c) _ 1
        (fun l => l ++ [c]) (fun x hx => hx) (fun par _ x hx => Or.inl (by simp [hx])) l2
      intro r3 hr3 hd hroot
      by_cases hc : r3.pid = c
      · have hppid : r3.ppid = 1 := by
          simp only at hr3
          obtain ⟨r2, hr2, rfl⟩ := (mem_update _ _ _ _).mp hr3
          obtain ⟨r1, hr1, rfl⟩ := (mem_update _ _ _ _).mp hr2
          have h2 : (if r1.pid = c then ({ r1 with ppid := 1 } : process) else r1).pid = c := by
            rw [← hc]; split_ifs <;> rfl
          have h1 : r1.pid = c := by
            rw [← h2]; split_ifs <;> rfl
          simp [h1]
          split_ifs <;> rfl
        rw [hppid]
        refine ⟨{ init with children := init.children ++ [c] }, ?_, ?_⟩
        · show hash_table_get _ _ = _
          rw [hash_table_get_update, hinit]
          · simp [(hash_table_get_some _ _ _ hinit).1]
          · exact fun _ => rfl
        · simp [hc]
      · exact l3 r3 hr3 (fun hx => hx.elim hd hc) hroot

/-- The loop of `process_reparent_children`: the keys are kept, every record
has the parent it had or the parent 1, the links are kept, and the children
list of the parent is empty at the end. -/
theorem process_reparent_loop_spec (D : Int → Prop) (fuel : Nat) :
    ∀ (t t1 : Table) (parent : Int), process_reparent_loop fuel t parent = some t1 →
      t1.processes.map (fun r => r.pid) = t.processes.map (fun r => r.pid)
      ∧ (∀ r1 ∈ t1.processes, ∃ r ∈ t.processes, r1.pid = r.pid
          ∧ (r1.ppid = r.ppid ∨ r1.ppid = 1))
      ∧ (linked D t → linked D t1)
      ∧ (∃ p, process_get t1 parent = some p ∧ p.children = []) := by
  induction fuel with
  | zero => intro t t1 parent h; simp [process_reparent_loop] at h
  | succ n ih =>
    intro t t1 parent h
    unfold process_reparent_loop at h
    split at h
    · exact Option.noConfusion h
    · rename_i p hp
      split at h
      · rename_i hnil
        cases h
        exact ⟨rfl, fun r hr => ⟨r, hr, rfl, Or.inl rfl⟩, fun hl => hl, p, hp, hnil⟩
      · rename_i c rest hch
        split at h
        · exact Option.noConfusion h
        · rename_i t2 hone
          obtain ⟨k1, f1⟩ := process_reparent_one_frame _ _ _ _ _ hone
          obtain ⟨k2, f2, l2, e2⟩ := ih _ _ _ h
          refine ⟨k2.trans k1, ?_, ?_, e2⟩
          · intro r1 hr1
            obtain ⟨r2, hr2, hp2, hq2⟩ := f2 r1 hr1
            obtain ⟨r, hr, hp1, hq1⟩ := f1 r2 hr2
            refine ⟨r, hr, hp2.trans hp1, ?_⟩
            rcases hq2 with hq2 | hq2
            · rcases hq1 with hq1 | hq1
              · exact Or.inl (hq2.trans hq1)
              · exact Or.inr (hq2.trans hq1)
            · exact Or.inr hq2
          · intro hl
            exact l2 (linked_reparent_one D _ _ _ _ _ p hp hch hone hl)

/-- The condition that no record has a parent on the ready list other than
itself, read off the parent map. -/
theorem no_ready_parent_iff (ps : List process) (rd : List Int) :
    (∀ p ∈ rd, ∀ r ∈ ps, r.ppid = p → r.pid = p)
      ↔ ∀ p ∈ rd, ∀ e ∈ parent_map ps, e.2 = p → e.1 = p := by
  constructor
  · intro h p hp e he
    obtain ⟨r, hr, rfl⟩ := List.mem_map.mp he
    exact h p hp r hr
  · intro h p hp r hr
    exact h p hp (r.pid, r.ppid) (List.mem_map.mpr ⟨r, hr, rfl⟩)

/-- The function `process_reparent_children` keeps the invariant of the
parent links, and leaves no record with the given parent but the parent
itself. -/
theorem parent_inv_reparent (t t1 : Table) (parent : Int)
    (h : process_reparent_children t parent = some t1) (hinv : parent_inv t) :
    parent_inv t1 ∧ (∀ r ∈ t1.processes, r.ppid = parent → r.pid = parent)
      ∧ t1.ready = t.ready := by
  unfold process_reparent_children at h
  split at h
  · exact Option.noConfusion h
  · obtain ⟨hk, hf, hl, p, hp, hch⟩ := process_reparent_loop_spec (fun _ => False) _ _ _ _ h
    have hrd := (process_reparent_loop_ready _ _ _ _ h).1
    obtain ⟨i1, i2, i3, i4⟩ := hinv
    have l1 := hl i2
    refine ⟨⟨by rw [hk]; exact i1, l1, ?_, by rw [hrd]; exact i4⟩, ?_, hrd⟩
    · intro q hq r1 hr1 hpp
      rw [hrd] at hq
      obtain ⟨r, hr, hpid, hppid⟩ := hf r1 hr1
      rcases hppid with h1 | h1
      · rw [hpid]; exact i3 q hq r hr (h1 ▸ hpp)
      · rw [h1] at hpp
        exact absurd (hpp ▸ hq) i4
    · intro r hr hpp
      by_contra hne
      obtain ⟨par, hpar, hmem⟩ := l1 r hr (fun hx => hx) (by rw [hpp]; exact fun e => hne e.symm)
      rw [hpp, hp] at hpar
      cases hpar
      rw [hch] at hmem
      exact absurd hmem (List.not_mem_nil _)

/-- The function `process_exit` keeps the invariant of the parent links for a
process other than init. -/
theorem parent_inv_exit (t t1 : Table) (pid w : Int) (b : Bool) (hinv : parent_inv t)
    (hpid : pid ≠ 1) (he : process_exit t pid w = some (b, t1)) : parent_inv t1 := by
  unfold process_exit at he
  split at he
  · cases he; exact hinv
  · simp only at he
    split at he
    · exact Option.noConfusion he
    · rename_i t2 hre
      cases he
      obtain ⟨i1, i2, i3, i4⟩ := hinv
      have hinv0 : parent_inv
          ⟨update t.processes pid (fun r => { r with wstatus := w }), t.ready, t.self⟩ := by
        refine ⟨?_, linked_other _ t pid _ (fun _ => ⟨rfl, rfl, rfl⟩) i2, ?_, i4⟩
        · show (List.map (fun r => r.pid) (update t.processes pid _)).Nodup
          rw [update_keys]
          · exact i1
          · exact fun _ => rfl
        · rw [no_ready_parent_iff] at i3 ⊢
          show ∀ p ∈ t.ready, ∀ e ∈ parent_map (update t.processes pid _), e.2 = p → e.1 = p
          rw [parent_map_update]
          · exact i3
          · exact fun _ => ⟨rfl, rfl⟩
      obtain ⟨⟨j1, j2, j3, j4⟩, hpost, hrd⟩ := parent_inv_reparent _ _ _ hre hinv0
      refine ⟨j1, j2, ?_, ?_⟩
      · intro q hq r hr hpp
        simp only [List.mem_append, List.mem_singleton] at hq
        rcases hq with hq | hq
        · exact j3 q hq r hr hpp
        · rw [hq] at hpp ⊢
          exact hpost r hr hpp
      · simp only [List.mem_append, List.mem_singleton, not_or]
        exact ⟨j4, fun e => hpid e.symm⟩

/-- Removing a record that is the parent of no other record, from the table
and from the ready list, keeps the invariant of the parent links. -/
theorem parent_inv_pop (t : Table) (p : Int) (rd : List Int)
    (hrd : ∀ x ∈ rd, x ∈ t.ready)
    (hno : ∀ r ∈ t.processes, r.ppid = p → r.pid = p)
    (hk : (t.processes.map (fun r => r.pid)).Nodup)
    (hl : linked (fun x => False ∨ x = p) t)
    (he : ∀ q ∈ t.ready, ∀ r ∈ t.processes, r.ppid = q → r.pid = q)
    (hn : (1 : Int) ∉ t.ready) :
    parent_inv ⟨hash_table_pop t.processes p, rd, t.self⟩ := by
  refine ⟨?_, linked_pop _ t p rd (fun r hr _ => hno r hr) hl, ?_, fun h => hn (hrd 1 h)⟩
  · unfold hash_table_pop
    exact (List.filter_sublist _).map _ |>.nodup hk
  · intro q hq r hr hpp
    simp only [hash_table_pop, List.mem_filter] at hr
    exact he q (hrd q hq) r hr.1 hpp

/-- The function `process_remove` keeps the invariant of the parent links. -/
theorem parent_inv_remove (t t1 : Table) (pid : Int) (o : Outcome) (hinv : parent_inv t)
    (hr : process_remove t pid = some (o, t1)) : parent_inv t1 := by
  unfold process_remove at hr
  split at hr
  · cases hr; exact hinv
  · split_ifs at hr
    split at hr
    · exact Option.noConfusion hr
    · rename_i t2 hre
      cases hr
      obtain ⟨⟨j1, j2, j3, j4⟩, hpost, _⟩ := parent_inv_reparent _ _ _ hre hinv
      exact parent_inv_pop t2 pid _ (fun x hx => List.mem_of_mem_erase hx) hpost j1
        (linked_mono _ _ _ (fun x hx => Or.inl hx) j2) j3 j4

/-- The function `process_collect` keeps the invariant of the parent links. -/
theorem parent_inv_collect (t t1 : Table) (proc : process) (hinv : parent_inv t)
    (hc : process_collect t = some (.proc proc t1)) : parent_inv t1 := by
  unfold process_collect at hc
  split_ifs at hc
  · cases hc
  split at hc
  · cases hc
  · rename_i p rest hready
    split at hc
    · exact Option.noConfusion hc
    · rename_i proc0 hget
      simp only at hc
      split at hc
      · exact Option.noConfusion hc
      · cases hc
        obtain ⟨i1, i2, i3, i4⟩ := hinv
        have hp0 : proc0.pid = p := (hash_table_get_some _ _ _ hget).1
        have hpm := process_unparent_parent_map ⟨t.processes, rest, t.self⟩ proc0
        have hmem : p ∈ t.ready := by rw [hready]; simp
        have hsub : ∀ x ∈ rest, x ∈ t.ready := by
          intro x hx; rw [hready]; exact List.mem_cons_of_mem _ hx
        have e1 : ∀ q ∈ t.ready, ∀ r ∈
            (process_unparent ⟨t.processes, rest, t.self⟩ proc0).processes,
            r.ppid = q → r.pid = q := by
          rw [no_ready_parent_iff] at i3 ⊢
          rw [hpm.1]; exact i3
        have l1 := linked_unparent (fun _ => False) ⟨t.processes, rest, t.self⟩ proc0 i2
        rw [hp0] at l1
        have key := parent_inv_pop
          ⟨(process_unparent ⟨t.processes, rest, t.self⟩ proc0).processes, t.ready, t.self⟩ p
          rest hsub (e1 p hmem) (by rw [hpm.2]; exact i1) l1 e1 i4
        have hself : (process_unparent ⟨t.processes, rest, t.self⟩ proc0).self = t.self :=
          (process_unparent_ready _ proc0).2.1
        have hrd : (process_unparent ⟨t.processes, rest, t.self⟩ proc0).ready = rest :=
          (process_unparent_ready _ proc0).1
        simp only at key
        rw [hself, hrd]
        exact key

/-- The parent map after a write of the parent pid of `c`. -/
theorem parent_map_update_ppid (ps : List process) (c v : Int) :
    parent_map (update ps c (fun r => { r with ppid := v }))
      = (parent_map ps).map (fun e => if e.1 = c then (e.1, v) else e) := by
  unfold parent_map update
  rw [List.map_map, List.map_map]
  apply List.map_congr_left
  intro r _
  simp only [Function.comp]
  split_ifs <;> rfl

/-- A write that keeps the pid, the parent pid and the children keeps the
invariant of the parent links. -/
theorem parent_inv_other (t : Table) (k : Int) (f : process → process)
    (hf : ∀ r, (f r).pid = r.pid ∧ (f r).ppid = r.ppid ∧ (f r).children = r.children)
    (hinv : parent_inv t) : parent_inv ⟨update t.processes k f, t.ready, t.self⟩ := by
  obtain ⟨i1, i2, i3, i4⟩ := hinv
  refine ⟨?_, linked_other _ t k f hf i2, ?_, i4⟩
  · show (List.map (fun r => r.pid) (update t.processes k f)).Nodup
    rw [update_keys _ _ _ (fun r => (hf r).1)]
    exact i1
  · rw [no_ready_parent_iff] at i3 ⊢
    show ∀ p ∈ t.ready, ∀ e ∈ parent_map (update t.processes k f), e.2 = p → e.1 = p
    rw [parent_map_update _ _ _ (fun r => ⟨(hf r).1, (hf r).2.1⟩)]
    exact i3

/-- The function `process_insert_sid` keeps the invariant of the parent
links. -/
theorem parent_inv_insert_sid (t : Table) (proc : process) (sid : Int) (hinv : parent_inv t) :
    parent_inv (process_insert_sid t proc sid).2 := by
  unfold process_insert_sid
  split_ifs
  · exact hinv
  · exact parent_inv_other t proc.pid _ (fun _ => ⟨rfl, rfl, rfl⟩) hinv
  · exact hinv

/-- The function `process_create` keeps the invariant of the parent links,
for a new pid whose parent, if it is not itself, is in the table and not on
the ready list. -/
theorem parent_inv_create (t : Table) (pid ppid sid : Int) (parent : Option process)
    (hinv : parent_inv t) (hnew : process_get t pid = none)
    (hpar : (parent = none ∧ ppid = pid)
      ∨ (∃ par, parent = some par ∧ process_get t ppid = some par ∧ ppid ∉ t.ready)) :
    parent_inv (process_create t pid ppid sid parent) := by
  obtain ⟨i1, i2, i3, i4⟩ := hinv
  have hkey : pid ∉ t.processes.map (fun r => r.pid) := by
    intro hm
    obtain ⟨r, hr1, hr2⟩ := List.mem_map.mp hm
    exact (hash_table_get_none _ _).mp hnew r hr1 hr2
  rcases hpar with ⟨rfl, hroot⟩ | ⟨par, rfl, hget, hnr⟩
  · simp only [process_create]
    refine ⟨?_, linked_append _ t ⟨pid, ppid, sid, [], -1⟩ (Or.inl hroot) i2, ?_, i4⟩
    · rw [List.map_append, List.nodup_append]
      refine ⟨i1, by simp, ?_⟩
      intro a ha hb
      simp only [List.map_cons, List.map_nil, List.mem_singleton] at hb
      exact hkey (hb ▸ ha)
    · intro q hq r hr hpp
      rcases List.mem_append.mp hr with hr | hr
      · exact i3 q hq r hr hpp
      · rw [List.mem_singleton.mp hr] at hpp ⊢
        exact hroot ▸ hpp
  · have hpp : par.pid = ppid := (hash_table_get_some _ _ _ hget).1
    simp only [process_create, hpp]
    have l1 := linked_children (fun _ => False) (fun _ => False) t ppid (fun l => l ++ [pid])
      (fun x hx => hx) (fun par _ x hx => Or.inl (by simp [hx])) i2
    have hlook : process_get
        ⟨update t.processes ppid (fun r => { r with children := r.children ++ [pid] }),
          t.ready, t.self⟩ ppid = some { par with children := par.children ++ [pid] } := by
      show hash_table_get _ _ = _
      rw [hash_table_get_update]
      · show Option.map _ (process_get t ppid) = _
        rw [hget]; simp [hpp]
      · exact fun _ => rfl
    have l2 := linked_append _ _ ⟨pid, ppid, sid, [], -1⟩
      (Or.inr ⟨_, hlook, by simp⟩) l1
    refine ⟨?_, l2, ?_, i4⟩
    · show (List.map (fun r => r.pid) (update t.processes ppid _ ++ _)).Nodup
      rw [List.map_append, update_keys, List.nodup_append]
      · refine ⟨i1, by simp, ?_⟩
        intro a ha hb
        simp only [List.map_cons, List.map_nil, List.mem_singleton] at hb
        exact hkey (hb ▸ ha)
      · exact fun _ => rfl
    · rw [no_ready_parent_iff] at i3 ⊢
      show ∀ p ∈ t.ready, ∀ e ∈ parent_map (update t.processes ppid _ ++ _), e.2 = p → e.1 = p
      unfold parent_map
      rw [List.map_append]
      intro q hq e he hpq
      rcases List.mem_append.mp he with he | he
      · have := parent_map_update t.processes ppid
          (fun r => { r with children := r.children ++ [pid] }) (fun _ => ⟨rfl, rfl⟩)
        unfold parent_map at this
        rw [this] at he
        exact i3 q hq e he hpq
      · simp only [List.map_cons, List.map_nil, List.mem_singleton] at he
        rw [he] at hpq
        simp only at hpq
        exact absurd (hpq ▸ hq) hnr

/-- The function `process_insert` keeps the invariant of the parent links, if
a record is not created under a parent that is on the ready list. -/
theorem parent_inv_insert (t t1 : Table) (pid ppid sid : Int) (o : Outcome)
    (hinv : parent_inv t) (hok : process_get t pid = none → ppid ∉ t.ready)
    (hi : process_insert t pid ppid sid = some (o, t1)) : parent_inv t1 := by
  unfold process_insert at hi
  split at hi
  · rename_i proc hget
    have hpp : proc.pid = pid := (hash_table_get_some _ _ _ hget).1
    split_ifs at hi with hc1 hc2
    · cases hi; exact hinv
    · simp only at hi
      split at hi
      · exact Option.noConfusion hi
      · rename_i init hinit
        simp only [Option.some.injEq] at hi
        have hppid : ppid = 1 := by
          by_contra hne; exact hc2 hne
        obtain ⟨i1, i2, i3, i4⟩ := hinv
        have hpm := process_unparent_parent_map t proc
        have hrd := process_unparent_ready t proc
        have l1 := linked_unparent (fun _ => False) t proc i2
        rw [hpp] at l1
        have l2 := linked_children _ _ (process_unparent t proc) 1 (fun l => l ++ [pid])
          (fun x hx => hx) (fun par _ x hx => Or.inl (by simp [hx])) l1
        have hlook : process_get
            ⟨update (process_unparent t proc).processes 1
                (fun r => { r with children := r.children ++ [pid] }),
              (process_unparent t proc).ready, (process_unparent t proc).self⟩ 1
            = some { init with children := init.children ++ [pid] } := by
          show hash_table_get _ _ = _
          rw [hash_table_get_update]
          · show Option.map _ (process_get (process_unparent t proc) 1) = _
            rw [hinit]; simp [(hash_table_get_some _ _ _ hinit).1]
          · exact fun _ => rfl
        have l3 := linked_ppid (fun _ => False) _ pid 1
          (Or.inr (Or.inr ⟨_, hlook, by simp⟩)) l2
        have hinv3 : parent_inv
            ⟨update (update (process_unparent t proc).processes 1
                (fun r => { r with children := r.children ++ [pid] })) pid
                (fun r => { r with ppid := 1 }),
              (process_unparent t proc).ready, (process_unparent t proc).self⟩ := by
          refine ⟨?_, l3, ?_, by rw [hrd.1]; exact i4⟩
          · show (List.map (fun r => r.pid) (update (update _ _ _) _ _)).Nodup
            rw [update_keys, update_keys, hpm.2]
            · exact i1
            · exact fun _ => rfl
            · exact fun _ => rfl
          · rw [no_ready_parent_iff] at i3 ⊢
            show ∀ p ∈ (process_unparent t proc).ready,
              ∀ e ∈ parent_map (update (update _ _ _) _ _), e.2 = p → e.1 = p
            rw [parent_map_update_ppid, parent_map_update, hpm.1, hrd.1]
            · intro q hq e he hpq
              obtain ⟨e0, he0, rfl⟩ := List.mem_map.mp he
              by_cases hk : e0.1 = pid
              · simp only [hk, if_true] at hpq
                exact absurd (hpq ▸ hq) i4
              · simp only [hk, if_false] at hpq ⊢
                exact i3 q hq e0 he0 hpq
            · exact fun _ => ⟨rfl, rfl⟩
        have key := parent_inv_insert_sid _ proc sid hinv3
        have e : (process_insert_sid
            { process_unparent t proc with
              processes := update (update (process_unparent t proc).processes 1
                (fun r => { r with children := r.children ++ [pid] })) pid
                (fun r => { r with ppid := 1 }) } proc sid).2 = t1 := by rw [hi]
        rw [← e]
        exact key
    · simp only [Option.some.injEq] at hi
      have key := parent_inv_insert_sid t proc sid hinv
      rw [hi] at key
      exact key
  · rename_i hget
    by_cases hne : ppid ≠ pid
    · rw [if_pos hne] at hi
      cases hpar : process_get t ppid with
      | none =>
        rw [hpar] at hi
        cases hi; exact hinv
      | some parent =>
        rw [hpar] at hi
        simp only at hi
        by_cases hs0 : sid = 0
        · rw [if_pos hs0] at hi
          cases hi
          exact parent_inv_create t pid ppid _ _ hinv hget
            (Or.inr ⟨parent, rfl, hpar, hok hget⟩)
        · rw [if_neg hs0] at hi
          by_cases hs1 : sid ≠ parent.sid
          · rw [if_pos hs1] at hi
            cases hi; exact hinv
          · rw [if_neg hs1] at hi
            cases hi
            exact parent_inv_create t pid ppid _ _ hinv hget
              (Or.inr ⟨parent, rfl, hpar, hok hget⟩)
    · rw [if_neg hne] at hi
      cases hi
      exact parent_inv_create t pid ppid _ _ hinv hget (Or.inl ⟨rfl, not_not.mp hne⟩)

/-- What the recursive drop keeps, with the records of `D` already marked for
removal.  The function removes the record `p` and keeps the links of the
records outside `D`; its loop empties the children list of `p`.  Both keep the
keys unique, add nothing to the ready list, and leave the pid and parent pid
of the remaining records outside `D` and `p` as they were. -/
theorem process_drop_rec_links (n : Nat) :
    (∀ (D : Int → Prop) t p t1, (process_drop_rec n).1 t p = some t1 →
      ((t.processes.map (fun r => r.pid)).Nodup → (t1.processes.map (fun r => r.pid)).Nodup)
      ∧ (∀ x ∈ t1.ready, x ∈ t.ready)
      ∧ (∀ e ∈ parent_map t1.processes, ¬ D e.1 → e ∈ parent_map t.processes)
      ∧ (linked (fun x => D x ∨ x = p) t → linked D t1))
    ∧ (∀ (D : Int → Prop) t p t1, (process_drop_rec n).2 t p = some t1 →
      ((t.processes.map (fun r => r.pid)).Nodup → (t1.processes.map (fun r => r.pid)).Nodup)
      ∧ (∀ x ∈ t1.ready, x ∈ t.ready)
      ∧ (∀ e ∈ parent_map t1.processes, ¬ (D e.1 ∨ e.1 = p) → e ∈ parent_map t.processes)
      ∧ (linked (fun x => D x ∨ x = p) t →
          linked (fun x => D x ∨ x = p) t1
          ∧ ∃ r, process_get t1 p = some r ∧ r.children = [])) := by
  induction n with
  | zero =>
    constructor <;> intro D t p t1 h <;> simp [process_drop_rec] at h
  | succ n ih =>
    constructor
    · intro D t p t1 h
      simp only [process_drop_rec] at h
      split at h
      · exact Option.noConfusion h
      · split at h
        · exact Option.noConfusion h
        · rename_i t2 hloop
          cases h
          obtain ⟨k1, k2, k3, k4⟩ := ih.2 D _ _ _ hloop
          refine ⟨?_, ?_, ?_, ?_⟩
          · intro hk
            have hk1 : (List.map (fun r => r.pid)
                (update t.processes p (fun r => { r with ppid := 0 }))).Nodup := by
              rw [update_keys]
              · exact hk
              · exact fun _ => rfl
            have hk2 := k1 hk1
            show (List.map (fun r => r.pid) (hash_table_pop t2.processes p)).Nodup
            unfold hash_table_pop
            exact (List.filter_sublist _).map _ |>.nodup hk2
          · intro x hx
            exact k2 x (List.mem_of_mem_erase hx)
          · intro e he hD
            have he1 : e ∈ parent_map t2.processes ∧ e.1 ≠ p := by
              simp only [parent_map, hash_table_pop, List.mem_map, List.mem_filter,
                decide_eq_true_eq] at he ⊢
              obtain ⟨r, ⟨hr, hne⟩, rfl⟩ := he
              exact ⟨⟨r, hr, rfl⟩, hne⟩
            have he2 := k3 e he1.1 (fun h => h.elim hD he1.2)
            have he3 : e ∈ parent_map (update t.processes p (fun r => { r with ppid := 0 })) :=
              he2
            rw [parent_map_update_ppid] at he3
            obtain ⟨e0, he0, rfl⟩ := List.mem_map.mp he3
            by_cases hk : e0.1 = p
            · simp only [hk, if_true] at he1
              exact absurd rfl he1.2
            · simp only [hk, if_false]
              exact he0
          · intro hl
            have l1 : linked (fun x => D x ∨ x = p)
                ⟨update t.processes p (fun r => { r with ppid := 0 }), t.ready, t.self⟩ :=
              linked_ppid _ t p 0 (Or.inl (Or.inr rfl))
                (linked_mono _ _ t (fun x hx => Or.inl hx) hl)
            obtain ⟨l2, rec, hrec, hnil⟩ := k4 l1
            refine linked_pop D t2 p _ ?_ l2
            intro r hr hD hpp
            by_contra hne
            obtain ⟨par, hpar, hmem⟩ := l2 r hr (fun h => h.elim hD hne) (by rw [hpp]; exact Ne.symm hne)
            rw [hpp, hrec] at hpar
            cases hpar
            rw [hnil] at hmem
            exact absurd hmem (List.not_mem_nil _)
    · intro D t p t1 h
      simp only [process_drop_rec] at h
      split at h
      · exact Option.noConfusion h
      · rename_i rec0 hget
        split at h
        · rename_i hnil
          cases h
          exact ⟨fun hk => hk, fun x hx => hx, fun e he _ => he, fun hl => ⟨hl, rec0, hget, hnil⟩⟩
        · rename_i c rest hch
          split at h
          · exact Option.noConfusion h
          · rename_i t2 hrec
            obtain ⟨a1, a2, a3, a4⟩ := ih.1 (fun x => D x ∨ x = p) _ _ _ hrec
            obtain ⟨b1, b2, b3, b4⟩ := ih.2 D _ _ _ h
            refine ⟨?_, ?_, ?_, ?_⟩
            · intro hk
              apply b1
              apply a1
              show (List.map (fun r => r.pid)
                (update t.processes p (fun r => { r with children := rest }))).Nodup
              rw [update_keys]
              · exact hk
              · exact fun _ => rfl
            · intro x hx
              exact a2 x (b2 x hx)
            · intro e he hD
              have he1 := a3 e (b3 e he hD) hD
              have he2 : e ∈ parent_map
                  (update t.processes p (fun r => { r with children := rest })) := he1
              rw [parent_map_update] at he2
              · exact he2
              · exact fun _ => ⟨rfl, rfl⟩
            · intro hl
              have l1 : linked (fun x => (D x ∨ x = p) ∨ x = c)
                  ⟨update t.processes p (fun r => { r with children := (fun _ => rest) r.children }),
                    t.ready, t.self⟩ := by
                refine linked_children _ _ t p (fun _ => rest) (fun x hx => Or.inl hx) ?_ hl
                intro par hpar x hx
                rw [hget] at hpar
                cases hpar
                rw [hch] at hx
                rcases List.mem_cons.mp hx with hx | hx
                · exact Or.inr (Or.inr hx)
                · exact Or.inl hx
              exact b4 (a4 l1)

/-- The function `process_drop` keeps the invariant of the parent links. -/
theorem parent_inv_drop (t t1 : Table) (pid : Int) (b : Bool) (hinv : parent_inv t)
    (hd : process_drop t pid = some (b, t1)) : parent_inv t1 := by
  unfold process_drop at hd
  split at hd
  · cases hd; exact hinv
  · rename_i proc hget
    simp only at hd
    split at hd
    · exact Option.noConfusion hd
    · rename_i t2 hrec
      cases hd
      obtain ⟨i1, i2, i3, i4⟩ := hinv
      have hpp : proc.pid = pid := (hash_table_get_some _ _ _ hget).1
      have hpm := process_unparent_parent_map t proc
      have hrd := process_unparent_ready t proc
      have l1 := linked_unparent (fun _ => False) t proc i2
      rw [hpp] at l1
      obtain ⟨k1, k2, k3, k4⟩ := (process_drop_rec_links _).1 (fun _ => False) _ _ _ hrec
      refine ⟨k1 (by rw [hpm.2]; exact i1), k4 l1, ?_, fun h => i4 (hrd.1 ▸ k2 1 h)⟩
      rw [no_ready_parent_iff] at i3 ⊢
      intro q hq e he hpq
      have he1 := k3 e he (fun h => h)
      rw [hpm.1] at he1
      exact i3 q (hrd.1 ▸ k2 q hq) e he1 hpq

/-- The reaction to the answer of the callback keeps the invariant of the
parent links. -/
theorem parent_inv_apply (t t1 : Table) (proc : process) (a : procwatch_action)
    (h : parent_inv t) (ha : procwatch_apply t proc a = some t1) : parent_inv t1 := by
  cases a with
  | PROCWATCH_ACTION_DEFAULT =>
    simp only [procwatch_apply] at ha
    cases ha; exact h
  | PROCWATCH_ACTION_DROP =>
    simp only [procwatch_apply] at ha
    split at ha
    · exact Option.noConfusion ha
    · rename_i b t2 hd
      cases ha
      exact parent_inv_drop t _ _ b h hd

/-- One operation keeps the invariant of the parent links, if a fork event or
a call of `process_insert` names no parent that is on the ready list and an
exit event does not name init. -/
theorem parent_inv_step (t t1 : Table) (op : table_op) (h : parent_inv t)
    (hok : parent_is_live t op) (hs : table_step t op = some t1) : parent_inv t1 := by
  cases op with
  | ingest ev action =>
    simp only [table_step, procwatch_ingest] at hs
    cases ev with
    | none err => simp only at hs; cases hs; exact h
    | fork parent child =>
      simp only [proc_event.actor_tgid] at hs
      split at hs
      · cases hs; exact h
      · split_ifs at hs
        · cases hs; exact h
        · cases hs; exact h
        · split at hs
          · exact Option.noConfusion hs
          · rename_i o t2 hi
            cases hs
            exact parent_inv_insert t _ _ _ _ o h (fun _ => hok) hi
    | exec p =>
      simp only [proc_event.actor_tgid] at hs
      split at hs
      · cases hs; exact h
      · split at hs
        · cases hs; exact h
        · exact parent_inv_apply t t1 _ _ h hs
    | sid p =>
      simp only [proc_event.actor_tgid] at hs
      split at hs
      · cases hs; exact h
      · rename_i actor hact
        split at hs
        · exact Option.noConfusion hs
        · exact Option.noConfusion hs
        · rename_i t2 hi
          split at hs
          · exact Option.noConfusion hs
          · refine parent_inv_apply t2 t1 _ _ (parent_inv_insert t _ _ _ _ _ h ?_ hi) hs
            intro hnone
            rw [hnone] at hact
            exact Option.noConfusion hact
    | exit p code signal =>
      simp only [proc_event.actor_tgid] at hs
      split at hs
      · cases hs; exact h
      · split_ifs at hs with hsig
        · cases hs; exact h
        · split at hs
          · exact Option.noConfusion hs
          · rename_i b t2 he
            cases hs
            have hsig2 : signal = SIGCHLD := by
              by_contra hne; exact hsig hne
            exact parent_inv_exit t _ _ _ b h (hok hsig2) he
    | uid p => simp only [proc_event.actor_tgid] at hs; split at hs <;> (cases hs; exact h)
    | gid p => simp only [proc_event.actor_tgid] at hs; split at hs <;> (cases hs; exact h)
    | comm p => simp only [proc_event.actor_tgid] at hs; split at hs <;> (cases hs; exact h)
    | coredump p =>
      simp only [proc_event.actor_tgid] at hs; split at hs <;> (cases hs; exact h)
    | other what actor =>
      simp only [proc_event.actor_tgid] at hs; split at hs <;> (cases hs; exact h)
  | insert pid ppid sid =>
    simp only [table_step] at hs
    split at hs
    · exact Option.noConfusion hs
    · rename_i o t2 hi
      cases hs
      exact parent_inv_insert t _ _ _ _ o h (fun _ => hok) hi
  | remove pid =>
    simp only [table_step] at hs
    split at hs
    · exact Option.noConfusion hs
    · rename_i o t2 hr
      cases hs
      exact parent_inv_remove t _ _ o h hr
  | drop pid =>
    simp only [table_step] at hs
    split at hs
    · exact Option.noConfusion hs
    · rename_i b t2 hd
      cases hs
      exact parent_inv_drop t _ _ b h hd
  | collect =>
    simp only [table_step] at hs
    split at hs
    · exact Option.noConfusion hs
    · rename_i proc t2 hc
      cases hs
      exact parent_inv_collect t _ proc h hc
    · cases hs; exact h

/-- The initial table satisfies the invariant of the parent links. -/
theorem parent_inv_init (pid sid : Int) (t : Table) (h : processes_init pid sid = some t) :
    parent_inv t := by
  rcases processes_init_eq pid sid t h with ⟨hp, rfl⟩ | ⟨_, rfl⟩
  · refine ⟨by simp [Ne.symm hp], ?_, by simp, by simp⟩
    intro r hr _ hne
    simp only [List.mem_cons, List.mem_singleton, List.not_mem_nil, or_false] at hr
    rcases hr with rfl | rfl <;> exact absurd rfl hne
  · refine ⟨by simp, ?_, by simp, by simp⟩
    intro r hr _ hne
    simp only [List.mem_singleton] at hr
    subst hr
    exact absurd rfl hne

/-- C7, as amended: the invariant of the parent links.  After any sequence of
ingested events and of calls of `process_insert`, `process_drop` and
`process_collect` on the initial table, in which no fork event and no call of
`process_insert` names a parent that is on the ready list, no process-level
exit event names init or a process that is on the ready list already, and
init is not dropped, every record of the table is a root (its parent pid is
its own pid) or the record of its parent pid is in the table. -/
theorem parent_links_invariant (pid sid : Int) (t0 t1 : Table) (ops : List table_op)
    (h0 : processes_init pid sid = some t0)
    (hok : table_run_ok links_op_ok t0 ops)
    (hrun : table_run t0 ops = some t1) :
    ∀ r ∈ t1.processes, r.ppid = r.pid ∨ (process_get t1 r.ppid).isSome := by
  have hinv : parent_inv t1 :=
    table_run_inv links_op_ok parent_inv
      (fun t t2 op h hk hs => parent_inv_step t t2 op h hk.1 hs) ops t0 t1
      (parent_inv_init pid sid t0 h0) hok hrun
  intro r hr
  by_cases hroot : r.ppid = r.pid
  · exact Or.inl hroot
  · obtain ⟨par, hpar, _⟩ := hinv.2.1 r hr (fun h => h) hroot
    right
    rw [hpar]
    rfl

/-- Witness of C7, as amended: the supervisor 100 forks 10, which forks 11
and exits; the record of 11 is then a child of init. -/
theorem parent_links_invariant_witness :
    processes_init 100 100
      = some ⟨[⟨1, 1, 1, [], -1⟩, ⟨100, 100, 100, [], -1⟩], [], 100⟩
    ∧ table_run ⟨[⟨1, 1, 1, [], -1⟩, ⟨100, 100, 100, [], -1⟩], [], 100⟩
        [.ingest (.fork ⟨100, 100⟩ ⟨10, 10⟩) .PROCWATCH_ACTION_DEFAULT,
         .ingest (.fork ⟨10, 10⟩ ⟨11, 11⟩) .PROCWATCH_ACTION_DEFAULT,
         .ingest (.exit ⟨10, 10⟩ 0 17) .PROCWATCH_ACTION_DEFAULT]
      = some ⟨[⟨1, 1, 1, [11], -1⟩, ⟨100, 100, 100, [10], -1⟩, ⟨10, 100, 100, [], 0⟩,
          ⟨11, 1, 100, [], -1⟩], [10], 100⟩
    ∧ (∀ r ∈ (⟨[⟨1, 1, 1, [11], -1⟩, ⟨100, 100, 100, [10], -1⟩, ⟨10, 100, 100, [], 0⟩,
          ⟨11, 1, 100, [], -1⟩], [10], 100⟩ : Table).processes,
        r.ppid = r.pid ∨ (process_get ⟨[⟨1, 1, 1, [11], -1⟩, ⟨100, 100, 100, [10], -1⟩,
          ⟨10, 100, 100, [], 0⟩, ⟨11, 1, 100, [], -1⟩], [10], 100⟩ r.ppid).isSome) :=
  ⟨by decide, by decide,
    parent_links_invariant 100 100
      ⟨[⟨1, 1, 1, [], -1⟩, ⟨100, 100, 100, [], -1⟩], [], 100⟩
      ⟨[⟨1, 1, 1, [11], -1⟩, ⟨100, 100, 100, [10], -1⟩, ⟨10, 100, 100, [], 0⟩,
        ⟨11, 1, 100, [], -1⟩], [10], 100⟩
      [.ingest (.fork ⟨100, 100⟩ ⟨10, 10⟩) .PROCWATCH_ACTION_DEFAULT,
       .ingest (.fork ⟨10, 10⟩ ⟨11, 11⟩) .PROCWATCH_ACTION_DEFAULT,
       .ingest (.exit ⟨10, 10⟩ 0 17) .PROCWATCH_ACTION_DEFAULT]
      (by decide)
      (table_run_ok_cons links_op_ok _
        ⟨[⟨1, 1, 1, [], -1⟩, ⟨100, 100, 100, [10], -1⟩, ⟨10, 100, 100, [], -1⟩], [], 100⟩ _ _
        ⟨List.not_mem_nil _, trivial⟩ (by decide)
        (table_run_ok_cons links_op_ok _
          ⟨[⟨1, 1, 1, [], -1⟩, ⟨100, 100, 100, [10], -1⟩, ⟨10, 100, 100, [11], -1⟩,
            ⟨11, 10, 100, [], -1⟩], [], 100⟩ _ _
          ⟨List.not_mem_nil _, trivial⟩ (by decide)
          (table_run_ok_cons links_op_ok _
            ⟨[⟨1, 1, 1, [11], -1⟩, ⟨100, 100, 100, [10], -1⟩, ⟨10, 100, 100, [], 0⟩,
              ⟨11, 1, 100, [], -1⟩], [10], 100⟩ _ _
            ⟨fun _ => (by decide : as_pid 10 ≠ 1),
              fun _ => ⟨(by decide : as_pid 10 ≠ 1), List.not_mem_nil _⟩⟩ (by decide)
            trivial)))
      (by decide)⟩

/-- Counterexample to C7 as stated: a fork event that names the exited
process 10 as parent creates the record 11 below a record that the next
`process_collect` removes; and an exit event for init puts init on the ready
list, so that `process_collect` removes it while the record 11 has been
reparented to it.  In both tables the record 11 is no root and no record has
the pid of its parent. -/
theorem parent_links_orphan :
    table_run ⟨[⟨1, 1, 1, [], -1⟩, ⟨100, 100, 100, [], -1⟩], [], 100⟩
        [.ingest (.fork ⟨100, 100⟩ ⟨10, 10⟩) .PROCWATCH_ACTION_DEFAULT,
         .ingest (.exit ⟨10, 10⟩ 0 17) .PROCWATCH_ACTION_DEFAULT,
         .ingest (.fork ⟨10, 10⟩ ⟨11, 11⟩) .PROCWATCH_ACTION_DEFAULT,
         .collect]
      = some ⟨[⟨1, 1, 1, [], -1⟩, ⟨100, 100, 100, [], -1⟩, ⟨11, 10, 100, [], -1⟩], [], 100⟩
    ∧ process_get
        ⟨[⟨1, 1, 1, [], -1⟩, ⟨100, 100, 100, [], -1⟩, ⟨11, 10, 100, [], -1⟩], [], 100⟩ 10 = none
    ∧ table_run ⟨[⟨1, 1, 1, [], -1⟩, ⟨100, 100, 100, [], -1⟩], [], 100⟩
        [.ingest (.fork ⟨100, 100⟩ ⟨10, 10⟩) .PROCWATCH_ACTION_DEFAULT,
         .ingest (.fork ⟨10, 10⟩ ⟨11, 11⟩) .PROCWATCH_ACTION_DEFAULT,
         .ingest (.exit ⟨1, 1⟩ 0 17) .PROCWATCH_ACTION_DEFAULT,
         .ingest (.exit ⟨10, 10⟩ 0 17) .PROCWATCH_ACTION_DEFAULT,
         .collect]
      = some ⟨[⟨100, 100, 100, [10], -1⟩, ⟨10, 100, 100, [], 0⟩, ⟨11, 1, 100, [], -1⟩],
          [10], 100⟩
    ∧ process_get
        ⟨[⟨100, 100, 100, [10], -1⟩, ⟨10, 100, 100, [], 0⟩, ⟨11, 1, 100, [], -1⟩],
          [10], 100⟩ 1 = none := by
  decide

/-! ## Process table: update of a record by `process_insert` -/

/-- The session half of the update branch of `process_insert`: it succeeds
when the sid is 0, the current one, or the pid, and fails with EINVAL
otherwise; it writes the sid of the record and nothing else. -/
theorem process_insert_sid_spec (t : Table) (proc : process) (sid : Int) :
    ((process_insert_sid t proc sid).1 = .ok ↔ (sid = 0 ∨ sid = proc.sid ∨ sid = proc.pid))
    ∧ ((process_insert_sid t proc sid).1 ≠ .ok →
        (process_insert_sid t proc sid).1 = .fail .EINVAL)
    ∧ ((sid = 0 ∨ sid = proc.sid) → (process_insert_sid t proc sid).2 = t)
    ∧ (process_insert_sid t proc sid).2.ready = t.ready
    ∧ (process_insert_sid t proc sid).2.self = t.self
    ∧ ((sid = 0 ∨ sid = proc.sid ∨ sid = proc.pid) →
        ∀ q, process_get (process_insert_sid t proc sid).2 q = (process_get t q).map
          (fun r => if r.pid = proc.pid ∧ sid ≠ 0 ∧ sid ≠ proc.sid then { r with sid := sid }
            else r)) := by
  unfold process_insert_sid
  by_cases h1 : sid ≠ 0 ∧ sid ≠ proc.sid
  · by_cases h2 : sid ≠ proc.pid
    · rw [if_pos h1, if_pos h2]
      refine ⟨?_, ?_, ?_, rfl, rfl, ?_⟩
      · constructor
        · intro h; cases h
        · rintro (h | h | h)
          · exact absurd h h1.1
          · exact absurd h h1.2
          · exact absurd h h2
      · intro _; rfl
      · rintro (h | h)
        · exact absurd h h1.1
        · exact absurd h h1.2
      · rintro (h | h | h)
        · exact absurd h h1.1
        · exact absurd h h1.2
        · exact absurd h h2
    · have h2b : sid = proc.pid := not_not.mp h2
      rw [if_pos h1, if_neg h2]
      refine ⟨?_, ?_, ?_, rfl, rfl, ?_⟩
      · exact ⟨fun _ => Or.inr (Or.inr h2b), fun _ => rfl⟩
      · intro h; exact absurd rfl h
      · rintro (h | h)
        · exact absurd h h1.1
        · exact absurd h h1.2
      · intro _ q
        show hash_table_get (update t.processes proc.pid _) q = _
        rw [hash_table_get_update]
        · unfold process_get
          congr 1
          funext r
          simp [h1.1, h1.2]
        · exact fun _ => rfl
  · rw [if_neg h1]
    have h1b : sid = 0 ∨ sid = proc.sid := by
      by_contra hc
      push_neg at hc
      exact h1 hc
    refine ⟨?_, ?_, ?_, rfl, rfl, ?_⟩
    · exact ⟨fun _ => h1b.elim Or.inl (fun h => Or.inr (Or.inl h)), fun _ => rfl⟩
    · intro h; exact absurd rfl h
    · intro _; rfl
    · intro _ q
      cases process_get t q with
      | none => rfl
      | some r =>
        simp only [Option.map_some']
        congr 1
        rw [if_neg]
        rintro ⟨_, h3, h4⟩
        exact h1 ⟨h3, h4⟩

/-- The lookup after the reparenting writes of `process_insert`: the process
is detached from its parent, appended to the children of init, and its parent
pid is set to 1. -/
theorem process_insert_reparent_get (t : Table) (proc : process) (pid q : Int) :
    hash_table_get
        (update (update (process_unparent t proc).processes 1
          (fun r => { r with children := r.children ++ [pid] })) pid
          (fun r => { r with ppid := 1 })) q
      = (process_get t q).map (fun r =>
          let r1 := if r.pid = proc.ppid then { r with children := r.children.erase proc.pid }
            else r
          let r2 := if r1.pid = 1 then { r1 with children := r1.children ++ [pid] } else r1
          if r2.pid = pid then { r2 with ppid := 1 } else r2) := by
  rw [hash_table_get_update, hash_table_get_update]
  · have h := process_get_unparent t proc q
    unfold process_get at h
    rw [h]
    unfold process_get
    cases hash_table_get t.processes q with
    | none => rfl
    | some r => simp
  · exact fun _ => rfl
  · exact fun _ => rfl

/-- C11: `process_insert` of a pid that is already in the table.  The call
succeeds exactly when the ppid is 0, the current one or 1 and the sid is 0,
the current one or the pid, and it fails with EINVAL otherwise.  If neither
value asks for a change the table is left as it is; a legal change of the sid
writes the sid of the record and nothing else; a change of the ppid to 1
removes the pid from the children of its old parent, appends it to the
children of init, and sets the ppid of the record to 1, while every other
record, the ready list and the rest of the record stay as they were. -/
theorem process_insert_existing (t : Table) (pid ppid sid : Int) (proc : process)
    (hget : process_get t pid = some proc) (hinit : (process_get t 1).isSome) :
    ∃ o t1, process_insert t pid ppid sid = some (o, t1)
      ∧ (o = .ok ↔ (ppid = 0 ∨ ppid = proc.ppid ∨ ppid = 1)
          ∧ (sid = 0 ∨ sid = proc.sid ∨ sid = pid))
      ∧ (o ≠ .ok → o = .fail .EINVAL)
      ∧ t1.ready = t.ready ∧ t1.self = t.self
      ∧ ((ppid = 0 ∨ ppid = proc.ppid) → (sid = 0 ∨ sid = proc.sid) → t1 = t)
      ∧ ((ppid = 0 ∨ ppid = proc.ppid) → sid ≠ 0 → sid ≠ proc.sid → sid = pid →
          ∀ q, process_get t1 q = (process_get t q).map
            (fun r => if r.pid = pid then { r with sid := pid } else r))
      ∧ (ppid ≠ 0 → ppid ≠ proc.ppid → ppid = 1 → (sid = 0 ∨ sid = proc.sid ∨ sid = pid) →
          pid ≠ 1 →
          (∃ init, process_get t 1 = some init
            ∧ process_get t1 1 = some { init with children := init.children ++ [pid] })
          ∧ process_get t1 pid = some
              { proc with ppid := 1,
                          sid := if sid = 0 then proc.sid else sid,
                          children := if proc.ppid = pid then proc.children.erase pid
                            else proc.children }
          ∧ (∀ par, proc.ppid ≠ pid → process_get t proc.ppid = some par →
              process_get t1 proc.ppid
                = some { par with children := par.children.erase pid })
          ∧ (∀ q, q ≠ 1 → q ≠ pid → q ≠ proc.ppid → process_get t1 q = process_get t q)) := by
  have hpp : proc.pid = pid := (hash_table_get_some _ _ _ hget).1
  obtain ⟨s1, s2, s3, s4, s5, s6⟩ := process_insert_sid_spec t proc sid
  by_cases hc1 : ppid ≠ 0 ∧ ppid ≠ proc.ppid
  · by_cases hc2 : ppid ≠ 1
    · refine ⟨.fail .EINVAL, t, ?_, ?_, fun _ => rfl, rfl, rfl, ?_, ?_, ?_⟩
      · unfold process_insert
        rw [hget]
        simp only
        rw [if_pos hc1, if_pos hc2]
      · constructor
        · intro h; cases h
        · rintro ⟨h | h | h, _⟩
          · exact absurd h hc1.1
          · exact absurd h hc1.2
          · exact absurd h hc2
      · intro _ _; rfl
      · rintro (h | h)
        · exact absurd h hc1.1
        · exact absurd h hc1.2
      · intro _ _ h; exact absurd h hc2
    · have hp1 : ppid = 1 := not_not.mp hc2
      have hi1 : (process_get (process_unparent t proc) 1).isSome := by
        rw [process_get_unparent]
        cases hh : process_get t 1 with
        | none => rw [hh] at hinit; exact absurd hinit (by simp)
        | some _ => rfl
      obtain ⟨init1, hinit1⟩ := Option.isSome_iff_exists.mp hi1
      obtain ⟨T2, hT2⟩ : ∃ T2 : Table, T2 = ⟨update (update (process_unparent t proc).processes 1
            (fun r => { r with children := r.children ++ [pid] })) pid
            (fun r => { r with ppid := 1 }), (process_unparent t proc).ready,
            (process_unparent t proc).self⟩ := ⟨_, rfl⟩
      obtain ⟨u1, u2, u3, u4, u5, u6⟩ := process_insert_sid_spec T2 proc sid
      have hrd := process_unparent_ready t proc
      have hcall : process_insert t pid ppid sid = some (process_insert_sid T2 proc sid) := by
        unfold process_insert
        rw [hget]
        simp only
        rw [if_pos hc1, if_neg hc2, hinit1, hT2]
      refine ⟨(process_insert_sid T2 proc sid).1, (process_insert_sid T2 proc sid).2, hcall,
        ?_, u2, ?_, ?_, ?_, ?_, ?_⟩
      · rw [u1, hpp]
        constructor
        · intro h; exact ⟨Or.inr (Or.inr hp1), h⟩
        · intro h; exact h.2
      · rw [u4, hT2]; exact hrd.1
      · rw [u5, hT2]; exact hrd.2.1
      · rintro (h | h)
        · exact absurd h hc1.1
        · exact absurd h hc1.2
      · rintro (h | h)
        · exact absurd h hc1.1
        · exact absurd h hc1.2
      · intro _ _ _ hs hpid1
        have key : ∀ q, process_get (process_insert_sid T2 proc sid).2 q
            = ((process_get t q).map (fun r =>
              let r1 := if r.pid = proc.ppid then
                { r with children := r.children.erase proc.pid } else r
              let r2 := if r1.pid = 1 then { r1 with children := r1.children ++ [pid] } else r1
              if r2.pid = pid then { r2 with ppid := 1 } else r2)).map
              (fun r => if r.pid = proc.pid ∧ sid ≠ 0 ∧ sid ≠ proc.sid then { r with sid := sid }
                else r) := by
          intro q
          rw [u6 (hpp ▸ hs), hT2]
          show Option.map _ (hash_table_get _ q) = _
          rw [process_insert_reparent_get]
        have hne1 : proc.ppid ≠ 1 := fun h => hc1.2 (hp1.trans h.symm)
        refine ⟨?_, ?_, ?_, ?_⟩
        · cases hh : process_get t 1 with
          | none => rw [hh] at hinit; exact absurd hinit (by simp)
          | some init =>
            have hip : init.pid = 1 := (hash_table_get_some _ _ _ hh).1
            refine ⟨init, rfl, ?_⟩
            rw [key, hh]
            have e1 : ¬ (1 : Int) = proc.ppid := fun h => hne1 h.symm
            have e2 : ¬ (1 : Int) = pid := fun h => hpid1 h.symm
            have e3 : ¬ (1 : Int) = proc.pid := fun h => hpid1 (hpp ▸ h.symm)
            simp [hip, e1, e2, e3]
        · rw [key, hget]
          have e2 : ¬ pid = 1 := hpid1
          by_cases hroot : proc.ppid = pid
          · by_cases hs0 : sid = 0
            · simp [hpp, hroot, e2, hs0]
            · by_cases hs1 : sid = proc.sid
              · simp [hpp, hroot, e2, hs0, hs1]
              · simp [hpp, hroot, e2, hs0, hs1]
          · have hroot2 : ¬ pid = proc.ppid := fun h => hroot h.symm
            by_cases hs0 : sid = 0
            · simp [hpp, hroot, hroot2, e2, hs0]
            · by_cases hs1 : sid = proc.sid
              · simp [hpp, hroot, hroot2, e2, hs0, hs1]
              · simp [hpp, hroot, hroot2, e2, hs0, hs1]
        · intro par hroot hpar
          have hparp : par.pid = proc.ppid := (hash_table_get_some _ _ _ hpar).1
          rw [key, hpar]
          have e1 : ¬ proc.ppid = 1 := hne1
          have e2 : ¬ proc.ppid = pid := hroot
          have e3 : ¬ proc.ppid = proc.pid := fun h => hroot (h.trans hpp)
          simp [hparp, e1, e2, e3, hpp]
        · intro q hq1 hq2 hq3
          rw [key]
          cases hh : process_get t q with
          | none => rfl
          | some r =>
            have hrp : r.pid = q := (hash_table_get_some _ _ _ hh).1
            have e3 : ¬ q = proc.pid := fun h => hq2 (h.trans hpp)
            simp [hrp, hq1, hq2, hq3, e3]
  · have hc1b : ppid = 0 ∨ ppid = proc.ppid := by
      by_contra hc
      push_neg at hc
      exact hc1 hc
    refine ⟨_, _, ?_, ?_, s2, s4, s5, ?_, ?_, ?_⟩
    · unfold process_insert
      rw [hget]
      simp only
      rw [if_neg hc1]
    · rw [s1, hpp]
      constructor
      · intro h
        exact ⟨hc1b.elim Or.inl (fun h => Or.inr (Or.inl h)), h⟩
      · intro h; exact h.2
    · intro _ hs; exact s3 hs
    · intro _ hs0 hs1 hsp q
      rw [s6 (Or.inr (Or.inr (hsp.trans hpp.symm)))]
      congr 1
      funext r
      by_cases hr : r.pid = pid
      · rw [if_pos ⟨hr.trans hpp.symm, hs0, hs1⟩, if_pos hr, hsp]
      · rw [if_neg (fun h => hr (h.1.trans hpp)), if_neg hr]
    · intro h0 h1 _ _ _
      rcases hc1b with h | h
      · exact absurd h h0
      · exact absurd h h1

/-- Witness of C11: the record of 11, a child of 10, is reparented to init
and made a session leader in one call. -/
theorem process_insert_existing_witness :
    ∃ o t1,
      process_insert ⟨[⟨1, 1, 1, [], -1⟩, ⟨100, 100, 100, [10], -1⟩, ⟨10, 100, 100, [11], -1⟩,
          ⟨11, 10, 100, [], -1⟩], [], 100⟩ 11 1 11 = some (o, t1)
      ∧ (o = .ok ↔ ((1 : Int) = 0 ∨ (1 : Int) = 10 ∨ (1 : Int) = 1)
          ∧ ((11 : Int) = 0 ∨ (11 : Int) = 100 ∨ (11 : Int) = 11))
      ∧ process_get t1 11 = some ⟨11, 1, 11, [], -1⟩ :=
  match process_insert_existing
    ⟨[⟨1, 1, 1, [], -1⟩, ⟨100, 100, 100, [10], -1⟩, ⟨10, 100, 100, [11], -1⟩,
      ⟨11, 10, 100, [], -1⟩], [], 100⟩ 11 1 11 ⟨11, 10, 100, [], -1⟩ (by decide) (by decide) with
  | ⟨o, t1, h1, h2, _, _, _, _, _, h8⟩ =>
    ⟨o, t1, h1, h2, (h8 (by decide) (by decide) rfl (by decide) (by decide)).2.1⟩

/-- The creation branch of `process_insert` with sid 0: for a pid that is not
in the table and a parent that is, the call succeeds and gives the table of
`process_create` with the sid of the parent. -/
theorem process_insert_fresh (t : Table) (pid ppid : Int) (parent : process)
    (hnew : process_get t pid = none) (hpar : process_get t ppid = some parent) :
    process_insert t pid ppid 0
      = some (.ok, process_create t pid ppid parent.sid (some parent)) := by
  have hne : ppid ≠ pid := by
    intro h
    rw [h, hnew] at hpar
    exact Option.noConfusion hpar
  simp [process_insert, hnew, hne, hpar]

/-- The lookups in the table of `process_create` for a new pid below a parent
that is in the table. -/
theorem process_create_get (t : Table) (pid ppid sid : Int) (parent : process)
    (hnew : process_get t pid = none) (hpar : process_get t ppid = some parent) :
    process_get (process_create t pid ppid sid (some parent)) pid
        = some ⟨pid, ppid, sid, [], -1⟩
    ∧ process_get (process_create t pid ppid sid (some parent)) ppid
        = some { parent with children := parent.children ++ [pid] }
    ∧ (∀ q, q ≠ pid → q ≠ ppid →
        process_get (process_create t pid ppid sid (some parent)) q = process_get t q)
    ∧ (process_create t pid ppid sid (some parent)).ready = t.ready
    ∧ (process_create t pid ppid sid (some parent)).self = t.self
    ∧ (process_create t pid ppid sid (some parent)).processes.length
        = t.processes.length + 1 := by
  have hppid : parent.pid = ppid := (hash_table_get_some _ _ _ hpar).1
  have hne : ppid ≠ pid := by
    intro h
    rw [h, hnew] at hpar
    exact Option.noConfusion hpar
  refine ⟨?_, ?_, ?_, rfl, rfl, ?_⟩
  · unfold process_get at hnew hpar ⊢
    simp only [process_create, hash_table_get_append, hppid]
    rw [hash_table_get_update, hnew]
    · simp
    · exact fun _ => rfl
  · unfold process_get at hnew hpar ⊢
    simp only [process_create, hash_table_get_append, hppid]
    rw [hash_table_get_update, hpar]
    · simp [hppid, hne]
    · exact fun _ => rfl
  · intro q hq1 hq2
    unfold process_get at hnew hpar ⊢
    simp only [process_create, hash_table_get_append, hppid]
    rw [hash_table_get_update]
    · have hq1b : ¬ pid = q := fun h => hq1 h.symm
      simp only [hq1b, if_false, Option.or_none]
      cases hg : hash_table_get t.processes q with
      | none => rfl
      | some r =>
        have : r.pid ≠ ppid := by
          rw [(hash_table_get_some _ _ _ hg).1]; exact hq2
        simp [this]
    · exact fun _ => rfl
  · simp [process_create, update, hppid]

/-! ## Event ingestion: fork events -/

/-- The conversion `as_pid` of a 32-bit value gives 1 only for 1. -/
theorem as_pid_eq_one (n : Nat) (hn : n < 2 ^ 32) : as_pid n = 1 ↔ n = 1 := by
  unfold as_pid
  have e : n % 2 ^ 32 = n := Nat.mod_eq_of_lt hn
  rw [e]
  split_ifs <;> omega

/-- The value of `procwatch_ingest` for a fork event: the call of
`process_insert` behind its three guards. -/
theorem procwatch_ingest_fork_eq (t : Table) (parent child : cn_procid)
    (callback : procwatch_event → process → procwatch_action) :
    procwatch_ingest t (.fork parent child) callback
      = if (process_get t (as_pid parent.tgid)).isSome ∧ child.tgid = child.tid
            ∧ parent.tgid ≠ 1 then
          (process_insert t (as_pid child.tgid) (as_pid parent.tgid) 0).map (fun r => r.2)
        else some t := by
  simp only [procwatch_ingest, proc_event.actor_tgid]
  cases hpar : process_get t (as_pid parent.tgid) with
  | none => simp
  | some par =>
    simp only [Option.isSome_some, true_and]
    by_cases h1 : child.tgid ≠ child.tid
    · rw [if_pos h1, if_neg (fun h => h1 h.1)]
    · rw [if_neg h1]
      by_cases h2 : parent.tgid = 1
      · rw [if_pos h2, if_neg (fun h => h.2 h2)]
      · rw [if_neg h2, if_pos ⟨not_not.mp h1, h2⟩]
        cases process_insert t (as_pid child.tgid) (as_pid parent.tgid) 0 with
        | none => rfl
        | some r => rfl

/-- A call of `process_insert` with sid 0 for a pid that is in the table, and
a ppid other than 1, leaves the table as it is. -/
theorem process_insert_tracked (t : Table) (pid ppid : Int) (proc : process)
    (hget : process_get t pid = some proc) (hne : ppid ≠ 1) :
    ∃ o, process_insert t pid ppid 0 = some (o, t) := by
  unfold process_insert
  rw [hget]
  simp only
  by_cases hc : ppid ≠ 0 ∧ ppid ≠ proc.ppid
  · rw [if_pos hc, if_pos hne]
    exact ⟨_, rfl⟩
  · rw [if_neg hc]
    exact ⟨.ok, by simp [process_insert_sid]⟩

/-- C14, as amended: fork ingestion in `procwatch_ingest`, for a parent tgid
in the range of its 32-bit field.  A fork event always returns.  It adds a
record if and only if the child is a process
(child tid = child tgid), the tgid of the parent is not 1, the tgid of the
parent is a tracked pid, and the tgid of the child is not yet a tracked pid;
the new record then has the tgid of the parent as ppid, the sid of the parent,
no children and no wait status, and it is the last child of the parent.  In
every other case the table is left unchanged. -/
theorem procwatch_ingest_fork (t : Table) (parent child : cn_procid)
    (callback : procwatch_event → process → procwatch_action)
    (h32 : parent.tgid < 2 ^ 32) :
    ∃ t1, procwatch_ingest t (.fork parent child) callback = some t1
      ∧ (t1.processes.length = t.processes.length + 1 ↔
          (child.tgid = child.tid ∧ parent.tgid ≠ 1
            ∧ (process_get t (as_pid parent.tgid)).isSome
            ∧ process_get t (as_pid child.tgid) = none))
      ∧ (t1.processes.length = t.processes.length + 1 →
          ∃ par, process_get t (as_pid parent.tgid) = some par
            ∧ process_get t1 (as_pid child.tgid)
                = some ⟨as_pid child.tgid, as_pid parent.tgid, par.sid, [], -1⟩
            ∧ process_get t1 (as_pid parent.tgid)
                = some { par with children := par.children ++ [as_pid child.tgid] }
            ∧ (∀ q, q ≠ as_pid child.tgid → q ≠ as_pid parent.tgid →
                process_get t1 q = process_get t q)
            ∧ t1.ready = t.ready ∧ t1.self = t.self)
      ∧ (t1.processes.length ≠ t.processes.length + 1 → t1 = t) := by
  have hsame : (child.tgid = child.tid ∧ parent.tgid ≠ 1
        ∧ (process_get t (as_pid parent.tgid)).isSome
        ∧ process_get t (as_pid child.tgid) = none → False) →
      (t.processes.length = t.processes.length + 1 ↔
          (child.tgid = child.tid ∧ parent.tgid ≠ 1
            ∧ (process_get t (as_pid parent.tgid)).isSome
            ∧ process_get t (as_pid child.tgid) = none))
      ∧ (t.processes.length = t.processes.length + 1 →
          ∃ par, process_get t (as_pid parent.tgid) = some par
            ∧ process_get t (as_pid child.tgid)
                = some ⟨as_pid child.tgid, as_pid parent.tgid, par.sid, [], -1⟩
            ∧ process_get t (as_pid parent.tgid)
                = some { par with children := par.children ++ [as_pid child.tgid] }
            ∧ (∀ q, q ≠ as_pid child.tgid → q ≠ as_pid parent.tgid →
                process_get t q = process_get t q)
            ∧ t.ready = t.ready ∧ t.self = t.self)
      ∧ (t.processes.length ≠ t.processes.length + 1 → t = t) := by
    intro hno
    refine ⟨⟨fun h => absurd h (by omega), fun h => (hno h).elim⟩,
      fun h => absurd h (by omega), fun _ => rfl⟩
  rw [procwatch_ingest_fork_eq]
  by_cases hg : (process_get t (as_pid parent.tgid)).isSome ∧ child.tgid = child.tid
      ∧ parent.tgid ≠ 1
  · rw [if_pos hg]
    obtain ⟨hpar, htid, hp1⟩ := hg
    have hp1b : as_pid parent.tgid ≠ 1 := fun h => hp1 ((as_pid_eq_one _ h32).mp h)
    by_cases hch : process_get t (as_pid child.tgid) = none
    swap
    · obtain ⟨proc, hproc⟩ := Option.ne_none_iff_exists.mp hch
      obtain ⟨o, ho⟩ := process_insert_tracked t _ _ proc hproc.symm hp1b
      rw [ho]
      exact ⟨t, rfl, hsame (fun h => hch h.2.2.2)⟩
    · obtain ⟨par, hpar2⟩ := Option.isSome_iff_exists.mp hpar
      obtain ⟨k2, k3, k4, k5, k6, k7⟩ := process_create_get t _ _ par.sid par hch hpar2
      rw [process_insert_fresh t _ _ par hch hpar2]
      refine ⟨_, rfl, ⟨fun _ => ⟨htid, hp1, hpar, hch⟩, fun _ => k7⟩, ?_, ?_⟩
      · intro _
        exact ⟨par, hpar2, k2, k3, k4, k5, k6⟩
      · intro h; exact absurd k7 h
  · rw [if_neg hg]
    exact ⟨t, rfl, hsame (fun h => hg ⟨h.2.2.1, h.1, h.2.1⟩)⟩

/-- Witness of C14, as amended: the fork of the child 10 by the supervisor
100. -/
theorem procwatch_ingest_fork_witness :
    (100 : Nat) < 2 ^ 32
    ∧ ∃ t1, procwatch_ingest ⟨[⟨1, 1, 1, [], -1⟩, ⟨100, 100, 100, [], -1⟩], [], 100⟩
          (.fork ⟨100, 100⟩ ⟨10, 10⟩) (fun _ _ => .PROCWATCH_ACTION_DEFAULT) = some t1
        ∧ (t1.processes.length = 2 + 1 ↔
            ((10 : Nat) = 10 ∧ (100 : Nat) ≠ 1
              ∧ (process_get ⟨[⟨1, 1, 1, [], -1⟩, ⟨100, 100, 100, [], -1⟩], [], 100⟩
                  (as_pid 100)).isSome
              ∧ process_get ⟨[⟨1, 1, 1, [], -1⟩, ⟨100, 100, 100, [], -1⟩], [], 100⟩
                  (as_pid 10) = none)) :=
  ⟨by decide,
    match procwatch_ingest_fork ⟨[⟨1, 1, 1, [], -1⟩, ⟨100, 100, 100, [], -1⟩], [], 100⟩
      ⟨100, 100⟩ ⟨10, 10⟩ (fun _ _ => .PROCWATCH_ACTION_DEFAULT) (by decide) with
    | ⟨t1, h1, h2, _⟩ => ⟨t1, h1, h2⟩⟩

/-- Counterexample to C14 as stated: a fork event whose child is a process,
whose parent 100 is tracked and is not init, adds no record when the pid 10 of
the child is already in the table. -/
theorem procwatch_ingest_fork_tracked_child :
    procwatch_ingest
        ⟨[⟨1, 1, 1, [], -1⟩, ⟨100, 100, 100, [10], -1⟩, ⟨10, 100, 100, [], -1⟩], [], 100⟩
        (.fork ⟨100, 100⟩ ⟨10, 10⟩) (fun _ _ => .PROCWATCH_ACTION_DEFAULT)
      = some ⟨[⟨1, 1, 1, [], -1⟩, ⟨100, 100, 100, [10], -1⟩, ⟨10, 100, 100, [], -1⟩], [], 100⟩
    ∧ (process_get
        ⟨[⟨1, 1, 1, [], -1⟩, ⟨100, 100, 100, [10], -1⟩, ⟨10, 100, 100, [], -1⟩], [], 100⟩
        (as_pid 100)).isSome
    ∧ (10 : Nat) = 10 ∧ (100 : Nat) ≠ 1 := by
  decide

/-! ## Children lists as a forest -/

/-- With unique keys, the lookup of the pid of a record returns the record. -/
theorem process_get_of_mem (t : Table) (r : process)
    (hk : (t.processes.map (fun r => r.pid)).Nodup) (hr : r ∈ t.processes) :
    process_get t r.pid = some r := by
  obtain ⟨r1, h1⟩ := hash_table_get_of_mem t.processes r hr
  have h2 := hash_table_get_some _ _ _ h1
  have : r1 = r := List.inj_on_of_nodup_map hk h2.2 hr h2.1
  unfold process_get
  rw [h1, this]

/-- A record of the table is the image of itself under a write. -/
theorem mem_update_of_mem (ps : List process) (k : Int) (f : process → process) (r : process)
    (hr : r ∈ ps) : (if r.pid = k then f r else r) ∈ update ps k f :=
  (mem_update ps k f _).mpr ⟨r, hr, rfl⟩

/-- The invariant of the children lists does not read the ready list. -/
theorem tree_inv_ready (t : Table) (rd : List Int) (s : Int) (h : tree_inv t) :
    tree_inv ⟨t.processes, rd, s⟩ := h

/-- A write that keeps the pid and the parent pid, and leaves of each children
list a sublist, keeps the invariant of the children lists. -/
theorem tree_inv_children_sub (t : Table) (k : Int) (f : process → process)
    (hf : ∀ r, (f r).pid = r.pid ∧ (f r).ppid = r.ppid)
    (hsub : ∀ r ∈ t.processes, r.pid = k → (f r).children.Sublist r.children)
    (h : tree_inv t) : tree_inv ⟨update t.processes k f, t.ready, t.self⟩ := by
  obtain ⟨h1, h2, h3⟩ := h
  have hsub2 : ∀ r ∈ t.processes, (if r.pid = k then f r else r).children.Sublist r.children := by
    intro r hr
    split_ifs with hk
    · exact hsub r hr hk
    · exact List.Sublist.refl _
  have hkeep : ∀ r : process, (if r.pid = k then f r else r).pid = r.pid
      ∧ (if r.pid = k then f r else r).ppid = r.ppid := by
    intro r
    split_ifs
    · exact hf r
    · exact ⟨rfl, rfl⟩
  refine ⟨?_, ?_, ?_⟩
  · show (List.map (fun r => r.pid) (update t.processes k f)).Nodup
    rw [update_keys]
    · exact h1
    · exact fun r => (hf r).1
  · intro r1 hr1 c hc
    obtain ⟨r, hr, rfl⟩ := (mem_update _ _ _ _).mp hr1
    obtain ⟨rc, hrc, e1, e2⟩ := h2 r hr c ((hsub2 r hr).subset hc)
    refine ⟨_, mem_update_of_mem _ k f rc hrc, ?_, ?_⟩
    · rw [(hkeep rc).1]; exact e1
    · rw [(hkeep rc).2, (hkeep r).1]; exact e2
  · intro r1 hr1
    obtain ⟨r, hr, rfl⟩ := (mem_update _ _ _ _).mp hr1
    exact (hsub2 r hr).nodup (h3 r hr)

/-- A write of the parent pid of a record that is in no children list keeps
the invariant of the children lists. -/
theorem tree_inv_ppid (t : Table) (k v : Int) (hd : detached t k) (h : tree_inv t) :
    tree_inv ⟨update t.processes k (fun r => { r with ppid := v }), t.ready, t.self⟩ := by
  obtain ⟨h1, h2, h3⟩ := h
  refine ⟨?_, ?_, ?_⟩
  · show (List.map (fun r => r.pid) (update t.processes k _)).Nodup
    rw [update_keys]
    · exact h1
    · exact fun _ => rfl
  · intro r1 hr1 c hc
    obtain ⟨r, hr, rfl⟩ := (mem_update _ _ _ _).mp hr1
    have hc2 : c ∈ r.children := by
      split_ifs at hc
      · exact hc
      · exact hc
    obtain ⟨rc, hrc, e1, e2⟩ := h2 r hr c hc2
    have hck : rc.pid ≠ k := by
      intro e
      rw [e1] at e
      exact hd r hr (e ▸ hc2)
    refine ⟨rc, ?_, e1, ?_⟩
    · have := mem_update_of_mem t.processes k (fun r => { r with ppid := v }) rc hrc
      rw [if_neg hck] at this
      exact this
    · rw [e2]
      split_ifs <;> rfl
  · intro r1 hr1
    obtain ⟨r, hr, rfl⟩ := (mem_update _ _ _ _).mp hr1
    split_ifs
    · exact h3 r hr
    · exact h3 r hr

/-- Appending to the children of `k` a pid that is in no children list, and
whose record has `k` as parent pid, keeps the invariant of the children
lists. -/
theorem tree_inv_adopt (t : Table) (k c : Int) (hd : detached t c)
    (hc : ∃ rc ∈ t.processes, rc.pid = c ∧ rc.ppid = k) (h : tree_inv t) :
    tree_inv ⟨update t.processes k (fun r => { r with children := r.children ++ [c] }),
      t.ready, t.self⟩ := by
  obtain ⟨h1, h2, h3⟩ := h
  have hkeep : ∀ r : process,
      (if r.pid = k then { r with children := r.children ++ [c] } else r).pid = r.pid
      ∧ (if r.pid = k then { r with children := r.children ++ [c] } else r).ppid = r.ppid := by
    intro r
    split_ifs
    · exact ⟨rfl, rfl⟩
    · exact ⟨rfl, rfl⟩
  refine ⟨?_, ?_, ?_⟩
  · show (List.map (fun r => r.pid) (update t.processes k _)).Nodup
    rw [update_keys]
    · exact h1
    · exact fun _ => rfl
  · intro r1 hr1 x hx
    obtain ⟨r, hr, rfl⟩ := (mem_update _ _ _ _).mp hr1
    have hx2 : x ∈ r.children ∨ (r.pid = k ∧ x = c) := by
      split_ifs at hx with hk
      · rcases List.mem_append.mp hx with hx | hx
        · exact Or.inl hx
        · exact Or.inr ⟨hk, List.mem_singleton.mp hx⟩
      · exact Or.inl hx
    rcases hx2 with hx2 | ⟨hk, rfl⟩
    · obtain ⟨rc, hrc, e1, e2⟩ := h2 r hr x hx2
      refine ⟨_, mem_update_of_mem _ k _ rc hrc, ?_, ?_⟩
      · rw [(hkeep rc).1]; exact e1
      · rw [(hkeep rc).2, (hkeep r).1]; exact e2
    · obtain ⟨rc, hrc, e1, e2⟩ := hc
      refine ⟨_, mem_update_of_mem _ k _ rc hrc, ?_, ?_⟩
      · rw [(hkeep rc).1]; exact e1
      · rw [(hkeep rc).2, (hkeep r).1, hk]; exact e2
  · intro r1 hr1
    obtain ⟨r, hr, rfl⟩ := (mem_update _ _ _ _).mp hr1
    split_ifs
    · show (r.children ++ [c]).Nodup
      rw [List.nodup_append]
      refine ⟨h3 r hr, List.nodup_singleton c, ?_⟩
      intro a ha hb
      rw [List.mem_singleton.mp hb] at ha
      exact hd r hr ha
    · exact h3 r hr

/-- A write that keeps the pid, the parent pid and the children keeps the
invariant of the children lists. -/
theorem tree_inv_other (t : Table) (k : Int) (f : process → process)
    (hf : ∀ r, (f r).pid = r.pid ∧ (f r).ppid = r.ppid ∧ (f r).children = r.children)
    (h : tree_inv t) : tree_inv ⟨update t.processes k f, t.ready, t.self⟩ :=
  tree_inv_children_sub t k f (fun r => ⟨(hf r).1, (hf r).2.1⟩)
    (fun r _ _ => by rw [(hf r).2.2]) h

/-- Adding a record with a new pid and no children keeps the invariant of the
children lists. -/
theorem tree_inv_append (t : Table) (rnew : process)
    (hnew : rnew.pid ∉ t.processes.map (fun r => r.pid)) (hch : rnew.children = [])
    (h : tree_inv t) : tree_inv ⟨t.processes ++ [rnew], t.ready, t.self⟩ := by
  obtain ⟨h1, h2, h3⟩ := h
  refine ⟨?_, ?_, ?_⟩
  · show (List.map (fun r => r.pid) (t.processes ++ [rnew])).Nodup
    rw [List.map_append, List.nodup_append]
    refine ⟨h1, by simp, ?_⟩
    intro a ha hb
    simp only [List.map_cons, List.map_nil, List.mem_singleton] at hb
    exact hnew (hb ▸ ha)
  · intro r hr c hc
    rcases List.mem_append.mp hr with hr | hr
    · obtain ⟨rc, hrc, e⟩ := h2 r hr c hc
      exact ⟨rc, List.mem_append_left _ hrc, e⟩
    · rw [List.mem_singleton.mp hr, hch] at hc
      exact absurd hc (List.not_mem_nil _)
  · intro r hr
    rcases List.mem_append.mp hr with hr | hr
    · exact h3 r hr
    · rw [List.mem_singleton.mp hr, hch]
      exact List.nodup_nil

/-- Removing a record that is in no children list keeps the invariant of the
children lists. -/
theorem tree_inv_pop (t : Table) (p : Int) (rd : List Int) (hd : detached t p)
    (h : tree_inv t) : tree_inv ⟨hash_table_pop t.processes p, rd, t.self⟩ := by
  obtain ⟨h1, h2, h3⟩ := h
  refine ⟨?_, ?_, ?_⟩
  · show (List.map (fun r => r.pid) (hash_table_pop t.processes p)).Nodup
    unfold hash_table_pop
    exact (List.filter_sublist _).map _ |>.nodup h1
  · intro r hr c hc
    simp only [hash_table_pop, List.mem_filter, decide_eq_true_eq] at hr
    obtain ⟨rc, hrc, e1, e2⟩ := h2 r hr.1 c hc
    refine ⟨rc, ?_, e1, e2⟩
    simp only [hash_table_pop, List.mem_filter, decide_eq_true_eq]
    refine ⟨hrc, ?_⟩
    rw [e1]
    intro e
    exact hd r hr.1 (e ▸ hc)
  · intro r hr
    simp only [hash_table_pop, List.mem_filter] at hr
    exact h3 r hr.1

/-- A pid that is popped from the head of a children list is in no children
list afterwards. -/
theorem detached_pop_head (t : Table) (r : process) (c : Int) (rest : List Int)
    (h : tree_inv t) (hr : r ∈ t.processes) (hch : r.children = c :: rest) :
    detached ⟨update t.processes r.pid (fun x => { x with children := rest }),
      t.ready, t.self⟩ c := by
  obtain ⟨h1, h2, h3⟩ := h
  intro r1 hr1 hc
  obtain ⟨r0, hr0, rfl⟩ := (mem_update _ _ _ _).mp hr1
  have hnd := h3 r hr
  rw [hch] at hnd
  by_cases hk : r0.pid = r.pid
  · rw [if_pos hk] at hc
    exact (List.nodup_cons.mp hnd).1 hc
  · rw [if_neg hk] at hc
    obtain ⟨rc, hrc, e1, e2⟩ := h2 r0 hr0 c hc
    obtain ⟨rc2, hrc2, e3, e4⟩ := h2 r hr c (by rw [hch]; simp)
    have : rc = rc2 := List.inj_on_of_nodup_map h1 hrc hrc2 (e1.trans e3.symm)
    rw [this] at e2
    exact hk (e2.symm.trans e4)

/-- After `process_unparent` the process is in no children list. -/
theorem detached_unparent (t : Table) (proc : process) (h : tree_inv t)
    (hp : proc ∈ t.processes) : detached (process_unparent t proc) proc.pid := by
  obtain ⟨h1, h2, h3⟩ := h
  have hown : ∀ r ∈ t.processes, proc.pid ∈ r.children → r.pid = proc.ppid := by
    intro r hr hc
    obtain ⟨rc, hrc, e1, e2⟩ := h2 r hr _ hc
    have : rc = proc := List.inj_on_of_nodup_map h1 hrc hp e1
    rw [this] at e2
    exact e2.symm
  unfold process_unparent
  cases hpar : process_get t proc.ppid with
  | none =>
    intro r hr hc
    have := (hash_table_get_none _ _).mp hpar r hr
    exact this (hown r hr hc)
  | some parent =>
    intro r1 hr1 hc
    obtain ⟨r0, hr0, rfl⟩ := (mem_update _ _ _ _).mp hr1
    have hpp : parent.pid = proc.ppid := (hash_table_get_some _ _ _ hpar).1
    by_cases hk : r0.pid = parent.pid
    · rw [if_pos hk] at hc
      exact (List.Nodup.mem_erase_iff (h3 r0 hr0)).mp hc |>.1 rfl
    · rw [if_neg hk] at hc
      exact hk ((hown r0 hr0 hc).trans hpp.symm)

/-- The function `process_unparent` keeps the invariant of the children
lists. -/
theorem tree_inv_unparent (t : Table) (proc : process) (h : tree_inv t) :
    tree_inv (process_unparent t proc) := by
  unfold process_unparent
  cases process_get t proc.ppid with
  | none => exact h
  | some parent =>
    exact tree_inv_children_sub t parent.pid _ (fun _ => ⟨rfl, rfl⟩)
      (fun r _ _ => List.erase_sublist _ _) h

/-! ## Process table: dropping a subtree -/

/-- What the recursive drop leaves in place, when it returns from a table
with unique keys.  Every record that remains has the pid of a record that was
there, with a children list that has no new entry; for a set `S` of pids that
holds the dropped pid and is closed under children lists, the records and
ready entries outside `S` are untouched; the entries of children lists that
lead to a remaining record are kept; a ready list without duplicates that
names only records stays so.  The function removes the record it is called
for, and its loop empties the children list of that record. -/
theorem process_drop_rec_frame (n : Nat) :
    (∀ t p t1, (process_drop_rec n).1 t p = some t1 →
      (t.processes.map (fun r => r.pid)).Nodup →
      (t1.processes.map (fun r => r.pid)).Nodup
      ∧ (∀ r1 ∈ t1.processes, ∃ r ∈ t.processes, r1.pid = r.pid
        ∧ ∀ c ∈ r1.children, c ∈ r.children)
      ∧ (∀ S : Int → Prop, S p → (∀ r ∈ t.processes, S r.pid → ∀ c ∈ r.children, S c) →
          (∀ r ∈ t.processes, ¬ S r.pid → r ∈ t1.processes)
          ∧ (∀ x ∈ t.ready, ¬ S x → x ∈ t1.ready))
      ∧ (∀ (T : Table) (E : Int → Prop),
          edges_kept (fun x => E x ∨ x = p) T t → edges_kept E T t1)
      ∧ (∀ r1 ∈ t1.processes, r1.pid ≠ p)
      ∧ (t.ready.Nodup ∧ (∀ x ∈ t.ready, ∃ r ∈ t.processes, r.pid = x) →
          t1.ready.Nodup ∧ (∀ x ∈ t1.ready, ∃ r ∈ t1.processes, r.pid = x))
      ∧ (∀ x ∈ t1.ready, x ∈ t.ready)
      ∧ t1.self = t.self)
    ∧ (∀ t p t1, (process_drop_rec n).2 t p = some t1 →
      (t.processes.map (fun r => r.pid)).Nodup →
      (t1.processes.map (fun r => r.pid)).Nodup
      ∧ (∀ r1 ∈ t1.processes, ∃ r ∈ t.processes, r1.pid = r.pid
        ∧ ∀ c ∈ r1.children, c ∈ r.children)
      ∧ (∀ S : Int → Prop, S p → (∀ r ∈ t.processes, S r.pid → ∀ c ∈ r.children, S c) →
          (∀ r ∈ t.processes, ¬ S r.pid → r ∈ t1.processes)
          ∧ (∀ x ∈ t.ready, ¬ S x → x ∈ t1.ready))
      ∧ (∀ (T : Table) (E : Int → Prop),
          edges_kept (fun x => E x ∨ x = p) T t → edges_kept (fun x => E x ∨ x = p) T t1)
      ∧ (t.ready.Nodup ∧ (∀ x ∈ t.ready, ∃ r ∈ t.processes, r.pid = x) →
          t1.ready.Nodup ∧ (∀ x ∈ t1.ready, ∃ r ∈ t1.processes, r.pid = x))
      ∧ (∀ x ∈ t1.ready, x ∈ t.ready)
      ∧ t1.self = t.self
      ∧ ∃ r ∈ t1.processes, r.pid = p ∧ r.children = []) := by
  induction n with
  | zero =>
    constructor <;> intro t p t1 h <;> simp [process_drop_rec] at h
  | succ n ih =>
    constructor
    · intro t p t1 h hk
      simp only [process_drop_rec] at h
      split at h
      · exact Option.noConfusion h
      · split at h
        · exact Option.noConfusion h
        · rename_i t2 hloop
          cases h
          have hk0 : (List.map (fun r => r.pid)
              (update t.processes p (fun r => { r with ppid := 0 }))).Nodup := by
            rw [update_keys]
            · exact hk
            · exact fun _ => rfl
          obtain ⟨hk2, f1, f2, f3, f4, f5, f6, rec, hrec, hrecp, hnil⟩ := ih.2 _ _ _ hloop hk0
          have hsame : ∀ r : process,
              (if r.pid = p then { r with ppid := 0 } else r).pid = r.pid
              ∧ (if r.pid = p then { r with ppid := 0 } else r).children = r.children := by
            intro r
            split_ifs
            · exact ⟨rfl, rfl⟩
            · exact ⟨rfl, rfl⟩
          refine ⟨?_, ?_, ?_, ?_, ?_, ?_, ?_, f6⟩
          · show (List.map (fun r => r.pid) (hash_table_pop t2.processes p)).Nodup
            unfold hash_table_pop
            exact (List.filter_sublist _).map _ |>.nodup hk2
          · intro r1 hr1
            simp only [hash_table_pop, List.mem_filter] at hr1
            obtain ⟨r0, hr0, e1, e2⟩ := f1 r1 hr1.1
            obtain ⟨r, hr, rfl⟩ := (mem_update _ _ _ _).mp hr0
            refine ⟨r, hr, ?_, ?_⟩
            · rw [e1, (hsame r).1]
            · intro c hc
              have := e2 c hc
              rw [(hsame r).2] at this
              exact this
          · intro S hSp hcl
            have hcl0 : ∀ r ∈ update t.processes p (fun r => { r with ppid := 0 }),
                S r.pid → ∀ c ∈ r.children, S c := by
              intro r0 hr0 hS c hc
              obtain ⟨r, hr, rfl⟩ := (mem_update _ _ _ _).mp hr0
              rw [(hsame r).1] at hS
              rw [(hsame r).2] at hc
              exact hcl r hr hS c hc
            obtain ⟨a1, a2⟩ := f2 S hSp hcl0
            constructor
            · intro r hr hS
              have hne : r.pid ≠ p := fun e => hS (e ▸ hSp)
              have hr0 := mem_update_of_mem t.processes p (fun r => { r with ppid := 0 }) r hr
              rw [if_neg hne] at hr0
              simp only [hash_table_pop, List.mem_filter, decide_eq_true_eq]
              exact ⟨a1 r hr0 hS, hne⟩
            · intro x hx hS
              have hne : x ≠ p := fun e => hS (e ▸ hSp)
              exact (List.mem_erase_of_ne hne).mpr (a2 x hx hS)
          · intro T E hE
            have hE2 := f3 T E (by
              intro r hr x hx hnE ⟨rx, hrx, erx⟩
              obtain ⟨rx0, hrx0, rfl⟩ := (mem_update _ _ _ _).mp hrx
              rw [(hsame rx0).1] at erx
              obtain ⟨r1, hr1, e1, e2⟩ := hE r hr x hx hnE ⟨rx0, hrx0, erx⟩
              refine ⟨_, mem_update_of_mem _ p (fun r => { r with ppid := 0 }) r1 hr1, ?_, ?_⟩
              · rw [(hsame r1).1]; exact e1
              · rw [(hsame r1).2]; exact e2)
            intro r hr x hx hnE ⟨rx, hrx, erx⟩
            simp only [hash_table_pop, List.mem_filter, decide_eq_true_eq] at hrx
            have hxp : x ≠ p := erx ▸ hrx.2
            obtain ⟨r1, hr1, e1, e2⟩ := hE2 r hr x hx (fun h => h.elim hnE hxp) ⟨rx, hrx.1, erx⟩
            refine ⟨r1, ?_, e1, e2⟩
            simp only [hash_table_pop, List.mem_filter, decide_eq_true_eq]
            refine ⟨hr1, ?_⟩
            intro e
            have : r1 = rec := List.inj_on_of_nodup_map hk2 hr1 hrec (e.trans hrecp.symm)
            rw [this, hnil] at e2
            exact absurd e2 (List.not_mem_nil _)
          · intro r1 hr1
            simp only [hash_table_pop, List.mem_filter, decide_eq_true_eq] at hr1
            exact hr1.2
          · intro hR
            obtain ⟨g1, g2⟩ := f4 ⟨hR.1, fun x hx => by
              obtain ⟨r, hr, e⟩ := hR.2 x hx
              exact ⟨_, mem_update_of_mem _ p (fun r => { r with ppid := 0 }) r hr,
                by rw [(hsame r).1]; exact e⟩⟩
            refine ⟨g1.erase p, ?_⟩
            intro x hx
            have hx2 := (List.Nodup.mem_erase_iff g1).mp hx
            obtain ⟨r, hr, e⟩ := g2 x hx2.2
            refine ⟨r, ?_, e⟩
            simp only [hash_table_pop, List.mem_filter, decide_eq_true_eq]
            exact ⟨hr, e ▸ hx2.1⟩
          · intro x hx
            exact f5 x (List.mem_of_mem_erase hx)
    · intro t p t1 h hk
      simp only [process_drop_rec] at h
      split at h
      · exact Option.noConfusion h
      · rename_i rec0 hget
        have hrec0 := hash_table_get_some _ _ _ hget
        split at h
        · rename_i hnil
          cases h
          exact ⟨hk, fun r1 hr1 => ⟨r1, hr1, rfl, fun c hc => hc⟩,
            fun S _ _ => ⟨fun r hr _ => hr, fun x hx _ => hx⟩,
            fun T E hE => hE, fun hR => hR, fun x hx => hx, rfl, rec0, hrec0.2, hrec0.1, hnil⟩
        · rename_i c rest hch
          split at h
          · exact Option.noConfusion h
          · rename_i t2 hrec
            have hk1 : (List.map (fun r => r.pid)
                (update t.processes p (fun r => { r with children := rest }))).Nodup := by
              rw [update_keys]
              · exact hk
              · exact fun _ => rfl
            obtain ⟨hk2, a1, a2, a3, a4, a5, a6, a7⟩ := ih.1 _ _ _ hrec hk1
            obtain ⟨hk3, b1, b2, b3, b4, b5, b6, b7⟩ := ih.2 _ _ _ h hk2
            have hsame : ∀ r : process,
                (if r.pid = p then { r with children := rest } else r).pid = r.pid := by
              intro r
              split_ifs <;> rfl
            have hsub : ∀ r ∈ t.processes,
                ∀ x ∈ (if r.pid = p then { r with children := rest } else r).children,
                  x ∈ r.children := by
              intro r hr x hx
              by_cases hp : r.pid = p
              · rw [if_pos hp] at hx
                have e : r = rec0 :=
                  List.inj_on_of_nodup_map hk hr hrec0.2 (hp.trans hrec0.1.symm)
                rw [e, hch]
                exact List.mem_cons_of_mem _ hx
              · rw [if_neg hp] at hx
                exact hx
            refine ⟨hk3, ?_, ?_, ?_, ?_, ?_, ?_, b7⟩
            · intro r1 hr1
              obtain ⟨r2, hr2, e1, e2⟩ := b1 r1 hr1
              obtain ⟨r3, hr3, e3, e4⟩ := a1 r2 hr2
              obtain ⟨r, hr, rfl⟩ := (mem_update _ _ _ _).mp hr3
              refine ⟨r, hr, ?_, ?_⟩
              · rw [e1, e3, hsame r]
              · intro x hx
                exact hsub r hr x (e4 x (e2 x hx))
            · intro S hSp hcl
              have hSc : S c := by
                apply hcl rec0 hrec0.2 (hrec0.1 ▸ hSp)
                rw [hch]; simp
              have hcl1 : ∀ r ∈ update t.processes p (fun r => { r with children := rest }),
                  S r.pid → ∀ x ∈ r.children, S x := by
                intro r0 hr0 hS x hx
                obtain ⟨r, hr, rfl⟩ := (mem_update _ _ _ _).mp hr0
                rw [hsame r] at hS
                exact hcl r hr hS x (hsub r hr x hx)
              obtain ⟨c1, c2⟩ := a2 S hSc hcl1
              have hcl2 : ∀ r ∈ t2.processes, S r.pid → ∀ x ∈ r.children, S x := by
                intro r2 hr2 hS x hx
                obtain ⟨r3, hr3, e3, e4⟩ := a1 r2 hr2
                exact hcl1 r3 hr3 (e3 ▸ hS) x (e4 x hx)
              obtain ⟨d1, d2⟩ := b2 S hSp hcl2
              constructor
              · intro r hr hS
                have hne : r.pid ≠ p := fun e => hS (e ▸ hSp)
                have hr0 := mem_update_of_mem t.processes p
                  (fun r => { r with children := rest }) r hr
                rw [if_neg hne] at hr0
                exact d1 r (c1 r hr0 hS) hS
              · intro x hx hS
                exact d2 x (c2 x hx hS) hS
            · intro T E hE
              apply b3 T E
              apply a3 T (fun x => E x ∨ x = p)
              intro r hr x hx hnE ⟨rx, hrx, erx⟩
              obtain ⟨rx0, hrx0, rfl⟩ := (mem_update _ _ _ _).mp hrx
              rw [hsame rx0] at erx
              obtain ⟨r1, hr1, e1, e2⟩ := hE r hr x hx (fun h => hnE (Or.inl h)) ⟨rx0, hrx0, erx⟩
              refine ⟨_, mem_update_of_mem _ p (fun r => { r with children := rest }) r1 hr1,
                ?_, ?_⟩
              · rw [hsame r1]; exact e1
              · by_cases hp : r1.pid = p
                · rw [if_pos hp]
                  have e : r1 = rec0 :=
                    List.inj_on_of_nodup_map hk hr1 hrec0.2 (hp.trans hrec0.1.symm)
                  rw [e, hch] at e2
                  rcases List.mem_cons.mp e2 with e2 | e2
                  · exact absurd (Or.inr e2) hnE
                  · exact e2
                · rw [if_neg hp]
                  exact e2
            · intro hR
              apply b4
              apply a5
              refine ⟨hR.1, fun x hx => ?_⟩
              obtain ⟨r, hr, e⟩ := hR.2 x hx
              exact ⟨_, mem_update_of_mem _ p (fun r => { r with children := rest }) r hr,
                by rw [hsame r]; exact e⟩
            · intro x hx
              exact a6 x (b5 x hx)
            · rw [b6, a7]

/-- A write to a pid that no record has changes nothing. -/
theorem update_absent (ps : List process) (k : Int) (f : process → process)
    (h : ∀ r ∈ ps, r.pid ≠ k) : update ps k f = ps := by
  unfold update
  conv_rhs => rw [← List.map_id ps]
  apply List.map_congr_left
  intro r hr
  rw [if_neg (h r hr)]
  rfl

/-- Popping the head of a children list takes one entry from the total of the
children lists. -/
theorem children_total_pop_head (ps : List process) (r : process) (c : Int) (rest : List Int)
    (hk : (ps.map (fun r => r.pid)).Nodup) (hr : r ∈ ps) (hch : r.children = c :: rest) :
    ((update ps r.pid (fun x => { x with children := rest })).map
        (fun r => r.children.length)).sum + 1
      = (ps.map (fun r => r.children.length)).sum := by
  induction ps with
  | nil => exact absurd hr (List.not_mem_nil _)
  | cons a tl ih =>
    rw [List.map_cons, List.nodup_cons] at hk
    rcases List.mem_cons.mp hr with e | hr2
    · subst e
      have habs : ∀ x ∈ tl, x.pid ≠ r.pid := by
        intro x hx e
        exact hk.1 (List.mem_map.mpr ⟨x, hx, e⟩)
      have e1 : update (r :: tl) r.pid (fun x => { x with children := rest })
          = { r with children := rest } :: update tl r.pid
              (fun x => { x with children := rest }) := by
        simp [update]
      rw [e1, update_absent tl _ _ habs]
      simp only [List.map_cons, List.sum_cons, hch, List.length_cons]
      omega
    · have hne : a.pid ≠ r.pid := by
        intro e
        exact hk.1 (List.mem_map.mpr ⟨r, hr2, e.symm⟩)
      have e1 : update (a :: tl) r.pid (fun x => { x with children := rest })
          = a :: update tl r.pid (fun x => { x with children := rest }) := by
        simp [update, hne]
      rw [e1]
      simp only [List.map_cons, List.sum_cons]
      have := ih hk.2 hr2
      omega

/-- A write that keeps the children keeps the total of the children lists. -/
theorem children_total_update (ps : List process) (k : Int) (f : process → process)
    (hf : ∀ r, (f r).children = r.children) :
    ((update ps k f).map (fun r => r.children.length)).sum
      = (ps.map (fun r => r.children.length)).sum := by
  unfold update
  rw [List.map_map]
  congr 1
  apply List.map_congr_left
  intro r _
  simp only [Function.comp]
  split_ifs
  · rw [hf r]
  · rfl

/-- Removing a record does not add to the total of the children lists. -/
theorem children_total_hash_pop (ps : List process) (p : Int) :
    ((hash_table_pop ps p).map (fun r => r.children.length)).sum
      ≤ (ps.map (fun r => r.children.length)).sum := by
  unfold hash_table_pop
  induction ps with
  | nil => simp
  | cons a tl ih =>
    by_cases h : a.pid ≠ p
    · rw [List.filter_cons_of_pos (by simpa using h)]
      simp only [List.map_cons, List.sum_cons]
      omega
    · rw [List.filter_cons_of_neg (by simpa using h)]
      simp only [List.map_cons, List.sum_cons]
      omega

/-- The recursive drop returns.  On a table whose children lists are well
formed, for a record that is in no children list and with fuel for two steps
per entry of the children lists, `process_drop_recursive` and its loop return
a table whose children lists are well formed. -/
theorem process_drop_rec_returns (n : Nat) :
    (∀ t p, tree_inv t → detached t p → (∃ r ∈ t.processes, r.pid = p) →
      2 * children_total t + 2 ≤ n →
      ∃ t1, (process_drop_rec n).1 t p = some t1 ∧ tree_inv t1
        ∧ children_total t1 ≤ children_total t)
    ∧ (∀ t p, tree_inv t → detached t p → (∃ r ∈ t.processes, r.pid = p) →
      2 * children_total t + 1 ≤ n →
      ∃ t1, (process_drop_rec n).2 t p = some t1 ∧ tree_inv t1 ∧ detached t1 p
        ∧ children_total t1 ≤ children_total t) := by
  induction n with
  | zero =>
    constructor
    · intro t p _ _ _ hn; omega
    · intro t p _ _ _ hn; omega
  | succ n ih =>
    constructor
    · intro t p hinv hdet ⟨r, hr, hrp⟩ hn
      have hget : process_get t p = some r := hrp ▸ process_get_of_mem t r hinv.1 hr
      have hinv0 := tree_inv_ppid t p 0 hdet hinv
      have hdet0 : detached
          ⟨update t.processes p (fun r => { r with ppid := 0 }), t.ready, t.self⟩ p := by
        intro r1 hr1 hc
        obtain ⟨r0, hr0, rfl⟩ := (mem_update _ _ _ _).mp hr1
        apply hdet r0 hr0
        split_ifs at hc
        · exact hc
        · exact hc
      have hm0 : children_total
          ⟨update t.processes p (fun r => { r with ppid := 0 }), t.ready, t.self⟩
          = children_total t := children_total_update _ _ _ (fun _ => rfl)
      have halive0 : ∃ r ∈ (⟨update t.processes p (fun r => { r with ppid := 0 }),
          t.ready, t.self⟩ : Table).processes, r.pid = p := by
        refine ⟨_, mem_update_of_mem _ p (fun r => { r with ppid := 0 }) r hr, ?_⟩
        rw [if_pos hrp]; exact hrp
      obtain ⟨t2, hloop, hinv2, hdet2, hm2⟩ := ih.2 _ p hinv0 hdet0 halive0 (by rw [hm0]; omega)
      refine ⟨⟨hash_table_pop t2.processes p, t2.ready.erase p, t2.self⟩, ?_, ?_, ?_⟩
      · simp only [process_drop_rec, hget]
        have e : (process_drop_rec n).2
            { t with processes := update t.processes p (fun r => { r with ppid := 0 }) } p
            = some t2 := hloop
        rw [e]
      · exact tree_inv_pop t2 p _ hdet2 hinv2
      · have := children_total_hash_pop t2.processes p
        unfold children_total at hm2 hm0 ⊢
        simp only at hm2 hm0 ⊢
        omega
    · intro t p hinv hdet ⟨r, hr, hrp⟩ hn
      have hget : process_get t p = some r := hrp ▸ process_get_of_mem t r hinv.1 hr
      cases hch : r.children with
      | nil =>
        refine ⟨t, ?_, hinv, hdet, le_refl _⟩
        simp only [process_drop_rec, hget, hch]
      | cons c rest =>
        have hinv1 : tree_inv
            ⟨update t.processes p (fun x => { x with children := rest }), t.ready, t.self⟩ := by
          refine tree_inv_children_sub t p (fun x => { x with children := rest })
            (fun _ => ⟨rfl, rfl⟩) ?_ hinv
          intro r0 hr0 hp0
          have e : r0 = r := List.inj_on_of_nodup_map hinv.1 hr0 hr (hp0.trans hrp.symm)
          rw [e, hch]
          exact List.sublist_cons_self c rest
        have hdetc : detached
            ⟨update t.processes p (fun x => { x with children := rest }), t.ready, t.self⟩ c := by
          have := detached_pop_head t r c rest hinv hr hch
          rw [hrp] at this
          exact this
        have hsub : ∀ r1 ∈ update t.processes p (fun x => { x with children := rest }),
            ∃ r0 ∈ t.processes, r1.pid = r0.pid ∧ ∀ x ∈ r1.children, x ∈ r0.children := by
          intro r1 hr1
          obtain ⟨r0, hr0, rfl⟩ := (mem_update _ _ _ _).mp hr1
          refine ⟨r0, hr0, by split_ifs <;> rfl, ?_⟩
          intro x hx
          by_cases hp0 : r0.pid = p
          · rw [if_pos hp0] at hx
            have e : r0 = r := List.inj_on_of_nodup_map hinv.1 hr0 hr (hp0.trans hrp.symm)
            rw [e, hch]
            exact List.mem_cons_of_mem _ hx
          · rw [if_neg hp0] at hx
            exact hx
        have hdet1 : detached
            ⟨update t.processes p (fun x => { x with children := rest }), t.ready, t.self⟩ p := by
          intro r1 hr1 hc
          obtain ⟨r0, hr0, _, e2⟩ := hsub r1 hr1
          exact hdet r0 hr0 (e2 p hc)
        have hcalive : ∃ rc ∈ (⟨update t.processes p (fun x => { x with children := rest }),
            t.ready, t.self⟩ : Table).processes, rc.pid = c := by
          obtain ⟨rc, hrc, e1, _⟩ := hinv.2.1 r hr c (by rw [hch]; simp)
          refine ⟨_, mem_update_of_mem _ p (fun x => { x with children := rest }) rc hrc, ?_⟩
          rw [← e1]; split_ifs <;> rfl
        have hm1 : children_total
            ⟨update t.processes p (fun x => { x with children := rest }), t.ready, t.self⟩ + 1
            = children_total t := by
          have := children_total_pop_head t.processes r c rest hinv.1 hr hch
          rw [hrp] at this
          exact this
        obtain ⟨t2, hrec, hinv2, hm2⟩ := ih.1 _ c hinv1 hdetc hcalive (by omega)
        obtain ⟨_, a1, a2, _⟩ := (process_drop_rec_frame n).1 _ _ _ hrec hinv1.1
        have hcp : c ≠ p := by
          intro e
          apply hdet r hr
          rw [hch, ← e]
          simp
        have hkeep := (a2 (fun x => x ≠ p) hcp (by
          intro r1 hr1 _ x hx e
          exact hdet1 r1 hr1 (e ▸ hx))).1
        have hp2 : ∃ r2 ∈ t2.processes, r2.pid = p := by
          have hr1 := mem_update_of_mem t.processes p (fun x => { x with children := rest }) r hr
          rw [if_pos hrp] at hr1
          exact ⟨_, hkeep _ hr1 (fun h => h hrp), hrp⟩
        have hdet2 : detached t2 p := by
          intro r2 hr2 hc
          obtain ⟨r1, hr1, _, e2⟩ := a1 r2 hr2
          exact hdet1 r1 hr1 (e2 p hc)
        obtain ⟨t3, hloop, hinv3, hdet3, hm3⟩ := ih.2 t2 p hinv2 hdet2 hp2 (by omega)
        refine ⟨t3, ?_, hinv3, hdet3, by omega⟩
        simp only [process_drop_rec, hget, hch]
        have e : (process_drop_rec n).1
            { t with processes := update t.processes p (fun r => { r with children := rest }) } c
            = some t2 := hrec
        rw [e]
        exact hloop

/-- The records after `process_unparent`: each is the record of the same pid
before, with a children list that has lost at most the entry of the
process. -/
theorem process_unparent_mem (t : Table) (proc : process) :
    (∀ r1 ∈ (process_unparent t proc).processes, ∃ r ∈ t.processes,
      r1.pid = r.pid ∧ ∀ c ∈ r1.children, c ∈ r.children)
    ∧ (∀ r ∈ t.processes, ∃ r1 ∈ (process_unparent t proc).processes,
      r1.pid = r.pid ∧ ∀ c ∈ r.children, c ≠ proc.pid → c ∈ r1.children) := by
  unfold process_unparent
  cases process_get t proc.ppid with
  | none =>
    exact ⟨fun r1 hr1 => ⟨r1, hr1, rfl, fun c hc => hc⟩,
      fun r hr => ⟨r, hr, rfl, fun c hc _ => hc⟩⟩
  | some parent =>
    constructor
    · intro r1 hr1
      obtain ⟨r, hr, rfl⟩ := (mem_update _ _ _ _).mp hr1
      refine ⟨r, hr, by split_ifs <;> rfl, ?_⟩
      intro c hc
      split_ifs at hc
      · exact List.mem_of_mem_erase hc
      · exact hc
    · intro r hr
      refine ⟨_, mem_update_of_mem _ parent.pid
        (fun r => { r with children := r.children.erase proc.pid }) r hr,
        by split_ifs <;> rfl, ?_⟩
      intro c hc hne
      split_ifs
      · exact (List.mem_erase_of_ne hne).mpr hc
      · exact hc

/-- An event whose actor is not tracked leaves the table as it is. -/
theorem procwatch_ingest_untracked (t : Table) (ev : proc_event)
    (callback : procwatch_event → process → procwatch_action)
    (h : process_get t (as_pid ev.actor_tgid) = none) :
    procwatch_ingest t ev callback = some t := by
  cases ev <;> simp [procwatch_ingest, h]

/-- The record that `process_collect` returns is the record of the head of
the ready list. -/
theorem process_collect_head (t t1 : Table) (r : process)
    (h : process_collect t = some (.proc r t1)) : r.pid ∈ t.ready := by
  unfold process_collect at h
  split_ifs at h
  · cases h
  split at h
  · cases h
  · rename_i p rest hready
    split at h
    · exact Option.noConfusion h
    · simp only at h
      split at h
      · exact Option.noConfusion h
      · rename_i proc1 hget1
        cases h
        rw [(hash_table_get_some _ _ _ hget1).1, hready]
        simp

/-- The effect of `process_drop`.  For a pid that is not in the table the call
returns false and changes nothing.  For a tracked pid, on a table whose children lists
are well formed and whose ready list has no duplicate and names only records
of the table, the call returns true; the records that remain are exactly the
records that `process_unparent` leaves (the table with the pid detached from
the children list of its parent) whose pid cannot be reached from the dropped
pid through children lists; the ready list keeps exactly its entries that
cannot be reached; the record of the parent has lost the entry of the pid.  No
pid that can be reached is in the table or on the ready list afterwards, so
the next `process_collect` cannot return it, and an event whose actor it is
leaves the table as it is. -/
theorem process_drop_subtree (t : Table) (pid : Int) (hinv : tree_inv t)
    (hrd : t.ready.Nodup) (hra : ∀ x ∈ t.ready, ∃ r ∈ t.processes, r.pid = x) :
    (process_get t pid = none → process_drop t pid = some (false, t))
    ∧ (∀ proc, process_get t pid = some proc →
        ∃ t1, process_drop t pid = some (true, t1)
          ∧ (∀ x, reach t pid x → process_get t1 x = none ∧ x ∉ t1.ready)
          ∧ (∀ r, r ∈ t1.processes ↔
              r ∈ (process_unparent t proc).processes ∧ ¬ reach t pid r.pid)
          ∧ (∀ x, x ∈ t1.ready ↔ x ∈ t.ready ∧ ¬ reach t pid x)
          ∧ (∀ par, process_get t proc.ppid = some par → ¬ reach t pid par.pid →
              process_get t1 proc.ppid
                = some { par with children := par.children.erase pid })
          ∧ t1.self = t.self
          ∧ (∀ r t2, process_collect t1 = some (.proc r t2) → ¬ reach t pid r.pid)
          ∧ (∀ ev callback, reach t pid (as_pid ev.actor_tgid) →
              procwatch_ingest t1 ev callback = some t1)) := by
  constructor
  · intro hnone
    simp [process_drop, hnone]
  · intro proc hget
    have hproc := hash_table_get_some _ _ _ hget
    have hinv1 := tree_inv_unparent t proc hinv
    have hdet1 : detached (process_unparent t proc) pid := by
      have := detached_unparent t proc hinv hproc.2
      rw [hproc.1] at this
      exact this
    obtain ⟨um1, um2⟩ := process_unparent_mem t proc
    have hur := process_unparent_ready t proc
    have halive1 : ∃ r ∈ (process_unparent t proc).processes, r.pid = pid := by
      obtain ⟨r1, hr1, e, _⟩ := um2 proc hproc.2
      exact ⟨r1, hr1, e.trans hproc.1⟩
    obtain ⟨t1, hrec, hinv2, _⟩ := (process_drop_rec_returns _).1 (process_unparent t proc) pid
      hinv1 hdet1 halive1 (le_refl _)
    obtain ⟨hk2, f1, f2, f3, f4, f5, f6, f7⟩ :=
      (process_drop_rec_frame _).1 _ _ _ hrec hinv1.1
    have hclosed : ∀ r ∈ (process_unparent t proc).processes, reach t pid r.pid →
        ∀ c ∈ r.children, reach t pid c := by
      intro r1 hr1 hS c hc
      obtain ⟨r, hr, e1, e2⟩ := um1 r1 hr1
      exact reach.child r c (e1 ▸ hS) hr (e2 c hc)
    obtain ⟨a1, a2⟩ := f2 (reach t pid) reach.root hclosed
    have hedges : edges_kept (fun _ => False) t t1 := by
      apply f3 t (fun _ => False)
      intro r hr x hx hnE _
      obtain ⟨r1, hr1, e1, e2⟩ := um2 r hr
      refine ⟨r1, hr1, e1, e2 x hx ?_⟩
      intro e
      exact hnE (Or.inr (e.trans hproc.1))
    have hgone : ∀ x, reach t pid x → ∀ r1 ∈ t1.processes, r1.pid ≠ x := by
      intro x hx
      induction hx with
      | root => exact f4
      | child r c _ hr hc ih =>
        intro r1 hr1 e
        obtain ⟨r2, hr2, e2, _⟩ := hedges r hr c hc (fun h => h) ⟨r1, hr1, e⟩
        exact ih r2 hr2 e2
    obtain ⟨g1, g2⟩ := f5 ⟨hur.1 ▸ hrd, fun x hx => by
      rw [hur.1] at hx
      obtain ⟨r, hr, e⟩ := hra x hx
      obtain ⟨r1, hr1, e1, _⟩ := um2 r hr
      exact ⟨r1, hr1, e1.trans e⟩⟩
    have hnotready : ∀ x, reach t pid x → x ∉ t1.ready := by
      intro x hx hmem
      obtain ⟨r, hr, e⟩ := g2 x hmem
      exact hgone x hx r hr e
    refine ⟨t1, ?_, ?_, ?_, ?_, ?_, ?_, ?_, ?_⟩
    · simp only [process_drop, hget, process_drop_recursive]
      rw [hrec]
    · intro x hx
      exact ⟨(hash_table_get_none _ _).mpr (hgone x hx), hnotready x hx⟩
    · intro r
      constructor
      · intro hr
        have hnS : ¬ reach t pid r.pid := fun h => hgone _ h r hr rfl
        obtain ⟨r0, hr0, e, _⟩ := f1 r hr
        have hr0' := a1 r0 hr0 (e ▸ hnS)
        have : r = r0 := List.inj_on_of_nodup_map hk2 hr hr0' e
        exact ⟨this ▸ hr0, hnS⟩
      · rintro ⟨hr, hnS⟩
        exact a1 r hr hnS
    · intro x
      constructor
      · intro hx
        exact ⟨hur.1 ▸ f6 x hx, fun h => hnotready x h hx⟩
      · rintro ⟨hx, hnS⟩
        exact a2 x (hur.1.symm ▸ hx) hnS
    · intro par hpar hnS
      have hparp := hash_table_get_some _ _ _ hpar
      have hg := process_get_unparent t proc proc.ppid
      rw [hpar] at hg
      simp only [Option.map_some'] at hg
      rw [if_pos hparp.1] at hg
      have hmem := (hash_table_get_some _ _ _ hg).2
      have hin := a1 _ hmem hnS
      rw [← hparp.1, ← hproc.1]
      exact process_get_of_mem t1 _ hk2 hin
    · rw [f7]; exact hur.2.1
    · intro r t2 hc hS
      exact hnotready _ hS (process_collect_head t1 t2 r hc)
    · intro ev callback hS
      exact procwatch_ingest_untracked t1 ev callback
        ((hash_table_get_none _ _).mpr (hgone _ hS))

/-! ## Process table: the drain round trip -/

/-- With unique keys, a record with the pid that was looked up is the record
that the lookup returned. -/
theorem process_get_unique (t : Table) (p : Int) (r r1 : process)
    (hk : (t.processes.map (fun r => r.pid)).Nodup) (hg : process_get t p = some r)
    (hr1 : r1 ∈ t.processes) (hp : r1.pid = p) : r1 = r := by
  have h := hash_table_get_some _ _ _ hg
  exact List.inj_on_of_nodup_map hk hr1 h.2 (hp.trans h.1.symm)

/-- One iteration of the loop of `process_reparent_children` returns and keeps
the invariant of the children lists, for a parent other than init whose first
child is `c`; the children of the parent are then `rest`. -/
theorem process_reparent_one_tree (t : Table) (parent c : Int) (rest : List Int) (p : process)
    (hinv : tree_inv t) (hne : parent ≠ 1) (hinit : (process_get t 1).isSome)
    (hp : process_get t parent = some p) (hch : p.children = c :: rest) :
    ∃ t1, process_reparent_one t parent c rest = some t1 ∧ tree_inv t1
      ∧ t1.processes.map (fun r => r.pid) = t.processes.map (fun r => r.pid)
      ∧ t1.ready = t.ready ∧ t1.self = t.self
      ∧ (process_get t1 1).isSome
      ∧ ∃ p1, process_get t1 parent = some p1 ∧ p1.children = rest := by
  have hpm := hash_table_get_some _ _ _ hp
  obtain ⟨init, hinit2⟩ := Option.isSome_iff_exists.mp hinit
  have hinitm := hash_table_get_some _ _ _ hinit2
  obtain ⟨rc, hrc, hrcp, hrcpp⟩ := hinv.2.1 p hpm.2 c (by rw [hch]; simp)
  have hgc : process_get t c = some rc := hrcp ▸ process_get_of_mem t rc hinv.1 hrc
  -- the three writes
  have hinv1 : tree_inv ⟨update t.processes parent (fun r => { r with children := rest }),
      t.ready, t.self⟩ := by
    refine tree_inv_children_sub t parent (fun r => { r with children := rest })
      (fun _ => ⟨rfl, rfl⟩) ?_ hinv
    intro r0 hr0 hp0
    have e : r0 = p := process_get_unique t parent p r0 hinv.1 hp hr0 hp0
    rw [e, hch]
    exact List.sublist_cons_self c rest
  have hdet1 : detached ⟨update t.processes parent (fun r => { r with children := rest }),
      t.ready, t.self⟩ c := by
    have := detached_pop_head t p c rest hinv hpm.2 hch
    rw [hpm.1] at this
    exact this
  have hinv2 := tree_inv_ppid _ c 1 hdet1 hinv1
  have hdet2 : detached ⟨update (update t.processes parent
      (fun r => { r with children := rest })) c (fun r => { r with ppid := 1 }),
      t.ready, t.self⟩ c := by
    intro r1 hr1 hc
    obtain ⟨r0, hr0, rfl⟩ := (mem_update _ _ _ _).mp hr1
    apply hdet1 r0 hr0
    split_ifs at hc
    · exact hc
    · exact hc
  have hg1 : ∀ q, hash_table_get (update t.processes parent
      (fun r => { r with children := rest })) q
      = (process_get t q).map (fun r => if r.pid = parent then { r with children := rest }
          else r) := by
    intro q
    rw [hash_table_get_update]
    · rfl
    · exact fun _ => rfl
  have hg2 : ∀ q, hash_table_get (update (update t.processes parent
      (fun r => { r with children := rest })) c (fun r => { r with ppid := 1 })) q
      = ((process_get t q).map (fun r => if r.pid = parent then { r with children := rest }
          else r)).map (fun r => if r.pid = c then { r with ppid := 1 } else r) := by
    intro q
    rw [hash_table_get_update, hg1]
    exact fun _ => rfl
  have hadopt : ∃ rc2 ∈ (⟨update (update t.processes parent
      (fun r => { r with children := rest })) c (fun r => { r with ppid := 1 }),
      t.ready, t.self⟩ : Table).processes, rc2.pid = c ∧ rc2.ppid = 1 := by
    have h := hg2 c
    rw [hgc] at h
    simp only [Option.map_some'] at h
    have hm := hash_table_get_some _ _ _ h
    refine ⟨_, hm.2, hm.1, ?_⟩
    have hk : (if rc.pid = parent then { rc with children := rest } else rc).pid = c := by
      split_ifs
      · exact hrcp
      · exact hrcp
    rw [if_pos hk]
  have hinv3 := tree_inv_adopt _ 1 c hdet2 hadopt hinv2
  refine ⟨_, ?_, hinv3, ?_, rfl, rfl, ?_, ?_⟩
  · unfold process_reparent_one
    simp only
    rw [hg1, hgc]
    simp only [Option.map_some']
    rw [hg2, hinit2]
    simp only [Option.map_some']
  · show List.map (fun r => r.pid) (update (update (update t.processes parent _) c _) 1 _) = _
    rw [update_keys, update_keys, update_keys]
    · exact fun _ => rfl
    · exact fun _ => rfl
    · exact fun _ => rfl
  · show (hash_table_get (update (update (update t.processes parent _) c _) 1 _) 1).isSome
    rw [hash_table_get_update, hg2, hinit2]
    · rfl
    · exact fun _ => rfl
  · show ∃ p1, hash_table_get (update (update (update t.processes parent _) c _) 1 _) parent
      = some p1 ∧ p1.children = rest
    rw [hash_table_get_update, hg2, hp]
    · simp only [Option.map_some']
      refine ⟨_, rfl, ?_⟩
      have e1 : (if p.pid = parent then { p with children := rest } else p)
          = { p with children := rest } := by rw [if_pos hpm.1]
      rw [e1]
      have e2 : ∀ x : process, x.pid = parent → x.children = rest →
          (if (if x.pid = c then { x with ppid := 1 } else x).pid = 1 then
            { (if x.pid = c then { x with ppid := 1 } else x) with
              children := (if x.pid = c then { x with ppid := 1 } else x).children ++ [c] }
          else (if x.pid = c then { x with ppid := 1 } else x)).children = rest := by
        intro x hx1 hx2
        have hkeep : (if x.pid = c then { x with ppid := 1 } else x).pid = x.pid
            ∧ (if x.pid = c then { x with ppid := 1 } else x).children = x.children := by
          split_ifs
          · exact ⟨rfl, rfl⟩
          · exact ⟨rfl, rfl⟩
        rw [if_neg (by rw [hkeep.1, hx1]; exact hne), hkeep.2, hx2]
      exact e2 _ hpm.1 rfl
    · exact fun _ => rfl

/-- The loop of `process_reparent_children` returns and keeps the invariant
of the children lists, for a parent other than init. -/
theorem process_reparent_loop_tree (fuel : Nat) :
    ∀ (t : Table) (parent : Int) (p : process), tree_inv t → parent ≠ 1 →
      (process_get t 1).isSome → process_get t parent = some p → p.children.length < fuel →
      ∃ t1, process_reparent_loop fuel t parent = some t1 ∧ tree_inv t1
        ∧ t1.processes.map (fun r => r.pid) = t.processes.map (fun r => r.pid)
        ∧ t1.ready = t.ready ∧ t1.self = t.self := by
  induction fuel with
  | zero => intro t parent p _ _ _ _ h; omega
  | succ n ih =>
    intro t parent p hinv hne hinit hp hlen
    cases hch : p.children with
    | nil =>
      exact ⟨t, by simp only [process_reparent_loop, hp, hch], hinv, rfl, rfl, rfl⟩
    | cons c rest =>
      obtain ⟨t1, h1, hinv1, hk1, hr1, hs1, hi1, p1, hp1, hc1⟩ :=
        process_reparent_one_tree t parent c rest p hinv hne hinit hp hch
      rw [hch] at hlen
      obtain ⟨t2, h2, hinv2, hk2, hr2, hs2⟩ := ih t1 parent p1 hinv1 hne hi1 hp1
        (by rw [hc1]; simp only [List.length_cons] at hlen; omega)
      refine ⟨t2, ?_, hinv2, hk2.trans hk1, hr2.trans hr1, hs2.trans hs1⟩
      simp only [process_reparent_loop, hp, hch, h1]
      exact h2

/-! ## The drain round trip -/

/-- The function `process_create` keeps the invariant of the children lists
and appends the new pid to the keys, for a new pid below a parent that is in
the table. -/
theorem tree_inv_create (t : Table) (pid ppid sid : Int) (parent : process)
    (hinv : tree_inv t) (hnew : process_get t pid = none)
    (hpar : process_get t ppid = some parent) :
    tree_inv (process_create t pid ppid sid (some parent))
    ∧ (process_create t pid ppid sid (some parent)).processes.map (fun r => r.pid)
        = t.processes.map (fun r => r.pid) ++ [pid] := by
  have hparm := hash_table_get_some _ _ _ hpar
  have hfresh : ∀ r ∈ t.processes, r.pid ≠ pid := (hash_table_get_none _ _).mp hnew
  have hne : pid ≠ parent.pid := fun e => hfresh parent hparm.2 e.symm
  have e1 : (process_create t pid ppid sid (some parent)).processes
      = update (t.processes ++ [⟨pid, ppid, sid, [], -1⟩]) parent.pid
          (fun r => { r with children := r.children ++ [pid] }) := by
    simp [process_create, update, hne]
  have hinv1 := tree_inv_append t ⟨pid, ppid, sid, [], -1⟩
    (by
      intro h
      obtain ⟨r, hr, e⟩ := List.mem_map.mp h
      exact hfresh r hr e) rfl hinv
  have hdet : detached ⟨t.processes ++ [⟨pid, ppid, sid, [], -1⟩], t.ready, t.self⟩ pid := by
    intro r hr hc
    rcases List.mem_append.mp hr with hr | hr
    · obtain ⟨rc, hrc, e, _⟩ := hinv.2.1 r hr pid hc
      exact hfresh rc hrc e
    · rw [List.mem_singleton.mp hr] at hc
      exact absurd hc (List.not_mem_nil _)
  have hinv2 := tree_inv_adopt _ parent.pid pid hdet
    ⟨⟨pid, ppid, sid, [], -1⟩, by simp, rfl, hparm.1.symm⟩ hinv1
  constructor
  · have : tree_inv ⟨(process_create t pid ppid sid (some parent)).processes,
        (process_create t pid ppid sid (some parent)).ready,
        (process_create t pid ppid sid (some parent)).self⟩ := by
      rw [e1]
      exact hinv2
    exact this
  · rw [e1, update_keys]
    · simp
    · exact fun _ => rfl

/-- C15, the code at the failing inputs: a monitor in the state stopping
leaves it.  The collection of the direct child 10 of a forking service sets
the state to running; the exit of the main process of a oneshot service sets
the state to running; a privileged `restart` request sets the state to
restarting.  A privileged `stop` request, which tests the state, leaves a
stopping monitor as it is. -/
theorem monitor_stopping_left :
    (monitor_watch_collect ⟨.ST_FORKING, .KM_CGROUP, 0, .RP_NO, false, 0, 0, 0⟩
        ⟨10, 0, 100, -1, .MS_STOPPING⟩ ⟨10, 100, 100, [], 0⟩).state = .MS_RUNNING
    ∧ (monitor_watch_finish ⟨.ST_ONESHOT, .KM_CGROUP, 0, .RP_NO, false, 0, 0, 0⟩
        ⟨0, 10, 100, 0, .MS_STOPPING⟩ .EAGAIN 10).1.state = .MS_RUNNING
    ∧ (monitor_control_dispatch ⟨0, 10, 100, -1, .MS_STOPPING⟩ NORMAL true
        ['r', 'e', 's', 't', 'a', 'r', 't', Char.ofNat 0]).1.state = .MS_RESTARTING
    ∧ (monitor_control_dispatch ⟨0, 10, 100, -1, .MS_STOPPING⟩ NORMAL true
        ['s', 't', 'o', 'p', Char.ofNat 0]).1.state = .MS_STOPPING := by
  decide

/-! ## Supervisor: from starting to running -/

/-- C16, the code at the failing input: a service of type notify whose
command exits with status 0, with restart policy no.  The first pass of the
loop of `monitor_func` spawns the child 10 and leaves the state at starting:
the case `MS_STARTING` sets the state to running for the types simple and exec
only, the watch loop collects the child and returns, and the evaluation of the
exit is skipped as the state is not running.  The second pass therefore enters
the case `MS_STARTING` again and spawns the child 11, without a restart
decision and without the start limit being consulted; the state is starting
after every pass.  The same run for a service of type simple ends in the state
stopped after the first pass. -/
theorem monitor_starting_respawns :
    monitor_func_loop ⟨.ST_NOTIFY, .KM_CGROUP, 0, .RP_NO, false, 0, 10000000, 3⟩
        [⟨200000000, fun _ mon => (0, mon), 10, 100,
            fun mon => (0, (monitor_watch_finish
              ⟨.ST_NOTIFY, .KM_CGROUP, 0, .RP_NO, false, 0, 10000000, 3⟩
              (monitor_watch_collect_loop
                ⟨.ST_NOTIFY, .KM_CGROUP, 0, .RP_NO, false, 0, 10000000, 3⟩
                mon 0 [⟨10, 100, 100, [], 0⟩]).1 .ECHILD 10).1)⟩,
         ⟨200000001, fun _ mon => (0, mon), 11, 100,
            fun mon => (0, (monitor_watch_finish
              ⟨.ST_NOTIFY, .KM_CGROUP, 0, .RP_NO, false, 0, 10000000, 3⟩
              (monitor_watch_collect_loop
                ⟨.ST_NOTIFY, .KM_CGROUP, 0, .RP_NO, false, 0, 10000000, 3⟩
                mon 0 [⟨11, 100, 100, [], 0⟩]).1 .ECHILD 11).1)⟩]
        (monitor_func_init ⟨.ST_NOTIFY, .KM_CGROUP, 0, .RP_NO, false, 0, 10000000, 3⟩
          100000000).1
        (monitor_func_init ⟨.ST_NOTIFY, .KM_CGROUP, 0, .RP_NO, false, 0, 10000000, 3⟩
          100000000).2
      = (⟨some [100000000, 0, 0], 10000000, 3, 1⟩, ⟨0, 11, 100, 0, .MS_STARTING⟩, [10, 11])
    ∧ (monitor_func_case ⟨.ST_NOTIFY, .KM_CGROUP, 0, .RP_NO, false, 0, 10000000, 3⟩
        ⟨200000000, fun _ mon => (0, mon), 10, 100,
            fun mon => (0, (monitor_watch_finish
              ⟨.ST_NOTIFY, .KM_CGROUP, 0, .RP_NO, false, 0, 10000000, 3⟩
              (monitor_watch_collect_loop
                ⟨.ST_NOTIFY, .KM_CGROUP, 0, .RP_NO, false, 0, 10000000, 3⟩
                mon 0 [⟨10, 100, 100, [], 0⟩]).1 .ECHILD 10).1)⟩
        (monitor_func_init ⟨.ST_NOTIFY, .KM_CGROUP, 0, .RP_NO, false, 0, 10000000, 3⟩
          100000000).1
        (monitor_func_init ⟨.ST_NOTIFY, .KM_CGROUP, 0, .RP_NO, false, 0, 10000000, 3⟩
          100000000).2).2.1
      = ⟨0, 10, 100, 0, .MS_STARTING⟩
    ∧ monitor_func_loop ⟨.ST_SIMPLE, .KM_CGROUP, 0, .RP_NO, false, 0, 10000000, 3⟩
        [⟨200000000, fun _ mon => (0, mon), 10, 100,
            fun mon => (0, (monitor_watch_finish
              ⟨.ST_SIMPLE, .KM_CGROUP, 0, .RP_NO, false, 0, 10000000, 3⟩
              (monitor_watch_collect_loop
                ⟨.ST_SIMPLE, .KM_CGROUP, 0, .RP_NO, false, 0, 10000000, 3⟩
                mon 0 [⟨10, 100, 100, [], 0⟩]).1 .ECHILD 10).1)⟩,
         ⟨200000001, fun _ mon => (0, mon), 11, 100,
            fun mon => (0, (monitor_watch_finish
              ⟨.ST_SIMPLE, .KM_CGROUP, 0, .RP_NO, false, 0, 10000000, 3⟩
              (monitor_watch_collect_loop
                ⟨.ST_SIMPLE, .KM_CGROUP, 0, .RP_NO, false, 0, 10000000, 3⟩
                mon 0 [⟨11, 100, 100, [], 0⟩]).1 .ECHILD 11).1)⟩]
        (monitor_func_init ⟨.ST_SIMPLE, .KM_CGROUP, 0, .RP_NO, false, 0, 10000000, 3⟩
          100000000).1
        (monitor_func_init ⟨.ST_SIMPLE, .KM_CGROUP, 0, .RP_NO, false, 0, 10000000, 3⟩
          100000000).2
      = (⟨some [100000000, 0, 0], 10000000, 3, 1⟩, ⟨0, 10, 100, 0, .MS_STOPPED⟩, [10]) := by
  decide

/-! ## Supervisor: the crash loop -/

/-- The function `monitor_set_state` writes the state. -/
theorem monitor_set_state_eq (mon : monitor) (state : monitor_state) :
    monitor_set_state mon state = { mon with state := state } := by
  unfold monitor_set_state
  split_ifs with h
  · rfl
  · have h2 : state = mon.state := not_not.mp h
    rw [h2]

/-- One start of a service of type simple or exec with restart policy always
whose command exits with status 1: the child is spawned, the state becomes
running, the watch loop returns with the wait status 0x0100, and the
evaluation of the exit sets the state to restarting. -/
theorem monitor_func_start_crash (svc : service) (env : monitor_env) (m : start_limit)
    (mon : monitor) (htype : svc.type = .ST_SIMPLE ∨ svc.type = .ST_EXEC)
    (hpol : svc.restart_policy = .RP_ALWAYS) (hchild : 0 ≤ env.child)
    (hwatch : ∀ mon, env.watch mon = (0, { mon with wstatus := 256 })) :
    monitor_func_start svc env m mon
      = (m, ⟨env.child, env.child, env.sid, 256, .MS_RESTARTING⟩, [env.child]) := by
  have hnf : svc.type ≠ .ST_FORKING := by
    rcases htype with h | h <;> rw [h] <;> decide
  have huc : monitor_ucexit 256 = true := by decide
  unfold monitor_func_start monitor_func_starting
  simp only [monitor_set_state_eq, not_lt.mpr hchild, if_false, htype, if_true, hnf, ne_eq,
    not_false_eq_true, hwatch, monitor_func_running, lt_irrefl, huc, Bool.not_true,
    Bool.and_false, Bool.false_and, hpol, decide_True, Bool.true_or, Bool.false_eq_true,
    not_true_eq_false]

/-- The restarting gate lets a restart through when the slot under the cursor
holds a start time that lies a full interval before the new one. -/
theorem monitor_restart_gate_pass (svc : service) (times : List Nat) (interval burst cursor : Nat)
    (clock : Nat) (hwrap : clock + svc.delay < 2 ^ 64)
    (hold : times.getD cursor 0 + interval ≤ clock + svc.delay) :
    monitor_restart_gate svc ⟨some times, interval, burst, cursor⟩ clock
      = some (⟨some (times.set cursor (clock + svc.delay)), interval, burst,
          (cursor + 1) % burst⟩, clock + svc.delay) := by
  unfold monitor_restart_gate
  simp only [Nat.mod_eq_of_lt hwrap]
  have h1 : (clock + svc.delay + 2 ^ 64 - times.getD cursor 0) % 2 ^ 64
      = clock + svc.delay - times.getD cursor 0 := by
    have : clock + svc.delay + 2 ^ 64 - times.getD cursor 0
        = (clock + svc.delay - times.getD cursor 0) + 2 ^ 64 := by omega
    rw [this, Nat.add_mod_right, Nat.mod_eq_of_lt (by omega)]
  rw [h1, if_neg (by omega)]

/-- The restarting gate refuses a restart when the slot under the cursor holds
a start time less than an interval before the new one. -/
theorem monitor_restart_gate_refuse (svc : service) (times : List Nat)
    (interval burst cursor : Nat) (clock : Nat) (hwrap : clock + svc.delay < 2 ^ 64)
    (hle : times.getD cursor 0 ≤ clock + svc.delay)
    (hnew : clock + svc.delay < times.getD cursor 0 + interval) :
    monitor_restart_gate svc ⟨some times, interval, burst, cursor⟩ clock = none := by
  unfold monitor_restart_gate
  simp only [Nat.mod_eq_of_lt hwrap]
  have h1 : (clock + svc.delay + 2 ^ 64 - times.getD cursor 0) % 2 ^ 64
      = clock + svc.delay - times.getD cursor 0 := by
    have : clock + svc.delay + 2 ^ 64 - times.getD cursor 0
        = (clock + svc.delay - times.getD cursor 0) + 2 ^ 64 := by omega
    rw [this, Nat.add_mod_right, Nat.mod_eq_of_lt (by omega)]
  rw [h1, if_pos (by omega)]

/-- One pass of the loop of `monitor_func` in a state below stopped: the pass
is the case of the state, and the loop goes on with its result. -/
theorem monitor_func_loop_step (svc : service) (env : monitor_env) (rest : List monitor_env)
    (m m1 : start_limit) (mon mon1 : monitor) (l1 : List Int)
    (h : mon.state.val < monitor_state.MS_STOPPED.val)
    (hc : monitor_func_case svc env m mon = (m1, mon1, l1)) :
    monitor_func_loop svc (env :: rest) m mon
      = ((monitor_func_loop svc rest m1 mon1).1, (monitor_func_loop svc rest m1 mon1).2.1,
          l1 ++ (monitor_func_loop svc rest m1 mon1).2.2) := by
  rw [monitor_func_loop, if_pos h, hc]

/-- The loop of `monitor_func` ends in a state that is not below stopped. -/
theorem monitor_func_loop_stop (svc : service) (envs : List monitor_env)
    (m : start_limit) (mon : monitor)
    (h : ¬ mon.state.val < monitor_state.MS_STOPPED.val) :
    monitor_func_loop svc envs m mon = (m, mon, []) := by
  cases envs with
  | nil => rfl
  | cons env rest => rw [monitor_func_loop, if_neg h]

/-- The case `MS_STARTING` of the loop of `monitor_func` is one start. -/
theorem monitor_func_case_starting (svc : service) (env : monitor_env) (m : start_limit)
    (mon : monitor) (hstate : mon.state = .MS_STARTING) :
    monitor_func_case svc env m mon = monitor_func_start svc env m mon := by
  unfold monitor_func_case
  rw [hstate]

/-- The case `MS_RESTARTING` of the loop of `monitor_func` when the gate lets
the restart through and the wait for the start time is not interrupted: one
start with the new start limit. -/
theorem monitor_func_case_restart (svc : service) (env : monitor_env) (m m1 : start_limit)
    (mon : monitor) (t : Nat) (hstate : mon.state = .MS_RESTARTING)
    (hg : monitor_restart_gate svc m env.clock = some (m1, t))
    (hw : env.wait t mon = (0, mon)) :
    monitor_func_case svc env m mon = monitor_func_start svc env m1 mon := by
  unfold monitor_func_case
  rw [hstate]
  simp only [hg, hw, lt_irrefl, if_false, hstate, ne_eq, not_true_eq_false]

/-- The case `MS_RESTARTING` of the loop of `monitor_func` when the gate
refuses the restart: the state becomes failed. -/
theorem monitor_func_case_refused (svc : service) (env : monitor_env) (m : start_limit)
    (mon : monitor) (hstate : mon.state = .MS_RESTARTING)
    (hg : monitor_restart_gate svc m env.clock = none) :
    monitor_func_case svc env m mon = (m, monitor_set_state mon .MS_FAILED, []) := by
  unfold monitor_func_case
  rw [hstate]
  simp only [hg]

/-- C17, as amended: the crash loop.  For a service of type simple or exec
whose command exits with status 1 at once, with restart policy always,
start-limit burst 3, start-limit interval 10 s, no control request, a clock
that stays within 10 s of the initial start and a monotonic clock value of at
least 10 s, the supervisor spawns the command three times, the initial start
and exactly 2 restarts, and transitions to failed on the 3rd restart
attempt. -/
theorem crash_loop_start_limit (svc : service) (clock0 : Nat) (e1 e2 e3 e4 : monitor_env)
    (rest : List monitor_env)
    (htype : svc.type = .ST_SIMPLE ∨ svc.type = .ST_EXEC)
    (hpol : svc.restart_policy = .RP_ALWAYS)
    (hburst : svc.start_limit_burst = 3) (hint : svc.start_limit_interval = 10000000)
    (hwatch : ∀ e ∈ [e1, e2, e3], ∀ mon, e.watch mon = (0, { mon with wstatus := 256 }))
    (hwait : ∀ e ∈ [e2, e3], ∀ d mon, e.wait d mon = (0, mon))
    (hchild : ∀ e ∈ [e1, e2, e3], 0 ≤ e.child)
    (hclk : clock0 ≤ e2.clock ∧ e2.clock ≤ e3.clock ∧ e3.clock ≤ e4.clock)
    (hhigh : 10000000 ≤ clock0)
    (hfast : e4.clock + svc.delay < clock0 + 10000000)
    (hwrap : e4.clock + svc.delay < 2 ^ 64) :
    monitor_func_loop svc (e1 :: e2 :: e3 :: e4 :: rest)
        (monitor_func_init svc clock0).1 (monitor_func_init svc clock0).2
      = (⟨some [clock0, e2.clock + svc.delay, e3.clock + svc.delay], 10000000, 3, 0⟩,
          ⟨e3.child, e3.child, e3.sid, 256, .MS_FAILED⟩,
          [e1.child, e2.child, e3.child]) := by
  have hinit : monitor_func_init svc clock0
      = (⟨some [clock0, 0, 0], 10000000, 3, 1⟩, ⟨0, 0, 0, 0, .MS_STARTING⟩) := by
    unfold monitor_func_init monitor_start_limit_init
    rw [hburst, hint]
    simp [monitor_set_state_eq, MAX_START_LIMIT_BURST, List.replicate]
  have s1 := fun m mon => monitor_func_start_crash svc e1 m mon htype hpol
    (hchild e1 (by simp)) (hwatch e1 (by simp))
  have s2 := fun m mon => monitor_func_start_crash svc e2 m mon htype hpol
    (hchild e2 (by simp)) (hwatch e2 (by simp))
  have s3 := fun m mon => monitor_func_start_crash svc e3 m mon htype hpol
    (hchild e3 (by simp)) (hwatch e3 (by simp))
  have g2 := monitor_restart_gate_pass svc [clock0, 0, 0] 10000000 3 1 e2.clock
    (by omega) (by simp only [List.getD_cons_succ, List.getD_cons_zero]; omega)
  have g3 := monitor_restart_gate_pass svc [clock0, e2.clock + svc.delay, 0] 10000000 3 2
    e3.clock (by omega) (by simp only [List.getD_cons_succ, List.getD_cons_zero]; omega)
  have g4 := monitor_restart_gate_refuse svc
    [clock0, e2.clock + svc.delay, e3.clock + svc.delay] 10000000 3 0 e4.clock hwrap
    (by simp only [List.getD_cons_zero]; omega)
    (by simp only [List.getD_cons_zero]; omega)
  have w2 := hwait e2 (by simp)
  have w3 := hwait e3 (by simp)
  have c1 : monitor_func_case svc e1 ⟨some [clock0, 0, 0], 10000000, 3, 1⟩
      ⟨0, 0, 0, 0, .MS_STARTING⟩
      = (⟨some [clock0, 0, 0], 10000000, 3, 1⟩,
          ⟨e1.child, e1.child, e1.sid, 256, .MS_RESTARTING⟩, [e1.child]) := by
    rw [monitor_func_case_starting svc e1 _ _ rfl, s1]
  have c2 : monitor_func_case svc e2 ⟨some [clock0, 0, 0], 10000000, 3, 1⟩
      ⟨e1.child, e1.child, e1.sid, 256, .MS_RESTARTING⟩
      = (⟨some [clock0, e2.clock + svc.delay, 0], 10000000, 3, 2⟩,
          ⟨e2.child, e2.child, e2.sid, 256, .MS_RESTARTING⟩, [e2.child]) := by
    rw [monitor_func_case_restart svc e2 _ _ _ _ rfl g2 (w2 _ _), s2]
    rfl
  have c3 : monitor_func_case svc e3 ⟨some [clock0, e2.clock + svc.delay, 0], 10000000, 3, 2⟩
      ⟨e2.child, e2.child, e2.sid, 256, .MS_RESTARTING⟩
      = (⟨some [clock0, e2.clock + svc.delay, e3.clock + svc.delay], 10000000, 3, 0⟩,
          ⟨e3.child, e3.child, e3.sid, 256, .MS_RESTARTING⟩, [e3.child]) := by
    rw [monitor_func_case_restart svc e3 _ _ _ _ rfl g3 (w3 _ _), s3]
    rfl
  have c4 : monitor_func_case svc e4
      ⟨some [clock0, e2.clock + svc.delay, e3.clock + svc.delay], 10000000, 3, 0⟩
      ⟨e3.child, e3.child, e3.sid, 256, .MS_RESTARTING⟩
      = (⟨some [clock0, e2.clock + svc.delay, e3.clock + svc.delay], 10000000, 3, 0⟩,
          ⟨e3.child, e3.child, e3.sid, 256, .MS_FAILED⟩, []) := by
    rw [monitor_func_case_refused svc e4 _ _ rfl g4, monitor_set_state_eq]
  have hs : monitor_state.MS_STARTING.val < monitor_state.MS_STOPPED.val := by decide
  have hr : monitor_state.MS_RESTARTING.val < monitor_state.MS_STOPPED.val := by decide
  have hf : ¬ monitor_state.MS_FAILED.val < monitor_state.MS_STOPPED.val := by decide
  have l4 := monitor_func_loop_stop svc rest
    ⟨some [clock0, e2.clock + svc.delay, e3.clock + svc.delay], 10000000, 3, 0⟩
    ⟨e3.child, e3.child, e3.sid, 256, .MS_FAILED⟩ hf
  have l3 := monitor_func_loop_step svc e4 rest _ _ _ _ _ hr c4
  rw [l4] at l3
  have l2 := monitor_func_loop_step svc e3 (e4 :: rest) _ _ _ _ _ hr c3
  rw [l3] at l2
  have l1 := monitor_func_loop_step svc e2 (e3 :: e4 :: rest) _ _ _ _ _ hr c2
  rw [l2] at l1
  have l0 := monitor_func_loop_step svc e1 (e2 :: e3 :: e4 :: rest) _ _ _ _ _ hs c1
  rw [l1] at l0
  rw [hinit]
  exact l0

/-- Witness of C17, as amended: a restart delay of 100 ms and a command that
takes 1 ms to fail, started at the clock value 20 s. -/
theorem crash_loop_start_limit_witness :
    monitor_func_loop ⟨.ST_SIMPLE, .KM_CGROUP, 0, .RP_ALWAYS, false, 100000, 10000000, 3⟩
        [monitor_env_crash 20000000 10 100, monitor_env_crash 20001000 11 100,
         monitor_env_crash 20102000 12 100, monitor_env_crash 20203000 13 100]
        (monitor_func_init
          ⟨.ST_SIMPLE, .KM_CGROUP, 0, .RP_ALWAYS, false, 100000, 10000000, 3⟩ 20000000).1
        (monitor_func_init
          ⟨.ST_SIMPLE, .KM_CGROUP, 0, .RP_ALWAYS, false, 100000, 10000000, 3⟩ 20000000).2
      = (⟨some [20000000, 20001000 + 100000, 20102000 + 100000], 10000000, 3, 0⟩,
          ⟨12, 12, 100, 256, .MS_FAILED⟩, [10, 11, 12]) :=
  crash_loop_start_limit ⟨.ST_SIMPLE, .KM_CGROUP, 0, .RP_ALWAYS, false, 100000, 10000000, 3⟩
    20000000 (monitor_env_crash 20000000 10 100) (monitor_env_crash 20001000 11 100)
    (monitor_env_crash 20102000 12 100) (monitor_env_crash 20203000 13 100) []
    (Or.inl rfl) rfl rfl rfl
    (fun e he mon => by
      simp only [List.mem_cons, List.mem_singleton, List.not_mem_nil, or_false] at he
      rcases he with rfl | rfl | rfl <;> rfl)
    (fun e he d mon => by
      simp only [List.mem_cons, List.mem_singleton, List.not_mem_nil, or_false] at he
      rcases he with rfl | rfl <;> rfl)
    (fun e he => by
      simp only [List.mem_cons, List.mem_singleton, List.not_mem_nil, or_false] at he
      rcases he with rfl | rfl | rfl <;> decide)
    (by decide) (by decide) (by decide) (by decide)

/-- Counterexample to C17 as stated: with burst 3 and interval 10 s, a command
that exits with status 1 at once is spawned three times, as the children 10,
11 and 12: the initial start and 2 restarts.  The 3rd restart attempt, in the
fourth pass of the loop, finds the initial start less than 10 s back in the
slot under the cursor and sets the state to failed; the environments of a
fourth and a fifth start are never used. -/
theorem crash_loop_two_restarts :
    monitor_func_loop ⟨.ST_SIMPLE, .KM_CGROUP, 0, .RP_ALWAYS, false, 0, 10000000, 3⟩
        [monitor_env_crash 50000000 10 100, monitor_env_crash 50000100 11 100,
         monitor_env_crash 50000200 12 100, monitor_env_crash 50000300 13 100,
         monitor_env_crash 50000400 14 100]
        (monitor_func_init
          ⟨.ST_SIMPLE, .KM_CGROUP, 0, .RP_ALWAYS, false, 0, 10000000, 3⟩ 50000000).1
        (monitor_func_init
          ⟨.ST_SIMPLE, .KM_CGROUP, 0, .RP_ALWAYS, false, 0, 10000000, 3⟩ 50000000).2
      = (⟨some [50000000, 50000100, 50000200], 10000000, 3, 0⟩,
          ⟨12, 12, 100, 256, .MS_FAILED⟩, [10, 11, 12])
    ∧ ([10, 11, 12] : List Int).length = 1 + 2
    ∧ monitor_restart_gate ⟨.ST_SIMPLE, .KM_CGROUP, 0, .RP_ALWAYS, false, 0, 10000000, 3⟩
        ⟨some [50000000, 50000100, 50000200], 10000000, 3, 0⟩ 50000300 = none := by
  decide

/-! ## PID file -/

/-- C18, the code at the failing inputs: `command_getpid` returns values that
are not the value of a word of digits in the range of a pid.  The word
`4294967297` is in the range of `long`, so `strtol` reports no error, and the
conversion of the result to `pid_t` gives 1, the pid of init; the word
`4294967296` gives 0; the word `+7`, which is not entirely digits, gives 7.
A word beyond the range of `long`, a word with a letter, and an empty file
give -1. -/
theorem command_getpid_truncates :
    (command_getpid (.content ['4', '2', '9', '4', '9', '6', '7', '2', '9', '7',
        Char.ofNat 10])).1 = 1
    ∧ (command_getpid (.content ['4', '2', '9', '4', '9', '6', '7', '2', '9', '6',
        Char.ofNat 10])).1 = 0
    ∧ (command_getpid (.content ['+', '7', Char.ofNat 10])).1 = 7
    ∧ (command_getpid (.content ['1', '2', '3', '4', Char.ofNat 10])).1 = 1234
    ∧ command_getpid (.content ['9', '2', '2', '3', '3', '7', '2', '0', '3', '6', '8', '5', '4',
        '7', '7', '5', '8', '0', '8', Char.ofNat 10]) = (-1, ERANGE)
    ∧ command_getpid (.content ['1', '2', 'a', Char.ofNat 10]) = (-1, EINVAL)
    ∧ command_getpid (.content []) = (-1, EINVAL) := by
  decide

/-! ## Time spans: value -/

/-- A digit is neither a letter nor a blank. -/
theorem isdigit_class (c : Char) (h : isdigit c = true) :
    isalpha c = false ∧ isblank c = false := by
  simp only [isdigit, isalpha, isblank, Bool.and_eq_true, Bool.or_eq_false_iff,
    Bool.and_eq_false_iff, decide_eq_true_eq, decide_eq_false_iff_not] at h ⊢
  omega

/-- A letter is neither a digit nor a blank. -/
theorem isalpha_class (c : Char) (h : isalpha c = true) :
    isdigit c = false ∧ isblank c = false := by
  simp only [isdigit, isalpha, isblank, Bool.and_eq_true, Bool.or_eq_true, Bool.or_eq_false_iff,
    Bool.and_eq_false_iff, decide_eq_true_eq, decide_eq_false_iff_not] at h ⊢
  omega

/-- A blank is neither a digit nor a letter. -/
theorem isblank_class (c : Char) (h : isblank c = true) :
    isdigit c = false ∧ isalpha c = false := by
  simp only [isdigit, isalpha, isblank, Bool.and_eq_true, Bool.or_eq_true, Bool.or_eq_false_iff,
    Bool.and_eq_false_iff, decide_eq_true_eq, decide_eq_false_iff_not] at h ⊢
  omega

/-- A run of characters of one class, followed by a text that does not start
with a character of the class, is what `takeWhile` takes and `dropWhile`
drops. -/
theorem span_run (p : Char → Bool) (xs rest : List Char) (hxs : ∀ c ∈ xs, p c = true)
    (hrest : ∀ c, rest.head? = some c → p c = false) :
    (xs ++ rest).takeWhile p = xs ∧ (xs ++ rest).dropWhile p = rest := by
  rw [List.takeWhile_append_of_pos hxs, List.dropWhile_append_of_pos hxs]
  cases rest with
  | nil => simp
  | cons c cs =>
    have := hrest c rfl
    simp [List.takeWhile_cons, List.dropWhile_cons, this]

/-- The names of the units are non-empty runs of letters, and the lookup of a
name in the table gives the value of the unit. -/
theorem timespan_units_names :
    ∀ u ∈ timespan_units, u.1.data ≠ [] ∧ (∀ c ∈ u.1.data, isalpha c = true)
      ∧ ∃ v, timespan_units.find? (fun w => decide (w.1 = String.mk u.1.data)) = some v
          ∧ v.2 = u.2 := by
  decide

/-- The value that `strtoumax` returns for a run of digits followed by a text
that does not start with a digit. -/
theorem strtoumax_run (ds rest : List Char) (hds : ∀ c ∈ ds, isdigit c = true)
    (hrest : ∀ c, rest.head? = some c → isdigit c = false) (hv : decimal ds ≤ UINTMAX_MAX) :
    strtoumax (ds ++ rest) = (decimal ds, rest, false) := by
  obtain ⟨h1, h2⟩ := span_run isdigit ds rest hds hrest
  unfold strtoumax
  rw [h1, h2]
  simp [not_lt.mpr hv]

/-- One pass of the loop of `timespan_from_str` over a group whose product,
added to the sum so far, stays below `TS_INVALID`: the product is added and
the loop goes on behind the blanks that follow the group. -/
theorem timespan_loop_group (fuel : Nat) (g : span_group) (rest : List Char) (ts : Nat)
    (errno : Int) (hg : g.valid)
    (hrest : ∀ c, rest.head? = some c → isalpha c = false)
    (hsum : ts + decimal g.digits * g.unit.2 < TS_INVALID) :
    timespan_loop (fuel + 1) (g.text ++ rest) ts errno
      = timespan_loop fuel (rest.dropWhile isblank) (ts + decimal g.digits * g.unit.2)
          errno := by
  obtain ⟨hne, hdig, _, hgap, hunit⟩ := hg
  obtain ⟨hname, halpha, v, hfind, hval⟩ := timespan_units_names g.unit hunit
  obtain ⟨d, ds, hd⟩ := List.exists_cons_of_ne_nil hne
  obtain ⟨a, as, ha⟩ := List.exists_cons_of_ne_nil hname
  have hupos : 0 < g.unit.2 := by
    have : ∀ u ∈ timespan_units, 0 < u.2 := by decide
    exact this g.unit hunit
  have hmag : decimal g.digits ≤ decimal g.digits * g.unit.2 := Nat.le_mul_of_pos_right _ hupos
  have hinv : TS_INVALID = 2 ^ 64 - 1 := rfl
  have hmax : UINTMAX_MAX = 2 ^ 64 - 1 := rfl
  -- the text behind the digits
  have htail1 : ∀ c, (g.gap ++ (g.unit.1.data ++ rest)).head? = some c → isdigit c = false := by
    intro c hc
    cases hgp : g.gap with
    | nil =>
      rw [hgp, ha] at hc
      simp only [List.nil_append, List.cons_append, List.head?_cons, Option.some.injEq] at hc
      exact (isalpha_class c (hc ▸ halpha a (by rw [ha]; simp))).1
    | cons b bs =>
      rw [hgp] at hc
      simp only [List.cons_append, List.head?_cons, Option.some.injEq] at hc
      exact (isblank_class c (hc ▸ hgap b (by rw [hgp]; simp))).1
  have htail2 : ∀ c, (g.unit.1.data ++ rest).head? = some c → isblank c = false := by
    intro c hc
    rw [ha] at hc
    simp only [List.cons_append, List.head?_cons, Option.some.injEq] at hc
    exact (isalpha_class c (hc ▸ halpha a (by rw [ha]; simp))).2
  have e0 : g.text ++ rest = g.digits ++ (g.gap ++ (g.unit.1.data ++ rest)) := by
    simp [span_group.text, List.append_assoc]
  have hst := strtoumax_run g.digits (g.gap ++ (g.unit.1.data ++ rest)) hdig htail1
    (by rw [hmax]; omega)
  obtain ⟨_, hq⟩ := span_run isblank g.gap (g.unit.1.data ++ rest) hgap htail2
  obtain ⟨hname2, hr⟩ := span_run isalpha g.unit.1.data rest halpha hrest
  have hp : g.digits ++ (g.gap ++ (g.unit.1.data ++ rest)) ≠ [] := by
    rw [hd]; simp
  have hhead : isdigit ((g.digits ++ (g.gap ++ (g.unit.1.data ++ rest))).headD (Char.ofNat 0))
      = true := by
    rw [hd]
    exact hdig d (by rw [hd]; simp)
  rw [e0]
  simp only [timespan_loop]
  rw [if_neg hp, hhead]
  simp only [Bool.not_true, Bool.false_eq_true, if_false, hst, hq, hr, hname2, hfind]
  rw [if_neg (by
    intro h
    have := h.1
    rw [hmax] at this
    omega)]
  rw [if_neg (by
    simp only [List.length_append]
    have : 0 < g.digits.length := List.length_pos.mpr hne
    omega)]
  rw [if_neg (by
    simp only [List.length_append]
    have : 0 < g.unit.1.data.length := List.length_pos.mpr hname
    omega)]
  simp only [hval]
  have hmod : decimal g.digits * g.unit.2 % 2 ^ 64 = decimal g.digits * g.unit.2 :=
    Nat.mod_eq_of_lt (by omega)
  rw [hmod, if_neg (by omega)]

/-- The text of a group starts with a digit. -/
theorem span_group_text_head (g : span_group) (hg : g.valid) (rest : List Char) :
    ∃ d tl, g.text ++ rest = d :: tl ∧ isdigit d = true := by
  obtain ⟨d, ds, hd⟩ := List.exists_cons_of_ne_nil hg.1
  refine ⟨d, ds ++ g.gap ++ g.unit.1.data ++ rest, ?_, hg.2.1 d (by rw [hd]; simp)⟩
  simp [span_group.text, hd]

/-- The text of a sequence of groups is empty or starts with a blank or a
digit. -/
theorem span_text_head (gs : List span_group) (hgs : ∀ g ∈ gs, g.valid) :
    ∀ c, (span_text gs).head? = some c → isalpha c = false := by
  intro c hc
  cases gs with
  | nil => simp [span_text] at hc
  | cons g gs =>
    have hg := hgs g (by simp)
    obtain ⟨d, tl, hd, hdd⟩ := span_group_text_head g hg (span_text gs)
    cases hs : g.sep with
    | nil =>
      simp only [span_text, hs, List.nil_append, hd, List.head?_cons, Option.some.injEq] at hc
      exact (isdigit_class c (hc ▸ hdd)).1
    | cons b bs =>
      simp only [span_text, hs, List.cons_append, List.head?_cons, Option.some.injEq] at hc
      exact (isblank_class c (hc ▸ hg.2.2.1 b (by rw [hs]; simp))).2

/-- Behind its leading blanks, the text of a sequence of groups is the text of
its first group and the text of the groups that follow. -/
theorem span_text_drop_blank (g : span_group) (gs : List span_group) (hg : g.valid)
    (rest : List Char) :
    (span_text (g :: gs) ++ rest).dropWhile isblank = g.text ++ (span_text gs ++ rest) := by
  obtain ⟨d, tl, hd, hdd⟩ := span_group_text_head g hg (span_text gs ++ rest)
  have e : span_text (g :: gs) ++ rest = g.sep ++ (g.text ++ (span_text gs ++ rest)) := by
    simp [span_text, List.append_assoc]
  rw [e]
  exact (span_run isblank g.sep _ hg.2.2.1 (by
    intro c hc
    rw [hd] at hc
    simp only [List.head?_cons, Option.some.injEq] at hc
    exact (isdigit_class c (hc ▸ hdd)).2)).2

/-- The loop of `timespan_from_str` over a sequence of groups whose sum, added
to the sum so far, stays below `TS_INVALID`, returns the sum, with fuel for
one pass per group and one more. -/
theorem timespan_loop_groups (errno : Int) :
    ∀ (gs : List span_group) (g : span_group) (fuel ts : Nat),
      (∀ x ∈ g :: gs, x.valid) → gs.length + 1 < fuel →
      ts + span_value (g :: gs) < TS_INVALID →
      timespan_loop fuel (g.text ++ span_text gs) ts errno
        = some (ts + span_value (g :: gs), errno) := by
  intro gs
  induction gs with
  | nil =>
    intro g fuel ts hv hf hs
    obtain ⟨f, rfl⟩ : ∃ f, fuel = f + 1 := ⟨fuel - 1, by omega⟩
    obtain ⟨f2, rfl⟩ : ∃ f2, f = f2 + 1 := ⟨f - 1, by simp at hf; omega⟩
    simp only [span_value, Nat.add_zero] at hs ⊢
    rw [timespan_loop_group _ g (span_text []) ts errno (hv g (by simp))
      (by simp [span_text]) hs]
    simp [span_text, timespan_loop]
  | cons g2 gs ih =>
    intro g fuel ts hv hf hs
    obtain ⟨f, rfl⟩ : ∃ f, fuel = f + 1 := ⟨fuel - 1, by omega⟩
    have hs1 : ts + decimal g.digits * g.unit.2 < TS_INVALID := by
      simp only [span_value] at hs
      omega
    rw [timespan_loop_group _ g (span_text (g2 :: gs)) ts errno (hv g (by simp))
      (span_text_head _ (fun x hx => hv x (List.mem_cons_of_mem _ hx))) hs1]
    have hd := span_text_drop_blank g2 gs (hv g2 (by simp)) []
    simp only [List.append_nil] at hd
    rw [hd, ih g2 f _ (fun x hx => hv x (List.mem_cons_of_mem _ hx))
      (by simp only [List.length_cons] at hf; omega)
      (by simp only [span_value] at hs ⊢; omega)]
    simp only [span_value]
    congr 2
    omega

/-- The text of a group and of the groups that follow it has more characters
than there are groups, and ends with a letter. -/
theorem span_text_shape :
    ∀ (gs : List span_group) (g : span_group), (∀ x ∈ g :: gs, x.valid) →
      gs.length + 1 < (g.text ++ span_text gs).length
      ∧ ∃ init c, g.text ++ span_text gs = init ++ [c] ∧ isalpha c = true := by
  intro gs
  induction gs with
  | nil =>
    intro g hv
    obtain ⟨hne, _, _, _, hunit⟩ := hv g (by simp)
    obtain ⟨hname, halpha, _⟩ := timespan_units_names g.unit hunit
    have h1 : 0 < g.digits.length := List.length_pos.mpr hne
    have h2 : 0 < g.unit.1.data.length := List.length_pos.mpr hname
    constructor
    · simp only [span_text, span_group.text, List.append_nil, List.length_append,
        List.length_nil]
      omega
    · refine ⟨g.digits ++ g.gap ++ g.unit.1.data.dropLast, g.unit.1.data.getLast hname, ?_,
        halpha _ (List.getLast_mem hname)⟩
      simp only [span_text, span_group.text, List.append_nil, List.append_assoc]
      rw [List.dropLast_append_getLast hname]
  | cons g2 gs ih =>
    intro g hv
    obtain ⟨hlen, init, c, hinit, hc⟩ := ih g2 (fun x hx => hv x (List.mem_cons_of_mem _ hx))
    obtain ⟨hne, _, _, _, _⟩ := hv g (by simp)
    have h1 : 0 < g.digits.length := List.length_pos.mpr hne
    constructor
    · simp only [span_text, span_group.text, List.length_append, List.length_cons] at hlen ⊢
      omega
    · refine ⟨g.text ++ g2.sep ++ init, c, ?_, hc⟩
      simp only [span_text, List.append_assoc] at hinit ⊢
      rw [hinit]

/-- The magnitude of a group as `strtoumax` reads it, and the text behind the
blanks that follow the magnitude. -/
theorem span_group_strtoumax (g : span_group) (rest : List Char) (hg : g.valid)
    (hv : decimal g.digits ≤ UINTMAX_MAX) :
    strtoumax (g.text ++ rest) = (decimal g.digits, g.gap ++ (g.unit.1.data ++ rest), false)
    ∧ (g.gap ++ (g.unit.1.data ++ rest)).dropWhile isblank ≠ [] := by
  obtain ⟨hne, hdig, _, hgap, hunit⟩ := hg
  obtain ⟨hname, halpha, _⟩ := timespan_units_names g.unit hunit
  obtain ⟨a, as, ha⟩ := List.exists_cons_of_ne_nil hname
  have htail1 : ∀ c, (g.gap ++ (g.unit.1.data ++ rest)).head? = some c → isdigit c = false := by
    intro c hc
    cases hgp : g.gap with
    | nil =>
      rw [hgp, ha] at hc
      simp only [List.nil_append, List.cons_append, List.head?_cons, Option.some.injEq] at hc
      exact (isalpha_class c (hc ▸ halpha a (by rw [ha]; simp))).1
    | cons b bs =>
      rw [hgp] at hc
      simp only [List.cons_append, List.head?_cons, Option.some.injEq] at hc
      exact (isblank_class c (hc ▸ hgap b (by rw [hgp]; simp))).1
  have htail2 : ∀ c, (g.unit.1.data ++ rest).head? = some c → isblank c = false := by
    intro c hc
    rw [ha] at hc
    simp only [List.cons_append, List.head?_cons, Option.some.injEq] at hc
    exact (isalpha_class c (hc ▸ halpha a (by rw [ha]; simp))).2
  have e0 : g.text ++ rest = g.digits ++ (g.gap ++ (g.unit.1.data ++ rest)) := by
    simp [span_group.text, List.append_assoc]
  constructor
  · rw [e0]
    exact strtoumax_run g.digits _ hdig htail1 hv
  · rw [(span_run isblank g.gap (g.unit.1.data ++ rest) hgap htail2).2, ha]
    simp

/-- The removal of trailing blanks from a text that ends with a character that
is not a blank, followed by blanks. -/
theorem rtrim_blank (init trail : List Char) (c : Char) (hc : isblank c = false)
    (htrail : ∀ x ∈ trail, isblank x = true) :
    (((init ++ [c]) ++ trail).reverse.dropWhile isblank).reverse = init ++ [c] := by
  have e : ((init ++ [c]) ++ trail).reverse = trail.reverse ++ (c :: init.reverse) := by
    simp
  rw [e, (span_run isblank trail.reverse (c :: init.reverse)
    (fun x hx => htrail x (List.mem_reverse.mp hx))
    (fun x hx => by
      simp only [List.head?_cons, Option.some.injEq] at hx
      exact hx ▸ hc)).2]
  simp

/-- C19: the value of `timespan_from_str`.  For a text made of one or more
groups of a decimal magnitude, optional blanks and one of the 28 unit names of
the table, with optional blanks before, between and after the groups, the
result is the sum over the groups of magnitude times unit value in
microseconds, provided the sum is below `TS_INVALID`; for a decimal number
without unit, with optional blanks before and after, the result is the number
times `TS_SEC`, provided it is below 2^64; for the text `infinity` the result
is `TS_INFINITY`.  In all three cases `errno` is left as it was. -/
theorem timespan_from_str_value :
    (∀ (gs : List span_group) (trail : List Char) (errno : Int), gs ≠ [] →
      (∀ g ∈ gs, g.valid) → (∀ c ∈ trail, isblank c = true) → span_value gs < TS_INVALID →
      timespan_from_str (span_text gs ++ trail) errno = some (span_value gs, errno))
    ∧ (∀ (lead ds trail : List Char) (errno : Int), ds ≠ [] →
      (∀ c ∈ ds, isdigit c = true) → (∀ c ∈ lead, isblank c = true) →
      (∀ c ∈ trail, isblank c = true) → decimal ds * TS_SEC < 2 ^ 64 →
      timespan_from_str (lead ++ ds ++ trail) errno = some (decimal ds * TS_SEC, errno))
    ∧ (∀ errno, timespan_from_str ['i', 'n', 'f', 'i', 'n', 'i', 't', 'y'] errno
        = some (TS_INFINITY, errno))
    ∧ timespan_units.length = 28 := by
  have hinv : TS_INVALID = 2 ^ 64 - 1 := rfl
  have hmax : UINTMAX_MAX = 2 ^ 64 - 1 := rfl
  refine ⟨?_, ?_, ?_, rfl⟩
  · intro gs trail errno hne hv htrail hsum
    obtain ⟨g, gs', rfl⟩ := List.exists_cons_of_ne_nil hne
    have hg := hv g (by simp)
    obtain ⟨hlen, init, c, hinit, hc⟩ := span_text_shape gs' g hv
    obtain ⟨d, tl, hd, hdd⟩ := span_group_text_head g hg (span_text gs' ++ trail)
    have hp : (span_text (g :: gs') ++ trail).dropWhile isblank
        = g.text ++ (span_text gs' ++ trail) := span_text_drop_blank g gs' hg trail
    have hbody : ((g.text ++ (span_text gs' ++ trail)).reverse.dropWhile isblank).reverse
        = g.text ++ span_text gs' := by
      rw [← List.append_assoc, hinit]
      exact rtrim_blank init trail c (isalpha_class c hc).2 htrail
    have hupos : 0 < g.unit.2 := by
      have : ∀ u ∈ timespan_units, 0 < u.2 := by decide
      exact this g.unit hg.2.2.2.2
    have hmag : decimal g.digits ≤ decimal g.digits * g.unit.2 :=
      Nat.le_mul_of_pos_right _ hupos
    have hval : decimal g.digits * g.unit.2 ≤ span_value (g :: gs') := by
      simp only [span_value]
      omega
    obtain ⟨hst, hq⟩ := span_group_strtoumax g (span_text gs' ++ trail) hg
      (by rw [hmax]; omega)
    have hloop := timespan_loop_groups errno gs' g ((g.text ++ span_text gs').length + 1) 0 hv
      (by omega) (by omega)
    unfold timespan_from_str
    simp only [hp, hbody]
    rw [if_neg (by rw [hinit]; simp)]
    rw [if_neg (by
      rw [hd]
      intro h
      have hdi : d = 'i' := (List.cons.inj h).1
      rw [hdi] at hdd
      exact absurd hdd (by decide))]
    rw [if_pos (by rw [hd]; exact hdd)]
    simp only [hst, Bool.false_eq_true, if_false]
    rw [if_neg (by
      intro h
      have := h.1
      rw [hmax] at this
      omega)]
    rw [if_neg (fun h => hq h.2), hloop, Nat.zero_add]
  · intro lead ds trail errno hne hdig hlead htrail hrep
    obtain ⟨d, tl, hd⟩ := List.exists_cons_of_ne_nil hne
    have hdd : isdigit d = true := hdig d (by rw [hd]; simp)
    have hsec : TS_SEC = 1000000 := rfl
    have hrep2 : decimal ds * 1000000 < 2 ^ 64 := by rw [← hsec]; exact hrep
    have hp : (lead ++ ds ++ trail).dropWhile isblank = ds ++ trail := by
      rw [List.append_assoc]
      exact (span_run isblank lead (ds ++ trail) hlead (by
        intro c hc
        rw [hd] at hc
        simp only [List.cons_append, List.head?_cons, Option.some.injEq] at hc
        exact (isdigit_class c (hc ▸ hdd)).2)).2
    have hbody : ((ds ++ trail).reverse.dropWhile isblank).reverse = ds := by
      have hl := List.dropLast_append_getLast hne
      rw [← hl]
      exact rtrim_blank ds.dropLast trail (ds.getLast hne)
        (isdigit_class _ (hdig _ (List.getLast_mem hne))).2 htrail
    have hst := strtoumax_run ds trail hdig (by
      intro c hc
      cases trail with
      | nil => simp at hc
      | cons b bs =>
        simp only [List.head?_cons, Option.some.injEq] at hc
        exact (isblank_class c (hc ▸ htrail b (by simp))).1) (by rw [hmax]; omega)
    have hdrop : trail.dropWhile isblank = [] := by
      have := (span_run isblank trail [] htrail (by simp)).2
      simpa using this
    unfold timespan_from_str
    simp only [hp, hbody]
    rw [if_neg hne]
    rw [if_neg (by
      rw [hd]
      intro h
      have hdi : d = 'i' := (List.cons.inj h).1
      rw [hdi] at hdd
      exact absurd hdd (by decide))]
    rw [if_pos (by rw [hd]; exact hdd)]
    simp only [hst, Bool.false_eq_true, if_false]
    rw [if_neg (by
      intro h
      have := h.1
      rw [hmax] at this
      omega)]
    rw [if_pos ⟨by
      simp only [List.length_append]
      have : 0 < ds.length := List.length_pos.mpr hne
      omega, hdrop⟩, Nat.mod_eq_of_lt hrep]
  · intro errno
    simp [timespan_from_str, isblank]

/-- Witness of C19: the text `1h 30min` has the groups `1h` and `30min` and
the value 5400000000 microseconds. -/
theorem timespan_from_str_value_witness :
    span_value [⟨[], ['1'], [], ("h", TS_HR)⟩, ⟨[' '], ['3', '0'], [], ("min", TS_MIN)⟩]
      < TS_INVALID
    ∧ timespan_from_str ['1', 'h', ' ', '3', '0', 'm', 'i', 'n'] 0 = some (5400000000, 0) :=
  ⟨by decide,
    timespan_from_str_value.1
      [⟨[], ['1'], [], ("h", TS_HR)⟩, ⟨[' '], ['3', '0'], [], ("min", TS_MIN)⟩] [] 0
      (List.cons_ne_nil _ _)
      (fun g hg => by
        simp only [List.mem_cons, List.mem_singleton, List.not_mem_nil, or_false] at hg
        rcases hg with rfl | rfl <;> (unfold span_group.valid; decide))
      (fun c hc => absurd hc (List.not_mem_nil c))
      (by decide)⟩

/-! ## Time spans: overflow -/

/-- C20, the code at the failing inputs: `timespan_from_str` returns a wrapped
value.  The product of the magnitude and the unit is computed without a test
for overflow: `18446744073710` without unit and `18446744073710s` both stand
for 18446744073710000000 microseconds, which is above 2^64, and both return
448384 with `errno` untouched; `1000000y` returns 13110855926290448384.  A
magnitude beyond 2^64 and a sum that reaches `TS_INVALID` do return
`TS_INVALID` with `ERANGE`. -/
theorem timespan_from_str_wraps :
    timespan_from_str ['1', '8', '4', '4', '6', '7', '4', '4', '0', '7', '3', '7', '1', '0'] 0
      = some (448384, 0)
    ∧ timespan_from_str
        ['1', '8', '4', '4', '6', '7', '4', '4', '0', '7', '3', '7', '1', '0', 's'] 0
      = some (448384, 0)
    ∧ 18446744073710 * TS_SEC > TS_INVALID
    ∧ timespan_from_str ['1', '0', '0', '0', '0', '0', '0', 'y'] 0
      = some (13110855926290448384, 0)
    ∧ 1000000 * TS_YEAR > TS_INVALID
    ∧ timespan_from_str ['1', '8', '4', '4', '6', '7', '4', '4', '0', '7', '3', '7', '0', '9',
        '5', '5', '1', '6', '1', '6'] 0 = some (TS_INVALID, ERANGE)
    ∧ timespan_from_str ['1', '8', '4', '4', '6', '7', '4', '4', '0', '7', '3', '7', '0', '9',
        '5', '5', '1', '6', '1', '3', 'u', 's', ' ', '1', 's'] 0 = some (TS_INVALID, ERANGE) := by
  decide
/-! ## Time spans: leading and trailing blanks -/

/-- C21, the code at the failing input: `timespan_from_str` does not ignore a
blank after `infinity`.  The test for the special case compares the length
from the first non-blank byte to the terminator of the text, not to the last
non-blank byte, with the length of `infinity`: the text `infinity` and the
text with a blank before it give `TS_INFINITY`, the text with a blank after it
is taken for a sequence of groups and gives `TS_INVALID` with `EINVAL`.  A
number keeps its value with blanks on either side, and an empty or blank text
gives `TS_INVALID` with `errno` 0. -/
theorem timespan_from_str_infinity_blank :
    timespan_from_str ['i', 'n', 'f', 'i', 'n', 'i', 't', 'y'] 0 = some (TS_INFINITY, 0)
    ∧ timespan_from_str [' ', 'i', 'n', 'f', 'i', 'n', 'i', 't', 'y'] 0 = some (TS_INFINITY, 0)
    ∧ timespan_from_str ['i', 'n', 'f', 'i', 'n', 'i', 't', 'y', ' '] 0
        = some (TS_INVALID, EINVAL)
    ∧ timespan_from_str [' ', 'i', 'n', 'f', 'i', 'n', 'i', 't', 'y', Char.ofNat 9] 0
        = some (TS_INVALID, EINVAL)
    ∧ timespan_from_str ['1'] 0 = some (TS_SEC, 0)
    ∧ timespan_from_str [' ', '1', ' '] 0 = some (TS_SEC, 0)
    ∧ timespan_from_str [' ', '1', 's', Char.ofNat 10] 0 = some (TS_SEC, 0)
    ∧ timespan_from_str [] 7 = some (TS_INVALID, 0)
    ∧ timespan_from_str [' ', Char.ofNat 9, Char.ofNat 10] 7 = some (TS_INVALID, 0) := by
  decide
/-! ## Lists of strings: splitting -/

/-- The loop of `strlist_from_delim` without hash table: the list grows by the
pieces between the delimiters of the remaining text, the first of them behind
the bytes since `p`; empty pieces are kept only if `blank` is set. -/
theorem strlist_from_delim_loop_split (d : Char) (blank : Bool) (q cur : List Char)
    (l : List (List Char)) :
    strlist_from_delim_loop d blank q cur none l
      = l ++ ((q.splitOn d).modifyHead (fun w => cur ++ w)).filter
          (fun w => blank || decide (w ≠ [])) := by
  induction q generalizing cur l with
  | nil =>
    simp only [strlist_from_delim_loop, List.splitOn_nil, List.modifyHead_cons,
      List.append_nil, List.filter_cons, List.filter_nil]
    split_ifs <;> simp
  | cons c q ih =>
    simp only [strlist_from_delim_loop, List.splitOn, List.splitOnP_cons, beq_iff_eq]
    by_cases hc : c = d
    · simp only [hc, if_true, List.modifyHead_cons, List.append_nil, List.filter_cons]
      have hid : ∀ S : List (List Char), S.modifyHead (fun w => [] ++ w) = S := by
        intro S
        cases S <;> simp
      by_cases hk : (blank || decide (cur ≠ [])) = true
      · rw [if_pos hk, if_pos hk, ih, hid]
        simp [List.splitOn]
      · rw [if_neg hk, if_neg hk, ih, hid]
        simp [List.splitOn]
    · simp only [hc, if_false]
      rw [ih]
      congr 2
      simp only [List.splitOn]
      generalize List.splitOnP (fun x => x == d) q = S
      cases S <;> simp

/-- No piece of a split holds the delimiter. -/
theorem splitOn_free (d : Char) (s : List Char) :
    ∀ w ∈ s.splitOn d, d ∉ w := by
  induction s with
  | nil => simp
  | cons c s ih =>
    intro w hw
    simp only [List.splitOn, List.splitOnP_cons, beq_iff_eq] at hw
    by_cases hc : c = d
    · rw [if_pos hc] at hw
      rcases List.mem_cons.mp hw with h | h
      · rw [h]; simp
      · exact ih w h
    · rw [if_neg hc] at hw
      have hS : ∀ S : List (List Char), (∀ x ∈ S, d ∉ x) →
          ∀ x ∈ S.modifyHead (List.cons c), d ∉ x := by
        intro S hS x hx
        cases S with
        | nil => simp at hx
        | cons a S =>
          simp only [List.modifyHead_cons, List.mem_cons] at hx
          rcases hx with h | h
          · rw [h]
            intro hd
            rcases List.mem_cons.mp hd with h1 | h1
            · exact hc h1.symm
            · exact hS a (List.mem_cons_self _ _) h1
          · exact hS x (List.mem_cons_of_mem _ h)
      exact hS _ ih w hw

/-- C23: `strlist_from_delim` with `blank` and `dedup` false.  For every text
and delimiter the list is the list of the pieces between the delimiters of the
text, in their order, without the empty pieces; every element is non-empty and
free of the delimiter; a text of delimiters only, the empty text included,
gives the empty list; the delimiter 0 stands for the colon. -/
theorem strlist_from_delim_pieces :
    (∀ (s : List Char) (delim : Char),
      strlist_from_delim s delim false false
        = (s.splitOn (strlist_delim delim)).filter (fun w => decide (w ≠ [])))
    ∧ (∀ (s : List Char) (delim : Char), ∀ w ∈ strlist_from_delim s delim false false,
        w ≠ [] ∧ strlist_delim delim ∉ w)
    ∧ (∀ (n : Nat) (delim : Char),
        strlist_from_delim (List.replicate n (strlist_delim delim)) delim false false = [])
    ∧ (∀ s : List Char, strlist_from_delim s (Char.ofNat 0) false false
        = strlist_from_delim s ':' false false) := by
  have hmain : ∀ (s : List Char) (delim : Char),
      strlist_from_delim s delim false false
        = (s.splitOn (strlist_delim delim)).filter (fun w => decide (w ≠ [])) := by
    intro s delim
    unfold strlist_from_delim
    simp only [Bool.false_eq_true, if_false]
    rw [strlist_from_delim_loop_split]
    have hid : ∀ S : List (List Char), S.modifyHead (fun w => [] ++ w) = S := by
      intro S
      cases S <;> simp
    rw [hid]
    simp
  refine ⟨hmain, ?_, ?_, ?_⟩
  · intro s delim w hw
    rw [hmain] at hw
    rcases List.mem_filter.mp hw with ⟨h1, h2⟩
    exact ⟨of_decide_eq_true h2, splitOn_free _ _ w h1⟩
  · intro n delim
    rw [hmain]
    induction n with
    | zero => simp
    | succ n ih =>
      rw [List.replicate_succ, List.splitOn, List.splitOnP_cons]
      simp only [beq_self_eq_true, if_true, List.filter_cons]
      simpa [List.splitOn] using ih
  · intro s
    rfl
/-- Witness of C23: the text `:foo::bar:` gives the elements `foo` and `bar`,
and `foo` is not empty and holds no colon. -/
theorem strlist_from_delim_pieces_witness :
    strlist_from_delim [':', 'f', 'o', 'o', ':', ':', 'b', 'a', 'r', ':'] ':' false false
      = [['f', 'o', 'o'], ['b', 'a', 'r']]
    ∧ (['f', 'o', 'o'] ≠ [] ∧ strlist_delim ':' ∉ ['f', 'o', 'o']) :=
  ⟨by decide, strlist_from_delim_pieces.2.1
    [':', 'f', 'o', 'o', ':', ':', 'b', 'a', 'r', ':'] ':' ['f', 'o', 'o'] (by decide)⟩

/-! ## Lists of strings: deduplication -/

/-- C24, the code at the failing input: `strlist_from_delim` with `dedup` set.
For the text `foo:foo:bar` the second `foo` is found in the hash table and the
`continue` skips the assignment that moves `p` behind the delimiter, so the
next element starts at the second `foo`: the result is `foo`, `foo:bar`, where
the list without deduplication is `foo`, `foo`, `bar`.  The text `foo:bar:foo`
of the test suite, whose repeated element is the last one, gives `foo`, `bar`.
`strlist_to_delim` with `dedup` set joins the first occurrences only. -/
theorem strlist_from_delim_dedup_merges :
    strlist_from_delim ['f', 'o', 'o', ':', 'f', 'o', 'o', ':', 'b', 'a', 'r'] ':' false true
      = [['f', 'o', 'o'], ['f', 'o', 'o', ':', 'b', 'a', 'r']]
    ∧ strlist_from_delim ['f', 'o', 'o', ':', 'f', 'o', 'o', ':', 'b', 'a', 'r'] ':' false false
      = [['f', 'o', 'o'], ['f', 'o', 'o'], ['b', 'a', 'r']]
    ∧ strlist_from_delim ['f', 'o', 'o', ':', 'b', 'a', 'r', ':', 'f', 'o', 'o'] ':' false true
      = [['f', 'o', 'o'], ['b', 'a', 'r']]
    ∧ strlist_from_delim ['a', ':', 'a', ':', 'a'] ':' false true
      = [['a'], ['a', ':', 'a']]
    ∧ strlist_to_delim [['f', 'o', 'o'], ['b', 'a', 'r'], ['f', 'o', 'o'], ['x']] ':' true
      = ['f', 'o', 'o', ':', 'b', 'a', 'r', ':', 'x'] := by
  decide

/-! ## Lists of strings: split and join -/

/-- The loop of `strlist_to_delim` without hash table appends every element
and a delimiter behind it to the byte array. -/
theorem strlist_to_delim_loop_flatten (d : Char) (l : List (List Char)) (ba : List Char) :
    strlist_to_delim_loop d l none ba = ba ++ (l.map (fun s => s ++ [d])).flatten := by
  induction l generalizing ba with
  | nil => simp [strlist_to_delim_loop]
  | cons s rest ih =>
    simp only [strlist_to_delim_loop, ih, List.map_cons, List.flatten_cons, List.append_assoc]

/-- The elements with a delimiter behind each, without the last byte, are the
elements with a delimiter between them. -/
theorem flatten_dropLast_intercalate (d : Char) (l : List (List Char)) :
    ((l.map (fun s => s ++ [d])).flatten).dropLast = [d].intercalate l := by
  induction l with
  | nil => simp [List.intercalate]
  | cons s rest ih =>
    cases rest with
    | nil => simp [List.intercalate]
    | cons s2 rest2 =>
      rw [List.map_cons, List.flatten_cons, List.dropLast_append_of_ne_nil, ih]
      · simp [List.intercalate]
      · simp

/-- The function `strlist_to_delim` without deduplication puts the delimiter in
effect between the elements. -/
theorem strlist_to_delim_intercalate (l : List (List Char)) (delim : Char) :
    strlist_to_delim l delim false = [strlist_delim delim].intercalate l := by
  unfold strlist_to_delim
  simp only [Bool.false_eq_true, if_false]
  rw [strlist_to_delim_loop_flatten, List.nil_append, ← List.dropLast_eq_take,
    flatten_dropLast_intercalate]
  split_ifs with h
  · rfl
  · have h0 : ((l.map (fun s => s ++ [strlist_delim delim])).flatten) = [] := by
      apply List.eq_nil_of_length_eq_zero
      omega
    rw [← flatten_dropLast_intercalate, h0]
    rfl

/-- The function `strlist_from_delim` with `blank` set and without
deduplication gives all pieces between the delimiters. -/
theorem strlist_from_delim_blank (s : List Char) (delim : Char) :
    strlist_from_delim s delim true false = s.splitOn (strlist_delim delim) := by
  unfold strlist_from_delim
  simp only [Bool.false_eq_true, if_false]
  rw [strlist_from_delim_loop_split]
  have hid : ∀ S : List (List Char), S.modifyHead (fun w => [] ++ w) = S := by
    intro S
    cases S <;> simp
  rw [hid]
  simp

/-- C30, as amended: the round trip of split and join.  For every text and
delimiter, joining the list that `strlist_from_delim` gives with `blank` set
gives the text back; for every list of non-empty strings that do not hold the
delimiter in effect, which is the colon for the delimiter 0, splitting the
text that `strlist_to_delim` gives returns the list. -/
theorem strlist_split_join :
    (∀ (s : List Char) (d : Char),
      strlist_to_delim (strlist_from_delim s d true false) d false = s)
    ∧ (∀ (l : List (List Char)) (d : Char), (∀ w ∈ l, w ≠ [] ∧ strlist_delim d ∉ w) →
      strlist_from_delim (strlist_to_delim l d false) d false false = l) := by
  constructor
  · intro s d
    rw [strlist_from_delim_blank, strlist_to_delim_intercalate, List.intercalate_splitOn]
  · intro l d hl
    rw [strlist_to_delim_intercalate]
    have hmain := strlist_from_delim_loop_split (strlist_delim d) false
      ([strlist_delim d].intercalate l) [] []
    have hid : ∀ S : List (List Char), S.modifyHead (fun w => [] ++ w) = S := by
      intro S
      cases S <;> simp
    unfold strlist_from_delim
    simp only [Bool.false_eq_true, if_false]
    rw [hmain, hid, List.nil_append]
    by_cases hnil : l = []
    · subst hnil
      simp [List.intercalate]
    · rw [List.splitOn_intercalate _ _ (fun w hw => (hl w hw).2) hnil]
      apply List.filter_eq_self.mpr
      intro w hw
      simp [(hl w hw).1]
/-- Witness of C30, as amended: the list `usr`, `bin` joined with a slash and
split again. -/
theorem strlist_split_join_witness :
    (∀ w ∈ [['u', 's', 'r'], ['b', 'i', 'n']], w ≠ [] ∧ strlist_delim '/' ∉ w)
    ∧ strlist_from_delim (strlist_to_delim [['u', 's', 'r'], ['b', 'i', 'n']] '/' false)
        '/' false false = [['u', 's', 'r'], ['b', 'i', 'n']] :=
  ⟨by decide, strlist_split_join.2 [['u', 's', 'r'], ['b', 'i', 'n']] '/' (by decide)⟩

/-- Counterexample to C30 as stated: for the delimiter 0 the delimiter in
effect is the colon.  The list with the one string `a:b`, which is not empty
and does not hold the byte 0, is joined to `a:b` and split into `a` and
`b`. -/
theorem strlist_split_join_default_delim :
    (∀ w ∈ [['a', ':', 'b']], w ≠ [] ∧ Char.ofNat 0 ∉ w)
    ∧ strlist_to_delim [['a', ':', 'b']] (Char.ofNat 0) false = ['a', ':', 'b']
    ∧ strlist_from_delim (strlist_to_delim [['a', ':', 'b']] (Char.ofNat 0) false)
        (Char.ofNat 0) false false = [['a'], ['b']]
    ∧ strlist_from_delim (strlist_to_delim [['a', ':', 'b']] (Char.ofNat 0) false)
        (Char.ofNat 0) false false ≠ [['a', ':', 'b']] := by
  decide
/-! ## Process table: a failed update -/

/-- C25, the code at the failing input: a key that is assigned again after an
empty assignment.  In the section `S` the lines `K=a`, `K=`, `K=b` give the
key `K` the value of a space and `b`: the empty assignment replaces the value
by the empty string and leaves the key in the table, and the next assignment
appends to it with the space that goes between two values.  The lines `K=a`,
`K=b` give `a b`, the lines `K=a`, `K=` give the empty value, and a first
assignment `K=b` gives `b`. -/
theorem systemd_parse_unit_file_erased_key :
    (systemd_parse_unit_file
        ['[', 'S', ']', Char.ofNat 10, 'K', '=', 'a', Char.ofNat 10, 'K', '=', Char.ofNat 10,
         'K', '=', 'b', Char.ofNat 10]).map
          (fun u => u.bind (fun u => unit_get_value u ['S'] ['K']))
      = some (some [' ', 'b'])
    ∧ (systemd_parse_unit_file
        ['[', 'S', ']', Char.ofNat 10, 'K', '=', 'a', Char.ofNat 10, 'K', '=', 'b',
         Char.ofNat 10]).map
          (fun u => u.bind (fun u => unit_get_value u ['S'] ['K']))
      = some (some ['a', ' ', 'b'])
    ∧ (systemd_parse_unit_file
        ['[', 'S', ']', Char.ofNat 10, 'K', '=', 'a', Char.ofNat 10, 'K', '=',
         Char.ofNat 10]).map
          (fun u => u.bind (fun u => unit_get_value u ['S'] ['K']))
      = some (some [])
    ∧ (systemd_parse_unit_file
        ['[', 'S', ']', Char.ofNat 10, 'K', '=', 'b', Char.ofNat 10]).map
          (fun u => u.bind (fun u => unit_get_value u ['S'] ['K']))
      = some (some ['b'])
    ∧ (unit_update_value ⟨[⟨['S'], [(['K'], [])]⟩]⟩ ['S'] ['K'] ['b'] true).1
      = ⟨[⟨['S'], [(['K'], [' ', 'b'])]⟩]⟩ := by
  decide
/-! ## Process event connector: enable and disable -/

/-- The function `cn_proc_send` never returns 0. -/
theorem cn_proc_send_ne_zero (res : Int) (len : Nat) : cn_proc_send res len ≠ 0 := by
  unfold cn_proc_send
  split_ifs with h1 h2
  · decide
  · decide
  · have h3 : res = 16 + 20 + (len : Int) := not_not.mp h2
    omega

/-- One call of `cn_proc_listen` whose message is sent: the accepted `IGNORE`
messages and the flag after the call are covered by the acknowledged `LISTEN`
messages and the flag before the call. -/
theorem cn_proc_listen_step (st : cn_proc) (endis : Bool) (env : cn_proc_env)
    (hsend : env.sendmsg = 40) :
    ignores_accepted (cn_proc_listen st endis env).2.2
        + (if (cn_proc_listen st endis env).2.1.listening = true then 1 else 0)
      ≤ listens_acked (cn_proc_listen st endis env).2.2
        + (if st.listening = true then 1 else 0) := by
  obtain ⟨nld, l⟩ := st
  unfold cn_proc_listen
  simp only [hsend, cn_proc_send_ne_zero, if_false]
  cases l <;> cases endis <;> cases hw : cn_proc_wait env.events with
  | none => simp [ignores_accepted, listens_acked, PROC_CN_MCAST_LISTEN, PROC_CN_MCAST_IGNORE]
  | some err =>
    by_cases he : err = 0 <;>
      simp [ignores_accepted, listens_acked, PROC_CN_MCAST_LISTEN, PROC_CN_MCAST_IGNORE, he]

/-- One call of `cn_proc_disconnect` whose message is sent keeps the
balance. -/
theorem cn_proc_disconnect_step (st : cn_proc) (env : cn_proc_env) (hsend : env.sendmsg = 40) :
    ignores_accepted (cn_proc_disconnect st env).2
        + (if (cn_proc_disconnect st env).1.listening = true then 1 else 0)
      ≤ listens_acked (cn_proc_disconnect st env).2
        + (if st.listening = true then 1 else 0) := by
  unfold cn_proc_disconnect
  by_cases hn : st.nld < 0
  · simp [hn, ignores_accepted, listens_acked]
  · simp only [hn, if_false]
    by_cases hl : st.listening = true
    · simp only [hl, if_true]
      have := cn_proc_listen_step st false env hsend
      simpa [hl] using this
    · simp [hl, ignores_accepted, listens_acked]

/-- The balance over a sequence of calls in which every message is sent. -/
theorem cn_proc_run_balance (calls : List cn_proc_call) (st : cn_proc)
    (hsend : ∀ c ∈ calls, c.sendmsg = none ∨ c.sendmsg = some 40) :
    ignores_accepted (cn_proc_run st calls).2
        + (if (cn_proc_run st calls).1.listening = true then 1 else 0)
      ≤ listens_acked (cn_proc_run st calls).2
        + (if st.listening = true then 1 else 0) := by
  induction calls generalizing st with
  | nil => simp [cn_proc_run, ignores_accepted, listens_acked]
  | cons c rest ih =>
    have hrest : ∀ c ∈ rest, c.sendmsg = none ∨ c.sendmsg = some 40 :=
      fun c hc => hsend c (List.mem_cons_of_mem _ hc)
    have hhead := hsend c (List.mem_cons_self _ _)
    cases c with
    | listen endis env =>
      have h1 := cn_proc_listen_step st endis env
        (by simpa [cn_proc_call.sendmsg] using hhead)
      have h2 := ih (cn_proc_listen st endis env).2.1 hrest
      simp only [cn_proc_run, ignores_accepted, listens_acked, List.countP_append] at h1 h2 ⊢
      omega
    | connect sock bound =>
      have h2 := ih (cn_proc_connect st sock bound).2 hrest
      have h3 : (cn_proc_connect st sock bound).2.listening = st.listening := by
        unfold cn_proc_connect
        split_ifs <;> rfl
      simp only [cn_proc_run]
      rw [h3] at h2
      exact h2
    | disconnect env =>
      have h1 := cn_proc_disconnect_step st env
        (by simpa [cn_proc_call.sendmsg] using hhead)
      have h2 := ih (cn_proc_disconnect st env).1 hrest
      simp only [cn_proc_run, ignores_accepted, listens_acked, List.countP_append] at h1 h2 ⊢
      omega
/-- C26, as amended: at most one accepted disable per successful enable.  Over
every sequence of calls of `cn_proc_listen`, `cn_proc_connect` and
`cn_proc_disconnect` in which every control message is sent, with arbitrary
events, acknowledgements and timeouts, the number of `IGNORE` messages that
were sent and not refused by an acknowledgement with an error never exceeds
the number of `LISTEN` messages that were acknowledged with status 0.  An
enable whose acknowledgement is lost returns false and leaves the flag
`listening` false; a disable whose acknowledgement is lost clears the flag,
and the next disable returns at once without a message. -/
theorem cn_proc_listen_balance (nld : Int) (calls : List cn_proc_call)
    (hsend : ∀ c ∈ calls, c.sendmsg = none ∨ c.sendmsg = some 40) :
    ignores_accepted (cn_proc_run ⟨nld, false⟩ calls).2
      ≤ listens_acked (cn_proc_run ⟨nld, false⟩ calls).2
    ∧ (∀ (st : cn_proc) (env : cn_proc_env), st.listening = false →
        cn_proc_wait env.events = none →
        (cn_proc_listen st true env).1 = false
        ∧ (cn_proc_listen st true env).2.1.listening = false)
    ∧ (∀ (st : cn_proc) (env env2 : cn_proc_env), st.listening = true →
        cn_proc_wait env.events = none →
        (cn_proc_listen st false env).2.1.listening = false
        ∧ cn_proc_listen (cn_proc_listen st false env).2.1 false env2
            = (true, (cn_proc_listen st false env).2.1, [])) := by
  refine ⟨?_, ?_, ?_⟩
  · have h := cn_proc_run_balance calls ⟨nld, false⟩ hsend
    simp only [Bool.false_eq_true, if_false, Nat.add_zero] at h
    omega
  · intro st env hl hw
    unfold cn_proc_listen
    simp [hl, hw, cn_proc_send_ne_zero]
  · intro st env env2 hl hw
    have h1 : (cn_proc_listen st false env).2.1.listening = false := by
      unfold cn_proc_listen
      simp [hl, hw, cn_proc_send_ne_zero]
    refine ⟨h1, ?_⟩
    generalize (cn_proc_listen st false env).2.1 = st1 at h1 ⊢
    unfold cn_proc_listen
    simp [h1]

/-- Witness of C26, as amended: an enable that is acknowledged after a fork
event, a disable whose acknowledgement is lost, a second disable, a
disconnect, a connect, and an enable whose acknowledgement is lost. -/
theorem cn_proc_listen_balance_witness :
    cn_proc_run ⟨3, false⟩
        [.listen true ⟨40, [(1, 0), (0, 0)]⟩, .listen false ⟨40, []⟩, .listen false ⟨40, []⟩,
         .disconnect ⟨40, []⟩, .connect 4 true, .listen true ⟨40, [(1, 0)]⟩]
      = (⟨4, false⟩, [(1, some 0), (2, none), (1, none)])
    ∧ ignores_accepted (cn_proc_run ⟨3, false⟩
        [.listen true ⟨40, [(1, 0), (0, 0)]⟩, .listen false ⟨40, []⟩, .listen false ⟨40, []⟩,
         .disconnect ⟨40, []⟩, .connect 4 true, .listen true ⟨40, [(1, 0)]⟩]).2
      ≤ listens_acked (cn_proc_run ⟨3, false⟩
        [.listen true ⟨40, [(1, 0), (0, 0)]⟩, .listen false ⟨40, []⟩, .listen false ⟨40, []⟩,
         .disconnect ⟨40, []⟩, .connect 4 true, .listen true ⟨40, [(1, 0)]⟩]).2 :=
  ⟨by decide, (cn_proc_listen_balance 3
    [.listen true ⟨40, [(1, 0), (0, 0)]⟩, .listen false ⟨40, []⟩, .listen false ⟨40, []⟩,
     .disconnect ⟨40, []⟩, .connect 4 true, .listen true ⟨40, [(1, 0)]⟩] (by decide)).1⟩

/-- Counterexample to C26 as stated.  First, a disable that is refused: the
enable is acknowledged with status 0; the disable is acknowledged with the
error 1, returns false and leaves the flag set; the next disable sends a
second `IGNORE` message, so that two have been sent for one acknowledged
`LISTEN`.  Second, a message that is not sent: `sendmsg` fails during the
enable, `cn_proc_send` returns -1, which the test of its return value takes
for success, and an acknowledgement with status 0 that arrives sets the flag;
the disable that follows sends an `IGNORE` message for which no `LISTEN` was
sent. -/
theorem cn_proc_listen_second_ignore :
    cn_proc_run ⟨3, false⟩
        [.listen true ⟨40, [(0, 0)]⟩, .listen false ⟨40, [(0, 1)]⟩, .listen false ⟨40, []⟩]
      = (⟨3, false⟩, [(1, some 0), (2, some 1), (2, none)])
    ∧ ignores_sent [(1, some 0), (2, some 1), (2, none)] = 2
    ∧ listens_acked [(1, some 0), (2, some 1), (2, none)] = 1
    ∧ cn_proc_listen ⟨3, true⟩ false ⟨40, [(0, 1)]⟩ = (false, ⟨3, true⟩, [(2, some 1)])
    ∧ cn_proc_send (-1) 4 = -1
    ∧ cn_proc_listen ⟨3, false⟩ true ⟨-1, [(0, 0)]⟩ = (true, ⟨3, true⟩, [])
    ∧ cn_proc_run ⟨3, false⟩ [.listen true ⟨-1, [(0, 0)]⟩, .listen false ⟨40, []⟩]
      = (⟨3, false⟩, [(2, none)])
    ∧ ignores_sent [(2, none)] = 1
    ∧ listens_acked [(2, none)] = 0 := by
  decide
/-! ## Quoted words: escape sequences -/

/-- C27, the code at the failing inputs: `systemd_split_quoted` reads the byte
behind a backslash twice.  For the text of `a`, backslash, `n`, `b` the escape
sequence gives a newline, and the `n`, which `p` still points to, is appended
as well: the word has the four bytes `a`, newline, `n`, `b`.  For `a`,
backslash, `s`, `b` the space that the sequence stands for ends the word, and
`sb` becomes a second word.  For `x`, backslash, double quote, `y z` the quote
behind the backslash is appended and then opens a quotation, which takes the
blank into the word.  For two backslashes and `n` the second backslash is
appended and then starts an escape sequence of its own.  A text without
quotes and backslashes is split into its words, and a quotation keeps its
blank. -/
theorem systemd_split_quoted_escape_twice :
    systemd_split_quoted ['a', Char.ofNat 92, 'n', 'b']
      = some [['a', Char.ofNat 10, 'n', 'b']]
    ∧ systemd_split_quoted ['a', Char.ofNat 92, 's', 'b'] = some [['a'], ['s', 'b']]
    ∧ systemd_split_quoted ['x', Char.ofNat 92, Char.ofNat 34, 'y', ' ', 'z']
        = some [['x', Char.ofNat 34, 'y', ' ', 'z']]
    ∧ systemd_split_quoted [Char.ofNat 92, Char.ofNat 92, 'n']
        = some [[Char.ofNat 92, Char.ofNat 10, 'n']]
    ∧ systemd_split_quoted [' ', 'f', 'o', 'o', ' ', Char.ofNat 9, 'b', 'a', 'r', ' ']
        = some [['f', 'o', 'o'], ['b', 'a', 'r']]
    ∧ systemd_split_quoted [Char.ofNat 34, 'a', ' ', 'b', Char.ofNat 34, ' ', 'c']
        = some [['a', ' ', 'b'], ['c']] := by
  decide
/-! ## Time spans: printing and the round trip -/

/-- The character of a decimal digit is a digit and has the value of the
digit. -/
theorem digit_char (d : Nat) (h : d < 10) :
    isdigit (Char.ofNat (48 + d)) = true ∧ (Char.ofNat (48 + d)).toNat - 48 = d := by
  revert d
  decide

/-- The value of a run of digits with one more digit behind it. -/
theorem decimal_append (xs : List Char) (c : Char) :
    decimal (xs ++ [c]) = decimal xs * 10 + (c.toNat - 48) := by
  simp [decimal, List.foldl_append]

/-- The digits that `snprintf` prints for a number are digits and have the
number as value, if the fuel covers the number of digits. -/
theorem snprintf_digits_spec (fuel : Nat) :
    ∀ n, n < 10 ^ fuel → decimal (snprintf_digits fuel n) = n
      ∧ (∀ c ∈ snprintf_digits fuel n, isdigit c = true)
      ∧ (0 < fuel → snprintf_digits fuel n ≠ []) := by
  induction fuel with
  | zero =>
    intro n hn
    have h0 : n = 0 := by simpa using hn
    subst h0
    simp [snprintf_digits, decimal]
  | succ fuel ih =>
    intro n hn
    unfold snprintf_digits
    by_cases h10 : n < 10
    · rw [if_pos h10]
      obtain ⟨h1, h2⟩ := digit_char n h10
      refine ⟨?_, ?_, fun _ => by simp⟩
      · simp only [decimal, List.foldl_cons, List.foldl_nil, Nat.zero_mul, Nat.zero_add]
        exact h2
      · intro c hc
        rw [List.mem_singleton.mp hc]
        exact h1
    · rw [if_neg h10]
      have hdiv : n / 10 < 10 ^ fuel := by
        rw [Nat.div_lt_iff_lt_mul (by decide)]
        rw [Nat.pow_succ] at hn
        exact hn
      obtain ⟨i1, i2, _⟩ := ih (n / 10) hdiv
      obtain ⟨h1, h2⟩ := digit_char (n % 10) (Nat.mod_lt _ (by decide))
      refine ⟨?_, ?_, fun _ => by simp⟩
      · rw [decimal_append, i1, h2]
        omega
      · intro c hc
        rcases List.mem_append.mp hc with h | h
        · exact i2 c h
        · rw [List.mem_singleton.mp h]
          exact h1

/-- The text that `%llu` prints for a value of 64 bits is a non-empty run of
digits with that value. -/
theorem snprintf_llu_spec (n : Nat) (hn : n < 2 ^ 64) :
    decimal (snprintf_llu n) = n ∧ (∀ c ∈ snprintf_llu n, isdigit c = true)
      ∧ snprintf_llu n ≠ [] := by
  obtain ⟨h1, h2, h3⟩ := snprintf_digits_spec 20 n (by omega)
  exact ⟨h1, h2, h3 (by decide)⟩

/-- The greedy decomposition of 0 is empty. -/
theorem span_greedy_zero (us : List (String × Nat)) :
    span_greedy us 0 = [] ∧ greedy_groups us 0 = [] := by
  induction us with
  | nil => exact ⟨rfl, rfl⟩
  | cons u us ih =>
    simp only [span_greedy, greedy_groups, Nat.zero_div, if_true]
    exact ih

/-- A unit whose value is the value of the unit before it adds nothing to the
greedy decomposition. -/
theorem span_greedy_dup (a b : String) (v : Nat) (hv : 0 < v) (l : List (String × Nat))
    (ts : Nat) :
    span_greedy ((a, v) :: (b, v) :: l) ts = span_greedy ((a, v) :: l) ts := by
  simp only [span_greedy]
  by_cases h : ts / v = 0
  · simp only [h, if_true]
  · simp only [h, if_false]
    rw [if_pos (Nat.div_eq_of_lt (Nat.mod_lt _ hv))]

/-- Units with the value of the unit before them, and a change of the units
that follow which keeps the decomposition, keep the decomposition. -/
theorem span_greedy_dups (a : String) (v : Nat) (hv : 0 < v) (names : List String)
    (l1 l2 : List (String × Nat)) (h : ∀ ts, span_greedy l1 ts = span_greedy l2 ts) :
    ∀ ts, span_greedy ((a, v) :: (names.map (fun b => (b, v)) ++ l1)) ts
      = span_greedy ((a, v) :: l2) ts := by
  induction names with
  | nil =>
    intro ts
    simp only [List.map_nil, List.nil_append, span_greedy, h]
  | cons b names ih =>
    intro ts
    rw [List.map_cons, List.cons_append, span_greedy_dup a b v hv]
    exact ih ts

/-- The greedy decomposition over the table of units, from its last entry to
its first, is the decomposition over the short names. -/
theorem span_greedy_units (ts : Nat) :
    span_greedy timespan_units.reverse ts = span_greedy timespan_short_units ts := by
  have e : timespan_units.reverse
      = ("y", TS_YEAR) :: (["year", "years"].map (fun b => (b, TS_YEAR))
        ++ (("M", TS_MONTH) :: (["month", "months"].map (fun b => (b, TS_MONTH))
        ++ (("w", TS_WEEK) :: (["week", "weeks"].map (fun b => (b, TS_WEEK))
        ++ (("d", TS_DAY) :: (["day", "days"].map (fun b => (b, TS_DAY))
        ++ (("h", TS_HR) :: (["hr", "hour", "hours"].map (fun b => (b, TS_HR))
        ++ (("m", TS_MIN) :: (["min", "minute", "minutes"].map (fun b => (b, TS_MIN))
        ++ (("s", TS_SEC) :: (["sec", "second", "seconds"].map (fun b => (b, TS_SEC))
        ++ (("ms", TS_MSEC) :: (["msec"].map (fun b => (b, TS_MSEC))
        ++ (("us", TS_USEC) :: (["usec"].map (fun b => (b, TS_USEC))
        ++ []))))))))))))))))) := by
    decide
  rw [e]
  unfold timespan_short_units
  revert ts
  refine span_greedy_dups _ _ (by decide) _ _ _ ?_
  refine span_greedy_dups _ _ (by decide) _ _ _ ?_
  refine span_greedy_dups _ _ (by decide) _ _ _ ?_
  refine span_greedy_dups _ _ (by decide) _ _ _ ?_
  refine span_greedy_dups _ _ (by decide) _ _ _ ?_
  refine span_greedy_dups _ _ (by decide) _ _ _ ?_
  refine span_greedy_dups _ _ (by decide) _ _ _ ?_
  refine span_greedy_dups _ _ (by decide) _ _ _ ?_
  refine span_greedy_dups _ _ (by decide) _ _ _ ?_
  intro ts
  rfl
/-- While the value of the entry under `tsu` is above the remaining value, the
loop of `timespan_to_str` goes on from the entry below it. -/
theorem timespan_to_str_loop_skip (fuel ts i : Nat) (h : tsu_value (i + 1) > ts) :
    timespan_to_str_loop (fuel + 1) ts (i + 1) = timespan_to_str_loop (fuel + 1) ts i := by
  have hs : timespan_to_str_seek ts (i + 1) = timespan_to_str_seek ts i := by
    rw [timespan_to_str_seek, if_pos h]
  rw [timespan_to_str_loop, timespan_to_str_loop, hs]

/-- The search for the unit stays at an entry whose value is not above the
remaining value. -/
theorem timespan_to_str_seek_stay (ts i : Nat) (h : ¬ tsu_value i > ts) :
    timespan_to_str_seek ts i = i := by
  cases i with
  | zero => rfl
  | succ i => rw [timespan_to_str_seek, if_neg h]

/-- The loop of `timespan_to_str`, started at an entry of the table whose
value is above the remaining value, prints the greedy decomposition over the
entries below it, from the nearest to the first. -/
theorem timespan_to_str_loop_greedy (i : Nat) :
    i ≤ 28 → ∀ fuel ts, i < fuel → tsu_value i > ts →
      timespan_to_str_loop fuel ts i = some (span_greedy (timespan_units.take i).reverse ts) := by
  induction i with
  | zero =>
    intro _ fuel ts hf hv
    obtain ⟨f, rfl⟩ : ∃ f, fuel = f + 1 := ⟨fuel - 1, by omega⟩
    have h1 : tsu_value 0 = 1 := rfl
    have h0 : ts = 0 := by omega
    subst h0
    rfl
  | succ i ih =>
    intro hi fuel ts hf hv
    obtain ⟨f, rfl⟩ : ∃ f, fuel = f + 1 := ⟨fuel - 1, by omega⟩
    have hlen : timespan_units.length = 28 := rfl
    have hil : i < timespan_units.length := by omega
    have hget : timespan_units.get? i = some (timespan_units.get ⟨i, hil⟩) :=
      List.get?_eq_get hil
    have hmem : timespan_units.get ⟨i, hil⟩ ∈ timespan_units := List.get_mem _ _ _
    have hpos : 0 < (timespan_units.get ⟨i, hil⟩).2 := by
      have : ∀ u ∈ timespan_units, 0 < u.2 := by decide
      exact this _ hmem
    generalize timespan_units.get ⟨i, hil⟩ = u at hget hpos
    have hname : tsu_name i = some u.1 := by
      unfold tsu_name
      rw [hget]
      rfl
    have hval : tsu_value i = u.2 := by
      unfold tsu_value
      rw [hget]
      rfl
    have hget2 : timespan_units[i]? = some u := by
      rw [← List.get?_eq_getElem?]
      exact hget
    have hrev : (timespan_units.take (i + 1)).reverse = u :: (timespan_units.take i).reverse := by
      rw [List.take_succ, hget2]
      simp
    rw [timespan_to_str_loop_skip f ts i hv, hrev]
    by_cases hle : tsu_value i > ts
    · rw [ih (by omega) (f + 1) ts (by omega) hle]
      rw [hval] at hle
      simp only [span_greedy]
      rw [if_pos (Nat.div_eq_of_lt hle)]
    · have hts : 0 < ts := by rw [hval] at hle; omega
      rw [timespan_to_str_loop, if_pos hts, timespan_to_str_seek_stay ts i hle, hname, hval]
      simp only
      rw [ih (by omega) f (ts % u.2) (by omega) (by rw [hval]; exact Nat.mod_lt _ hpos)]
      have hdiv : ¬ ts / u.2 = 0 := by
        rw [hval] at hle
        have : 0 < ts / u.2 := Nat.div_pos (by omega) hpos
        omega
      simp only [span_greedy, Option.map_some']
      rw [if_neg hdiv]

/-- The function `timespan_to_str` prints a value other than 0, `TS_INFINITY`
and `TS_INVALID` as its greedy decomposition over the short names. -/
theorem timespan_to_str_greedy (ts : Nat) (h0 : 0 < ts) (hinf : ts < TS_INFINITY) :
    timespan_to_str ts = some (span_greedy timespan_short_units ts) := by
  have h1 : TS_INFINITY = 2 ^ 64 - 2 := rfl
  have h2 : TS_INVALID = 2 ^ 64 - 1 := rfl
  unfold timespan_to_str
  rw [if_neg (by omega), if_neg (by omega), if_neg (by omega)]
  rw [timespan_to_str_loop_greedy 28 (by omega) 29 ts (by omega)
    (by
      have : tsu_value 28 = TS_INVALID := rfl
      omega)]
  have e : timespan_units.take 28 = timespan_units := rfl
  rw [e, span_greedy_units]

/-- The text of the groups of the greedy decomposition is the text of the
decomposition. -/
theorem greedy_groups_text (us : List (String × Nat)) :
    ∀ ts, span_text (greedy_groups us ts) = span_greedy us ts := by
  induction us with
  | nil => intro ts; rfl
  | cons u us ih =>
    intro ts
    simp only [greedy_groups, span_greedy]
    split_ifs with h
    · exact ih ts
    · simp only [span_text, span_group.text, ih, List.nil_append, List.append_nil,
        List.append_assoc]

/-- The value of the groups of the greedy decomposition is at most the value
that is decomposed, and is that value if one of the units has the value 1. -/
theorem greedy_groups_value (us : List (String × Nat)) (hpos : ∀ u ∈ us, 0 < u.2) :
    ∀ ts, ts < 2 ^ 64 → span_value (greedy_groups us ts) ≤ ts
      ∧ ((∃ u ∈ us, u.2 = 1) → span_value (greedy_groups us ts) = ts) := by
  induction us with
  | nil =>
    intro ts _
    simp [greedy_groups, span_value]
  | cons u us ih =>
    intro ts hts
    have hu : 0 < u.2 := hpos u (List.mem_cons_self _ _)
    have ih2 := ih (fun x hx => hpos x (List.mem_cons_of_mem _ hx))
    simp only [greedy_groups]
    by_cases h : ts / u.2 = 0
    · rw [if_pos h]
      obtain ⟨i1, i2⟩ := ih2 ts hts
      refine ⟨i1, ?_⟩
      rintro ⟨x, hx, hx1⟩
      rcases List.mem_cons.mp hx with rfl | hx
      · rw [hx1, Nat.div_one] at h
        subst h
        rw [(span_greedy_zero us).2]
        rfl
      · exact i2 ⟨x, hx, hx1⟩
    · rw [if_neg h]
      have hmod : ts % u.2 < 2 ^ 64 := lt_of_le_of_lt (Nat.mod_le _ _) hts
      have hdl : ts / u.2 < 2 ^ 64 := lt_of_le_of_lt (Nat.div_le_self _ _) hts
      obtain ⟨i1, i2⟩ := ih2 (ts % u.2) hmod
      have hdm := Nat.div_add_mod ts u.2
      have hcomm : u.2 * (ts / u.2) = ts / u.2 * u.2 := Nat.mul_comm _ _
      simp only [span_value, (snprintf_llu_spec _ hdl).1]
      refine ⟨by omega, ?_⟩
      rintro ⟨x, hx, hx1⟩
      rcases List.mem_cons.mp hx with rfl | hx
      · rw [hx1, Nat.mod_one, (span_greedy_zero us).2]
        simp only [span_value, Nat.add_zero]
        rw [hx1] at hdm
        omega
      · rw [i2 ⟨x, hx, hx1⟩]
        omega

/-- The groups of the greedy decomposition over units of the table are
valid. -/
theorem greedy_groups_valid (us : List (String × Nat)) (hus : ∀ u ∈ us, u ∈ timespan_units) :
    ∀ ts, ts < 2 ^ 64 → ∀ g ∈ greedy_groups us ts, g.valid := by
  induction us with
  | nil =>
    intro ts _ g hg
    simp [greedy_groups] at hg
  | cons u us ih =>
    intro ts hts g hg
    have ih2 := ih (fun x hx => hus x (List.mem_cons_of_mem _ hx))
    simp only [greedy_groups] at hg
    by_cases h : ts / u.2 = 0
    · rw [if_pos h] at hg
      exact ih2 ts hts g hg
    · rw [if_neg h] at hg
      have hdl : ts / u.2 < 2 ^ 64 := lt_of_le_of_lt (Nat.div_le_self _ _) hts
      rcases List.mem_cons.mp hg with rfl | hg
      · obtain ⟨_, s2, s3⟩ := snprintf_llu_spec _ hdl
        exact ⟨s3, s2, by simp, by simp, hus u (List.mem_cons_self _ _)⟩
      · exact ih2 _ (lt_of_le_of_lt (Nat.mod_le _ _) hts) g hg
/-- The function `timespan_from_str` on the text of one or more valid groups,
followed by blanks, returns the sum of the groups if it is below
`TS_INVALID`. -/
theorem timespan_from_str_groups (gs : List span_group) (trail : List Char) (errno : Int)
    (hne : gs ≠ []) (hv : ∀ g ∈ gs, g.valid) (htrail : ∀ c ∈ trail, isblank c = true)
    (hsum : span_value gs < TS_INVALID) :
    timespan_from_str (span_text gs ++ trail) errno = some (span_value gs, errno) := by
  have hinv : TS_INVALID = 2 ^ 64 - 1 := rfl
  have hmax : UINTMAX_MAX = 2 ^ 64 - 1 := rfl
  obtain ⟨g, gs', rfl⟩ := List.exists_cons_of_ne_nil hne
  have hg := hv g (by simp)
  obtain ⟨hlen, init, c, hinit, hc⟩ := span_text_shape gs' g hv
  obtain ⟨d, tl, hd, hdd⟩ := span_group_text_head g hg (span_text gs' ++ trail)
  have hp : (span_text (g :: gs') ++ trail).dropWhile isblank
      = g.text ++ (span_text gs' ++ trail) := span_text_drop_blank g gs' hg trail
  have hbody : ((g.text ++ (span_text gs' ++ trail)).reverse.dropWhile isblank).reverse
      = g.text ++ span_text gs' := by
    rw [← List.append_assoc, hinit]
    exact rtrim_blank init trail c (isalpha_class c hc).2 htrail
  have hupos : 0 < g.unit.2 := by
    have : ∀ u ∈ timespan_units, 0 < u.2 := by decide
    exact this g.unit hg.2.2.2.2
  have hmag : decimal g.digits ≤ decimal g.digits * g.unit.2 :=
    Nat.le_mul_of_pos_right _ hupos
  have hval : decimal g.digits * g.unit.2 ≤ span_value (g :: gs') := by
    simp only [span_value]
    omega
  obtain ⟨hst, hq⟩ := span_group_strtoumax g (span_text gs' ++ trail) hg
    (by rw [hmax]; omega)
  have hloop := timespan_loop_groups errno gs' g ((g.text ++ span_text gs').length + 1) 0 hv
    (by omega) (by omega)
  unfold timespan_from_str
  simp only [hp, hbody]
  rw [if_neg (by rw [hinit]; simp)]
  rw [if_neg (by
    rw [hd]
    intro h
    have hdi : d = 'i' := (List.cons.inj h).1
    rw [hdi] at hdd
    exact absurd hdd (by decide))]
  rw [if_pos (by rw [hd]; exact hdd)]
  simp only [hst, Bool.false_eq_true, if_false]
  rw [if_neg (by
    intro h
    have := h.1
    rw [hmax] at this
    omega)]
  rw [if_neg (fun h => hq h.2), hloop, Nat.zero_add]

/-- C22: the round trip of a time span.  For every value of 64 bits other than
`TS_INVALID`, `timespan_to_str` with a buffer that is large enough succeeds,
and `timespan_from_str` of the text that it produces returns the value and
leaves `errno` as it was.  The text is `0` for 0, `infinity` for
`TS_INFINITY`, and for any other value the greedy decomposition into the units
y, M, w, d, h, m, s, ms, us, from largest to smallest, with the components
that are zero left out. -/
theorem timespan_round_trip (ts : Nat) (errno : Int) (h64 : ts < 2 ^ 64)
    (hvalid : ts ≠ TS_INVALID) :
    ∃ s, timespan_to_str ts = some s
      ∧ timespan_from_str s errno = some (ts, errno)
      ∧ (ts = 0 → s = ['0'])
      ∧ (ts = TS_INFINITY → s = ['i', 'n', 'f', 'i', 'n', 'i', 't', 'y'])
      ∧ (0 < ts → ts < TS_INFINITY → s = span_greedy timespan_short_units ts) := by
  have h1 : TS_INFINITY = 2 ^ 64 - 2 := rfl
  have h2 : TS_INVALID = 2 ^ 64 - 1 := rfl
  by_cases h0 : ts = 0
  · subst h0
    refine ⟨['0'], rfl, ?_, fun _ => rfl, fun h => ?_, fun h => ?_⟩
    · simp [timespan_from_str, isblank, isdigit, strtoumax, decimal, UINTMAX_MAX]
    · rw [h1] at h
      omega
    · omega
  · by_cases hinf : ts = TS_INFINITY
    · subst hinf
      refine ⟨['i', 'n', 'f', 'i', 'n', 'i', 't', 'y'], rfl, ?_, fun h => ?_, fun _ => rfl,
        fun _ h => ?_⟩
      · simp [timespan_from_str, isblank]
      · rw [h1] at h
        omega
      · omega
    · have hpos : 0 < ts := Nat.pos_of_ne_zero h0
      have hlt : ts < TS_INFINITY := by omega
      have hmem : ∀ u ∈ timespan_short_units, u ∈ timespan_units := by decide
      have hupos : ∀ u ∈ timespan_short_units, 0 < u.2 := by decide
      have hone : ∃ u ∈ timespan_short_units, u.2 = 1 := ⟨("us", TS_USEC), by decide, rfl⟩
      have hval := (greedy_groups_value timespan_short_units hupos ts h64).2 hone
      have hgv := greedy_groups_valid timespan_short_units hmem ts h64
      have hne : greedy_groups timespan_short_units ts ≠ [] := by
        intro h
        rw [h] at hval
        simp only [span_value] at hval
        omega
      refine ⟨span_greedy timespan_short_units ts, timespan_to_str_greedy ts hpos hlt, ?_,
        fun h => absurd h h0, fun h => absurd h hinf, fun _ _ => rfl⟩
      have hrt := timespan_from_str_groups (greedy_groups timespan_short_units ts) [] errno
        hne hgv (fun c hc => absurd hc (List.not_mem_nil c)) (by rw [hval]; omega)
      rw [List.append_nil, greedy_groups_text, hval] at hrt
      exact hrt

/-- Witness of C22: one hour and a half is printed as `1h30m` and read back
as 5400000000 microseconds. -/
theorem timespan_round_trip_witness :
    timespan_to_str 5400000000 = some ['1', 'h', '3', '0', 'm']
    ∧ ∃ s, timespan_to_str 5400000000 = some s
      ∧ timespan_from_str s 0 = some (5400000000, 0)
      ∧ ((5400000000 : Nat) = 0 → s = ['0'])
      ∧ (5400000000 = TS_INFINITY → s = ['i', 'n', 'f', 'i', 'n', 'i', 't', 'y'])
      ∧ (0 < 5400000000 → 5400000000 < TS_INFINITY →
          s = span_greedy timespan_short_units 5400000000) :=
  ⟨by decide, timespan_round_trip 5400000000 0 (by decide) (by decide)⟩
/-! ## Process table: children lists and parent links -/

/-- Two writes to different fields of records can be done in either order. -/
theorem update_adopt_ppid (ps : List process) (k pid c v : Int) :
    update (update ps pid (fun r => { r with ppid := v })) k
        (fun r => { r with children := r.children ++ [c] })
      = update (update ps k (fun r => { r with children := r.children ++ [c] })) pid
        (fun r => { r with ppid := v }) := by
  unfold update
  rw [List.map_map, List.map_map]
  apply List.map_congr_left
  intro r _
  obtain ⟨p, pp, s, ch, w⟩ := r
  simp only [Function.comp]
  by_cases h1 : p = pid
  · by_cases h2 : p = k
    · simp only [if_pos h1, if_pos h2]
    · simp only [if_pos h1, if_neg h2]
  · by_cases h2 : p = k
    · simp only [if_neg h1, if_pos h2]
    · simp only [if_neg h1, if_neg h2]

/-- The session change of `process_insert` keeps the invariant of the children
lists. -/
theorem tree_inv_insert_sid (t : Table) (proc : process) (sid : Int) (h : tree_inv t) :
    tree_inv (process_insert_sid t proc sid).2 := by
  unfold process_insert_sid
  split_ifs
  · exact h
  · exact tree_inv_other t proc.pid _ (fun r => ⟨rfl, rfl, rfl⟩) h
  · exact h

/-- A call of `process_insert` keeps the invariant of the children lists,
whether it succeeds or fails. -/
theorem tree_inv_insert (t t1 : Table) (pid ppid sid : Int) (o : Outcome) (h : tree_inv t)
    (hs : process_insert t pid ppid sid = some (o, t1)) : tree_inv t1 := by
  unfold process_insert at hs
  cases hg : process_get t pid with
  | some proc =>
    rw [hg] at hs
    simp only at hs
    obtain ⟨hpid, hmem⟩ := hash_table_get_some _ _ _ hg
    by_cases h1 : ppid ≠ 0 ∧ ppid ≠ proc.ppid
    · rw [if_pos h1] at hs
      by_cases h2 : ppid ≠ 1
      · rw [if_pos h2] at hs
        cases hs
        exact h
      · rw [if_neg h2] at hs
        cases hi : process_get (process_unparent t proc) 1 with
        | none =>
          rw [hi] at hs
          cases hs
        | some ini =>
          rw [hi] at hs
          simp only at hs
          have hdet : detached (process_unparent t proc) pid :=
            hpid ▸ detached_unparent t proc h hmem
          have hA := tree_inv_ppid (process_unparent t proc) pid 1 hdet
            (tree_inv_unparent t proc h)
          have hgu : ∃ r0, process_get (process_unparent t proc) pid = some r0 := by
            rw [process_get_unparent, hg]
            exact ⟨_, rfl⟩
          obtain ⟨r0, hr0⟩ := hgu
          obtain ⟨hr0p, hr0m⟩ := hash_table_get_some _ _ _ hr0
          have hB := tree_inv_adopt
            ⟨update (process_unparent t proc).processes pid (fun r => { r with ppid := 1 }),
              (process_unparent t proc).ready, (process_unparent t proc).self⟩ 1 pid
            (by
              intro r hr
              obtain ⟨r2, hr2, rfl⟩ := (mem_update _ _ _ _).mp hr
              have := hdet r2 hr2
              split_ifs <;> exact this)
            ⟨_, mem_update_of_mem _ pid (fun r => { r with ppid := 1 }) r0 hr0m, by
              rw [if_pos hr0p]
              exact ⟨hr0p, rfl⟩⟩
            hA
          simp only at hB
          rw [update_adopt_ppid] at hB
          have hfin := tree_inv_insert_sid _ proc sid hB
          rw [Option.some.inj hs] at hfin
          exact hfin
    · rw [if_neg h1] at hs
      have hfin := tree_inv_insert_sid t proc sid h
      rw [Option.some.inj hs] at hfin
      exact hfin
  | none =>
    rw [hg] at hs
    simp only at hs
    by_cases h1 : ppid ≠ pid
    · rw [if_pos h1] at hs
      cases hp : process_get t ppid with
      | none =>
        rw [hp] at hs
        cases hs
        exact h
      | some parent =>
        rw [hp] at hs
        simp only at hs
        split_ifs at hs
        · cases hs
          exact (tree_inv_create t pid ppid parent.sid parent h hg hp).1
        · cases hs
          exact h
        · cases hs
          exact (tree_inv_create t pid ppid sid parent h hg hp).1
    · rw [if_neg h1] at hs
      cases hs
      have hnew : pid ∉ t.processes.map (fun r => r.pid) := by
        intro hc
        obtain ⟨r, hr, hrp⟩ := List.mem_map.mp hc
        exact (hash_table_get_none _ _).mp hg r hr hrp
      exact tree_inv_append t ⟨pid, ppid, sid, [], -1⟩ hnew rfl h
/-- The function `process_reparent_children`, where it returns, keeps the
invariant of the children lists, for a parent other than init. -/
theorem process_reparent_children_tree (t t1 : Table) (parent : Int) (h : tree_inv t)
    (hne : parent ≠ 1) (hs : process_reparent_children t parent = some t1) : tree_inv t1 := by
  unfold process_reparent_children at hs
  cases hp : process_get t parent with
  | none =>
    rw [hp] at hs
    cases hs
  | some p =>
    rw [hp] at hs
    simp only at hs
    by_cases hinit : (process_get t 1).isSome = true
    · obtain ⟨t2, h2, hinv, _⟩ := process_reparent_loop_tree (p.children.length + 1) t parent p h
        hne hinit hp (by omega)
      rw [h2] at hs
      cases hs
      exact hinv
    · have hnone : process_get t 1 = none := by
        cases hg : process_get t 1 with
        | none => rfl
        | some r => rw [hg] at hinit; exact absurd rfl hinit
      rw [process_reparent_loop, hp] at hs
      simp only at hs
      cases hch : p.children with
      | nil =>
        rw [hch] at hs
        cases hs
        exact h
      | cons c rest =>
        rw [hch] at hs
        simp only at hs
        have hone : process_reparent_one t parent c rest = none := by
          unfold process_reparent_one
          simp only
          cases hc : hash_table_get (update t.processes parent
              (fun r => { r with children := rest })) c with
          | none => rfl
          | some rc =>
            simp only
            have h1 : hash_table_get (update (update t.processes parent
                (fun r => { r with children := rest })) c (fun r => { r with ppid := 1 })) 1
                = none := by
              have : hash_table_get t.processes 1 = none := hnone
              rw [hash_table_get_update, hash_table_get_update, this]
              · rfl
              · exact fun _ => rfl
              · exact fun _ => rfl
            rw [h1]
        rw [hone] at hs
        cases hs

/-- An exit of a process other than init, where `process_exit` returns, keeps
the invariant of the children lists. -/
theorem tree_inv_exit (t t1 : Table) (pid w : Int) (b : Bool) (h : tree_inv t) (hne : pid ≠ 1)
    (hs : process_exit t pid w = some (b, t1)) : tree_inv t1 := by
  unfold process_exit at hs
  cases hg : process_get t pid with
  | none =>
    rw [hg] at hs
    cases hs
    exact h
  | some proc =>
    rw [hg] at hs
    simp only at hs
    have hw := tree_inv_other t pid (fun r => { r with wstatus := w })
      (fun r => ⟨rfl, rfl, rfl⟩) h
    cases hr : process_reparent_children
        ⟨update t.processes pid (fun r => { r with wstatus := w }), t.ready, t.self⟩ pid with
    | none =>
      rw [hr] at hs
      cases hs
    | some t2 =>
      rw [hr] at hs
      cases hs
      exact tree_inv_ready t2 _ _ (process_reparent_children_tree _ t2 pid hw hne hr)

/-- A call of `process_drop`, where it returns, keeps the invariant of the
children lists. -/
theorem tree_inv_drop (t t1 : Table) (pid : Int) (b : Bool) (h : tree_inv t)
    (hs : process_drop t pid = some (b, t1)) : tree_inv t1 := by
  unfold process_drop at hs
  cases hg : process_get t pid with
  | none =>
    rw [hg] at hs
    cases hs
    exact h
  | some proc =>
    rw [hg] at hs
    simp only at hs
    obtain ⟨hpid, hmem⟩ := hash_table_get_some _ _ _ hg
    have hdet : detached (process_unparent t proc) pid := hpid ▸ detached_unparent t proc h hmem
    have hgu : ∃ r0, process_get (process_unparent t proc) pid = some r0 := by
      rw [process_get_unparent, hg]
      exact ⟨_, rfl⟩
    obtain ⟨r0, hr0⟩ := hgu
    obtain ⟨hr0p, hr0m⟩ := hash_table_get_some _ _ _ hr0
    obtain ⟨t2, h2, hinv, _⟩ := (process_drop_rec_returns
      (2 * children_total (process_unparent t proc) + 2)).1 (process_unparent t proc) pid
      (tree_inv_unparent t proc h) hdet ⟨r0, hr0m, hr0p⟩ (le_refl _)
    unfold process_drop_recursive at hs
    rw [h2] at hs
    cases hs
    exact hinv

/-- A call of `process_collect`, where it returns, keeps the invariant of the
children lists. -/
theorem tree_inv_collect (t : Table) (res : collect_result) (h : tree_inv t)
    (hs : process_collect t = some res) :
    match res with
    | .proc _ t1 => tree_inv t1
    | .null _ => True := by
  unfold process_collect at hs
  split_ifs at hs
  · cases hs
    trivial
  · cases hrd : t.ready with
    | nil =>
      rw [hrd] at hs
      cases hs
      trivial
    | cons p rest =>
      rw [hrd] at hs
      simp only at hs
      cases hg : process_get t p with
      | none =>
        rw [hg] at hs
        cases hs
      | some proc =>
        rw [hg] at hs
        simp only at hs
        obtain ⟨hpid, hmem⟩ := hash_table_get_some _ _ _ hg
        have h' : tree_inv ⟨t.processes, rest, t.self⟩ := tree_inv_ready t rest t.self h
        have hdet : detached (process_unparent ⟨t.processes, rest, t.self⟩ proc) p :=
          hpid ▸ detached_unparent ⟨t.processes, rest, t.self⟩ proc h' hmem
        cases hg1 : process_get (process_unparent ⟨t.processes, rest, t.self⟩ proc) p with
        | none =>
          rw [hg1] at hs
          cases hs
        | some proc1 =>
          rw [hg1] at hs
          cases hs
          exact tree_inv_pop _ p _ hdet (tree_inv_unparent _ proc h')
/-- The reaction to the answer of the callback keeps the invariant of the
children lists. -/
theorem tree_inv_apply (t t1 : Table) (proc : process) (a : procwatch_action)
    (h : tree_inv t) (ha : procwatch_apply t proc a = some t1) : tree_inv t1 := by
  cases a with
  | PROCWATCH_ACTION_DEFAULT =>
    simp only [procwatch_apply] at ha
    cases ha; exact h
  | PROCWATCH_ACTION_DROP =>
    simp only [procwatch_apply] at ha
    split at ha
    · exact Option.noConfusion ha
    · rename_i b t2 hd
      cases ha
      exact tree_inv_drop t _ _ b h hd

/-- An operation other than `process_remove` that does not let init exit
keeps the invariant of the children lists. -/
theorem tree_inv_step (t t1 : Table) (op : table_op) (h : tree_inv t)
    (hok : table_op_safe t op) (hs : table_step t op = some t1) : tree_inv t1 := by
  cases op with
  | ingest ev action =>
    simp only [table_step, procwatch_ingest] at hs
    cases ev with
    | none err => simp only at hs; cases hs; exact h
    | fork parent child =>
      simp only [proc_event.actor_tgid] at hs
      split at hs
      · cases hs; exact h
      · split_ifs at hs
        · cases hs; exact h
        · cases hs; exact h
        · split at hs
          · exact Option.noConfusion hs
          · rename_i o t2 hi
            cases hs
            exact tree_inv_insert t _ _ _ _ o h hi
    | exec p =>
      simp only [proc_event.actor_tgid] at hs
      split at hs
      · cases hs; exact h
      · split at hs
        · cases hs; exact h
        · exact tree_inv_apply t t1 _ _ h hs
    | sid p =>
      simp only [proc_event.actor_tgid] at hs
      split at hs
      · cases hs; exact h
      · split at hs
        · exact Option.noConfusion hs
        · exact Option.noConfusion hs
        · rename_i t2 hi
          split at hs
          · exact Option.noConfusion hs
          · exact tree_inv_apply t2 t1 _ _ (tree_inv_insert t _ _ _ _ _ h hi) hs
    | exit p code signal =>
      simp only [proc_event.actor_tgid] at hs
      split at hs
      · cases hs; exact h
      · split_ifs at hs with hsig
        · cases hs; exact h
        · split at hs
          · exact Option.noConfusion hs
          · rename_i b t2 he
            cases hs
            have hsig2 : signal = SIGCHLD := by
              by_contra hne; exact hsig hne
            exact tree_inv_exit t _ _ _ b h (hok hsig2).1 he
    | uid p => simp only [proc_event.actor_tgid] at hs; split at hs <;> (cases hs; exact h)
    | gid p => simp only [proc_event.actor_tgid] at hs; split at hs <;> (cases hs; exact h)
    | comm p => simp only [proc_event.actor_tgid] at hs; split at hs <;> (cases hs; exact h)
    | coredump p =>
      simp only [proc_event.actor_tgid] at hs; split at hs <;> (cases hs; exact h)
    | other what actor =>
      simp only [proc_event.actor_tgid] at hs; split at hs <;> (cases hs; exact h)
  | insert pid ppid sid =>
    simp only [table_step] at hs
    split at hs
    · exact Option.noConfusion hs
    · rename_i o t2 hi
      cases hs
      exact tree_inv_insert t _ _ _ _ o h hi
  | remove pid => exact absurd hok (fun hf => hf)
  | drop pid =>
    simp only [table_step] at hs
    split at hs
    · exact Option.noConfusion hs
    · rename_i b t2 hd
      cases hs
      exact tree_inv_drop t _ _ b h hd
  | collect =>
    simp only [table_step] at hs
    split at hs
    · exact Option.noConfusion hs
    · rename_i proc t2 hc
      cases hs
      exact tree_inv_collect t _ h hc
    · cases hs; exact h

/-- The initial table satisfies the invariant of the children lists. -/
theorem tree_inv_init (pid sid : Int) (t : Table) (h : processes_init pid sid = some t) :
    tree_inv t := by
  unfold processes_init at h
  have h0 : tree_inv ⟨[], [], pid⟩ := by
    refine ⟨List.nodup_nil, ?_, ?_⟩ <;> intro r hr <;> exact absurd hr (List.not_mem_nil r)
  split at h
  · exact Option.noConfusion h
  · rename_i o1 t1 h1
    split at h
    · exact Option.noConfusion h
    · rename_i o2 t2 h2
      cases h
      exact tree_inv_insert t1 _ _ _ _ o2 (tree_inv_insert _ _ _ _ _ o1 h0 h1) h2

/-- C29, as amended: the consistency of the children lists.  After every
sequence of calls of `process_insert`, `process_drop` and `process_collect`
and of ingested events, starting from the initial table, in which no fork
event and no call of `process_insert` names a parent that waits on the ready
list, no process-level exit event names init or a process that is on the
ready list already, and init is not dropped, every children list holds only
pids of records of the table, and every record that is not its own parent, as
init and the supervisor are, appears in exactly one children list and once in
it, the list of the record whose pid is its ppid. -/
theorem children_links_invariant (pid sid : Int) (t0 t1 : Table) (ops : List table_op)
    (h0 : processes_init pid sid = some t0)
    (hok : table_run_ok links_op_ok t0 ops)
    (hrun : table_run t0 ops = some t1) :
    (∀ r ∈ t1.processes, ∀ c ∈ r.children, ∃ rc ∈ t1.processes, rc.pid = c)
    ∧ (∀ r ∈ t1.processes, r.ppid ≠ r.pid →
        ∃ par ∈ t1.processes, par.pid = r.ppid ∧ par.children.count r.pid = 1
          ∧ ∀ q ∈ t1.processes, r.pid ∈ q.children → q = par) := by
  have hinv : tree_inv t1 ∧ parent_inv t1 :=
    table_run_inv links_op_ok (fun t => tree_inv t ∧ parent_inv t)
      (fun t t2 op h hk hs => ⟨tree_inv_step t t2 op h.1 hk.2 hs,
        parent_inv_step t t2 op h.2 hk.1 hs⟩) ops t0 t1
      ⟨tree_inv_init pid sid t0 h0, parent_inv_init pid sid t0 h0⟩ hok hrun
  obtain ⟨⟨hkeys, hch, hnd⟩, hpar⟩ := hinv
  constructor
  · intro r hr c hc
    obtain ⟨rc, hrc, hpc, _⟩ := hch r hr c hc
    exact ⟨rc, hrc, hpc⟩
  · intro r hr hroot
    obtain ⟨par, hget, hmem⟩ := hpar.2.1 r hr (fun h => h) hroot
    obtain ⟨hpp, hpm⟩ := hash_table_get_some _ _ _ hget
    refine ⟨par, hpm, hpp, List.count_eq_one_of_mem (hnd par hpm) hmem, ?_⟩
    intro q hq hrq
    obtain ⟨rc, hrc, hrcp, hrcpp⟩ := hch q hq r.pid hrq
    have hrr : rc = r :=
      process_get_unique t1 r.pid r rc hkeys (process_get_of_mem t1 r hkeys hr) hrc hrcp
    rw [hrr] at hrcpp
    exact process_get_unique t1 r.ppid par q hkeys hget hq hrcpp.symm

/-- Witness of C29, as amended: the supervisor 100 gets the child 10, which
gets the child 11, exits and is collected; 11 is then the one child of
init. -/
theorem children_links_invariant_witness :
    table_run ⟨[⟨1, 1, 1, [], -1⟩, ⟨100, 100, 100, [], -1⟩], [], 100⟩
        [.insert 10 100 0, .insert 11 10 0,
         .ingest (.exit ⟨10, 10⟩ 0 17) .PROCWATCH_ACTION_DEFAULT, .collect]
      = some ⟨[⟨1, 1, 1, [11], -1⟩, ⟨100, 100, 100, [], -1⟩, ⟨11, 1, 100, [], -1⟩], [], 100⟩
    ∧ ((∀ r ∈ (⟨[⟨1, 1, 1, [11], -1⟩, ⟨100, 100, 100, [], -1⟩, ⟨11, 1, 100, [], -1⟩], [],
          100⟩ : Table).processes, ∀ c ∈ r.children,
        ∃ rc ∈ (⟨[⟨1, 1, 1, [11], -1⟩, ⟨100, 100, 100, [], -1⟩, ⟨11, 1, 100, [], -1⟩], [],
          100⟩ : Table).processes, rc.pid = c)
      ∧ (∀ r ∈ (⟨[⟨1, 1, 1, [11], -1⟩, ⟨100, 100, 100, [], -1⟩, ⟨11, 1, 100, [], -1⟩], [],
          100⟩ : Table).processes, r.ppid ≠ r.pid →
        ∃ par ∈ (⟨[⟨1, 1, 1, [11], -1⟩, ⟨100, 100, 100, [], -1⟩, ⟨11, 1, 100, [], -1⟩], [],
          100⟩ : Table).processes, par.pid = r.ppid ∧ par.children.count r.pid = 1
          ∧ ∀ q ∈ (⟨[⟨1, 1, 1, [11], -1⟩, ⟨100, 100, 100, [], -1⟩, ⟨11, 1, 100, [], -1⟩], [],
            100⟩ : Table).processes, r.pid ∈ q.children → q = par)) :=
  ⟨by decide,
    children_links_invariant 100 100
      ⟨[⟨1, 1, 1, [], -1⟩, ⟨100, 100, 100, [], -1⟩], [], 100⟩
      ⟨[⟨1, 1, 1, [11], -1⟩, ⟨100, 100, 100, [], -1⟩, ⟨11, 1, 100, [], -1⟩], [], 100⟩
      [.insert 10 100 0, .insert 11 10 0,
       .ingest (.exit ⟨10, 10⟩ 0 17) .PROCWATCH_ACTION_DEFAULT, .collect]
      (by decide)
      (table_run_ok_cons links_op_ok _
        ⟨[⟨1, 1, 1, [], -1⟩, ⟨100, 100, 100, [10], -1⟩, ⟨10, 100, 100, [], -1⟩], [], 100⟩ _ _
        ⟨List.not_mem_nil _, trivial⟩ (by decide)
        (table_run_ok_cons links_op_ok _
          ⟨[⟨1, 1, 1, [], -1⟩, ⟨100, 100, 100, [10], -1⟩, ⟨10, 100, 100, [11], -1⟩,
            ⟨11, 10, 100, [], -1⟩], [], 100⟩ _ _
          ⟨List.not_mem_nil _, trivial⟩ (by decide)
          (table_run_ok_cons links_op_ok _
            ⟨[⟨1, 1, 1, [11], -1⟩, ⟨100, 100, 100, [10], -1⟩, ⟨10, 100, 100, [], 0⟩,
              ⟨11, 1, 100, [], -1⟩], [10], 100⟩ _ _
            ⟨fun _ => (by decide : as_pid 10 ≠ 1),
              fun _ => ⟨(by decide : as_pid 10 ≠ 1), List.not_mem_nil _⟩⟩ (by decide)
            (table_run_ok_cons links_op_ok _
              ⟨[⟨1, 1, 1, [11], -1⟩, ⟨100, 100, 100, [], -1⟩, ⟨11, 1, 100, [], -1⟩], [], 100⟩
              _ _ ⟨trivial, trivial⟩ (by decide) trivial))))
      (by decide)⟩

/-- Counterexample to C29 as stated, for a supervisor 100.  First, the call
`process_insert(7, 7, 0)` creates a record that is its own parent: it is
neither init nor the supervisor, and it is in no children list.  Second, the
record 10 exits, the record 11 is then inserted as its child, and 10 is
collected: 11 stays in the table with the ppid 10, no record has the pid 10,
and 11 is in no children list.  Third, `process_remove(10)` takes the record
10 from the table and leaves its pid in the children list of its parent
100. -/
theorem children_links_broken :
    table_run ⟨[⟨1, 1, 1, [], -1⟩, ⟨100, 100, 100, [], -1⟩], [], 100⟩ [.insert 7 7 0]
      = some ⟨[⟨1, 1, 1, [], -1⟩, ⟨100, 100, 100, [], -1⟩, ⟨7, 7, 0, [], -1⟩], [], 100⟩
    ∧ (∀ r ∈ [(⟨1, 1, 1, [], -1⟩ : process), ⟨100, 100, 100, [], -1⟩, ⟨7, 7, 0, [], -1⟩],
        (7 : Int) ∉ r.children)
    ∧ table_run ⟨[⟨1, 1, 1, [], -1⟩, ⟨100, 100, 100, [], -1⟩], [], 100⟩
        [.insert 10 100 0, .ingest (.exit ⟨10, 10⟩ 0 17) .PROCWATCH_ACTION_DEFAULT,
         .insert 11 10 0, .collect]
      = some ⟨[⟨1, 1, 1, [], -1⟩, ⟨100, 100, 100, [], -1⟩, ⟨11, 10, 100, [], -1⟩], [], 100⟩
    ∧ (∀ r ∈ [(⟨1, 1, 1, [], -1⟩ : process), ⟨100, 100, 100, [], -1⟩, ⟨11, 10, 100, [], -1⟩],
        (11 : Int) ∉ r.children ∧ r.pid ≠ 10)
    ∧ table_run ⟨[⟨1, 1, 1, [], -1⟩, ⟨100, 100, 100, [], -1⟩], [], 100⟩
        [.insert 10 100 0, .remove 10]
      = some ⟨[⟨1, 1, 1, [], -1⟩, ⟨100, 100, 100, [10], -1⟩], [], 100⟩
    ∧ (∀ r ∈ [(⟨1, 1, 1, [], -1⟩ : process), ⟨100, 100, 100, [10], -1⟩], r.pid ≠ 10) := by
  decide

/-! ## Process table: entries of the ready list as records -/

/-- Tables with the same status map have the same keys. -/
theorem keys_of_status (ps ps1 : List process) (hs : status_map ps1 = status_map ps) :
    ps1.map (fun r => r.pid) = ps.map (fun r => r.pid) := by
  rw [status_map_keys, status_map_keys, hs]

/-- The condition `ready_live` only depends on the keys of the table and on
the ready list. -/
theorem ready_live_of_same (t t1 : Table)
    (hs : status_map t1.processes = status_map t.processes) (hr : t1.ready = t.ready)
    (h : ready_live t) : ready_live t1 := by
  unfold ready_live at h ⊢
  rw [keys_of_status _ _ hs, hr]
  exact h

/-- Removing a record from the table and from the ready list keeps
`ready_live`. -/
theorem ready_live_pop (t : Table) (p : Int) (h : ready_live t) :
    ready_live { t with processes := hash_table_pop t.processes p, ready := t.ready.erase p } := by
  obtain ⟨h1, h2, h3⟩ := h
  refine ⟨?_, h2.erase p, ?_⟩
  · unfold hash_table_pop
    exact (List.filter_sublist _).map _ |>.nodup h1
  · intro q hq
    have hq2 := (h2.mem_erase_iff).mp hq
    obtain ⟨r, hr, hrq⟩ := List.mem_map.mp (h3 q hq2.2)
    refine List.mem_map.mpr ⟨r, ?_, hrq⟩
    simp only [hash_table_pop, List.mem_filter, decide_eq_true_eq]
    exact ⟨hr, by rw [hrq]; exact hq2.1⟩

/-- Adding a record with a new pid keeps `ready_live`. -/
theorem ready_live_append (t t1 : Table) (pid : Int) (h : ready_live t)
    (hnew : process_get t pid = none)
    (hs : status_map t1.processes = status_map t.processes ++ [(pid, -1)])
    (hr : t1.ready = t.ready) : ready_live t1 := by
  have hkey : pid ∉ t.processes.map (fun r => r.pid) := by
    intro hm
    obtain ⟨r, hr1, hr2⟩ := List.mem_map.mp hm
    exact (hash_table_get_none _ _).mp hnew r hr1 hr2
  have hk : t1.processes.map (fun r => r.pid) = t.processes.map (fun r => r.pid) ++ [pid] := by
    rw [status_map_keys, hs, List.map_append, ← status_map_keys]
    rfl
  obtain ⟨h1, h2, h3⟩ := h
  unfold ready_live
  rw [hk, hr]
  refine ⟨?_, h2, ?_⟩
  · rw [List.nodup_append]
    refine ⟨h1, by simp, ?_⟩
    intro a ha hb
    exact hkey ((List.mem_singleton.mp hb) ▸ ha)
  · intro p hp
    exact List.mem_append_left _ (h3 p hp)

/-- The function `process_insert` keeps `ready_live`. -/
theorem ready_live_insert (t t1 : Table) (pid ppid sid : Int) (o : Outcome)
    (h : ready_live t) (hi : process_insert t pid ppid sid = some (o, t1)) : ready_live t1 := by
  unfold process_insert at hi
  split at hi
  · rename_i proc hget
    split_ifs at hi with hc1 hc2
    · cases hi; exact h
    · simp only at hi
      split at hi
      · exact Option.noConfusion hi
      · simp only [Option.some.injEq] at hi
        have hs := process_insert_sid_status
          { process_unparent t proc with
            processes := update (update (process_unparent t proc).processes 1
              (fun r => { r with children := r.children ++ [pid] })) pid
              (fun r => { r with ppid := 1 }) } proc sid
        rw [hi] at hs
        refine ready_live_of_same t t1 ?_ ?_ h
        · rw [hs.1]
          simp only
          rw [status_map_update, status_map_update]
          · exact process_unparent_status t proc
          all_goals exact fun _ => ⟨rfl, rfl⟩
        · rw [hs.2]
          exact (process_unparent_ready t proc).1
    · simp only [Option.some.injEq] at hi
      have hs := process_insert_sid_status t proc sid
      rw [hi] at hs
      exact ready_live_of_same t t1 hs.1 hs.2 h
  · rename_i hget
    by_cases hne : ppid ≠ pid
    · rw [if_pos hne] at hi
      cases hpar : process_get t ppid with
      | none =>
        rw [hpar] at hi
        cases hi; exact h
      | some parent =>
        rw [hpar] at hi
        simp only at hi
        by_cases hs0 : sid = 0
        · rw [if_pos hs0] at hi
          cases hi
          exact ready_live_append t _ pid h hget (process_create_status _ _ _ _ _).1
            (process_create_status _ _ _ _ _).2
        · rw [if_neg hs0] at hi
          by_cases hs1 : sid ≠ parent.sid
          · rw [if_pos hs1] at hi
            cases hi; exact h
          · rw [if_neg hs1] at hi
            cases hi
            exact ready_live_append t _ pid h hget (process_create_status _ _ _ _ _).1
              (process_create_status _ _ _ _ _).2
    · rw [if_neg hne] at hi
      cases hi
      exact ready_live_append t _ pid h hget (process_create_status _ _ _ _ _).1
        (process_create_status _ _ _ _ _).2

/-- The function `process_exit` keeps `ready_live` when the process is not on
the ready list yet. -/
theorem ready_live_exit (t t1 : Table) (pid w : Int) (b : Bool) (h : ready_live t)
    (hnew : pid ∉ t.ready)
    (he : process_exit t pid w = some (b, t1)) : ready_live t1 := by
  unfold process_exit at he
  split at he
  · cases he; exact h
  · rename_i r hget
    have hrp := hash_table_get_some _ _ _ hget
    simp only at he
    split at he
    · exact Option.noConfusion he
    · rename_i t2 hre
      cases he
      obtain ⟨hs, hr⟩ := process_reparent_children_status _ _ _ hre
      simp only at hs hr
      obtain ⟨h1, h2, h3⟩ := h
      have hkeys : t2.processes.map (fun r => r.pid) = t.processes.map (fun r => r.pid) := by
        rw [keys_of_status _ _ hs]
        exact update_keys _ _ _ (fun _ => rfl)
      refine ⟨by rw [hkeys]; exact h1, ?_, ?_⟩
      · simp only [hr]
        rw [List.nodup_append]
        refine ⟨h2, by simp, ?_⟩
        intro a ha hb
        rw [List.mem_singleton.mp hb] at ha
        exact hnew ha
      · intro p hp
        simp only [hr, List.mem_append, List.mem_singleton] at hp
        simp only [hkeys]
        rcases hp with hp | hp
        · exact h3 p hp
        · exact List.mem_map.mpr ⟨r, hrp.2, hrp.1.trans hp.symm⟩

/-- The function `process_drop_recursive` and its loop keep `ready_live`. -/
theorem ready_live_drop_rec (n : Nat) :
    (∀ t p t1, (process_drop_rec n).1 t p = some t1 → ready_live t → ready_live t1)
    ∧ (∀ t p t1, (process_drop_rec n).2 t p = some t1 → ready_live t → ready_live t1) := by
  induction n with
  | zero =>
    constructor <;> intro t p t1 h <;> simp [process_drop_rec] at h
  | succ n ih =>
    constructor
    · intro t p t1 h hinv
      simp only [process_drop_rec] at h
      split at h
      · exact Option.noConfusion h
      · split at h
        · exact Option.noConfusion h
        · rename_i t2 hloop
          cases h
          have h1 : ready_live
              ⟨update t.processes p (fun r => { r with ppid := 0 }), t.ready, t.self⟩ :=
            ready_live_of_same t _ (status_map_update _ _ _ (fun _ => ⟨rfl, rfl⟩)) rfl hinv
          exact ready_live_pop t2 p (ih.2 _ _ _ hloop h1)
    · intro t p t1 h hinv
      simp only [process_drop_rec] at h
      split at h
      · exact Option.noConfusion h
      · split at h
        · cases h; exact hinv
        · rename_i c rest _
          split at h
          · exact Option.noConfusion h
          · rename_i t2 hrec
            have h1 : ready_live
                ⟨update t.processes p (fun r => { r with children := rest }), t.ready, t.self⟩ :=
              ready_live_of_same t _ (status_map_update _ _ _ (fun _ => ⟨rfl, rfl⟩)) rfl hinv
            exact ih.2 _ _ _ h (ih.1 _ _ _ hrec h1)

/-- The function `process_drop` keeps `ready_live`. -/
theorem ready_live_drop (t t1 : Table) (pid : Int) (b : Bool) (h : ready_live t)
    (hd : process_drop t pid = some (b, t1)) : ready_live t1 := by
  unfold process_drop at hd
  split at hd
  · cases hd; exact h
  · rename_i proc _
    simp only at hd
    split at hd
    · exact Option.noConfusion hd
    · rename_i t2 hrec
      cases hd
      exact (ready_live_drop_rec _).1 _ _ _ hrec
        (ready_live_of_same t _ (process_unparent_status t proc)
          (process_unparent_ready t proc).1 h)

/-- The function `process_collect` keeps `ready_live`. -/
theorem ready_live_collect (t t1 : Table) (proc : process) (h : ready_live t)
    (hc : process_collect t = some (.proc proc t1)) : ready_live t1 := by
  unfold process_collect at hc
  split_ifs at hc
  · cases hc
  split at hc
  · cases hc
  · rename_i p rest hready
    split at hc
    · exact Option.noConfusion hc
    · rename_i proc0 _
      simp only at hc
      split at hc
      · exact Option.noConfusion hc
      · cases hc
        have h1 : ready_live (process_unparent t proc0) :=
          ready_live_of_same t _ (process_unparent_status t proc0)
            (process_unparent_ready t proc0).1 h
        have h2 := ready_live_pop _ p h1
        refine ready_live_of_same _ _ ?_ ?_ h2
        · simp only [process_unparent_processes]
        · simp only [(process_unparent_ready _ proc0).1, hready, List.erase_cons_head]

/-- The reaction to the answer of the callback keeps `ready_live`. -/
theorem ready_live_apply (t t1 : Table) (proc : process) (a : procwatch_action)
    (h : ready_live t) (ha : procwatch_apply t proc a = some t1) : ready_live t1 := by
  cases a with
  | PROCWATCH_ACTION_DEFAULT =>
    simp only [procwatch_apply] at ha
    cases ha; exact h
  | PROCWATCH_ACTION_DROP =>
    simp only [procwatch_apply] at ha
    split at ha
    · exact Option.noConfusion ha
    · rename_i b t2 hd
      cases ha
      exact ready_live_drop t _ _ b h hd

/-- An operation that satisfies `table_op_safe` keeps `ready_live`. -/
theorem ready_live_step (t t1 : Table) (op : table_op) (h : ready_live t)
    (hok : table_op_safe t op) (hs : table_step t op = some t1) : ready_live t1 := by
  cases op with
  | ingest ev action =>
    simp only [table_step, procwatch_ingest] at hs
    cases ev with
    | none err => simp only at hs; cases hs; exact h
    | fork parent child =>
      simp only [proc_event.actor_tgid] at hs
      split at hs
      · cases hs; exact h
      · split_ifs at hs
        · cases hs; exact h
        · cases hs; exact h
        · split at hs
          · exact Option.noConfusion hs
          · rename_i o t2 hi
            cases hs
            exact ready_live_insert t _ _ _ _ o h hi
    | exec p =>
      simp only [proc_event.actor_tgid] at hs
      split at hs
      · cases hs; exact h
      · split at hs
        · cases hs; exact h
        · exact ready_live_apply t t1 _ _ h hs
    | sid p =>
      simp only [proc_event.actor_tgid] at hs
      split at hs
      · cases hs; exact h
      · split at hs
        · exact Option.noConfusion hs
        · exact Option.noConfusion hs
        · rename_i t2 hi
          split at hs
          · exact Option.noConfusion hs
          · exact ready_live_apply t2 t1 _ _ (ready_live_insert t _ _ _ _ _ h hi) hs
    | exit p code signal =>
      simp only [proc_event.actor_tgid] at hs
      split at hs
      · cases hs; exact h
      · split_ifs at hs with hsig
        · cases hs; exact h
        · split at hs
          · exact Option.noConfusion hs
          · rename_i b t2 he
            cases hs
            have hsig2 : signal = SIGCHLD := by
              by_contra hne; exact hsig hne
            exact ready_live_exit t _ _ _ b h (hok hsig2).2 he
    | uid p => simp only [proc_event.actor_tgid] at hs; split at hs <;> (cases hs; exact h)
    | gid p => simp only [proc_event.actor_tgid] at hs; split at hs <;> (cases hs; exact h)
    | comm p => simp only [proc_event.actor_tgid] at hs; split at hs <;> (cases hs; exact h)
    | coredump p =>
      simp only [proc_event.actor_tgid] at hs; split at hs <;> (cases hs; exact h)
    | other what actor =>
      simp only [proc_event.actor_tgid] at hs; split at hs <;> (cases hs; exact h)
  | insert pid ppid sid =>
    simp only [table_step] at hs
    split at hs
    · exact Option.noConfusion hs
    · rename_i o t2 hi
      cases hs
      exact ready_live_insert t _ _ _ _ o h hi
  | remove pid => exact absurd hok (fun hf => hf)
  | drop pid =>
    simp only [table_step] at hs
    split at hs
    · exact Option.noConfusion hs
    · rename_i b t2 hd
      cases hs
      exact ready_live_drop t _ _ b h hd
  | collect =>
    simp only [table_step] at hs
    split at hs
    · exact Option.noConfusion hs
    · rename_i proc t2 hc
      cases hs
      exact ready_live_collect t _ proc h hc
    · cases hs; exact h

/-- The initial table satisfies `ready_live`. -/
theorem ready_live_init (pid sid : Int) (t : Table) (h : processes_init pid sid = some t) :
    ready_live t := by
  rcases processes_init_eq pid sid t h with ⟨hp, rfl⟩ | ⟨_, rfl⟩
  · refine ⟨?_, List.nodup_nil, by simp⟩
    simp [Ne.symm hp]
  · exact ⟨by simp, List.nodup_nil, by simp⟩

/-- The operations that `table_op_safe` leaves out lead to a list entry whose
record has left the table, and the operation that follows such an entry has no
result.  After two exit events for the process 10 and one `process_collect`,
the next `process_collect` pops the second entry of 10.  After
`process_remove(11)` the children list of 10 still holds 11, and the exit of
10 walks that list.  After `process_drop(1)` the exit of a process with a
child appends the child to the children of init. -/
theorem table_op_safe_excludes :
    table_run ⟨[⟨1, 1, 1, [], -1⟩, ⟨100, 100, 100, [], -1⟩], [], 100⟩
        [.insert 10 100 0, .insert 11 100 0,
         .ingest (.exit ⟨10, 10⟩ 0 17) .PROCWATCH_ACTION_DEFAULT,
         .ingest (.exit ⟨10, 10⟩ 0 17) .PROCWATCH_ACTION_DEFAULT,
         .collect, .collect] = none
    ∧ table_run ⟨[⟨1, 1, 1, [], -1⟩, ⟨100, 100, 100, [], -1⟩], [], 100⟩
        [.insert 10 100 0, .insert 11 10 0, .remove 11,
         .ingest (.exit ⟨10, 10⟩ 0 17) .PROCWATCH_ACTION_DEFAULT] = none
    ∧ table_run ⟨[⟨1, 1, 1, [], -1⟩, ⟨100, 100, 100, [], -1⟩], [], 100⟩
        [.drop 1, .insert 10 100 0, .insert 11 10 0,
         .ingest (.exit ⟨10, 10⟩ 0 17) .PROCWATCH_ACTION_DEFAULT] = none := by
  decide

/-! ## Process table: collection, on the tables that are reached -/

/-- C1, as amended: the contract of `process_collect`, on a table built from
the initial table by a sequence of ingested events and of calls of
`process_insert`, `process_drop` and `process_collect` in which no
process-level exit event names init or a process that is on the ready list
already, and init is not dropped.  With a table of size 2 (which, for a table
that holds init and a supervisor other than init, means only init and self) the
call fails with ECHILD; otherwise with an empty ready list it fails with EAGAIN; otherwise the
head of the ready list is a record of the table, and the call returns that
record, removes it from the ready list, where it was once, and from the
table, and every other record stays, only losing the collected pid from its
children if it is the parent.  As `process_exit` appends at the tail of the
ready list, the head is the process whose exit was ingested earliest among
those waiting. -/
theorem process_collect_contract (pid sid : Int) (t0 t : Table) (ops : List table_op)
    (h0 : processes_init pid sid = some t0)
    (hok : table_run_ok table_op_safe t0 ops)
    (hrun : table_run t0 ops = some t) :
    (t.processes.length = 2 → process_collect t = some (.null .ECHILD))
    ∧ (t.processes.length ≠ 2 → t.ready = [] → process_collect t = some (.null .EAGAIN))
    ∧ (∀ p rest, t.processes.length ≠ 2 → t.ready = p :: rest →
        ∃ proc proc1 t1, process_get t p = some proc
          ∧ process_collect t = some (.proc proc1 t1)
          ∧ proc1.pid = p ∧ proc1.ppid = proc.ppid ∧ proc1.sid = proc.sid
          ∧ proc1.wstatus = proc.wstatus
          ∧ t1.ready = rest ∧ p ∉ rest ∧ process_get t1 p = none
          ∧ (∀ q, q ≠ p → process_get t1 q = (process_get t q).map (fun r =>
              if r.pid = proc.ppid then { r with children := r.children.erase p } else r)))
    ∧ (∀ pid wstatus t1, process_exit t pid wstatus = some (true, t1) →
        t1.ready = t.ready ++ [pid])
    ∧ ((process_get t 1).isSome → (process_get t t.self).isSome → t.self ≠ 1 →
        (t.processes.length = 2 ↔ ∀ r ∈ t.processes, r.pid = 1 ∨ r.pid = t.self)) := by
  have hinv : ready_live t :=
    table_run_inv table_op_safe ready_live
      (fun t t2 op h hk hs => ready_live_step t t2 op h hk hs) ops t0 t
      (ready_live_init pid sid t0 h0) hok hrun
  obtain ⟨hkeys, hnd, hsub⟩ := hinv
  obtain ⟨c1, c2, c3, c4, c5⟩ := process_collect_spec t
  refine ⟨c1, c2, ?_, c4, c5 hkeys⟩
  intro p rest hlen hready
  have hp : p ∈ t.ready := by rw [hready]; exact List.mem_cons_self _ _
  obtain ⟨r, hr, hrp⟩ := List.mem_map.mp (hsub p hp)
  have hget : process_get t p = some r := by
    have := process_get_of_mem t r hkeys hr
    rw [hrp] at this
    exact this
  obtain ⟨proc1, t1, e1, e2, e3, e4, e5, e6, e7, e8⟩ := c3 p rest r hlen hready hget
  refine ⟨r, proc1, t1, hget, e1, e2, e3, e4, e5, e6, ?_, e7, e8⟩
  rw [hready] at hnd
  exact (List.nodup_cons.mp hnd).1

/-- Witness of C1, as amended: the children 10 and 11 of the supervisor exit
in this order, and `process_collect` returns 10 and leaves 11 on the ready
list. -/
theorem process_collect_contract_witness :
    table_run ⟨[⟨1, 1, 1, [], -1⟩, ⟨100, 100, 100, [], -1⟩], [], 100⟩
        [.insert 10 100 0, .insert 11 100 0,
         .ingest (.exit ⟨10, 10⟩ 0 17) .PROCWATCH_ACTION_DEFAULT,
         .ingest (.exit ⟨11, 11⟩ 256 17) .PROCWATCH_ACTION_DEFAULT]
      = some ⟨[⟨1, 1, 1, [], -1⟩, ⟨100, 100, 100, [10, 11], -1⟩, ⟨10, 100, 100, [], 0⟩,
          ⟨11, 100, 100, [], 256⟩], [10, 11], 100⟩
    ∧ ∃ proc proc1 t1,
      process_get ⟨[⟨1, 1, 1, [], -1⟩, ⟨100, 100, 100, [10, 11], -1⟩, ⟨10, 100, 100, [], 0⟩,
          ⟨11, 100, 100, [], 256⟩], [10, 11], 100⟩ 10 = some proc
      ∧ process_collect ⟨[⟨1, 1, 1, [], -1⟩, ⟨100, 100, 100, [10, 11], -1⟩,
          ⟨10, 100, 100, [], 0⟩, ⟨11, 100, 100, [], 256⟩], [10, 11], 100⟩
        = some (.proc proc1 t1)
      ∧ proc1.pid = 10 ∧ proc1.wstatus = proc.wstatus ∧ t1.ready = [11]
      ∧ process_get t1 10 = none :=
  ⟨by decide,
    match (process_collect_contract 100 100
      ⟨[⟨1, 1, 1, [], -1⟩, ⟨100, 100, 100, [], -1⟩], [], 100⟩
      ⟨[⟨1, 1, 1, [], -1⟩, ⟨100, 100, 100, [10, 11], -1⟩, ⟨10, 100, 100, [], 0⟩,
        ⟨11, 100, 100, [], 256⟩], [10, 11], 100⟩
      [.insert 10 100 0, .insert 11 100 0,
       .ingest (.exit ⟨10, 10⟩ 0 17) .PROCWATCH_ACTION_DEFAULT,
       .ingest (.exit ⟨11, 11⟩ 256 17) .PROCWATCH_ACTION_DEFAULT]
      (by decide)
      (table_run_ok_cons table_op_safe _
        ⟨[⟨1, 1, 1, [], -1⟩, ⟨100, 100, 100, [10], -1⟩, ⟨10, 100, 100, [], -1⟩], [], 100⟩ _ _
        trivial (by decide)
        (table_run_ok_cons table_op_safe _
          ⟨[⟨1, 1, 1, [], -1⟩, ⟨100, 100, 100, [10, 11], -1⟩, ⟨10, 100, 100, [], -1⟩,
            ⟨11, 100, 100, [], -1⟩], [], 100⟩ _ _
          trivial (by decide)
          (table_run_ok_cons table_op_safe _
            ⟨[⟨1, 1, 1, [], -1⟩, ⟨100, 100, 100, [10, 11], -1⟩, ⟨10, 100, 100, [], 0⟩,
              ⟨11, 100, 100, [], -1⟩], [10], 100⟩ _ _
            (fun _ => ⟨(by decide : as_pid 10 ≠ 1), List.not_mem_nil _⟩) (by decide)
            (table_run_ok_cons table_op_safe _
              ⟨[⟨1, 1, 1, [], -1⟩, ⟨100, 100, 100, [10, 11], -1⟩, ⟨10, 100, 100, [], 0⟩,
                ⟨11, 100, 100, [], 256⟩], [10, 11], 100⟩ _ _
              (fun _ => ⟨(by decide : as_pid 11 ≠ 1),
                (by decide : as_pid 11 ∉ ([10] : List Int))⟩) (by decide)
              trivial))))
      (by decide)).2.2.1 10 [11] (by decide) rfl with
    | ⟨proc, proc1, t1, h0, h1, h2, _, _, h5, h6, _, h8, _⟩ =>
      ⟨proc, proc1, t1, h0, h1, h2, h5, h6, h8⟩⟩

/-- Counterexample to C1 as stated.  First, init exits and is collected, and
the child 10 of the supervisor exits: the table holds the supervisor and 10,
not only init and self, and 10 is on the ready list, but `process_collect`
fails with ECHILD, as the table has two records.  Second, the same with the
supervisor in the place of init: the table holds init and 10.  Third, for a
supervisor that is init the initial table has one record, and
`process_collect` fails with EAGAIN although the table holds only init and
self.  Fourth, two exit events for the process 10 put it on the ready list
twice; the first `process_collect` returns it, and the ready list, which is
not empty, then holds no process that has not been collected: its entry is the
record that the first call handed to its caller, and the second call has no
defined result. -/
theorem process_collect_misreports :
    table_run ⟨[⟨1, 1, 1, [], -1⟩, ⟨100, 100, 100, [], -1⟩], [], 100⟩
        [.insert 10 100 0,
         .ingest (.exit ⟨1, 1⟩ 0 17) .PROCWATCH_ACTION_DEFAULT,
         .collect,
         .ingest (.exit ⟨10, 10⟩ 0 17) .PROCWATCH_ACTION_DEFAULT]
      = some ⟨[⟨100, 100, 100, [10], -1⟩, ⟨10, 100, 100, [], 0⟩], [10], 100⟩
    ∧ process_collect ⟨[⟨100, 100, 100, [10], -1⟩, ⟨10, 100, 100, [], 0⟩], [10], 100⟩
      = some (.null .ECHILD)
    ∧ table_run ⟨[⟨1, 1, 1, [], -1⟩, ⟨100, 100, 100, [], -1⟩], [], 100⟩
        [.insert 10 100 0,
         .ingest (.exit ⟨100, 100⟩ 0 17) .PROCWATCH_ACTION_DEFAULT,
         .collect,
         .ingest (.exit ⟨10, 10⟩ 0 17) .PROCWATCH_ACTION_DEFAULT]
      = some ⟨[⟨1, 1, 1, [10], -1⟩, ⟨10, 1, 100, [], 0⟩], [10], 100⟩
    ∧ process_collect ⟨[⟨1, 1, 1, [10], -1⟩, ⟨10, 1, 100, [], 0⟩], [10], 100⟩
      = some (.null .ECHILD)
    ∧ processes_init 1 1 = some ⟨[⟨1, 1, 1, [], -1⟩], [], 1⟩
    ∧ process_collect ⟨[⟨1, 1, 1, [], -1⟩], [], 1⟩ = some (.null .EAGAIN)
    ∧ table_run ⟨[⟨1, 1, 1, [], -1⟩, ⟨100, 100, 100, [], -1⟩], [], 100⟩
        [.insert 10 100 0, .insert 11 100 0,
         .ingest (.exit ⟨10, 10⟩ 0 17) .PROCWATCH_ACTION_DEFAULT,
         .ingest (.exit ⟨10, 10⟩ 0 17) .PROCWATCH_ACTION_DEFAULT,
         .collect]
      = some ⟨[⟨1, 1, 1, [], -1⟩, ⟨100, 100, 100, [11], -1⟩, ⟨11, 100, 100, [], -1⟩],
          [10], 100⟩
    ∧ process_get ⟨[⟨1, 1, 1, [], -1⟩, ⟨100, 100, 100, [11], -1⟩, ⟨11, 100, 100, [], -1⟩],
          [10], 100⟩ 10 = none
    ∧ process_collect ⟨[⟨1, 1, 1, [], -1⟩, ⟨100, 100, 100, [11], -1⟩,
          ⟨11, 100, 100, [], -1⟩], [10], 100⟩ = none := by
  decide

/-! ## Process table: pids that are not tracked -/

/-- The condition `absent` only depends on the keys of the table and on the
ready list. -/
theorem absent_of_same (t t1 : Table) (x : Int)
    (hs : status_map t1.processes = status_map t.processes) (hr : t1.ready = t.ready)
    (h : absent t x) : absent t1 x := by
  unfold absent at h ⊢
  rw [keys_of_status _ _ hs, hr]
  exact h

/-- Removing a record from the table and an entry from the ready list keeps a
pid absent. -/
theorem absent_pop (t : Table) (p x : Int) (h : absent t x) :
    absent { t with processes := hash_table_pop t.processes p, ready := t.ready.erase p } x := by
  refine ⟨fun hm => h.1 ?_, fun hm => h.2 (List.mem_of_mem_erase hm)⟩
  unfold hash_table_pop at hm
  exact ((List.filter_sublist _).map _).subset hm

/-- Adding a record with another pid keeps a pid absent. -/
theorem absent_append (t t1 : Table) (pid x : Int) (h : absent t x) (hne : pid ≠ x)
    (hs : status_map t1.processes = status_map t.processes ++ [(pid, -1)])
    (hr : t1.ready = t.ready) : absent t1 x := by
  have hk : t1.processes.map (fun r => r.pid) = t.processes.map (fun r => r.pid) ++ [pid] := by
    rw [status_map_keys, hs, List.map_append, ← status_map_keys]
    rfl
  unfold absent
  rw [hk, hr]
  refine ⟨fun hm => ?_, h.2⟩
  rcases List.mem_append.mp hm with hm | hm
  · exact h.1 hm
  · exact hne (List.mem_singleton.mp hm).symm

/-- The function `process_insert` for another pid keeps a pid absent. -/
theorem absent_insert (t t1 : Table) (pid ppid sid x : Int) (o : Outcome)
    (h : absent t x) (hne : pid ≠ x)
    (hi : process_insert t pid ppid sid = some (o, t1)) : absent t1 x := by
  unfold process_insert at hi
  split at hi
  · rename_i proc hget
    split_ifs at hi with hc1 hc2
    · cases hi; exact h
    · simp only at hi
      split at hi
      · exact Option.noConfusion hi
      · simp only [Option.some.injEq] at hi
        have hs := process_insert_sid_status
          { process_unparent t proc with
            processes := update (update (process_unparent t proc).processes 1
              (fun r => { r with children := r.children ++ [pid] })) pid
              (fun r => { r with ppid := 1 }) } proc sid
        rw [hi] at hs
        refine absent_of_same t t1 x ?_ ?_ h
        · rw [hs.1]
          simp only
          rw [status_map_update, status_map_update]
          · exact process_unparent_status t proc
          all_goals exact fun _ => ⟨rfl, rfl⟩
        · rw [hs.2]
          exact (process_unparent_ready t proc).1
    · simp only [Option.some.injEq] at hi
      have hs := process_insert_sid_status t proc sid
      rw [hi] at hs
      exact absent_of_same t t1 x hs.1 hs.2 h
  · rename_i hget
    by_cases hne2 : ppid ≠ pid
    · rw [if_pos hne2] at hi
      cases hpar : process_get t ppid with
      | none =>
        rw [hpar] at hi
        cases hi; exact h
      | some parent =>
        rw [hpar] at hi
        simp only at hi
        by_cases hs0 : sid = 0
        · rw [if_pos hs0] at hi
          cases hi
          exact absent_append t _ pid x h hne (process_create_status _ _ _ _ _).1
            (process_create_status _ _ _ _ _).2
        · rw [if_neg hs0] at hi
          by_cases hs1 : sid ≠ parent.sid
          · rw [if_pos hs1] at hi
            cases hi; exact h
          · rw [if_neg hs1] at hi
            cases hi
            exact absent_append t _ pid x h hne (process_create_status _ _ _ _ _).1
              (process_create_status _ _ _ _ _).2
    · rw [if_neg hne2] at hi
      cases hi
      exact absent_append t _ pid x h hne (process_create_status _ _ _ _ _).1
        (process_create_status _ _ _ _ _).2

/-- The function `process_insert` for a pid that is in the table keeps a pid
absent. -/
theorem absent_insert_tracked (t t1 : Table) (pid ppid sid x : Int) (o : Outcome)
    (h : absent t x) (htr : (process_get t pid).isSome)
    (hi : process_insert t pid ppid sid = some (o, t1)) : absent t1 x := by
  apply absent_insert t t1 pid ppid sid x o h ?_ hi
  intro e
  obtain ⟨r, hr⟩ := Option.isSome_iff_exists.mp htr
  have := hash_table_get_some _ _ _ hr
  exact h.1 (List.mem_map.mpr ⟨r, this.2, this.1.trans e⟩)

/-- The function `process_exit` keeps a pid absent. -/
theorem absent_exit (t t1 : Table) (pid w x : Int) (b : Bool) (h : absent t x)
    (he : process_exit t pid w = some (b, t1)) : absent t1 x := by
  unfold process_exit at he
  split at he
  · cases he; exact h
  · rename_i r hget
    have hrp := hash_table_get_some _ _ _ hget
    simp only at he
    split at he
    · exact Option.noConfusion he
    · rename_i t2 hre
      cases he
      obtain ⟨hs, hr⟩ := process_reparent_children_status _ _ _ hre
      simp only at hs hr
      have hkeys : t2.processes.map (fun r => r.pid) = t.processes.map (fun r => r.pid) := by
        rw [keys_of_status _ _ hs]
        exact update_keys _ _ _ (fun _ => rfl)
      refine ⟨by rw [hkeys]; exact h.1, ?_⟩
      simp only [hr, List.mem_append, List.mem_singleton, not_or]
      refine ⟨h.2, fun e => h.1 ?_⟩
      exact List.mem_map.mpr ⟨r, hrp.2, hrp.1.trans e.symm⟩

/-- The function `process_remove` keeps a pid absent. -/
theorem absent_remove (t t1 : Table) (pid x : Int) (o : Outcome) (h : absent t x)
    (hr : process_remove t pid = some (o, t1)) : absent t1 x := by
  unfold process_remove at hr
  split at hr
  · cases hr; exact h
  · split_ifs at hr
    split at hr
    · exact Option.noConfusion hr
    · rename_i t2 hre
      cases hr
      obtain ⟨hs, hrd⟩ := process_reparent_children_status _ _ _ hre
      exact absent_pop t2 pid x (absent_of_same t t2 x hs hrd h)

/-- The function `process_drop_recursive` and its loop keep a pid absent. -/
theorem absent_drop_rec (x : Int) (n : Nat) :
    (∀ t p t1, (process_drop_rec n).1 t p = some t1 → absent t x → absent t1 x)
    ∧ (∀ t p t1, (process_drop_rec n).2 t p = some t1 → absent t x → absent t1 x) := by
  induction n with
  | zero =>
    constructor <;> intro t p t1 h <;> simp [process_drop_rec] at h
  | succ n ih =>
    constructor
    · intro t p t1 h hinv
      simp only [process_drop_rec] at h
      split at h
      · exact Option.noConfusion h
      · split at h
        · exact Option.noConfusion h
        · rename_i t2 hloop
          cases h
          have h1 : absent
              ⟨update t.processes p (fun r => { r with ppid := 0 }), t.ready, t.self⟩ x :=
            absent_of_same t _ x (status_map_update _ _ _ (fun _ => ⟨rfl, rfl⟩)) rfl hinv
          exact absent_pop t2 p x (ih.2 _ _ _ hloop h1)
    · intro t p t1 h hinv
      simp only [process_drop_rec] at h
      split at h
      · exact Option.noConfusion h
      · split at h
        · cases h; exact hinv
        · rename_i c rest _
          split at h
          · exact Option.noConfusion h
          · rename_i t2 hrec
            have h1 : absent
                ⟨update t.processes p (fun r => { r with children := rest }), t.ready, t.self⟩
                x :=
              absent_of_same t _ x (status_map_update _ _ _ (fun _ => ⟨rfl, rfl⟩)) rfl hinv
            exact ih.2 _ _ _ h (ih.1 _ _ _ hrec h1)

/-- The function `process_drop` keeps a pid absent. -/
theorem absent_drop (t t1 : Table) (pid x : Int) (b : Bool) (h : absent t x)
    (hd : process_drop t pid = some (b, t1)) : absent t1 x := by
  unfold process_drop at hd
  split at hd
  · cases hd; exact h
  · rename_i proc _
    simp only at hd
    split at hd
    · exact Option.noConfusion hd
    · rename_i t2 hrec
      cases hd
      exact (absent_drop_rec x _).1 _ _ _ hrec
        (absent_of_same t _ x (process_unparent_status t proc)
          (process_unparent_ready t proc).1 h)

/-- The function `process_collect` keeps a pid absent. -/
theorem absent_collect (t t1 : Table) (proc : process) (x : Int) (h : absent t x)
    (hc : process_collect t = some (.proc proc t1)) : absent t1 x := by
  unfold process_collect at hc
  split_ifs at hc
  · cases hc
  split at hc
  · cases hc
  · rename_i p rest hready
    split at hc
    · exact Option.noConfusion hc
    · rename_i proc0 _
      simp only at hc
      split at hc
      · exact Option.noConfusion hc
      · cases hc
        have h1 : absent (process_unparent t proc0) x :=
          absent_of_same t _ x (process_unparent_status t proc0)
            (process_unparent_ready t proc0).1 h
        have h2 := absent_pop _ p x h1
        refine absent_of_same _ _ x ?_ ?_ h2
        · simp only [process_unparent_processes]
        · simp only [(process_unparent_ready _ proc0).1, hready, List.erase_cons_head]

/-- The reaction to the answer of the callback keeps a pid absent. -/
theorem absent_apply (t t1 : Table) (proc : process) (a : procwatch_action) (x : Int)
    (h : absent t x) (ha : procwatch_apply t proc a = some t1) : absent t1 x := by
  cases a with
  | PROCWATCH_ACTION_DEFAULT =>
    simp only [procwatch_apply] at ha
    cases ha; exact h
  | PROCWATCH_ACTION_DROP =>
    simp only [procwatch_apply] at ha
    split at ha
    · exact Option.noConfusion ha
    · rename_i b t2 hd
      cases ha
      exact absent_drop t _ _ x b h hd

/-- An operation that does not create the record of `x` keeps `x` absent. -/
theorem absent_step (t t1 : Table) (op : table_op) (x : Int) (h : absent t x)
    (hc : table_op_creates op ≠ some x) (hs : table_step t op = some t1) : absent t1 x := by
  cases op with
  | ingest ev action =>
    simp only [table_step, procwatch_ingest] at hs
    cases ev with
    | none err => simp only at hs; cases hs; exact h
    | fork parent child =>
      simp only [proc_event.actor_tgid] at hs
      split at hs
      · cases hs; exact h
      · split_ifs at hs
        · cases hs; exact h
        · cases hs; exact h
        · split at hs
          · exact Option.noConfusion hs
          · rename_i o t2 hi
            cases hs
            exact absent_insert t _ _ _ _ x o h (fun e => hc (congrArg some e)) hi
    | exec p =>
      simp only [proc_event.actor_tgid] at hs
      split at hs
      · cases hs; exact h
      · split at hs
        · cases hs; exact h
        · exact absent_apply t t1 _ _ x h hs
    | sid p =>
      simp only [proc_event.actor_tgid] at hs
      split at hs
      · cases hs; exact h
      · rename_i r0 hact
        split at hs
        · exact Option.noConfusion hs
        · exact Option.noConfusion hs
        · rename_i t2 hi
          split at hs
          · exact Option.noConfusion hs
          · exact absent_apply t2 t1 _ _ x
              (absent_insert_tracked t _ _ _ _ x _ h (by rw [hact]; rfl) hi) hs
    | exit p code signal =>
      simp only [proc_event.actor_tgid] at hs
      split at hs
      · cases hs; exact h
      · split_ifs at hs with hsig
        · cases hs; exact h
        · split at hs
          · exact Option.noConfusion hs
          · rename_i b t2 he
            cases hs
            exact absent_exit t _ _ _ x b h he
    | uid p => simp only [proc_event.actor_tgid] at hs; split at hs <;> (cases hs; exact h)
    | gid p => simp only [proc_event.actor_tgid] at hs; split at hs <;> (cases hs; exact h)
    | comm p => simp only [proc_event.actor_tgid] at hs; split at hs <;> (cases hs; exact h)
    | coredump p =>
      simp only [proc_event.actor_tgid] at hs; split at hs <;> (cases hs; exact h)
    | other what actor =>
      simp only [proc_event.actor_tgid] at hs; split at hs <;> (cases hs; exact h)
  | insert pid ppid sid =>
    simp only [table_step] at hs
    split at hs
    · exact Option.noConfusion hs
    · rename_i o t2 hi
      cases hs
      exact absent_insert t _ _ _ _ x o h (fun e => hc (congrArg some e)) hi
  | remove pid =>
    simp only [table_step] at hs
    split at hs
    · exact Option.noConfusion hs
    · rename_i o t2 hr
      cases hs
      exact absent_remove t _ _ x o h hr
  | drop pid =>
    simp only [table_step] at hs
    split at hs
    · exact Option.noConfusion hs
    · rename_i b t2 hd
      cases hs
      exact absent_drop t _ _ x b h hd
  | collect =>
    simp only [table_step] at hs
    split at hs
    · exact Option.noConfusion hs
    · rename_i proc t2 hc2
      cases hs
      exact absent_collect t _ proc x h hc2
    · cases hs; exact h

/-- A sequence of operations none of which creates the record of `x` keeps `x`
absent. -/
theorem absent_run (x : Int) :
    ∀ (ops : List table_op) (t t1 : Table), absent t x →
      (∀ op ∈ ops, table_op_creates op ≠ some x) → table_run t ops = some t1 →
      absent t1 x := by
  intro ops
  induction ops with
  | nil =>
    intro t t1 h _ hr
    simp only [table_run] at hr
    cases hr; exact h
  | cons op ops ih =>
    intro t t1 h hc hr
    simp only [table_run] at hr
    split at hr
    · exact Option.noConfusion hr
    · rename_i t2 hs
      exact ih t2 t1 (absent_step t t2 op x h (hc op (List.mem_cons_self _ _)) hs)
        (fun o ho => hc o (List.mem_cons_of_mem _ ho)) hr

/-! ## Process table: dropping a subtree, on the tables that are reached -/

/-- C12, as amended: `process_drop`, on a table built from the initial table
by a sequence of ingested events and of calls of `process_insert`,
`process_drop` and `process_collect` in which no process-level exit event
names init or a process that is on the ready list already, and init is not
dropped.  For a pid that is not in the table the call returns false and
changes nothing.  For a tracked pid the call returns true; the records that
remain are exactly the records that `process_unparent` leaves (the table with
the pid detached from the children list of its parent) whose pid cannot be
reached from the dropped pid through children lists; the ready list keeps
exactly its entries that cannot be reached; the record of the parent has lost
the entry of the pid.  No pid that can be reached is in the table or on the
ready list afterwards, so the next `process_collect` cannot return it, and an
event whose actor it is leaves the table as it is.  This stays so after every
further sequence of such operations that does not create a record with such a
pid again: no later `process_collect` returns a dropped process. -/
theorem process_drop_contract (pid0 sid : Int) (t0 t : Table) (ops : List table_op)
    (pid : Int)
    (h0 : processes_init pid0 sid = some t0)
    (hok : table_run_ok table_op_safe t0 ops)
    (hrun : table_run t0 ops = some t) :
    (process_get t pid = none → process_drop t pid = some (false, t))
    ∧ (∀ proc, process_get t pid = some proc →
        ∃ t1, process_drop t pid = some (true, t1)
          ∧ (∀ x, reach t pid x → process_get t1 x = none ∧ x ∉ t1.ready)
          ∧ (∀ r, r ∈ t1.processes ↔
              r ∈ (process_unparent t proc).processes ∧ ¬ reach t pid r.pid)
          ∧ (∀ x, x ∈ t1.ready ↔ x ∈ t.ready ∧ ¬ reach t pid x)
          ∧ (∀ par, process_get t proc.ppid = some par → ¬ reach t pid par.pid →
              process_get t1 proc.ppid
                = some { par with children := par.children.erase pid })
          ∧ t1.self = t.self
          ∧ (∀ r t2, process_collect t1 = some (.proc r t2) → ¬ reach t pid r.pid)
          ∧ (∀ ev callback, reach t pid (as_pid ev.actor_tgid) →
              procwatch_ingest t1 ev callback = some t1)
          ∧ (∀ ops2 t2, table_run_ok table_op_safe t1 ops2 →
              (∀ op ∈ ops2, ∀ x, reach t pid x → table_op_creates op ≠ some x) →
              table_run t1 ops2 = some t2 →
              ∀ x, reach t pid x → process_get t2 x = none ∧ x ∉ t2.ready
                ∧ ∀ r t3, process_collect t2 = some (.proc r t3) → r.pid ≠ x)) := by
  have hinv : tree_inv t ∧ ready_live t :=
    table_run_inv table_op_safe (fun t => tree_inv t ∧ ready_live t)
      (fun t t2 op h hk hs => ⟨tree_inv_step t t2 op h.1 hk hs,
        ready_live_step t t2 op h.2 hk hs⟩) ops t0 t
      ⟨tree_inv_init pid0 sid t0 h0, ready_live_init pid0 sid t0 h0⟩ hok hrun
  obtain ⟨hA, hB⟩ := process_drop_subtree t pid hinv.1 hinv.2.2.1
    (fun x hx => List.mem_map.mp (hinv.2.2.2 x hx))
  refine ⟨hA, fun proc hget => ?_⟩
  obtain ⟨t1, h1, h2, h3, h4, h5, h6, h7, h8⟩ := hB proc hget
  refine ⟨t1, h1, h2, h3, h4, h5, h6, h7, h8, ?_⟩
  intro ops2 t2 _ hcr hrun2 x hx
  have hab : absent t1 x := by
    refine ⟨fun hm => ?_, (h2 x hx).2⟩
    obtain ⟨r, hr, hrx⟩ := List.mem_map.mp hm
    exact (hash_table_get_none _ _).mp (h2 x hx).1 r hr hrx
  have hab2 := absent_run x ops2 t1 t2 hab (fun op hop => hcr op hop x hx) hrun2
  refine ⟨(hash_table_get_none _ _).mpr (fun r hr hrx => hab2.1 (List.mem_map.mpr ⟨r, hr, hrx⟩)),
    hab2.2, fun r t3 hc e => ?_⟩
  exact hab2.2 (e ▸ process_collect_head t2 t3 r hc)

/-- Witness of C12, as amended: the supervisor 100 gets the child 10, which
gets the child 11, which exits; `process_drop(10)` removes 10 and 11 from the
table and 11 from the ready list, and detaches 10 from 100. -/
theorem process_drop_contract_witness :
    table_run ⟨[⟨1, 1, 1, [], -1⟩, ⟨100, 100, 100, [], -1⟩], [], 100⟩
        [.insert 10 100 0, .insert 11 10 0,
         .ingest (.exit ⟨11, 11⟩ 0 17) .PROCWATCH_ACTION_DEFAULT]
      = some ⟨[⟨1, 1, 1, [], -1⟩, ⟨100, 100, 100, [10], -1⟩, ⟨10, 100, 100, [11], -1⟩,
          ⟨11, 10, 100, [], 0⟩], [11], 100⟩
    ∧ process_drop
        ⟨[⟨1, 1, 1, [], -1⟩, ⟨100, 100, 100, [10], -1⟩, ⟨10, 100, 100, [11], -1⟩,
          ⟨11, 10, 100, [], 0⟩], [11], 100⟩ 10
      = some (true, ⟨[⟨1, 1, 1, [], -1⟩, ⟨100, 100, 100, [], -1⟩], [], 100⟩)
    ∧ ∃ t1, process_drop
        ⟨[⟨1, 1, 1, [], -1⟩, ⟨100, 100, 100, [10], -1⟩, ⟨10, 100, 100, [11], -1⟩,
          ⟨11, 10, 100, [], 0⟩], [11], 100⟩ 10 = some (true, t1)
      ∧ process_get t1 11 = none ∧ (11 : Int) ∉ t1.ready
      ∧ process_get t1 100 = some ⟨100, 100, 100, [], -1⟩ :=
  ⟨by decide, by decide,
    match (process_drop_contract 100 100
      ⟨[⟨1, 1, 1, [], -1⟩, ⟨100, 100, 100, [], -1⟩], [], 100⟩
      ⟨[⟨1, 1, 1, [], -1⟩, ⟨100, 100, 100, [10], -1⟩, ⟨10, 100, 100, [11], -1⟩,
        ⟨11, 10, 100, [], 0⟩], [11], 100⟩
      [.insert 10 100 0, .insert 11 10 0,
       .ingest (.exit ⟨11, 11⟩ 0 17) .PROCWATCH_ACTION_DEFAULT] 10
      (by decide)
      (table_run_ok_cons table_op_safe _
        ⟨[⟨1, 1, 1, [], -1⟩, ⟨100, 100, 100, [10], -1⟩, ⟨10, 100, 100, [], -1⟩], [], 100⟩ _ _
        trivial (by decide)
        (table_run_ok_cons table_op_safe _
          ⟨[⟨1, 1, 1, [], -1⟩, ⟨100, 100, 100, [10], -1⟩, ⟨10, 100, 100, [11], -1⟩,
            ⟨11, 10, 100, [], -1⟩], [], 100⟩ _ _
          trivial (by decide)
          (table_run_ok_cons table_op_safe _
            ⟨[⟨1, 1, 1, [], -1⟩, ⟨100, 100, 100, [10], -1⟩, ⟨10, 100, 100, [11], -1⟩,
              ⟨11, 10, 100, [], 0⟩], [11], 100⟩ _ _
            (fun _ => ⟨(by decide : as_pid 11 ≠ 1), List.not_mem_nil _⟩) (by decide)
            trivial)))
      (by decide)).2 ⟨10, 100, 100, [11], -1⟩
      (by decide) with
    | ⟨t1, h1, h2, _, _, h5, _⟩ =>
      ⟨t1, h1,
        (h2 11 (reach.child ⟨10, 100, 100, [11], -1⟩ 11 reach.root (by decide) (by decide))).1,
        (h2 11 (reach.child ⟨10, 100, 100, [11], -1⟩ 11 reach.root (by decide) (by decide))).2,
        h5 ⟨100, 100, 100, [10], -1⟩ (by decide) (by
          intro h
          have key : ∀ x, reach
              ⟨[⟨1, 1, 1, [], -1⟩, ⟨100, 100, 100, [10], -1⟩, ⟨10, 100, 100, [11], -1⟩,
                ⟨11, 10, 100, [], 0⟩], [11], 100⟩ 10 x → x = 10 ∨ x = 11 := by
            intro x hx
            induction hx with
            | root => exact Or.inl rfl
            | child r c _ hr hc ih =>
              simp only [List.mem_cons, List.mem_singleton, List.not_mem_nil, or_false] at hr
              rcases hr with rfl | rfl | rfl | rfl
              · exact absurd hc (List.not_mem_nil _)
              · rcases ih with e | e <;> exact absurd e (by decide)
              · right; simpa using hc
              · exact absurd hc (List.not_mem_nil _)
          rcases key _ h with e | e <;> exact absurd e (by decide))⟩⟩

/-- Counterexample to C12 as stated.  First, after two exit events for the
tracked process 10 the ready list holds it twice, and `process_drop(10)`
returns true, removes the record and one entry, and leaves the other entry on
the ready list.  Second, after `process_remove(11)` the children list of the
tracked process 10 still holds 11, whose record is gone, and
`process_drop(10)`, which walks that list, has no defined result. -/
theorem process_drop_keeps_entry :
    table_run ⟨[⟨1, 1, 1, [], -1⟩, ⟨100, 100, 100, [], -1⟩], [], 100⟩
        [.insert 10 100 0, .insert 11 100 0,
         .ingest (.exit ⟨10, 10⟩ 0 17) .PROCWATCH_ACTION_DEFAULT,
         .ingest (.exit ⟨10, 10⟩ 0 17) .PROCWATCH_ACTION_DEFAULT]
      = some ⟨[⟨1, 1, 1, [], -1⟩, ⟨100, 100, 100, [10, 11], -1⟩, ⟨10, 100, 100, [], 0⟩,
          ⟨11, 100, 100, [], -1⟩], [10, 10], 100⟩
    ∧ process_drop ⟨[⟨1, 1, 1, [], -1⟩, ⟨100, 100, 100, [10, 11], -1⟩,
          ⟨10, 100, 100, [], 0⟩, ⟨11, 100, 100, [], -1⟩], [10, 10], 100⟩ 10
      = some (true, ⟨[⟨1, 1, 1, [], -1⟩, ⟨100, 100, 100, [11], -1⟩,
          ⟨11, 100, 100, [], -1⟩], [10], 100⟩)
    ∧ table_run ⟨[⟨1, 1, 1, [], -1⟩, ⟨100, 100, 100, [], -1⟩], [], 100⟩
        [.insert 10 100 0, .insert 11 10 0, .remove 11]
      = some ⟨[⟨1, 1, 1, [], -1⟩, ⟨100, 100, 100, [10], -1⟩, ⟨10, 100, 100, [11], -1⟩],
          [], 100⟩
    ∧ process_get ⟨[⟨1, 1, 1, [], -1⟩, ⟨100, 100, 100, [10], -1⟩,
          ⟨10, 100, 100, [11], -1⟩], [], 100⟩ 10 = some ⟨10, 100, 100, [11], -1⟩
    ∧ process_drop ⟨[⟨1, 1, 1, [], -1⟩, ⟨100, 100, 100, [10], -1⟩,
          ⟨10, 100, 100, [11], -1⟩], [], 100⟩ 10 = none := by
  decide

end Sysvkit
